import Mathlib

/-!
utkencode / utkdecode: a verification development.

Shallow embedding of the MicroTalk (UTK) encoder `utkencode.c` and of the parts of the
decoders that the stated properties need.

Conventions of the embedding

* C arrays and pointers into arrays are total maps from an index to the stored element
  (`Nat → Nat` for byte buffers, `Int → ℚ` for sample buffers that are addressed with
  negative offsets such as `x[i-5]`).  A store is `store m i v`.
* `float` values are exact rationals (`ℚ`): rounding error, infinities and NaN are outside
  the model.  `ROUND` and the `(int)` cast keep their C meaning (truncation toward zero).
  The one exception is the `ROUND` of the decoders, whose sum `x + 0.5f` is rounded to
  single precision (`float32_round`), because the property stated about it depends on it.
* `uint8_t` / `unsigned` arithmetic is `Nat` arithmetic reduced modulo `2^8` / `2^32` at the
  places where the C code narrows.
* Loops are recursions on a fuel argument that is an upper bound of the trip count; the
  sample loops `for (i = start; i < 108; i += step)` share the combinator `for_positions`.
* Fields and definitions marked as observations (the items an encoder wrote, the power of
  a trial) record what the C code did and are never read by the embedded code.
* Memory the C code reads before writing it (locals on the stack, scratch buffers) is an
  explicit parameter of the function that reads it.  A local array that is written at
  every index before that index is read starts as the zero array.
* Counting loops with a fixed trip count share the combinator `for_range`; a pointer into
  a sample array is the array re-indexed with `offset_view`.
* Code of `utk.h`, which the decoders include, is a parameter of the functions that call
  it: the frame decoders and the frame array they leave.  A call that exits the program
  makes the embedded function return `none`.
* Where a property speaks about an intermediate value of a function (the result of one of
  its loops, one iteration of a loop, the state before an exit), that part of the function
  has a definition of its own (`find_pitch_search`, `find_frame_excitation_step`,
  `levinson_durbin_state`, `rc_to_lpc_forward`, ...), and a theorem shows that the function
  is composed of it.
  `zero_run_at` and `toeplitz_row` are notions of the stated properties, not code.
-/

namespace Utk

/-! ## Byte and sample memories -/

/-- Array store `m[i] = v`. -/
def store {α : Type} (m : Nat → α) (i : Nat) (v : α) : Nat → α :=
  fun j => if j = i then v else m j

/-- Array store through a pointer that may be indexed with negative offsets. -/
def storeI {α : Type} (m : Int → α) (i : Int) (v : α) : Int → α :=
  fun j => if j = i then v else m j

/-! ## The bit writer (`struct bit_writer_context`, utkencode.c 131-202) -/

/-- The C `struct bit_writer_context`: `written_bits_count` is a `uint8_t`, `pos` a `size_t`
and `buffer` the byte memory the writer points to. -/
structure bit_writer_context where
  written_bits_count : Nat
  pos : Nat
  buffer : Nat → Nat

/-- `bwc_init`: only `buffer[0]` is cleared, the rest of the memory keeps its content. -/
def bwc_init (buffer : Nat → Nat) : bit_writer_context :=
  { written_bits_count := 0, pos := 0, buffer := store buffer 0 0 }

/-- The `while (bwc->written_bits_count >= 8)` loop of `bwc_write_bits`; `x` is the local
`unsigned x`.  A `uint8_t` counter admits at most 31 iterations. -/
def bwc_write_loop : Nat → bit_writer_context → Nat → bit_writer_context
  | 0, bwc, _ => bwc
  | fuel + 1, bwc, x =>
    if 8 ≤ bwc.written_bits_count then
      let x1 := x >>> 8
      bwc_write_loop fuel
        { written_bits_count := bwc.written_bits_count - 8
          pos := bwc.pos + 1
          buffer := store bwc.buffer (bwc.pos + 1) (x1 % 256) } x1
    else bwc

/-- `bwc_write_bits(bwc, value, count)`. -/
def bwc_write_bits (bwc : bit_writer_context) (value count : Nat) : bit_writer_context :=
  let x := (value <<< bwc.written_bits_count) % 2 ^ 32
  bwc_write_loop 32
    { written_bits_count := (bwc.written_bits_count + count) % 256
      pos := bwc.pos
      buffer := store bwc.buffer bwc.pos (bwc.buffer bwc.pos ||| (x % 256)) } x

/-- `bwc_pad`. -/
def bwc_pad (bwc : bit_writer_context) : bit_writer_context :=
  if bwc.written_bits_count ≠ 0 then
    { written_bits_count := 0
      pos := bwc.pos + 1
      buffer := store bwc.buffer (bwc.pos + 1) 0 }
  else bwc

/-- `bwc_flush`: returns the bytes handed to `write_data` and the writer afterwards. -/
def bwc_flush (bwc : bit_writer_context) : List Nat × bit_writer_context :=
  ((List.range bwc.pos).map bwc.buffer,
   { written_bits_count := bwc.written_bits_count
     pos := 0
     buffer := store bwc.buffer 0 (bwc.buffer bwc.pos) })

/-- A sequence of `bwc_write_bits` calls, each given as `(value, count)`. -/
def bwc_writes (bwc : bit_writer_context) (ws : List (Nat × Nat)) : bit_writer_context :=
  ws.foldl (fun b w => bwc_write_bits b w.1 w.2) bwc

/-- The writer's bit position `8*pos + written_bits_count`. -/
def bit_position (bwc : bit_writer_context) : Nat :=
  8 * bwc.pos + bwc.written_bits_count

/-- Stream bit `t` of a byte buffer: bit `t mod 8`, counted from the least significant
bit, of byte `t div 8`. -/
def stream_bit (buffer : Nat → Nat) (t : Nat) : Bool :=
  (buffer (t / 8)).testBit (t % 8)

/-- The `n` low bits of `v`, least significant first. -/
def low_bits (v n : Nat) : List Bool :=
  (List.range n).map (fun j => v.testBit j)

/-- The bit string a sequence of writes stands for: the `count` low bits of each value,
least significant bit first, concatenated in call order. -/
def written_bits : List (Nat × Nat) → List Bool
  | [] => []
  | w :: ws => low_bits w.1 w.2 ++ written_bits ws

/-- Total number of bits of a sequence of writes. -/
def total_bits (ws : List (Nat × Nat)) : Nat :=
  (ws.map Prod.snd).sum

/-- A write the callers of `bwc_write_bits` are allowed to make. -/
def valid_write (w : Nat × Nat) : Prop :=
  1 ≤ w.2 ∧ w.2 ≤ 16 ∧ w.1 < 2 ^ w.2

/-- The writer invariant between calls: fewer than 8 pending bits, and the pending byte
has no bit set at or above `written_bits_count`. -/
def bwc_ok (bwc : bit_writer_context) : Prop :=
  bwc.written_bits_count < 8 ∧ bwc.buffer bwc.pos < 2 ^ bwc.written_bits_count

/-! ## Macros of utkencode.c (lines 17-21) -/

/-- `MIN(x,y)` on `int`. -/
def MIN (x y : Int) : Int := if x < y then x else y

/-- `ABS(x)` on `float`. -/
def ABS (x : ℚ) : ℚ := if x ≥ 0 then x else -x

/-- `ABS(x)` on `int`. -/
def ABSi (x : Int) : Int := if x ≥ 0 then x else -x

/-- `CLAMP(x,min,max)` on `float`. -/
def CLAMP (x min max : ℚ) : ℚ := if x < min then min else if x > max then max else x

/-- The C conversion `(int)x` of a floating value: truncation toward zero. -/
def c_int (x : ℚ) : Int := if 0 ≤ x then ⌊x⌋ else ⌈x⌉

/-- `ROUND(x)`: `(int)((x)>=0?((x)+0.5):((x)-0.5))`. -/
def ROUND (x : ℚ) : Int := c_int (if x ≥ 0 then x + 1 / 2 else x - 1 / 2)

/-- Conversion of an `int` argument to the `unsigned` parameter of `bwc_write_bits`. -/
def to_unsigned (x : Int) : Nat := (x % 2 ^ 32).toNat

/-! ## Reflection coefficient table (utkencode.c 30-49) -/

/-- `utk_rc_table`, with the initialisers as they are written in the source. -/
def utk_rc_table_list : List ℚ := [
  0,
  -0.99677598476409912109375, -0.99032700061798095703125, -0.983879029750823974609375, -0.977430999279022216796875,
  -0.970982015132904052734375, -0.964533984661102294921875, -0.958085000514984130859375, -0.9516370296478271484375,
  -0.930754005908966064453125, -0.904959976673126220703125, -0.879167020320892333984375, -0.853372991085052490234375,
  -0.827579021453857421875, -0.801786005496978759765625, -0.775991976261138916015625, -0.75019800662994384765625,
  -0.724404990673065185546875, -0.6986110210418701171875, -0.6706349849700927734375, -0.61904799938201904296875,
  -0.567460000514984130859375, -0.515873014926910400390625, -0.4642859995365142822265625, -0.4126980006694793701171875,
  -0.361110985279083251953125, -0.309523999691009521484375, -0.257937014102935791015625, -0.20634900033473968505859375,
  -0.1547619998455047607421875, -0.10317499935626983642578125, -0.05158700048923492431640625,
  0,
  0.05158700048923492431640625, 0.10317499935626983642578125, 0.1547619998455047607421875, 0.20634900033473968505859375,
  0.257937014102935791015625, 0.309523999691009521484375, 0.361110985279083251953125, 0.4126980006694793701171875,
  0.4642859995365142822265625, 0.515873014926910400390625, 0.567460000514984130859375, 0.61904799938201904296875,
  0.6706349849700927734375, 0.6986110210418701171875, 0.724404990673065185546875, 0.75019800662994384765625,
  0.775991976261138916015625, 0.801786005496978759765625, 0.827579021453857421875, 0.853372991085052490234375,
  0.879167020320892333984375, 0.904959976673126220703125, 0.930754005908966064453125, 0.9516370296478271484375,
  0.958085000514984130859375, 0.964533984661102294921875, 0.970982015132904052734375, 0.977430999279022216796875,
  0.983879029750823974609375, 0.99032700061798095703125, 0.99677598476409912109375]

/-- `utk_rc_table[i]`. -/
def utk_rc_table (i : Nat) : ℚ := utk_rc_table_list.getD i 0

/-! ## `quantize` (utkencode.c 204-220) -/

/-- The `for (i = 1; i < alphabet_size; i++)` loop of `quantize`, with the locals
`min_idx` and `min_distance`. -/
def quantize_loop (value : ℚ) (alphabet : Nat → ℚ) (alphabet_size : Nat) :
    Nat → Nat → Nat → ℚ → Nat
  | 0, _, min_idx, _ => min_idx
  | fuel + 1, i, min_idx, min_distance =>
    if i < alphabet_size then
      let distance := ABS (value - alphabet i)
      if distance < min_distance then
        quantize_loop value alphabet alphabet_size fuel (i + 1) i distance
      else
        quantize_loop value alphabet alphabet_size fuel (i + 1) min_idx min_distance
    else min_idx

/-- `quantize(value, alphabet, alphabet_size)`. -/
def quantize (value : ℚ) (alphabet : Nat → ℚ) (alphabet_size : Nat) : Nat :=
  quantize_loop value alphabet alphabet_size alphabet_size 1 0 (ABS (value - alphabet 0))

/-- The result of the reflection coefficient quantisation in `main` (lines 1044-1057):
the writer, the quantised `rc` array, the flag `use_huffman` and, for reference, the
indices `idx` in the order they were written. -/
structure rc_quantization where
  bwc : bit_writer_context
  rc : Nat → ℚ
  use_huffman : Nat
  indices : List Nat

/-- `for (i = 0; i < 4; i++)` of `main`, lines 1046-1052. -/
def quantize_rc_first (huffman_threshold : Int) : Nat → Nat → rc_quantization → rc_quantization
  | 0, _, s => s
  | fuel + 1, i, s =>
    if i < 4 then
      let idx := 1 + quantize (s.rc i) (fun k => utk_rc_table (1 + k)) 63
      quantize_rc_first huffman_threshold fuel (i + 1)
        { bwc := bwc_write_bits s.bwc idx 6
          rc := store s.rc i (utk_rc_table idx)
          use_huffman := if i = 0 ∧ (idx : Int) < huffman_threshold then 1 else s.use_huffman
          indices := s.indices ++ [idx] }
    else s

/-- `for (i = 4; i < 12; i++)` of `main`, lines 1053-1057. -/
def quantize_rc_rest : Nat → Nat → rc_quantization → rc_quantization
  | 0, _, s => s
  | fuel + 1, i, s =>
    if i < 12 then
      let idx := quantize (s.rc i) (fun k => utk_rc_table (16 + k)) 32
      quantize_rc_rest fuel (i + 1)
        { bwc := bwc_write_bits s.bwc idx 5
          rc := store s.rc i (utk_rc_table (16 + idx))
          use_huffman := s.use_huffman
          indices := s.indices ++ [idx] }
    else s

/-- The reflection coefficient quantisation of one frame in `main`. -/
def quantize_rc (huffman_threshold : Int) (bwc : bit_writer_context) (rc : Nat → ℚ) :
    rc_quantization :=
  quantize_rc_rest 8 4
    (quantize_rc_first huffman_threshold 4 0
      { bwc := bwc, rc := rc, use_huffman := 0, indices := [] })

/-! ## Stream parameter word (utkencode.c 998-1004) -/

/-- The four `bwc_write_bits` calls that follow the header in `main`. -/
def write_stream_parameters (buffer : Nat → Nat) (halved_innovation huffman_threshold
    inngain_sig : Int) (inngain_base : ℚ) : bit_writer_context :=
  let bwc := bwc_init buffer
  let bwc := bwc_write_bits bwc (to_unsigned halved_innovation) 1
  let bwc := bwc_write_bits bwc (to_unsigned (32 - huffman_threshold)) 4
  let bwc := bwc_write_bits bwc (to_unsigned (Int.tdiv inngain_sig 8 - 1)) 4
  bwc_write_bits bwc (to_unsigned (ROUND ((inngain_base - 1.04) * 1000))) 6

/-- `inn_gains` as filled in by `main` (lines 1017-1019). -/
def inn_gains (inngain_sig : Int) (inngain_base : ℚ) : Nat → ℚ
  | 0 => inngain_sig
  | i + 1 => inn_gains inngain_sig inngain_base i * inngain_base

/-! ## Huffman models (utkencode.c 467-534) -/

/-- The C `struct huffman_code`. -/
structure huffman_code where
  bits_value : Nat
  bits_count : Nat
deriving DecidableEq, Repr

/-- `huffman_models[2][13+1+13]`; entry `13+s` of a model is the code of symbol `s`. -/
def huffman_models_list : List (List huffman_code) := [
  /- model 0 -/
  [ /- -13 -/ ⟨16255, 16⟩,
    /- -12 -/ ⟨8063, 15⟩,
    /- -11 -/ ⟨3967, 14⟩,
    /- -10 -/ ⟨1919, 13⟩,
    /-  -9 -/ ⟨895, 12⟩,
    /-  -8 -/ ⟨383, 11⟩,
    /-  -7 -/ ⟨127, 10⟩,
    /-  -6 -/ ⟨63, 8⟩,
    /-  -5 -/ ⟨31, 7⟩,
    /-  -4 -/ ⟨15, 6⟩,
    /-  -3 -/ ⟨7, 5⟩,
    /-  -2 -/ ⟨3, 4⟩,
    /-  -1 -/ ⟨2, 2⟩,
    /-   0 -/ ⟨0, 2⟩,
    /-  +1 -/ ⟨1, 2⟩,
    /-  +2 -/ ⟨11, 4⟩,
    /-  +3 -/ ⟨23, 5⟩,
    /-  +4 -/ ⟨47, 6⟩,
    /-  +5 -/ ⟨95, 7⟩,
    /-  +6 -/ ⟨191, 8⟩,
    /-  +7 -/ ⟨639, 10⟩,
    /-  +8 -/ ⟨1407, 11⟩,
    /-  +9 -/ ⟨2943, 12⟩,
    /- +10 -/ ⟨6015, 13⟩,
    /- +11 -/ ⟨12159, 14⟩,
    /- +12 -/ ⟨24447, 15⟩,
    /- +13 -/ ⟨49023, 16⟩ ],
  /- model 1 -/
  [ /- -13 -/ ⟨8127, 15⟩,
    /- -12 -/ ⟨4031, 14⟩,
    /- -11 -/ ⟨1983, 13⟩,
    /- -10 -/ ⟨959, 12⟩,
    /-  -9 -/ ⟨447, 11⟩,
    /-  -8 -/ ⟨191, 10⟩,
    /-  -7 -/ ⟨63, 9⟩,
    /-  -6 -/ ⟨31, 7⟩,
    /-  -5 -/ ⟨15, 6⟩,
    /-  -4 -/ ⟨7, 5⟩,
    /-  -3 -/ ⟨3, 4⟩,
    /-  -2 -/ ⟨1, 3⟩,
    /-  -1 -/ ⟨2, 3⟩,
    /-   0 -/ ⟨0, 2⟩,
    /-  +1 -/ ⟨6, 3⟩,
    /-  +2 -/ ⟨5, 3⟩,
    /-  +3 -/ ⟨11, 4⟩,
    /-  +4 -/ ⟨23, 5⟩,
    /-  +5 -/ ⟨47, 6⟩,
    /-  +6 -/ ⟨95, 7⟩,
    /-  +7 -/ ⟨319, 9⟩,
    /-  +8 -/ ⟨703, 10⟩,
    /-  +9 -/ ⟨1471, 11⟩,
    /- +10 -/ ⟨3007, 12⟩,
    /- +11 -/ ⟨6079, 13⟩,
    /- +12 -/ ⟨12223, 14⟩,
    /- +13 -/ ⟨24511, 15⟩ ] ]

/-- `huffman_models[model][13+value]`. -/
def huffman_models (model : Nat) (value : Int) : huffman_code :=
  ((huffman_models_list.getD model []).getD (13 + value).toNat ⟨0, 0⟩)

/-- The zero-run escape prefix of a model as a code word: the eight 1-bits `255` that
start the 14-bit escape of model 0, the seven 1-bits `127` that start the 13-bit escape
of model 1 (utkencode.c 597-600). -/
def escape_code (model : Nat) : huffman_code :=
  if model = 0 then ⟨255, 8⟩ else ⟨127, 7⟩

/-- The bits of a code word in stream order. -/
def code_bits (c : huffman_code) : List Bool :=
  low_bits c.bits_value c.bits_count

/-- What a prefix decoder for a model yields at the head of a bit stream: an item is
`some s` for the symbol `s`, `none` for the escape prefix. -/
def model_items (model : Nat) : List (Option Int × huffman_code) :=
  ((List.range 27).map
    (fun (k : Nat) => (some ((k : Int) - 13), huffman_models model ((k : Int) - 13))))
    ++ [(none, escape_code model)]

/-- A prefix decoder over the code words of a model: the first item whose code word
heads the stream, with the rest of the stream. -/
def prefix_decode (model : Nat) (stream : List Bool) : Option (Option Int × List Bool) :=
  ((model_items model).find? (fun it => (code_bits it.2).isPrefixOf stream)).map
    (fun it => (it.1, stream.drop it.2.bits_count))

/-- The unsigned value of the `width`-bit field that starts at stream bit `start`, read
least significant bit first. -/
def stream_field (buffer : Nat → Nat) (start : Nat) : Nat → Nat
  | 0 => 0
  | width + 1 =>
    stream_field buffer start width + (if stream_bit buffer (start + width) then 2 ^ width else 0)

/-! ## Sample loops -/

/-- `for (i = start; i < 108; i += step) body`: the loop shape of all sample loops of the
encoder; `fuel` bounds the number of iterations. -/
def for_positions {σ : Type} (step : Int) (body : Int → σ → σ) : Nat → Int → σ → σ
  | 0, _, s => s
  | fuel + 1, i, s =>
    if i < 108 then for_positions step body fuel (i + step) (body i s) else s

/-- The indices that `for (i = start; i < 108; i += step)` visits, in order. -/
def positions (step : Int) : Nat → Int → List Int
  | 0, _ => []
  | fuel + 1, i => if i < 108 then i :: positions step fuel (i + step) else []

/-- `!a` for an `int` flag. -/
def c_not (a : Nat) : Nat := if a = 0 then 1 else 0

/-- `interval = halved_innovation ? 2 : 1`. -/
def innovation_interval (halved_innovation : Nat) : Int :=
  if halved_innovation ≠ 0 then 2 else 1

/-- The active positions of an innovation block: `a, a+interval, ...` below 108. -/
def active_positions (halved_innovation a : Nat) : List Int :=
  positions (innovation_interval halved_innovation) 108 a

/-! ## Interpolation and low-pass filter (utkencode.c 396-465, 666-681) -/

/-- The 6-tap interpolation of `x[i]` from its neighbours at odd distance. -/
def interpolation_taps (x : Int → ℚ) (i : Int) : ℚ :=
  (x (i - 1) + x (i + 1)) * 0.5973859429
    - (x (i - 3) + x (i + 3)) * 0.1145915613
    + (x (i - 5) + x (i + 5)) * 0.0180326793

/-- `interpolate(x, a, z)`: both loops are `for (i = !a; i < 108; i+=2)` and write in
place. -/
def interpolate (x : Int → ℚ) (a z : Nat) : Int → ℚ :=
  if z ≠ 0 then for_positions 2 (fun i x => storeI x i 0) 108 (c_not a) x
  else for_positions 2 (fun i x => storeI x i (interpolation_taps x i)) 108 (c_not a) x

/-- `interpolation_error(a, z, x)`. -/
def interpolation_error (a z : Nat) (x : Int → ℚ) : ℚ :=
  if z ≠ 0 then
    for_positions 2 (fun i error => error + x i * x i) 108 (c_not a) 0
  else
    for_positions 2
      (fun i error =>
        let prediction := interpolation_taps x i
        error + (prediction - x i) * (prediction - x i)) 108 (c_not a) 0

/-- `find_a_z_flags`: returns `(a, z)`. -/
def find_a_z_flags (innovation : Int → ℚ) : Nat × Nat :=
  let best_a := 0
  let best_z := 1
  let best_error := interpolation_error 0 1 innovation
  let error := interpolation_error 1 1 innovation
  let (best_error, best_a, best_z) :=
    if error < best_error then (error, 1, 1) else (best_error, best_a, best_z)
  let error := interpolation_error 0 0 innovation
  let (best_error, best_a, best_z) :=
    if error < best_error then (error, 0, 0) else (best_error, best_a, best_z)
  let error := interpolation_error 1 0 innovation
  let (_, best_a, best_z) :=
    if error < best_error then (error, 1, 0) else (best_error, best_a, best_z)
  (best_a, best_z)

/-- `low_pass_innovation(x, a, z)`: `for (i = a; i < 108; i+=2)`, filtering in place. -/
def low_pass_innovation (x : Int → ℚ) (a z : Nat) : Int → ℚ :=
  for_positions 2
    (fun i x =>
      storeI x i
        ((if z ≠ 0 then 1 else 0.5) * (x i
          + (x (i - 1) + x (i + 1)) * 0.6189590521549956
          + (x (i - 3) + x (i + 3)) * -0.1633990749076792
          + (x (i - 5) + x (i + 5)) * 0.05858453198856907)))
    108 a x

/-! ## Innovation encoders (utkencode.c 536-664) -/

/-- One call of `bwc_write_bits` made by the symbol loops of the innovation encoders,
recorded with the loop state it was made in (observation only, not part of the C state):
the Huffman code of `values[i]` written in `model`, a zero-run escape of `length`
positions written in `model`, or a ternary symbol. -/
inductive emitted_item
  | symbol (i : Int) (model : Nat) (value : Int)
  | escape (i : Int) (model : Nat) (length : Int)
  | ternary (i : Int) (value : Int)
deriving DecidableEq, Repr

/-- The loop index at which an item was written. -/
def emitted_item.position : emitted_item → Int
  | symbol i _ _ => i
  | escape i _ _ => i
  | ternary i _ => i

/-- The Huffman model an item was written in (0 for a ternary symbol). -/
def emitted_item.in_model : emitted_item → Nat
  | symbol _ m _ => m
  | escape _ m _ => m
  | ternary _ _ => 0

/-- The arguments `(value, count)` of the `bwc_write_bits` call an item stands for
(utkencode.c 598, 600, 607-609, 648-652). -/
def emitted_item.write : emitted_item → Nat × Nat
  | symbol _ m v => ((huffman_models m v).bits_value, (huffman_models m v).bits_count)
  | escape _ m l =>
    if m = 0 then (255 ||| ((l - 7).toNat <<< 8), 14) else (127 ||| ((l - 7).toNat <<< 7), 13)
  | ternary _ v => if v > 0 then (3, 2) else if v < 0 then (1, 2) else (0, 1)

/-- The C `struct innovation_encoding`, which also receives the out-parameters of
`encode_huffman` / `encode_triangular`.  `bwc.buffer` is the memory of `inn_buffers[m]`.
The fields `pow` and `items` are observations: the power the trial was made with and the
items its symbol loop wrote after the preamble. -/
structure innovation_encoding where
  bwc : bit_writer_context
  innovation : Int → ℚ
  bits_used : Int
  error : ℚ
  pow : Nat
  items : List emitted_item

/-- The locals `values[108]` and `zero_counts[108]` of `encode_huffman` as they are found
on the stack when the function is entered. -/
structure huffman_locals where
  values : Int → Int
  zero_counts : Int → Int

/-- State of the quantisation loop of `encode_huffman` (lines 562-572). -/
structure huffman_quantized where
  values : Int → Int
  innovation_out : Int → ℚ
  total_error : ℚ

/-- `inn_gain` of `encode_huffman`: `inn_gains[pow]`, halved when `!z`. -/
def huffman_gain (inn_gains : Nat → ℚ) (pow z : Nat) : ℚ :=
  if z = 0 then inn_gains pow * 0.5 else inn_gains pow

/-- `inn_gain` of `encode_triangular`: `2.0f*inn_gains[pow]`, halved when `!z`. -/
def triangular_gain (inn_gains : Nat → ℚ) (pow z : Nat) : ℚ :=
  if z = 0 then 2 * inn_gains pow * 0.5 else 2 * inn_gains pow

/-- Body of the quantisation loop of `encode_huffman`, lines 563-571. -/
def huffman_quantize_step (inn_gain : ℚ) (innovation_in : Int → ℚ) (i : Int)
    (s : huffman_quantized) : huffman_quantized :=
  let value := ROUND (CLAMP (innovation_in i / inn_gain) (-13) 13)
  let out := inn_gain * value
  let e := out - innovation_in i
  { values := storeI s.values i value
    innovation_out := storeI s.innovation_out i out
    total_error := s.total_error + e * e }

/-- The locals of `encode_huffman` after `for (i = a; i < 108; i += interval)`, lines
562-572. -/
def encode_huffman_quantized (inn_gains : Nat → ℚ) (locals : huffman_locals)
    (innovation_out : Int → ℚ) (innovation_in : Int → ℚ)
    (halved_innovation pow a z : Nat) : huffman_quantized :=
  for_positions (innovation_interval halved_innovation)
    (huffman_quantize_step (huffman_gain inn_gains pow z) innovation_in) 108 a
    { values := locals.values, innovation_out := innovation_out, total_error := 0 }

/-- The backward zero-run scan of `encode_huffman`, lines 582-589:
`for (i = 108 - interval - a; i >= 0; i -= interval)`. -/
def zero_run_loop (values : Int → Int) (interval : Int) :
    Nat → Int → Int → (Int → Int) → (Int → Int)
  | 0, _, _, zero_counts => zero_counts
  | fuel + 1, i, counter, zero_counts =>
    if i ≥ 0 then
      let counter1 := if values i = 0 then counter + 1 else 0
      zero_run_loop values interval fuel (i - interval) counter1
        (storeI zero_counts i counter1)
    else zero_counts

/-- The local `zero_counts` of `encode_huffman` after the backward scan. -/
def encode_huffman_zero_counts (inn_gains : Nat → ℚ) (locals : huffman_locals)
    (innovation_out : Int → ℚ) (innovation_in : Int → ℚ)
    (halved_innovation pow a z : Nat) : Int → Int :=
  zero_run_loop
    (encode_huffman_quantized inn_gains locals innovation_out innovation_in
      halved_innovation pow a z).values
    (innovation_interval halved_innovation) 108
    (108 - innovation_interval halved_innovation - a) 0 locals.zero_counts

/-- The emission loop of `encode_huffman`, lines 591-614: returns the writer and the
items written from position `i` on.  In the escape branch `length >= 7`, so the
conversion of `length-7` to `unsigned` is its value. -/
def huffman_emit_loop (values zero_counts : Int → Int) (interval : Int) :
    Nat → Int → Nat → bit_writer_context → bit_writer_context × List emitted_item
  | 0, _, _, bwc => (bwc, [])
  | fuel + 1, i, model, bwc =>
    if i < 108 then
      if zero_counts i ≥ 7 then
        let length := MIN (zero_counts i) 70
        let bwc1 :=
          if model = 0 then bwc_write_bits bwc (255 ||| ((length - 7).toNat <<< 8)) 14
          else bwc_write_bits bwc (127 ||| ((length - 7).toNat <<< 7)) 13
        let r := huffman_emit_loop values zero_counts interval fuel (i + length * interval) 0 bwc1
        (r.1, emitted_item.escape i model length :: r.2)
      else
        let value := values i
        let bwc1 := bwc_write_bits bwc (huffman_models model value).bits_value
          (huffman_models model value).bits_count
        let r := huffman_emit_loop values zero_counts interval fuel (i + interval)
          (if value < -1 ∨ value > 1 then 1 else 0) bwc1
        (r.1, emitted_item.symbol i model value :: r.2)
    else (bwc, [])

/-- The preamble value and width of an innovation block (utkencode.c 557-560, 637-640). -/
def preamble (halved_innovation pow a z : Nat) : Nat × Nat :=
  if halved_innovation ≠ 0 then (pow ||| (a <<< 6) ||| (z <<< 7), 8) else (pow, 6)

/-- `encode_huffman`.  `inn_gains` is the global table, `locals` the stack content found
in `values` and `zero_counts`, `innovation_out` the content of the output array on
entry. -/
def encode_huffman (inn_gains : Nat → ℚ) (locals : huffman_locals)
    (bwc : bit_writer_context) (innovation_out : Int → ℚ) (innovation_in : Int → ℚ)
    (halved_innovation pow a z : Nat) : innovation_encoding :=
  let bits_start : Int := 8 * (bwc.pos : Int) + bwc.written_bits_count
  let bwc1 := bwc_write_bits bwc (preamble halved_innovation pow a z).1
    (preamble halved_innovation pow a z).2
  let q := encode_huffman_quantized inn_gains locals innovation_out innovation_in
    halved_innovation pow a z
  let zero_counts := encode_huffman_zero_counts inn_gains locals innovation_out innovation_in
    halved_innovation pow a z
  let r := huffman_emit_loop q.values zero_counts (innovation_interval halved_innovation)
    108 a 0 bwc1
  let bits_end : Int := 8 * (r.1.pos : Int) + r.1.written_bits_count
  { bwc := r.1
    innovation := q.innovation_out
    bits_used := bits_end - bits_start
    error := q.total_error
    pow := pow
    items := r.2 }

/-- The symbol that `encode_triangular` gives to sample `x`, line 644-645. -/
def triangular_symbol (inn_gain x : ℚ) : Int :=
  ROUND (CLAMP (x / inn_gain) (-1) 1)

/-- Body of the loop of `encode_triangular`, lines 643-657. -/
def triangular_step (inn_gain : ℚ) (innovation_in : Int → ℚ) (i : Int)
    (s : innovation_encoding) : innovation_encoding :=
  let value := triangular_symbol inn_gain (innovation_in i)
  let bwc1 :=
    if value > 0 then bwc_write_bits s.bwc 3 2
    else if value < 0 then bwc_write_bits s.bwc 1 2
    else bwc_write_bits s.bwc 0 1
  let out := inn_gain * value
  let e := out - innovation_in i
  { bwc := bwc1
    innovation := storeI s.innovation i out
    bits_used := s.bits_used
    error := s.error + e * e
    pow := s.pow
    items := s.items ++ [emitted_item.ternary i value] }

/-- `encode_triangular`. -/
def encode_triangular (inn_gains : Nat → ℚ) (bwc : bit_writer_context)
    (innovation_out : Int → ℚ) (innovation_in : Int → ℚ)
    (halved_innovation pow a z : Nat) : innovation_encoding :=
  let bits_start : Int := 8 * (bwc.pos : Int) + bwc.written_bits_count
  let bwc1 := bwc_write_bits bwc (preamble halved_innovation pow a z).1
    (preamble halved_innovation pow a z).2
  let r := for_positions (innovation_interval halved_innovation)
    (triangular_step (triangular_gain inn_gains pow z) innovation_in) 108 a
    { bwc := bwc1, innovation := innovation_out, bits_used := 0, error := 0, pow := pow,
      items := [] }
  let bits_end : Int := 8 * (r.bwc.pos : Int) + r.bwc.written_bits_count
  { bwc := r.bwc
    innovation := r.innovation
    bits_used := bits_end - bits_start
    error := r.error
    pow := pow
    items := r.items }

/-! ## Reading the items of an encoding -/

/-- The loop index that follows an item written with the given `interval`: one active
position after a symbol, `length` active positions after an escape. -/
def emitted_item.next_position (interval : Int) : emitted_item → Int
  | symbol i _ _ => i + interval
  | escape i _ l => i + l * interval
  | ternary i _ => i + interval

/-- The symbols an item stands for, in position order: the symbol itself, or `length`
zeros for an escape. -/
def emitted_item.expand : emitted_item → List Int
  | symbol _ _ v => [v]
  | escape _ _ l => List.replicate l.toNat 0
  | ternary _ v => [v]

/-- All `bwc_write_bits` calls of an innovation block: the preamble, then the items. -/
def block_writes (halved_innovation pow a z : Nat) (items : List emitted_item) :
    List (Nat × Nat) :=
  preamble halved_innovation pow a z :: items.map emitted_item.write

/-! ## `encode_innovation` (utkencode.c 690-792) -/

/-- `max_value` after `for (i = a; i < 108; i += interval)` of lines 716-720. -/
def max_value_loop (innovation : Int → ℚ) (interval : Int) (a : Nat) : ℚ :=
  for_positions interval
    (fun i max_value =>
      let value := ABS (innovation i)
      if value > max_value then value else max_value) 108 a 0

/-- `for (i = 62; i >= 0; i--) if (...) break;  min_pow = i+1;` of lines 721-726, as a
recursion on `i+1`: the result is `min_pow`. -/
def find_min_pow (inn_gains : Nat → ℚ) (z : Nat) (max_value : ℚ) : Nat → Nat
  | 0 => 0
  | i + 1 =>
    if inn_gains i * (if z = 0 then 0.5 else 1) * 13.5 < max_value then i + 1
    else find_min_pow inn_gains z max_value i

/-- The trial state of `encode_innovation`: the two scratch encodings, the index `m` of
the slot the next trial goes to, and `best_distance` / `best_error`. -/
structure trial_state where
  encodings : Nat → innovation_encoding
  m : Nat
  best_distance : Int
  best_error : ℚ

/-- The scratch writer a trial starts from (lines 733-735 and 759-761): `bwc_init` on
`inn_buffers[m]`, then the pending bits of the stream writer. -/
def trial_writer (bwc : bit_writer_context) (scratch : bit_writer_context) :
    bit_writer_context :=
  bwc_write_bits (bwc_init scratch.buffer) (bwc.buffer bwc.pos) bwc.written_bits_count

/-- `for (pow = min_pow; pow <= 63; pow++)` of the Huffman branch, lines 730-750. -/
def huffman_trial_loop (inn_gains : Nat → ℚ) (locals : Nat → huffman_locals)
    (bwc : bit_writer_context) (innovation : Int → ℚ) (halved_innovation a z : Nat)
    (target_bit_count : Int) (min_pow : Nat) : Nat → Nat → trial_state → trial_state
  | 0, _, s => s
  | fuel + 1, pow, s =>
    if pow ≤ 63 then
      let r := encode_huffman inn_gains (locals pow)
        (trial_writer bwc (s.encodings s.m).bwc) (s.encodings s.m).innovation
        innovation halved_innovation pow a z
      let distance := ABSi (r.bits_used - target_bit_count)
      huffman_trial_loop inn_gains locals bwc innovation halved_innovation a z
        target_bit_count min_pow fuel (pow + 1)
        (if pow = min_pow ∨ distance < s.best_distance then
          { encodings := store s.encodings s.m r
            m := c_not s.m
            best_distance := distance
            best_error := s.best_error }
        else
          { encodings := store s.encodings s.m r
            m := s.m
            best_distance := s.best_distance
            best_error := s.best_error })
    else s

/-- `for (pow = 0; pow <= 63; pow++)` of the ternary branch, lines 758-774. -/
def triangular_trial_loop (inn_gains : Nat → ℚ) (bwc : bit_writer_context)
    (innovation : Int → ℚ) (halved_innovation a z : Nat) :
    Nat → Nat → trial_state → trial_state
  | 0, _, s => s
  | fuel + 1, pow, s =>
    if pow ≤ 63 then
      let r := encode_triangular inn_gains
        (trial_writer bwc (s.encodings s.m).bwc) (s.encodings s.m).innovation
        innovation halved_innovation pow a z
      triangular_trial_loop inn_gains bwc innovation halved_innovation a z fuel (pow + 1)
        (if pow = 0 ∨ r.error < s.best_error then
          { encodings := store s.encodings s.m r
            m := c_not s.m
            best_distance := s.best_distance
            best_error := r.error }
        else
          { encodings := store s.encodings s.m r
            m := s.m
            best_distance := s.best_distance
            best_error := s.best_error })
    else s

/-- What `encode_innovation` leaves behind: the stream writer, the innovation buffer and
`*bits_used`; for reference also the flags `a`, `z` and the committed encoding. -/
structure innovation_result where
  bwc : bit_writer_context
  innovation : Int → ℚ
  bits_used : Int
  a : Nat
  z : Nat
  committed : innovation_encoding

/-- `encode_innovation`.  `innovation` is the pointer `&innovation[5]` of `main`, so
indices `-5..-1` and `108..112` are the guard slots.  `encodings` is the content of the
local `encodings[2]` (and of `inn_buffers`) on entry, `locals pow` the stack content that
the `encode_huffman` call for `pow` finds in its local arrays. -/
def encode_innovation (inn_gains : Nat → ℚ) (encodings : Nat → innovation_encoding)
    (locals : Nat → huffman_locals) (bwc : bit_writer_context) (innovation : Int → ℚ)
    (halved_innovation use_huffman : Nat) (target_bit_count : Int) : innovation_result :=
  let az : Nat × Nat := if halved_innovation ≠ 0 then find_a_z_flags innovation else (0, 1)
  let a := az.1
  let z := az.2
  let innovation1 :=
    if halved_innovation ≠ 0 then low_pass_innovation innovation a z else innovation
  let s0 : trial_state := { encodings := encodings, m := 0, best_distance := 0, best_error := 0 }
  let s :=
    if use_huffman ≠ 0 then
      let max_value := max_value_loop innovation1 (innovation_interval halved_innovation) a
      let min_pow := find_min_pow inn_gains z max_value 63
      huffman_trial_loop inn_gains locals bwc innovation1 halved_innovation a z
        target_bit_count min_pow 64 min_pow s0
    else
      triangular_trial_loop inn_gains bwc innovation1 halved_innovation a z 64 0 s0
  let m := c_not s.m
  let e := s.encodings m
  let bwc1 : bit_writer_context :=
    { written_bits_count := e.bwc.written_bits_count
      pos := bwc.pos + e.bwc.pos
      buffer := fun j =>
        if bwc.pos ≤ j ∧ j ≤ bwc.pos + e.bwc.pos then e.bwc.buffer (j - bwc.pos)
        else bwc.buffer j }
  let innovation2 : Int → ℚ := fun j => if 0 ≤ j ∧ j < 108 then e.innovation j else innovation1 j
  let innovation3 := if halved_innovation ≠ 0 then interpolate innovation2 a z else innovation2
  { bwc := bwc1, innovation := innovation3, bits_used := e.bits_used, a := a, z := z,
    committed := e }


/-! ## The decoding rule of the specification (section 4.4, "Decoding order") -/

/-- The symbols of a block in position order: every item expanded, left to right. -/
def expand_items : List emitted_item → List Int
  | [] => []
  | it :: rest => it.expand ++ expand_items rest

/-- The step of the specification: Huffman blocks use `G`, or `G/2` when `z = 0`; ternary
blocks use `2G`, or `G` when `z = 0`. -/
def spec_step (use_huffman : Nat) (G : ℚ) (z : Nat) : ℚ :=
  if use_huffman ≠ 0 then (if z = 0 then G / 2 else G) else (if z = 0 then G else 2 * G)

/-- Specification, first half of the decoding rule: the symbols are placed left to right
into the active positions `a, a + interval, ...` and multiplied by the step; every other
slot, the guard slots included, is zero. -/
def spec_place_symbols (halved_innovation a : Nat) (step : ℚ) (symbols : List Int) :
    Int → ℚ :=
  fun j =>
    if (a : Int) ≤ j ∧ j < 108 ∧ (j - a) % innovation_interval halved_innovation = 0 then
      step * (symbols.getD ((j - a) / innovation_interval halved_innovation).toNat 0 : Int)
    else 0

/-- Specification, the decoding rule: in halved mode with `z = 0` every inactive position
of the block is the 6-tap interpolation of the placed samples around it; in every other
case the placed samples are the result. -/
def spec_decode_innovation (halved_innovation a z : Nat) (step : ℚ) (symbols : List Int) :
    Int → ℚ :=
  fun j =>
    if halved_innovation ≠ 0 ∧ z = 0 ∧ 0 ≤ j ∧ j < 108 ∧ (j - a) % 2 ≠ 0 then
      interpolation_taps (spec_place_symbols halved_innovation a step symbols) j
    else spec_place_symbols halved_innovation a step symbols j

/-! ## File headers (utkencode.c 952-996, utkdecode.c 76-149, io.h) -/

/-- Little-endian 16-bit value of two bytes of a byte array: `READ16(x)` of utkencode.c
and `read_u16` of io.h. -/
def READ16 (x : Nat → Nat) (off : Nat) : Nat :=
  (x off ||| (x (off + 1) <<< 8)) % 2 ^ 16

/-- The 32-bit pattern of `READ32(x)` of utkencode.c (and the value of `read_u32` of
io.h): four bytes, least significant first. -/
def READ32 (x : Nat → Nat) (off : Nat) : Nat :=
  (x off ||| (x (off + 1) <<< 8) ||| (x (off + 2) <<< 16) ||| (x (off + 3) <<< 24)) % 2 ^ 32

/-- A 32-bit pattern read as a C `int` (two's complement). -/
def to_int32 (n : Nat) : Int :=
  if n % 2 ^ 32 < 2 ^ 31 then (n % 2 ^ 32 : Nat) else ((n % 2 ^ 32 : Nat) : Int) - 2 ^ 32

/-- `WRITE16(d, s)`. -/
def WRITE16 (d : Nat → Nat) (off : Nat) (s : Nat) : Nat → Nat :=
  store (store d off (s % 256)) (off + 1) ((s >>> 8) % 256)

/-- `WRITE32(d, s)`. -/
def WRITE32 (d : Nat → Nat) (off : Nat) (s : Nat) : Nat → Nat :=
  store (store (store (store d off (s % 256)) (off + 1) ((s >>> 8) % 256))
    (off + 2) ((s >>> 16) % 256)) (off + 3) ((s >>> 24) % 256)

/-- `memcpy(d + doff, s + soff, n)` between two distinct byte arrays. -/
def memcpy_bytes (d : Nat → Nat) (doff : Nat) (s : Nat → Nat) (soff n : Nat) : Nat → Nat :=
  fun j => if doff ≤ j ∧ j < doff + n then s (soff + (j - doff)) else d j

/-- `memcmp(x + off, literal, length) == 0`. -/
def bytes_equal (x : Nat → Nat) (off : Nat) (literal : List Nat) : Bool :=
  (List.range literal.length).all (fun k => x (off + k) == literal.getD k 0)

/-- What the header part of `main` of utkencode yields when it accepts the 44 header
bytes: the 32 bytes handed to `write_data`, `bytes_remaining` and `sampling_rate`. -/
structure utkencode_header_result where
  utk_header : List Nat
  bytes_remaining : Nat
  sampling_rate : Int

/-- The checks `main` of utkencode makes on the 44 header bytes (lines 962-983). -/
def utkencode_accepts (wav_header : Nat → Nat) : Bool :=
  if !(bytes_equal wav_header 0 [0x52, 0x49, 0x46, 0x46])
      || !(bytes_equal wav_header 8 [0x57, 0x41, 0x56, 0x45, 0x66, 0x6d, 0x74, 0x20]) then
    false
  else if READ16 wav_header 20 ≠ 1 ∨ READ16 wav_header 22 ≠ 1
      ∨ READ16 wav_header 32 ≠ 2 ∨ READ16 wav_header 34 ≠ 16 then
    false
  else if to_int32 (READ32 wav_header 24) < 1000 ∨ to_int32 (READ32 wav_header 24) > 1000000
  then false
  else true

/-- Lines 962-996 of `main` of utkencode: `none` when the header is refused, otherwise the
UTK header it writes.  `utk_header` is the content of the local array on entry;
`READ32(...) & (~1)` is taken on the 32-bit pattern. -/
def utkencode_header (wav_header utk_header : Nat → Nat) : Option utkencode_header_result :=
  if utkencode_accepts wav_header then
    let sampling_rate := to_int32 (READ32 wav_header 24)
    let h1 := memcpy_bytes utk_header 0 (fun k => [0x55, 0x54, 0x4D, 0x30].getD k 0) 0 4
    let bytes_remaining := READ32 wav_header 40 &&& 0xFFFFFFFE
    let h2 := WRITE32 h1 4 bytes_remaining
    let h3 := WRITE32 h2 8 20
    let h4 := memcpy_bytes h3 12 wav_header 20 16
    let h5 := WRITE32 h4 28 0
    some { utk_header := (List.range 32).map h5
           bytes_remaining := bytes_remaining
           sampling_rate := sampling_rate }
  else none

/-- The fields `main` of utkdecode reads from the first 32 bytes of its input. -/
structure utk_header_fields where
  sID : Nat
  dwOutSize : Nat
  dwWfxSize : Nat
  wFormatTag : Nat
  nChannels : Nat
  nSamplesPerSec : Nat
  nAvgBytesPerSec : Nat
  nBlockAlign : Nat
  wBitsPerSample : Nat
  cbSize : Nat

/-- The header parse of utkdecode (lines 77-87): `read_u32` / `read_u16` in file order. -/
def utkdecode_parse (file : Nat → Nat) : utk_header_fields :=
  { sID := READ32 file 0
    dwOutSize := READ32 file 4
    dwWfxSize := READ32 file 8
    wFormatTag := READ16 file 12
    nChannels := READ16 file 14
    nSamplesPerSec := READ32 file 16
    nAvgBytesPerSec := READ32 file 20
    nBlockAlign := READ16 file 24
    wBitsPerSample := READ16 file 26
    cbSize := READ16 file 28 }

/-- `MAKE_U32(a,b,c,d)`. -/
def MAKE_U32 (a b c d : Nat) : Nat := a ||| (b <<< 8) ||| (c <<< 16) ||| (d <<< 24)

/-- The header validation of utkdecode (lines 89-128): the early returns of the `else if`
chain, then the checks that only set `error`. -/
def utkdecode_valid (f : utk_header_fields) : Bool :=
  if f.sID ≠ MAKE_U32 0x55 0x54 0x4D 0x30 then false
  else if f.dwOutSize &&& 0x01 ≠ 0 ∨ f.dwOutSize ≥ 0x01000000 then false
  else if f.dwWfxSize ≠ 20 then false
  else if f.wFormatTag ≠ 1 then false
  else
    let error := false
    let error := if f.nChannels ≠ 1 then true else error
    let error := if f.nSamplesPerSec < 8000 ∨ f.nSamplesPerSec > 192000 then true else error
    let error :=
      if f.nAvgBytesPerSec ≠ (f.nSamplesPerSec * f.nBlockAlign) % 2 ^ 32 then true else error
    let error := if f.nBlockAlign ≠ 2 then true else error
    let error := if f.wBitsPerSample ≠ 16 then true else error
    let error := if f.cbSize ≠ 0 then true else error
    !error

/-- `write_u32` of io.h: the four bytes appended to the output. -/
def write_u32 (x : Nat) : List Nat :=
  [x % 256, (x >>> 8) % 256, (x >>> 16) % 256, (x >>> 24) % 256]

/-- `write_u16` of io.h: the two bytes appended to the output. -/
def write_u16 (x : Nat) : List Nat :=
  [x % 256, (x >>> 8) % 256]

/-- The WAV header utkdecode writes (lines 133-145) for the parsed fields. -/
def utkdecode_wav_header (f : utk_header_fields) : List Nat :=
  let num_samples := f.dwOutSize / 2
  write_u32 (MAKE_U32 0x52 0x49 0x46 0x46)
    ++ write_u32 ((36 + num_samples * 2) % 2 ^ 32)
    ++ write_u32 (MAKE_U32 0x57 0x41 0x56 0x45)
    ++ write_u32 (MAKE_U32 0x66 0x6d 0x74 0x20)
    ++ write_u32 16
    ++ write_u16 f.wFormatTag
    ++ write_u16 f.nChannels
    ++ write_u32 f.nSamplesPerSec
    ++ write_u32 f.nAvgBytesPerSec
    ++ write_u16 f.nBlockAlign
    ++ write_u16 f.wBitsPerSample
    ++ write_u32 (MAKE_U32 0x64 0x61 0x74 0x61)
    ++ write_u32 ((num_samples * 2) % 2 ^ 32)

/-- The header phase of `main` of utkdecode on a file that holds at least 32 bytes:
whether the header is accepted, `num_samples`, and the bytes written to the output so
far. -/
def utkdecode_header (file : Nat → Nat) : Bool × Nat × List Nat :=
  let f := utkdecode_parse file
  if utkdecode_valid f then (true, f.dwOutSize / 2, utkdecode_wav_header f)
  else (false, 0, [])

/-- A byte array given by the list of its first bytes (zero beyond). -/
def bytes_of (l : List Nat) : Nat → Nat := fun k => l.getD k 0

/-- A canonical 44-byte WAV header: mono 16-bit PCM at the given rate, with the given
average byte rate and data size. -/
def wav_header_of (rate avg data_size : Nat) : Nat → Nat :=
  bytes_of ([0x52, 0x49, 0x46, 0x46] ++ write_u32 (36 + data_size)
    ++ [0x57, 0x41, 0x56, 0x45, 0x66, 0x6d, 0x74, 0x20] ++ write_u32 16
    ++ write_u16 1 ++ write_u16 1 ++ write_u32 rate ++ write_u32 avg
    ++ write_u16 2 ++ write_u16 16 ++ [0x64, 0x61, 0x74, 0x61] ++ write_u32 data_size)

/-- What utkdecode makes of the header utkencode writes for a WAV header: `none` when
utkencode refuses the WAV header. -/
def decode_encoded_header (wav_header utk_header : Nat → Nat) : Option (Bool × Nat × List Nat) :=
  (utkencode_header wav_header utk_header).map (fun r => utkdecode_header (bytes_of r.utk_header))

/-- The layout of the 32-byte UTK header for a WAV header, as a list: signature, the data
size with bit 0 cleared, 20, WAV bytes 20..35, four zero bytes. -/
def utk_header_layout (wav_header : Nat → Nat) : List Nat :=
  [0x55, 0x54, 0x4D, 0x30,
   (READ32 wav_header 40 &&& 0xFFFFFFFE) % 256,
   ((READ32 wav_header 40 &&& 0xFFFFFFFE) >>> 8) % 256,
   ((READ32 wav_header 40 &&& 0xFFFFFFFE) >>> 16) % 256,
   ((READ32 wav_header 40 &&& 0xFFFFFFFE) >>> 24) % 256,
   20, 0, 0, 0,
   wav_header 20, wav_header 21, wav_header 22, wav_header 23,
   wav_header 24, wav_header 25, wav_header 26, wav_header 27,
   wav_header 28, wav_header 29, wav_header 30, wav_header 31,
   wav_header 32, wav_header 33, wav_header 34, wav_header 35,
   0, 0, 0, 0]

/-! ## Decoder output (utkdecode.c 17-21 and 130-162, utkdecode-bnb.c 60-110) -/

/-- Rounding of a rational to the nearest integer, a tie going to the even integer. -/
def round_half_even (t : ℚ) : Int :=
  if t - ⌊t⌋ < 1 / 2 then ⌊t⌋
  else if t - ⌊t⌋ > 1 / 2 then ⌊t⌋ + 1
  else if ⌊t⌋ % 2 = 0 then ⌊t⌋ else ⌊t⌋ + 1

/-- The spacing of the single-precision values in the binade of `a`, for `a ≥ 1`: `u` is
the spacing in `[1, 2)` and doubles with every binade, up to the largest one. -/
def float32_ulp_up : Nat → ℚ → ℚ → ℚ
  | 0, _, u => u
  | fuel + 1, a, u => if 2 ≤ a then float32_ulp_up fuel (a / 2) (u * 2) else u

/-- The spacing of the single-precision values in the binade of `a`, for `a < 1`: it
halves with every binade down to the smallest normal one, whose spacing the subnormal
values share. -/
def float32_ulp_down : Nat → ℚ → ℚ → ℚ
  | 0, _, u => u
  | fuel + 1, a, u => if a < 1 then float32_ulp_down fuel (a * 2) (u / 2) else u

/-- The spacing of the single-precision (IEEE 754 binary32) values at the magnitude of
`q`: `2^(e-23)` when `2^e ≤ |q| < 2^(e+1)` with `-126 ≤ e ≤ 127`, and `2^-149` below. -/
def float32_ulp (q : ℚ) : ℚ :=
  if 1 ≤ (if q < 0 then -q else q) then
    float32_ulp_up 127 (if q < 0 then -q else q) (1 / 8388608)
  else float32_ulp_down 126 (if q < 0 then -q else q) (1 / 8388608)

/-- The result of a `float` operation whose exact value is `q`: the nearest
single-precision value, a tie going to the one with the even significand (the default
rounding mode; a result beyond the largest finite value is outside the model). -/
def float32_round (q : ℚ) : ℚ := round_half_even (q / float32_ulp q) * float32_ulp q

/-- `ROUND(x)` of utkdecode.c, utkdecode-bnb.c and utkdecode-fifa.c:
`((x) >= 0.0f ? ((x)+0.5f) : ((x)-0.5f))`, a `float`: the sum is rounded to single
precision. -/
def decoder_ROUND (x : ℚ) : ℚ :=
  if x ≥ 0 then float32_round (x + 1 / 2) else float32_round (x - 1 / 2)

/-- `MAX(x,y)` on `int`. -/
def MAX (x y : Int) : Int := if x > y then x else y

/-- `CLAMP(x,min,max)` of the decoders: `MIN(MAX(x,min),max)`. -/
def decoder_CLAMP (x min max : Int) : Int := MIN (MAX x min) max

/-- The initialisation `int x = <float>`: truncation toward zero when the truncated
value is representable in `int`; otherwise C leaves the result undefined and it is the
parameter `out_of_range`. -/
def float_to_int (out_of_range : ℚ → Int) (x : ℚ) : Int :=
  if -2 ^ 31 ≤ c_int x ∧ c_int x < 2 ^ 31 then c_int x else out_of_range x

/-- The cast `(int16_t)x` of an `int`. -/
def to_int16 (x : Int) : Int := (x + 32768) % 65536 - 32768

/-- Conversion of an integer argument to a `uint16_t` parameter. -/
def to_uint16 (x : Int) : Nat := (x % 65536).toNat

/-- The body of the sample loop of the decoders: the two bytes written for one sample of
`decompressed_frame`. -/
def decoder_sample (out_of_range : ℚ → Int) (sample : ℚ) : List Nat :=
  let x := float_to_int out_of_range (decoder_ROUND sample)
  write_u16 (to_uint16 (to_int16 (decoder_CLAMP x (-32768) 32767)))

/-- `for (i = 0; i < count; i++)` of the decode loop: the output with the first `count`
samples of the frame appended. -/
def write_frame_samples (out_of_range : ℚ → Int) (frame : Nat → ℚ) (count : Nat) :
    Nat → Nat → List Nat → List Nat
  | 0, _, out => out
  | fuel + 1, i, out =>
    if i < count then
      write_frame_samples out_of_range frame count fuel (i + 1)
        (out ++ decoder_sample out_of_range (frame i))
    else out

/-- The state of the decode loop: the decoder context, `num_samples`, the output written
so far and, for reference, the number of calls of `utk_decode_frame`. -/
structure decode_state (σ : Type) where
  ctx : σ
  num_samples : Nat
  out : List Nat
  frames : Nat

/-- `while (num_samples > 0)` of `main` of utkdecode (lines 151-162) and of `pt_decode` of
utkdecode-bnb (lines 99-110), which have the same text.  The frame decoder of utk.h is a
parameter: `utk_decode_frame` on the context and the array `decompressed_frame` it
leaves. -/
def decode_loop {σ : Type} (utk_decode_frame : σ → σ) (decompressed_frame : σ → Nat → ℚ)
    (out_of_range : ℚ → Int) : Nat → decode_state σ → decode_state σ
  | 0, s => s
  | fuel + 1, s =>
    if s.num_samples > 0 then
      let count := if s.num_samples < 432 then s.num_samples else 432
      let ctx := utk_decode_frame s.ctx
      let out := write_frame_samples out_of_range (decompressed_frame ctx) count count 0 s.out
      decode_loop utk_decode_frame decompressed_frame out_of_range fuel
        { ctx := ctx, num_samples := s.num_samples - count, out := out, frames := s.frames + 1 }
    else s

/-- The run of utkdecode on a file of at least 32 bytes: `none` when the header is refused,
otherwise the state at the end of the decode loop, whose `out` is the whole output.
`ctx` is the decoder context after `utk_init` and `utk_set_fp`. -/
def utkdecode_main {σ : Type} (utk_decode_frame : σ → σ) (decompressed_frame : σ → Nat → ℚ)
    (out_of_range : ℚ → Int) (file : Nat → Nat) (ctx : σ) : Option (decode_state σ) :=
  let h := utkdecode_header file
  if h.1 then
    some (decode_loop utk_decode_frame decompressed_frame out_of_range h.2.1
      { ctx := ctx, num_samples := h.2.1, out := h.2.2, frames := 0 })
  else none

/-- The WAV header `pt_read_header` of utkdecode-bnb writes (lines 74-87). -/
def pt_wav_header (num_samples : Nat) : List Nat :=
  write_u32 (MAKE_U32 0x52 0x49 0x46 0x46)
    ++ write_u32 ((36 + num_samples * 2) % 2 ^ 32)
    ++ write_u32 (MAKE_U32 0x57 0x41 0x56 0x45)
    ++ write_u32 (MAKE_U32 0x66 0x6d 0x74 0x20)
    ++ write_u32 16
    ++ write_u16 1
    ++ write_u16 1
    ++ write_u32 22050
    ++ write_u32 (22050 * 2)
    ++ write_u16 2
    ++ write_u16 16
    ++ write_u32 (MAKE_U32 0x64 0x61 0x74 0x61)
    ++ write_u32 ((num_samples * 2) % 2 ^ 32)

/-- The run of utkdecode-bnb from the end of the chunk parse of `pt_read_header`, with the
values `num_samples` and `compression_type` the parse left: the two checks, the WAV
header, then `pt_decode`. -/
def pt_main {σ : Type} (utk_decode_frame : σ → σ) (decompressed_frame : σ → Nat → ℚ)
    (out_of_range : ℚ → Int) (num_samples compression_type : Nat) (ctx : σ) :
    Option (decode_state σ) :=
  if compression_type ≠ 9 then none
  else if num_samples ≥ 0x01000000 then none
  else
    some (decode_loop utk_decode_frame decompressed_frame out_of_range num_samples
      { ctx := ctx, num_samples := num_samples, out := pt_wav_header num_samples, frames := 0 })

/-- The bytes of the first `count` samples of a decoded frame, in order. -/
def frame_bytes (out_of_range : ℚ → Int) (frame : Nat → ℚ) (count : Nat) : List Nat :=
  (List.range count).flatMap (fun i => decoder_sample out_of_range (frame i))

/-- The PCM bytes expected for `num_samples` samples: frame `k` (the frame left by call
`k + 1` of the frame decoder) contributes its first `min(432, num_samples - 432 k)`
samples. -/
def decoded_bytes {σ : Type} (utk_decode_frame : σ → σ) (decompressed_frame : σ → Nat → ℚ)
    (out_of_range : ℚ → Int) (ctx : σ) (num_samples : Nat) : List Nat :=
  (List.range ((num_samples + 431) / 432)).flatMap (fun k =>
    frame_bytes out_of_range (decompressed_frame (utk_decode_frame^[k + 1] ctx))
      (if k + 1 < (num_samples + 431) / 432 then 432
       else num_samples - 432 * ((num_samples + 431) / 432 - 1)))

/-! ## Writer calls interleaved with flushes (utkencode.c 189-202, 998-1004, 1118-1122) -/

/-- One call on the bit writer made by `main` between `bwc_init` and the final
`bwc_pad`: `bwc_write_bits(bwc, value, count)` or `bwc_flush(bwc, outfp)`. -/
inductive writer_call where
  | write (value count : Nat)
  | flush

/-- The writer and the bytes received by the output file so far. -/
structure writer_output where
  bwc : bit_writer_context
  file : List Nat

/-- One call: a flush appends the bytes it hands to `write_data` to the file. -/
def run_call (s : writer_output) : writer_call → writer_output
  | writer_call.write value count => { s with bwc := bwc_write_bits s.bwc value count }
  | writer_call.flush => { bwc := (bwc_flush s.bwc).2, file := s.file ++ (bwc_flush s.bwc).1 }

/-- A sequence of calls, in order. -/
def run_calls (s : writer_output) (calls : List writer_call) : writer_output :=
  calls.foldl run_call s

/-- The end of `main` (lines 1121-1122): `bwc_pad` then `bwc_flush`; the result is the whole
output file. -/
def finish_stream (s : writer_output) : List Nat :=
  s.file ++ (bwc_flush (bwc_pad s.bwc)).1

/-- The bytes the output file receives for a sequence of calls that starts after
`bwc_init(&bwc, buffer)`. -/
def flushed_stream (buffer : Nat → Nat) (calls : List writer_call) : List Nat :=
  finish_stream (run_calls { bwc := bwc_init buffer, file := [] } calls)

/-- The writes of a sequence of calls, in order, without the flushes. -/
def calls_writes : List writer_call → List (Nat × Nat)
  | [] => []
  | writer_call.write value count :: cs => (value, count) :: calls_writes cs
  | writer_call.flush :: cs => calls_writes cs

/-- The bytes of a single buffer that is never flushed before the end: the writes, then
`bwc_pad`, then the `pos` bytes of the buffer. -/
def unflushed_stream (buffer : Nat → Nat) (ws : List (Nat × Nat)) : List Nat :=
  (bwc_flush (bwc_pad (bwc_writes (bwc_init buffer) ws))).1

/-- Bit `t` of a byte list in stream order (bit `t mod 8`, from the least significant, of
byte `t div 8`). -/
def list_bit (l : List Nat) (t : Nat) : Bool :=
  (l.getD (t / 8) 0).testBit (t % 8)

/-! ## utkdecode-fifa: data chunks (eachunk.h, utkdecode-fifa.c 24-170 and 205-212) -/

/-- An `EAChunk` after `read_chunk`: its type and the bytes from `ptr` to `end`. -/
structure EAChunk where
  type : Nat
  data : List Nat

/-- `chunk_read_bytes`: `none` stands for the exit on a short chunk. -/
def chunk_read_bytes (chunk : EAChunk) (size : Nat) : Option (List Nat × EAChunk) :=
  if chunk.data.length < size then none
  else some (chunk.data.take size, { chunk with data := chunk.data.drop size })

/-- `chunk_read_u32`. -/
def chunk_read_u32 (chunk : EAChunk) : Option (Nat × EAChunk) :=
  match chunk_read_bytes chunk 4 with
  | none => none
  | some (dest, chunk) => some (READ32 (bytes_of dest) 0, chunk)

/-- `chunk_read_u8`. -/
def chunk_read_u8 (chunk : EAChunk) : Option (Nat × EAChunk) :=
  match chunk_read_bytes chunk 1 with
  | none => none
  | some (dest, chunk) => some (dest.getD 0 0, chunk)

/-- The functions and the frame array of utk.h that utkdecode-fifa uses, on a decoder
context of type `σ`; they are parameters of the embedding. -/
structure utk_functions (σ : Type) where
  utk_decode_frame : σ → σ
  utk_rev3_decode_frame : σ → σ
  utk_set_ptr : σ → List Nat → σ
  decompressed_frame : σ → Nat → ℚ

/-- The `EAContext` of utkdecode-fifa, with the bytes written to `outfp` so far. -/
structure EAContext (σ : Type) where
  audio_pos : Nat
  num_samples : Nat
  num_data_chunks : Nat
  compression_type : Nat
  codec_revision : Nat
  utk : σ
  out : List Nat

/-- `while (num_samples > 0)` of `ea_read_scdl` (lines 138-154); the second argument is the
local `num_samples`. -/
def scdl_loop {σ : Type} (lib : utk_functions σ) (out_of_range : ℚ → Int) :
    Nat → Nat → EAContext σ → EAContext σ
  | 0, _, ea => ea
  | fuel + 1, num_samples, ea =>
    if num_samples > 0 then
      let count := if num_samples < 432 then num_samples else 432
      let utk :=
        if ea.codec_revision ≥ 3 then lib.utk_rev3_decode_frame ea.utk
        else lib.utk_decode_frame ea.utk
      let out := write_frame_samples out_of_range (lib.decompressed_frame utk) count count 0 ea.out
      scdl_loop lib out_of_range fuel (num_samples - count)
        { ea with utk := utk, out := out, audio_pos := (ea.audio_pos + count) % 2 ^ 32 }
    else ea

/-- `ea_read_scdl` on the chunk `read_chunk` returned; `none` stands for an exit. -/
def ea_read_scdl {σ : Type} (lib : utk_functions σ) (out_of_range : ℚ → Int)
    (ea : EAContext σ) (chunk : EAChunk) : Option (EAContext σ) :=
  if chunk.type ≠ MAKE_U32 0x53 0x43 0x44 0x6c then none
  else
    match chunk_read_u32 chunk with
    | none => none
    | some (num_samples, chunk) =>
      match chunk_read_u32 chunk with
      | none => none
      | some (_, chunk) =>
        match chunk_read_u8 chunk with
        | none => none
        | some (_, chunk) =>
          let remaining := (ea.num_samples + 2 ^ 32 - ea.audio_pos) % 2 ^ 32
          let num_samples := if num_samples > remaining then remaining else num_samples
          let utk := lib.utk_set_ptr ea.utk chunk.data
          some (scdl_loop lib out_of_range num_samples num_samples { ea with utk := utk })

/-- `ea_read_scel` on the chunk `read_chunk` returned: `false` stands for an exit. -/
def ea_read_scel {σ : Type} (ea : EAContext σ) (chunk : EAChunk) : Bool :=
  if chunk.type ≠ MAKE_U32 0x53 0x43 0x45 0x6c then false
  else if ea.audio_pos ≠ ea.num_samples then false
  else true

/-- `for (i = 0; i < ea.num_data_chunks; i++) ea_read_scdl(&ea);` on the chunks that follow
in the file; the result carries the chunks not yet read.  Running out of chunks is the
exit of `read_chunk` at the end of the file. -/
def ea_read_data_chunks {σ : Type} (lib : utk_functions σ) (out_of_range : ℚ → Int) :
    Nat → EAContext σ → List EAChunk → Option (EAContext σ × List EAChunk)
  | 0, ea, chunks => some (ea, chunks)
  | _ + 1, _, [] => none
  | n + 1, ea, chunk :: chunks =>
    match ea_read_scdl lib out_of_range ea chunk with
    | none => none
    | some ea => ea_read_data_chunks lib out_of_range n ea chunks

/-- The part of `main` of utkdecode-fifa after `ea_read_sccl`: the data chunks, then
`ea_read_scel`; `none` stands for an exit with failure. -/
def ea_decode_chunks {σ : Type} (lib : utk_functions σ) (out_of_range : ℚ → Int)
    (ea : EAContext σ) (chunks : List EAChunk) : Option (EAContext σ) :=
  match ea_read_data_chunks lib out_of_range ea.num_data_chunks ea chunks with
  | none => none
  | some (_, []) => none
  | some (ea, chunk :: _) => if ea_read_scel ea chunk then some ea else none

/-- The sample count an SCDl chunk declares: its first four bytes, little-endian. -/
def declared_samples (chunk : EAChunk) : Nat := READ32 (bytes_of chunk.data) 0

/-- An SCDl chunk with the given declared sample count and payload. -/
def scdl_chunk (num_samples : Nat) (payload : List Nat) : EAChunk :=
  { type := MAKE_U32 0x53 0x43 0x44 0x6c
    data := write_u32 num_samples ++ [0, 0, 0, 0, 0] ++ payload }

/-! ## Zero runs of the quantised values -/

/-- `c` is the length of the run of zero values that starts at position `i` and continues
in steps of `interval` below `limit`: the `c` positions `i, i + interval, ...` lie below
`limit` and hold zero, and the next one is at or beyond `limit` or holds a non-zero
value. -/
def zero_run_at (values : Int → Int) (interval limit i c : Int) : Prop :=
  0 ≤ c
  ∧ (∀ j : Int, 0 ≤ j → j < c → i + j * interval < limit ∧ values (i + j * interval) = 0)
  ∧ (limit ≤ i + c * interval ∨ values (i + c * interval) ≠ 0)

/-! ## Linear prediction analysis and pitch search (utkencode.c 252-394) -/

/-- A counting loop `for (i = start; i < start + count; i++)` with a fixed trip count. -/
def for_range {σ : Type} (body : Nat → σ → σ) : Nat → Nat → σ → σ
  | 0, _, s => s
  | count + 1, i, s => for_range body count (i + 1) (body i s)

/-- A pointer into a sample array: the array as it is indexed from `m + off`. -/
def offset_view {α : Type} (m : Int → α) (off : Int) : Int → α :=
  fun j => m (off + j)

/-- `find_autocorrelations(r, samples)`. -/
def find_autocorrelations (r : Nat → ℚ) (samples : Int → ℚ) : Nat → ℚ :=
  for_range
    (fun i r =>
      for_range (fun j r => store r i (r i + samples j * samples ((j : Int) + i)))
        (432 - i) 0 (store r i 0))
    13 0 r

/-- The variables of `levinson_durbin_symmetric`: the out-arrays `x` and `k`, the local
forward vector `a`, the prediction error `e`, and whether `goto zero` was taken. -/
structure levinson_state where
  x : Nat → ℚ
  k : Nat → ℚ
  a : Nat → ℚ
  e : ℚ
  zero : Bool

/-- The body of `for (i = 1; i < 12; i++)` of `levinson_durbin_symmetric`; once `goto zero`
was taken the remaining iterations do nothing.  `a_temp` holds the first `i` elements of
`a`, the only ones that are read. -/
def levinson_step (r y : Nat → ℚ) (i : Nat) (s : levinson_state) : levinson_state :=
  if s.zero then s
  else
    let u := for_range (fun j u => u + s.a j * r (i - j)) i 0 0
    let k := store s.k (i - 1) (-u / s.e)
    let e := s.e + u * k (i - 1)
    if e ≤ 1 / 32768 ∧ e ≥ -(1 / 32768) then
      { x := s.x, k := k, a := s.a, e := e, zero := true }
    else
      let a_temp := s.a
      let a := store s.a i 0
      let a := for_range (fun j a => store a j (a j + k (i - 1) * a_temp (i - j))) i 1 a
      let m := for_range (fun j m => m - s.x j * r (i - j)) i 0 (y i)
      let m := m / e
      let x := store s.x i 0
      let x := for_range (fun j x => store x j (x j + m * a (i - j))) (i + 1) 0 x
      { x := x, k := k, a := a, e := e, zero := false }

/-- `levinson_durbin_symmetric(x, k, r, y)`: returns the arrays `x` and `k`.  The local `a`
is written at every index before that index is read; it starts as the zero array. -/
def levinson_durbin_symmetric (x k r y : Nat → ℚ) : (Nat → ℚ) × (Nat → ℚ) :=
  let s : levinson_state :=
    if r 0 ≤ 1 / 32768 ∧ r 0 ≥ -(1 / 32768) then
      { x := x, k := k, a := fun _ => 0, e := 0, zero := true }
    else
      for_range (levinson_step r y) 11 1
        { x := store x 0 (y 0 / r 0), k := k, a := store (fun _ => 0) 0 1, e := r 0,
          zero := false }
  if s.zero then
    (for_range (fun i x => store x i 0) 12 0 s.x, for_range (fun i k => store k i 0) 12 0 s.k)
  else (s.x, store s.k 11 (-(s.x 11)))

/-- `rc_to_lpc(x, k)`.  The local `a` starts as the zero array (every index is written
before it is read); `a_temp` holds the first `i` elements of `a`. -/
def rc_to_lpc (x k : Nat → ℚ) : Nat → ℚ :=
  let a := for_range
    (fun i a =>
      let a_temp := a
      let a := store a i 0
      for_range (fun j a => store a j (a j + k (i - 1) * a_temp (i - j))) i 1 a)
    12 1 (store (fun _ => 0) 0 1)
  for_range (fun i x => store x (i - 1) (-(a i))) 12 1 x

/-- `find_rc(rc, samples)`: the locals `r` and `lpc` are written entirely by the callees
and start as the zero array. -/
def find_rc (rc : Nat → ℚ) (samples : Int → ℚ) : Nat → ℚ :=
  let r := find_autocorrelations (fun _ => 0) samples
  (levinson_durbin_symmetric (fun _ => 0) rc r (fun i => r (i + 1))).2

/-- `find_excitation(excitation, source, length, lpc)`; `excitation` and `source` point
into different arrays. -/
def find_excitation (excitation source : Int → ℚ) (length : Nat) (lpc : Nat → ℚ) : Int → ℚ :=
  for_range
    (fun i excitation =>
      let prediction :=
        for_range (fun j prediction => prediction + lpc j * source ((i : Int) - 1 - j)) 12 0 0
      storeI excitation i (source i - prediction))
    length 0 excitation

/-- `find_pitch(&pitch_lag, &pitch_gain, excitation)`: returns `(pitch_lag, pitch_gain)`. -/
def find_pitch (excitation : Int → ℚ) : Int × ℚ :=
  let best : Int × ℚ :=
    for_range
      (fun i (best : Int × ℚ) =>
        let corr :=
          for_range (fun j corr => corr + excitation j * excitation ((j : Int) - i)) 108 0 0
        if corr > best.2 then ((i : Int), corr) else best)
      216 108 (108, 0)
  let history_energy :=
    for_range
      (fun i history_energy =>
        let value := excitation ((i : Int) - best.1)
        history_energy + value * value)
      108 0 0
  if history_energy ≥ 1 / 32768 then (best.1, CLAMP (best.2 / history_energy) 0 1)
  else (108, 0)

/-! ## The frame loop of `main` (utkencode.c 1006-1122) -/

/-- The command line options that reach the frame loop. -/
structure encoder_options where
  bitrate : Int
  halved_innovation : Nat
  huffman_threshold : Int
  inngain_sig : Int
  inngain_base : ℚ

/-- The state `main` carries from frame to frame: the stream writer and the static arrays
`input_samples`, `adaptive_codebook`, `prev_rc` and `innovation` (the latter indexed from
`&innovation[5]`, so that its guard slots are `-5..-1` and `108..112`). -/
structure encoder_state where
  bwc : bit_writer_context
  input_samples : Int → ℚ
  adaptive_codebook : Int → ℚ
  prev_rc : Nat → ℚ
  innovation : Int → ℚ

/-- The stack content one `encode_innovation` call finds: its local `encodings` (with the
scratch buffers) and the locals of the `encode_huffman` call of each power. -/
structure subframe_stack where
  encodings : Nat → innovation_encoding
  locals : Nat → huffman_locals

/-- What was written for one subframe (observation): the values of the 8-bit lag field
and of the 4-bit gain field, and the result of `encode_innovation`. -/
structure subframe_record where
  lag_code : Int
  gain_code : Int
  innovation : innovation_result

/-- What was done for one frame (observation): the number of samples read, the array
`input_samples` after the two load loops, the reflection coefficient indices, the flag
`use_huffman`, and the four subframes. -/
structure frame_record where
  samples_to_read : Nat
  input : Int → ℚ
  rc_indices : List Nat
  use_huffman : Nat
  subframes : List subframe_record

/-- The two load loops of a frame (lines 1034-1039): the samples read, converted through
`int16_t` to `float`, then zeros up to 432. -/
def load_samples (input_samples : Int → ℚ) (wav_buffer : Nat → Nat) (samples_to_read : Nat) :
    Int → ℚ :=
  let input_samples :=
    for_range
      (fun i input_samples =>
        storeI input_samples (12 + (i : Int))
          ((to_int16 (READ16 wav_buffer (2 * i)) : Int) : ℚ))
      samples_to_read 0 input_samples
  for_range (fun i input_samples => storeI input_samples (12 + (i : Int)) 0)
    (432 - samples_to_read) samples_to_read input_samples

/-- `target_bit_count` as passed to `encode_innovation`:
`ROUND(bitrate * 432 / sampling_rate / 4) - 18`, the divisions being `int` divisions. -/
def target_bit_count (bitrate sampling_rate : Int) : Int :=
  ROUND ((Int.tdiv (Int.tdiv (bitrate * 432) sampling_rate) 4 : Int) : ℚ) - 18

/-- The body of `for (i = 0; i < 4; i++)`, lines 1082-1111: one subframe. -/
def encode_subframe (opt : encoder_options) (sampling_rate : Int) (use_huffman : Nat)
    (stack : subframe_stack) (i : Nat) (s : encoder_state) :
    encoder_state × subframe_record :=
  let off : Int := 324 + 108 * (i : Int)
  let excitation := offset_view s.adaptive_codebook off
  let p := find_pitch excitation
  let pitch_lag := p.1
  let bwc := bwc_write_bits s.bwc (to_unsigned (pitch_lag - 108)) 8
  let idx := ROUND (p.2 * 15)
  let bwc := bwc_write_bits bwc (to_unsigned idx) 4
  let pitch_gain : ℚ := (idx : ℚ) / 15
  let innovation :=
    for_range
      (fun j innovation =>
        storeI innovation j (excitation j - pitch_gain * excitation ((j : Int) - pitch_lag)))
      108 0 s.innovation
  let r := encode_innovation (inn_gains opt.inngain_sig opt.inngain_base) stack.encodings
    stack.locals bwc innovation opt.halved_innovation use_huffman
    (target_bit_count opt.bitrate sampling_rate)
  let excitation :=
    for_range
      (fun j excitation =>
        storeI excitation j (r.innovation j + pitch_gain * excitation ((j : Int) - pitch_lag)))
      108 0 excitation
  ({ bwc := r.bwc
     input_samples := s.input_samples
     adaptive_codebook := offset_view excitation (-off)
     prev_rc := s.prev_rc
     innovation := r.innovation },
   { lag_code := pitch_lag - 108, gain_code := idx, innovation := r })

/-- `for (i = 0; i < 4; i++)` of lines 1064-1077: the reflection coefficients are
interpolated over the four subframes and the excitation of the frame is written to
`adaptive_codebook + 324`.  Returns `rc` and `adaptive_codebook`; the local `lpc` is
written entirely by `rc_to_lpc` and starts as the zero array. -/
def find_frame_excitation (rc_delta rc : Nat → ℚ) (adaptive_codebook input_samples : Int → ℚ) :
    (Nat → ℚ) × (Int → ℚ) :=
  for_range
    (fun i (st : (Nat → ℚ) × (Int → ℚ)) =>
      let rc := for_range (fun j rc => store rc j (rc j + rc_delta j)) 12 0 st.1
      let lpc := rc_to_lpc (fun _ => 0) rc
      let off : Int := 324 + 12 * (i : Int)
      let excitation :=
        find_excitation (offset_view st.2 off)
          (offset_view input_samples (12 + 12 * (i : Int))) (if i < 3 then 12 else 396) lpc
      (rc, offset_view excitation (-off)))
    4 0 (rc, adaptive_codebook)

/-- `for (i = 0; i < 4; i++)` of lines 1082-1111: the four subframes; `stack i` is the stack
content subframe `i` finds. -/
def encode_subframes (opt : encoder_options) (sampling_rate : Int) (use_huffman : Nat)
    (stack : Nat → subframe_stack) (s : encoder_state) :
    encoder_state × List subframe_record :=
  for_range
    (fun i (st : encoder_state × List subframe_record) =>
      let r := encode_subframe opt sampling_rate use_huffman (stack i) i st.1
      (r.1, st.2 ++ [r.2]))
    4 0 (s, [])

/-- The body of the frame loop from the load loops to the codebook shift (lines
1034-1116), without the final `bwc_flush`.  `wav_buffer` holds the bytes read for the
frame.  The locals `rc` and `rc_delta` are written entirely before they are read and
start as the zero array. -/
def encode_frame (opt : encoder_options) (sampling_rate : Int) (stack : Nat → subframe_stack)
    (s : encoder_state) (wav_buffer : Nat → Nat) (samples_to_read : Nat) :
    encoder_state × frame_record :=
  let input_samples := load_samples s.input_samples wav_buffer samples_to_read
  let rc := find_rc (fun _ => 0) (offset_view input_samples 12)
  let q := quantize_rc opt.huffman_threshold s.bwc rc
  let rc_delta :=
    for_range (fun i rc_delta => store rc_delta i ((q.rc i - s.prev_rc i) / 4)) 12 0
      (fun _ => 0)
  let rc : Nat → ℚ := fun j => if j < 12 then s.prev_rc j else q.rc j
  let lp := find_frame_excitation rc_delta rc s.adaptive_codebook input_samples
  let input_samples1 : Int → ℚ :=
    fun j => if 0 ≤ j ∧ j < 12 then input_samples (432 + j) else input_samples j
  let prev_rc : Nat → ℚ := fun j => if j < 12 then lp.1 j else s.prev_rc j
  let sub := encode_subframes opt sampling_rate q.use_huffman stack
    { bwc := q.bwc, input_samples := input_samples1, adaptive_codebook := lp.2,
      prev_rc := prev_rc, innovation := s.innovation }
  let adaptive_codebook : Int → ℚ :=
    fun j =>
      if 0 ≤ j ∧ j < 324 then sub.1.adaptive_codebook (432 + j) else sub.1.adaptive_codebook j
  ({ bwc := sub.1.bwc
     input_samples := sub.1.input_samples
     adaptive_codebook := adaptive_codebook
     prev_rc := sub.1.prev_rc
     innovation := sub.1.innovation },
   { samples_to_read := samples_to_read
     input := input_samples
     rc_indices := q.indices
     use_huffman := q.use_huffman
     subframes := sub.2 })

/-- The state of the frame loop: `bytes_remaining`, the number of data bytes read so far,
the encoder state, the bytes written to the output and the record of the frames. -/
structure main_state where
  bytes_remaining : Nat
  file_pos : Nat
  enc : encoder_state
  out : List Nat
  frames : List frame_record

/-- `while (bytes_remaining != 0)` of `main`, lines 1021-1119.  `wav_data` is the input
after the 44 header bytes and `data_length` the number of bytes it holds; `none` stands
for the exit of `read_data` on a short read.  `stack f i` is the stack content of
subframe `i` of frame `f`. -/
def encode_loop (opt : encoder_options) (sampling_rate : Int)
    (stack : Nat → Nat → subframe_stack) (wav_data : Nat → Nat) (data_length : Nat) :
    Nat → main_state → Option main_state
  | 0, s => some s
  | fuel + 1, s =>
    if s.bytes_remaining ≠ 0 then
      let bytes_to_read := if s.bytes_remaining < 432 * 2 then s.bytes_remaining else 432 * 2
      let samples_to_read := bytes_to_read >>> 1
      if data_length < s.file_pos + bytes_to_read then none
      else
        let wav_buffer : Nat → Nat := fun k => wav_data (s.file_pos + k)
        let r := encode_frame opt sampling_rate (stack s.frames.length) s.enc wav_buffer
          samples_to_read
        let fl := bwc_flush r.1.bwc
        encode_loop opt sampling_rate stack wav_data data_length fuel
          { bytes_remaining := s.bytes_remaining - bytes_to_read
            file_pos := s.file_pos + bytes_to_read
            enc :=
              { bwc := fl.2
                input_samples := r.1.input_samples
                adaptive_codebook := r.1.adaptive_codebook
                prev_rc := r.1.prev_rc
                innovation := r.1.innovation }
            out := s.out ++ fl.1
            frames := s.frames ++ [r.2] }
    else some s

/-- The encoder state before the first frame (lines 1006-1015): the static arrays are
zero, partly by their static initialisation and partly by the explicit loops. -/
def initial_encoder_state (bwc : bit_writer_context) : encoder_state :=
  { bwc := bwc
    input_samples := fun _ => 0
    adaptive_codebook := fun _ => 0
    prev_rc := fun _ => 0
    innovation := fun _ => 0 }

/-- `main` of utkencode from the read of the WAV header on: `none` stands for an exit with
failure, otherwise the result is the whole output file and the record of the frames.
`file` holds `file_length` bytes; `compressed_buffer` and `utk_header` are the contents
of the arrays of that name when `main` starts to use them. -/
def utkencode_main (opt : encoder_options) (stack : Nat → Nat → subframe_stack)
    (compressed_buffer utk_header : Nat → Nat) (file : Nat → Nat) (file_length : Nat) :
    Option (List Nat × List frame_record) :=
  if file_length < 44 then none
  else
    match utkencode_header file utk_header with
    | none => none
    | some h =>
      let bwc := write_stream_parameters compressed_buffer opt.halved_innovation
        opt.huffman_threshold opt.inngain_sig opt.inngain_base
      let fl := bwc_flush bwc
      match encode_loop opt h.sampling_rate stack (fun k => file (44 + k)) (file_length - 44)
          h.bytes_remaining
          { bytes_remaining := h.bytes_remaining
            file_pos := 0
            enc := initial_encoder_state fl.2
            out := h.utk_header ++ fl.1
            frames := [] } with
      | none => none
      | some s => some (s.out ++ (bwc_flush (bwc_pad s.enc.bwc)).1, s.frames)

/-- The default options of utkencode: 32000 bit/s, halved innovation, Huffman threshold
24, innovation gain significand 64 and base 1.068. -/
def default_options : encoder_options :=
  { bitrate := 32000, halved_innovation := 1, huffman_threshold := 24, inngain_sig := 64,
    inngain_base := 1.068 }

/-- A stack that holds zeros. -/
def zero_stack : subframe_stack :=
  { encodings := fun _ =>
      { bwc := bwc_init (fun _ => 0), innovation := fun _ => 0, bits_used := 0, error := 0,
        pow := 0, items := [] }
    locals := fun _ => { values := fun _ => 0, zero_counts := fun _ => 0 } }

/-- What a frame record says about the input of a frame that starts at byte `pos` of the
sample data and holds `bytes` bytes of it: `bytes / 2` samples were read, they are the
little-endian 16-bit samples at `pos`, and the rest of the 432 input samples is zero. -/
def frame_input_ok (wav_data : Nat → Nat) (pos bytes : Nat) (record : frame_record) : Prop :=
  record.samples_to_read = bytes / 2
  ∧ (∀ i : Nat, i < bytes / 2 →
      record.input (12 + (i : Int))
        = ((to_int16 (READ16 wav_data (pos + 2 * i)) : Int) : ℚ))
  ∧ (∀ i : Nat, bytes / 2 ≤ i → i < 432 → record.input (12 + (i : Int)) = 0)

/-! ## Parts of `find_pitch` (utkencode.c 357-394) -/

/-- `(max_corr_offset, max_corr_value)` after the lag loop of `find_pitch`, lines
366-374. -/
def find_pitch_search (excitation : Int → ℚ) : Int × ℚ :=
  for_range (fun i (best : Int × ℚ) =>
      let corr := for_range (fun j corr => corr + excitation j * excitation ((j : Int) - i)) 108 0 0
      if corr > best.2 then ((i : Int), corr) else best) 216 108 (108, 0)

/-- `history_energy` after the loop of lines 377-381, for the lag `max_corr_offset`. -/
def find_pitch_energy (excitation : Int → ℚ) (max_corr_offset : Int) : ℚ :=
  for_range (fun i history_energy =>
      let value := excitation ((i : Int) - max_corr_offset)
      history_energy + value * value) 108 0 0

/-! ## The interpolation loop of a frame (utkencode.c 1064-1077) -/

/-- The body of `for (i = 0; i < 4; i++)` of lines 1064-1077: the reflection coefficients
advance by `rc_delta`, `rc_to_lpc` turns them into predictor coefficients, and
`find_excitation` filters 12 samples (396 in the last step). -/
def find_frame_excitation_step (rc_delta : Nat → ℚ) (input_samples : Int → ℚ) (i : Nat)
    (st : (Nat → ℚ) × (Int → ℚ)) : (Nat → ℚ) × (Int → ℚ) :=
  let rc := for_range (fun j rc => store rc j (rc j + rc_delta j)) 12 0 st.1
  let lpc := rc_to_lpc (fun _ => 0) rc
  let off : Int := 324 + 12 * (i : Int)
  let excitation :=
    find_excitation (offset_view st.2 off)
      (offset_view input_samples (12 + 12 * (i : Int))) (if i < 3 then 12 else 396) lpc
  (rc, offset_view excitation (-off))

/-! ## The distance of a Huffman trial (utkencode.c 745-746) -/

/-- `distance` of the trial with power `pow` in the Huffman branch of `encode_innovation`:
`ABS(encodings[m].bits_used - target_bit_count)`.  The scratch writer and output array a
trial starts from do not influence `bits_used`; they are taken as zero here. -/
def trial_distance (inn_gains : Nat → ℚ) (locals : Nat → huffman_locals)
    (bwc : bit_writer_context) (innovation : Int → ℚ) (halved_innovation a z : Nat)
    (target_bit_count : Int) (pow : Nat) : Int :=
  ABSi ((encode_huffman inn_gains (locals pow) (trial_writer bwc (bwc_init (fun _ => 0)))
    (fun _ => 0) innovation halved_innovation pow a z).bits_used - target_bit_count)

/-! ## `levinson_durbin_symmetric`: the state before the exits, and the Toeplitz system -/

/-- The state `levinson_durbin_symmetric` reaches before it returns or jumps to `zero`
(lines 270-307): `zero` records that one of the two `goto zero` was taken. -/
def levinson_durbin_state (x k r y : Nat → ℚ) : levinson_state :=
  if r 0 ≤ 1 / 32768 ∧ r 0 ≥ -(1 / 32768) then
    { x := x, k := k, a := fun _ => 0, e := 0, zero := true }
  else
    for_range (levinson_step r y) 11 1
      { x := store x 0 (y 0 / r 0), k := k, a := store (fun _ => 0) 0 1, e := r 0, zero := false }

/-- Row `l` of the symmetric Toeplitz system of size `n` with first row `r`, applied to
`v`: the sum over j below `n` of `r[|l - j|] * v[j]`. -/
def toeplitz_row (r v : Nat → ℚ) (n l : Nat) : ℚ :=
  ∑ j in Finset.range n, r (Int.natAbs ((l : Int) - (j : Int))) * v j


/-! ## `rc_to_lpc`: the forward vector after some iterations -/

/-- The local array `a` of `rc_to_lpc` after the first `n` iterations of its first loop
(lines 324-330); `rc_to_lpc` runs 12 of them. -/
def rc_to_lpc_forward (k : Nat → ℚ) (n : Nat) : Nat → ℚ :=
  for_range
    (fun i a =>
      let a_temp := a
      let a := store a i 0
      for_range (fun j a => store a j (a j + k (i - 1) * a_temp (i - j))) i 1 a)
    n 1 (store (fun _ => 0) 0 1)
/-! ## Bit writer lemmas -/

theorem store_same {α : Type} (m : Nat → α) (i : Nat) (v : α) : store m i v i = v := by
  simp [store]

theorem store_other {α : Type} (m : Nat → α) (i j : Nat) (v : α) (h : j ≠ i) :
    store m i v j = m j := by
  simp [store, h]

theorem bwc_write_loop_done (fuel : Nat) (bwc : bit_writer_context) (x : Nat)
    (h : bwc.written_bits_count < 8) : bwc_write_loop fuel bwc x = bwc := by
  cases fuel with
  | zero => rfl
  | succ n => simp [bwc_write_loop, Nat.not_le.mpr h]

theorem bwc_write_loop_carry (fuel : Nat) (bwc : bit_writer_context) (x : Nat)
    (h : 8 ≤ bwc.written_bits_count) :
    bwc_write_loop (fuel + 1) bwc x = bwc_write_loop fuel
        { written_bits_count := bwc.written_bits_count - 8
          pos := bwc.pos + 1
          buffer := store bwc.buffer (bwc.pos + 1) ((x >>> 8) % 256) } (x >>> 8) := by
  simp [bwc_write_loop, h]

/-- The carry loop moves `written_bits_count / 8` whole bytes out of `x`. -/
theorem bwc_write_loop_spec (fuel : Nat) (bwc : bit_writer_context) (x : Nat)
    (hf : bwc.written_bits_count < 8 * (fuel + 1)) :
    (bwc_write_loop fuel bwc x).pos = bwc.pos + bwc.written_bits_count / 8 ∧
    (bwc_write_loop fuel bwc x).written_bits_count = bwc.written_bits_count % 8 ∧
    ∀ i, (bwc_write_loop fuel bwc x).buffer i =
      if bwc.pos < i ∧ i ≤ bwc.pos + bwc.written_bits_count / 8
      then (x >>> (8 * (i - bwc.pos))) % 256 else bwc.buffer i := by
  induction fuel generalizing bwc x with
  | zero =>
    have h8 : bwc.written_bits_count / 8 = 0 := by omega
    refine ⟨by simp [bwc_write_loop, h8], by simp [bwc_write_loop]; omega, ?_⟩
    intro i
    have : ¬ (bwc.pos < i ∧ i ≤ bwc.pos + bwc.written_bits_count / 8) := by omega
    simp [bwc_write_loop, this]
  | succ fuel ih =>
    by_cases h : 8 ≤ bwc.written_bits_count
    · have hstep := ih
        { written_bits_count := bwc.written_bits_count - 8
          pos := bwc.pos + 1
          buffer := store bwc.buffer (bwc.pos + 1) ((x >>> 8) % 256) } (x >>> 8)
        (by simp only; omega)
      simp only at hstep
      obtain ⟨h1, h2, h3⟩ := hstep
      have hq : bwc.written_bits_count / 8 = (bwc.written_bits_count - 8) / 8 + 1 := by omega
      simp only [bwc_write_loop, h, if_true]
      refine ⟨by rw [h1]; omega, by rw [h2]; omega, ?_⟩
      intro i
      rw [h3 i]
      by_cases c1 : bwc.pos + 1 < i ∧ i ≤ bwc.pos + 1 + (bwc.written_bits_count - 8) / 8
      · have c2 : bwc.pos < i ∧ i ≤ bwc.pos + bwc.written_bits_count / 8 := by omega
        have e : 8 * (i - bwc.pos) = 8 + 8 * (i - (bwc.pos + 1)) := by omega
        rw [if_pos c1, if_pos c2, e, Nat.shiftRight_add]
      · rw [if_neg c1]
        by_cases c3 : i = bwc.pos + 1
        · have c2 : bwc.pos < i ∧ i ≤ bwc.pos + bwc.written_bits_count / 8 := by omega
          rw [if_pos c2, c3, store_same]
          have : 8 * (bwc.pos + 1 - bwc.pos) = 8 := by omega
          rw [this]
        · have c2 : ¬ (bwc.pos < i ∧ i ≤ bwc.pos + bwc.written_bits_count / 8) := by omega
          rw [if_neg c2, store_other _ _ _ _ c3]
    · have h8 : bwc.written_bits_count / 8 = 0 := by omega
      have h9 : bwc.written_bits_count % 8 = bwc.written_bits_count := by omega
      simp only [bwc_write_loop, h, if_false]
      refine ⟨by omega, by omega, ?_⟩
      intro i
      have : ¬ (bwc.pos < i ∧ i ≤ bwc.pos + bwc.written_bits_count / 8) := by omega
      rw [if_neg this]

theorem testBit_of_lt_pow {v n j : Nat} (hv : v < 2 ^ n) (hj : n ≤ j) : v.testBit j = false :=
  Nat.testBit_lt_two_pow (Nat.lt_of_lt_of_le hv (Nat.pow_le_pow_right (by decide) hj))

/-- Bits of the shifted word `x = value << written_bits_count` of `bwc_write_bits`. -/
theorem shifted_word_bit {value count w : Nat} (hw : w < 8) (hc : count ≤ 16)
    (hv : value < 2 ^ count) (k : Nat) :
    ((value <<< w) % 2 ^ 32).testBit k = (decide (w ≤ k) && value.testBit (k - w)) := by
  have h1 : value <<< w < 2 ^ 32 := by
    rw [Nat.shiftLeft_eq]
    calc value * 2 ^ w < 2 ^ count * 2 ^ w := by
          exact Nat.mul_lt_mul_of_pos_right hv (Nat.two_pow_pos w)
      _ = 2 ^ (count + w) := by rw [Nat.pow_add]
      _ ≤ 2 ^ 32 := Nat.pow_le_pow_right (by decide) (by omega)
  rw [Nat.mod_eq_of_lt h1, Nat.testBit_shiftLeft]

/-- Bit `b` of the byte `(uint8_t)(x >> 8q)`. -/
theorem byte_bit (x q b : Nat) (hb : b < 8) :
    ((x >>> (8 * q)) % 256).testBit b = x.testBit (8 * q + b) := by
  have e : (256 : Nat) = 2 ^ 8 := by decide
  rw [e, Nat.testBit_mod_two_pow, Nat.testBit_shiftRight]
  simp [hb]

/-- One call of `bwc_write_bits` on a writer that satisfies the invariant: the invariant
is kept, the bit position advances by `count`, the bits written before stay, and the
`count` new stream bits are the low bits of `value`, least significant first. -/
theorem bwc_write_bits_spec (bwc : bit_writer_context) (value count : Nat)
    (hok : bwc_ok bwc) (hc : count ≤ 16) (hv : value < 2 ^ count) :
    bwc_ok (bwc_write_bits bwc value count) ∧
    bit_position (bwc_write_bits bwc value count) = bit_position bwc + count ∧
    (∀ t, t < bit_position bwc →
      stream_bit (bwc_write_bits bwc value count).buffer t = stream_bit bwc.buffer t) ∧
    (∀ j, j < count →
      stream_bit (bwc_write_bits bwc value count).buffer (bit_position bwc + j)
        = value.testBit j) := by
  obtain ⟨hw, hhi⟩ := hok
  have hmod : (bwc.written_bits_count + count) % 256 = bwc.written_bits_count + count := by
    omega
  have hloop := bwc_write_loop_spec 32
    { written_bits_count := (bwc.written_bits_count + count) % 256
      pos := bwc.pos
      buffer := store bwc.buffer bwc.pos
        (bwc.buffer bwc.pos ||| (((value <<< bwc.written_bits_count) % 2 ^ 32) % 256)) }
    ((value <<< bwc.written_bits_count) % 2 ^ 32) (by simp only; omega)
  simp only [hmod] at hloop
  obtain ⟨hp, hcnt, hbuf⟩ := hloop
  have hp' : (bwc_write_bits bwc value count).pos
      = bwc.pos + (bwc.written_bits_count + count) / 8 := by
    simpa [bwc_write_bits, hmod] using hp
  have hcnt' : (bwc_write_bits bwc value count).written_bits_count
      = (bwc.written_bits_count + count) % 8 := by
    simpa [bwc_write_bits, hmod] using hcnt
  have hbuf' : ∀ i, (bwc_write_bits bwc value count).buffer i =
      if bwc.pos < i ∧ i ≤ bwc.pos + (bwc.written_bits_count + count) / 8
      then (((value <<< bwc.written_bits_count) % 2 ^ 32) >>> (8 * (i - bwc.pos))) % 256
      else store bwc.buffer bwc.pos
        (bwc.buffer bwc.pos ||| (((value <<< bwc.written_bits_count) % 2 ^ 32) % 256)) i := by
    intro i
    simpa [bwc_write_bits, hmod] using hbuf i
  have xb := fun k => @shifted_word_bit value count bwc.written_bits_count hw hc hv k
  have xb0 : ∀ b, b < 8 →
      ((((value <<< bwc.written_bits_count) % 2 ^ 32)) % 256).testBit b
        = ((value <<< bwc.written_bits_count) % 2 ^ 32).testBit b := by
    intro b hb
    have := byte_bit ((value <<< bwc.written_bits_count) % 2 ^ 32) 0 b hb
    simpa using this
  -- bit `b` of the byte at `pos + q` after the call
  have hbit : ∀ q b, b < 8 → q ≤ (bwc.written_bits_count + count) / 8 →
      ((bwc_write_bits bwc value count).buffer (bwc.pos + q)).testBit b =
        ((decide (q = 0) && (bwc.buffer bwc.pos).testBit b) ||
          (decide (bwc.written_bits_count ≤ 8 * q + b)
            && value.testBit (8 * q + b - bwc.written_bits_count))) := by
    intro q b hb hq
    rw [hbuf']
    by_cases hq0 : q = 0
    · subst hq0
      have : ¬ (bwc.pos < bwc.pos + 0 ∧
          bwc.pos + 0 ≤ bwc.pos + (bwc.written_bits_count + count) / 8) := by omega
      rw [if_neg this]
      simp only [Nat.add_zero, store_same, Nat.testBit_or, xb0 b hb, xb]
      simp
    · have : bwc.pos < bwc.pos + q ∧
          bwc.pos + q ≤ bwc.pos + (bwc.written_bits_count + count) / 8 := by omega
      rw [if_pos this]
      have e : bwc.pos + q - bwc.pos = q := by omega
      rw [e, byte_bit _ _ _ hb, xb]
      simp [hq0]
  refine ⟨⟨by rw [hcnt']; omega, ?_⟩, ?_, ?_, ?_⟩
  · -- the pending byte has no bit at or above the new count
    rw [hp', hcnt']
    apply Nat.lt_pow_two_of_testBit
    intro b hb
    by_cases hb8 : b < 8
    · rw [hbit _ b hb8 (le_refl _)]
      have h1 : (bwc.buffer bwc.pos).testBit b = false ∨
          ¬ ((bwc.written_bits_count + count) / 8 = 0) := by
        by_cases hz : (bwc.written_bits_count + count) / 8 = 0
        · left
          exact testBit_of_lt_pow hhi (by omega)
        · right; exact hz
      have h2 : bwc.written_bits_count ≤ 8 * ((bwc.written_bits_count + count) / 8) + b →
          value.testBit (8 * ((bwc.written_bits_count + count) / 8) + b
            - bwc.written_bits_count) = false := by
        intro _
        exact testBit_of_lt_pow hv (by omega)
      rcases h1 with h1 | h1
      · rw [h1]
        by_cases h3 : bwc.written_bits_count ≤ 8 * ((bwc.written_bits_count + count) / 8) + b
        · simp [h2 h3]
        · simp [h3]
      · by_cases h3 : bwc.written_bits_count ≤ 8 * ((bwc.written_bits_count + count) / 8) + b
        · simp [h2 h3, h1]
        · simp [h3, h1]
    · have hlt : (bwc_write_bits bwc value count).buffer
          (bwc.pos + (bwc.written_bits_count + count) / 8) < 2 ^ 8 := by
        rw [hbuf']
        by_cases c : bwc.pos < bwc.pos + (bwc.written_bits_count + count) / 8 ∧
            bwc.pos + (bwc.written_bits_count + count) / 8
              ≤ bwc.pos + (bwc.written_bits_count + count) / 8
        · rw [if_pos c]
          exact Nat.mod_lt _ (by decide)
        · rw [if_neg c]
          have e : bwc.pos + (bwc.written_bits_count + count) / 8 = bwc.pos := by omega
          rw [e, store_same]
          apply Nat.or_lt_two_pow
          · exact Nat.lt_of_lt_of_le hhi (Nat.pow_le_pow_right (by decide) (by omega))
          · exact Nat.mod_lt _ (by decide)
      exact testBit_of_lt_pow hlt (by omega)
  · simp only [bit_position, hp', hcnt']
    omega
  · intro t ht
    simp only [bit_position] at ht
    simp only [stream_bit]
    by_cases hlt : t / 8 < bwc.pos
    · rw [hbuf']
      have c : ¬ (bwc.pos < t / 8 ∧
          t / 8 ≤ bwc.pos + (bwc.written_bits_count + count) / 8) := by omega
      rw [if_neg c, store_other _ _ _ _ (by omega)]
    · have e : t / 8 = bwc.pos + 0 := by omega
      rw [e, hbit 0 (t % 8) (Nat.mod_lt _ (by decide)) (Nat.zero_le _)]
      have h3 : ¬ (bwc.written_bits_count ≤ t % 8) := by omega
      simp [h3]
  · intro j hj
    simp only [bit_position, stream_bit]
    have e1 : (8 * bwc.pos + bwc.written_bits_count + j) / 8
        = bwc.pos + (bwc.written_bits_count + j) / 8 := by omega
    have e2 : (8 * bwc.pos + bwc.written_bits_count + j) % 8
        = (bwc.written_bits_count + j) % 8 := by omega
    rw [e1, e2, hbit _ _ (Nat.mod_lt _ (by decide)) (by omega)]
    have e3 : 8 * ((bwc.written_bits_count + j) / 8) + (bwc.written_bits_count + j) % 8
        = bwc.written_bits_count + j := by omega
    rw [e3]
    have e4 : bwc.written_bits_count + j - bwc.written_bits_count = j := by omega
    rw [e4]
    by_cases hq : (bwc.written_bits_count + j) / 8 = 0
    · have : (bwc.buffer bwc.pos).testBit ((bwc.written_bits_count + j) % 8) = false :=
        testBit_of_lt_pow hhi (by omega)
      simp [this]
    · simp [hq]

theorem length_low_bits (v n : Nat) : (low_bits v n).length = n := by
  simp [low_bits]

theorem getElem?_low_bits (v n t : Nat) (h : t < n) :
    (low_bits v n)[t]? = some (v.testBit t) := by
  simp [low_bits, List.getElem?_range h]

theorem length_written_bits (ws : List (Nat × Nat)) :
    (written_bits ws).length = (ws.map Prod.snd).sum := by
  induction ws with
  | nil => rfl
  | cons w ws ih => simp [written_bits, length_low_bits, ih]

theorem bwc_ok_init (buffer : Nat → Nat) : bwc_ok (bwc_init buffer) := by
  simp [bwc_ok, bwc_init, store]

/-- A sequence of valid writes appends exactly its bit string to the stream. -/
theorem bwc_writes_spec (ws : List (Nat × Nat)) (bwc : bit_writer_context)
    (hok : bwc_ok bwc) (hws : ∀ w ∈ ws, valid_write w) :
    bwc_ok (bwc_writes bwc ws) ∧
    bit_position (bwc_writes bwc ws) = bit_position bwc + total_bits ws ∧
    (∀ t, t < bit_position bwc →
      stream_bit (bwc_writes bwc ws).buffer t = stream_bit bwc.buffer t) ∧
    (∀ t, t < total_bits ws →
      (written_bits ws)[t]? =
        some (stream_bit (bwc_writes bwc ws).buffer (bit_position bwc + t))) := by
  induction ws generalizing bwc with
  | nil =>
    refine ⟨hok, by simp [bwc_writes, total_bits], fun t _ => rfl, ?_⟩
    intro t ht
    simp [total_bits] at ht
  | cons w ws ih =>
    obtain ⟨_, hw16, hwv⟩ := hws w (List.mem_cons_self _ _)
    obtain ⟨a1, a2, a3, a4⟩ := bwc_write_bits_spec bwc w.1 w.2 hok hw16 hwv
    obtain ⟨b1, b2, b3, b4⟩ := ih (bwc_write_bits bwc w.1 w.2) a1
      (fun v hv => hws v (List.mem_cons_of_mem _ hv))
    have hfold : bwc_writes bwc (w :: ws) = bwc_writes (bwc_write_bits bwc w.1 w.2) ws := rfl
    have htot : total_bits (w :: ws) = w.2 + total_bits ws := by
      simp [total_bits]
    rw [hfold, htot]
    refine ⟨b1, by rw [b2, a2]; omega, ?_, ?_⟩
    · intro t ht
      rw [b3 t (by rw [a2]; omega), a3 t ht]
    · intro t ht
      simp only [written_bits]
      by_cases c : t < w.2
      · rw [List.getElem?_append_left (by rw [length_low_bits]; exact c),
          getElem?_low_bits _ _ _ c, b3 _ (by rw [a2]; omega), a4 t c]
      · rw [List.getElem?_append_right (by rw [length_low_bits]; omega), length_low_bits,
          b4 (t - w.2) (by omega), a2]
        have e : bit_position bwc + w.2 + (t - w.2) = bit_position bwc + t := by omega
        rw [e]

/-! ## C1: the bit writer is LSB-first -/

/-- C1: for every sequence of writes `(v_i, n_i)` with `1 ≤ n_i ≤ 16` and `v_i < 2^n_i`
applied by `bwc_write_bits` to a freshly initialised writer (over any buffer memory), the
bit position `8*pos + written_bits_count` is the sum of the `n_i`, and stream bit `t` is
bit `t` of the concatenation of the `n_i` low bits of each `v_i`, least significant first;
writing `(5,3), (7,3), (0,2)` yields one complete byte, `0x3D`. -/
theorem C1_bwc_write_bits_lsb_first (buffer : Nat → Nat) (ws : List (Nat × Nat))
    (h : ∀ w ∈ ws, 1 ≤ w.2 ∧ w.2 ≤ 16 ∧ w.1 < 2 ^ w.2) :
    8 * (bwc_writes (bwc_init buffer) ws).pos
        + (bwc_writes (bwc_init buffer) ws).written_bits_count = (ws.map Prod.snd).sum ∧
    (written_bits ws).length = (ws.map Prod.snd).sum ∧
    (∀ t, t < (ws.map Prod.snd).sum →
      (written_bits ws)[t]? =
        some (((bwc_writes (bwc_init buffer) ws).buffer (t / 8)).testBit (t % 8))) ∧
    (bwc_writes (bwc_init buffer) [(5, 3), (7, 3), (0, 2)]).pos = 1 ∧
    (bwc_writes (bwc_init buffer) [(5, 3), (7, 3), (0, 2)]).written_bits_count = 0 ∧
    (bwc_writes (bwc_init buffer) [(5, 3), (7, 3), (0, 2)]).buffer 0 = 0x3D := by
  obtain ⟨_, h2, _, h4⟩ := bwc_writes_spec ws (bwc_init buffer) (bwc_ok_init buffer) h
  have hz : bit_position (bwc_init buffer) = 0 := rfl
  rw [hz, Nat.zero_add] at h2
  refine ⟨h2, length_written_bits ws, ?_, rfl, rfl, ?_⟩
  · intro t ht
    have := h4 t ht
    rw [hz, Nat.zero_add] at this
    exact this
  · simp [bwc_writes, bwc_write_bits, bwc_init, bwc_write_loop_done, bwc_write_loop_carry,
      store]

/-- Witness for C1 at the three writes of the bit packer scenario. -/
theorem C1_bwc_write_bits_lsb_first_witness :
    8 * (bwc_writes (bwc_init (fun _ => 0xAA)) [(5, 3), (7, 3), (0, 2)]).pos
        + (bwc_writes (bwc_init (fun _ => 0xAA)) [(5, 3), (7, 3), (0, 2)]).written_bits_count
      = 8 ∧
    (bwc_writes (bwc_init (fun _ => 0xAA)) [(5, 3), (7, 3), (0, 2)]).buffer 0 = 0x3D :=
  ⟨(C1_bwc_write_bits_lsb_first (fun _ => 0xAA) [(5, 3), (7, 3), (0, 2)] (by decide)).1,
   (C1_bwc_write_bits_lsb_first (fun _ => 0xAA) [(5, 3), (7, 3), (0, 2)]
      (by decide)).2.2.2.2.2⟩

/-! ## C2: the Huffman models are prefix codes -/

/-- Table check behind C2, over table positions `k = 13 + s`: widths, value ranges and
the escape prefix. -/
theorem huffman_models_check :
    ∀ model : Nat, model < 2 → ∀ k : Nat, k < 27 →
      (huffman_models model ((k : Int) - 13)).bits_value
          < 2 ^ (huffman_models model ((k : Int) - 13)).bits_count ∧
      1 ≤ (huffman_models model ((k : Int) - 13)).bits_count ∧
      (huffman_models model ((k : Int) - 13)).bits_count ≤ 16 ∧
      ¬ code_bits (huffman_models model ((k : Int) - 13)) <+: code_bits (escape_code model) ∧
      ¬ code_bits (escape_code model)
          <+: code_bits (huffman_models model ((k : Int) - 13)) := by
  decide!

/-- Table check behind C2: no code word of a model heads another one of the same model. -/
theorem huffman_models_prefix_free :
    ∀ model : Nat, model < 2 → ∀ k : Nat, k < 27 → ∀ j : Nat, j < 27 → j ≠ k →
        ¬ code_bits (huffman_models model ((k : Int) - 13))
            <+: code_bits (huffman_models model ((j : Int) - 13)) := by
  decide!

/-- In a list of items whose code words are pairwise incomparable, the first item whose
code word heads `code ++ rest` is the item of `code` itself. -/
theorem find_prefix_item {α : Type} (l : List (α × huffman_code)) (it : α × huffman_code)
    (rest : List Bool) (hmem : it ∈ l)
    (hfree : ∀ x ∈ l, x ≠ it →
      ¬ code_bits x.2 <+: code_bits it.2 ∧ ¬ code_bits it.2 <+: code_bits x.2) :
    l.find? (fun x => (code_bits x.2).isPrefixOf (code_bits it.2 ++ rest)) = some it := by
  induction l with
  | nil => cases hmem
  | cons x l ih =>
    by_cases hx : x = it
    · subst hx
      exact List.find?_cons_of_pos _ (by simp)
    · have hn : ¬ (code_bits x.2).isPrefixOf (code_bits it.2 ++ rest) = true := by
        intro hp
        rw [List.isPrefixOf_iff_prefix] at hp
        obtain ⟨h1, h2⟩ := hfree x (List.mem_cons_self _ _) hx
        rcases List.prefix_or_prefix_of_prefix hp (List.prefix_append _ rest) with h | h
        · exact h1 h
        · exact h2 h
      have hb : (code_bits x.2).isPrefixOf (code_bits it.2 ++ rest) = false :=
        Bool.eq_false_iff.mpr hn
      rw [List.find?_cons]
      simp only [hb]
      apply ih
      · rcases List.mem_cons.mp hmem with h | h
        · exact absurd h.symm hx
        · exact h
      · intro y hy
        exact hfree y (List.mem_cons_of_mem _ hy)

/-- C2: in each of the two tables of `huffman_models`, the code word of every symbol
`s ∈ [-13, 13]` has `bits_value < 2^bits_count` and `1 ≤ bits_count ≤ 16`; it is neither
equal to, nor a prefix of, nor prefixed by the code word of any other symbol of the model
or the model's escape prefix (eight 1-bits in model 0, seven in model 1); hence a prefix
decoder reading the code word followed by any further bits recovers `s` and consumes
exactly `bits_count` bits. -/
theorem C2_huffman_models_prefix_code (model : Nat) (s : Int) (hm : model < 2)
    (hs : -13 ≤ s ∧ s ≤ 13) :
    (huffman_models model s).bits_value < 2 ^ (huffman_models model s).bits_count ∧
    1 ≤ (huffman_models model s).bits_count ∧ (huffman_models model s).bits_count ≤ 16 ∧
    (code_bits (huffman_models model s)).length = (huffman_models model s).bits_count ∧
    (∀ s' : Int, -13 ≤ s' → s' ≤ 13 → s' ≠ s →
      ¬ code_bits (huffman_models model s) <+: code_bits (huffman_models model s') ∧
      ¬ code_bits (huffman_models model s') <+: code_bits (huffman_models model s)) ∧
    ¬ code_bits (huffman_models model s) <+: code_bits (escape_code model) ∧
    ¬ code_bits (escape_code model) <+: code_bits (huffman_models model s) ∧
    (∀ rest : List Bool,
      prefix_decode model (code_bits (huffman_models model s) ++ rest) = some (some s, rest) ∧
      rest.length + (huffman_models model s).bits_count
        = (code_bits (huffman_models model s) ++ rest).length) := by
  obtain ⟨hs1, hs2⟩ := hs
  have hk : ((s + 13).toNat : Int) - 13 = s := by omega
  have hk27 : (s + 13).toNat < 27 := by omega
  obtain ⟨c1, c2, c3, c4, c5⟩ := huffman_models_check model hm (s + 13).toNat hk27
  rw [hk] at c1 c2 c3 c4 c5
  have hpair : ∀ s' : Int, -13 ≤ s' → s' ≤ 13 → s' ≠ s →
      ¬ code_bits (huffman_models model s) <+: code_bits (huffman_models model s') ∧
      ¬ code_bits (huffman_models model s') <+: code_bits (huffman_models model s) := by
    intro s' h1 h2 hne
    have hk' : ((s' + 13).toNat : Int) - 13 = s' := by omega
    have hk27' : (s' + 13).toNat < 27 := by omega
    have hkne : (s' + 13).toNat ≠ (s + 13).toNat := by omega
    have p1 := huffman_models_prefix_free model hm _ hk27 _ hk27' hkne
    have p2 := huffman_models_prefix_free model hm _ hk27' _ hk27 (Ne.symm hkne)
    rw [hk, hk'] at p1 p2
    exact ⟨p1, p2⟩
  have hlen : (code_bits (huffman_models model s)).length
      = (huffman_models model s).bits_count := length_low_bits _ _
  refine ⟨c1, c2, c3, hlen, hpair, c4, c5, ?_⟩
  intro rest
  refine ⟨?_, by rw [List.length_append, hlen]; omega⟩
  have hmem : ((some s, huffman_models model s) : Option Int × huffman_code)
      ∈ model_items model := by
    simp only [model_items, List.mem_append, List.mem_map, List.mem_range]
    left
    exact ⟨(s + 13).toNat, hk27, by rw [hk]⟩
  have hfree : ∀ x ∈ model_items model, x ≠ (some s, huffman_models model s) →
      ¬ code_bits x.2 <+: code_bits (huffman_models model s) ∧
      ¬ code_bits (huffman_models model s) <+: code_bits x.2 := by
    intro x hx hne
    simp only [model_items, List.mem_append, List.mem_map, List.mem_range,
      List.mem_singleton] at hx
    rcases hx with ⟨k, hk1, rfl⟩ | rfl
    · have hne' : (k : Int) - 13 ≠ s := by
        intro h
        apply hne
        rw [h]
      obtain ⟨q1, q2⟩ := hpair ((k : Int) - 13) (by omega) (by omega) hne'
      exact ⟨q2, q1⟩
    · exact ⟨c5, c4⟩
  have hfind := find_prefix_item (model_items model) (some s, huffman_models model s) rest
    hmem hfree
  simp only [prefix_decode]
  rw [hfind]
  simp only [Option.map_some']
  rw [List.drop_left' hlen]

/-- Witness for C2: model 1, symbol `-2` (code word `1` on 3 bits). -/
theorem C2_huffman_models_prefix_code_witness :
    prefix_decode 1 (code_bits (huffman_models 1 (-2)) ++ [true, false]) =
      some (some (-2), [true, false]) :=
  ((C2_huffman_models_prefix_code 1 (-2) (by decide) (by decide)).2.2.2.2.2.2.2
    [true, false]).1

/-! ## C8: the reflection coefficient table -/

/-- C8: `utk_rc_table` has exactly 64 entries, `utk_rc_table[32] = 0`,
`utk_rc_table[i] + utk_rc_table[64-i] = 0` for every `i` in `1..31`, and every entry lies
in `[-0.9968, +0.9968]`. -/
theorem C8_utk_rc_table_symmetric :
    utk_rc_table_list.length = 64 ∧
    utk_rc_table 32 = 0 ∧
    (∀ i : Nat, i < 32 → 1 ≤ i → utk_rc_table i + utk_rc_table (64 - i) = 0) ∧
    (∀ i : Nat, i < 64 → -0.9968 ≤ utk_rc_table i ∧ utk_rc_table i ≤ 0.9968) := by
  decide!

/-! ## C7: `quantize` picks the nearest entry, ties to the lower index -/

theorem ABS_eq_abs (x : ℚ) : ABS x = |x| := by
  unfold ABS
  split
  · next h => exact (abs_of_nonneg h).symm
  · next h => exact (abs_of_neg (not_le.mp h)).symm

/-- Invariant of the search loop of `quantize`. -/
theorem quantize_loop_spec (value : ℚ) (alphabet : Nat → ℚ) (n : Nat) :
    ∀ (fuel i min_idx : Nat) (min_distance : ℚ),
      n ≤ i + fuel → min_idx < i → min_distance = |value - alphabet min_idx| →
      (∀ j, j < i → min_distance ≤ |value - alphabet j|) →
      (∀ j, j < min_idx → min_distance < |value - alphabet j|) →
      quantize_loop value alphabet n fuel i min_idx min_distance < max i n ∧
      (∀ j, j < max i n →
        |value - alphabet (quantize_loop value alphabet n fuel i min_idx min_distance)|
          ≤ |value - alphabet j|) ∧
      (∀ j, j < quantize_loop value alphabet n fuel i min_idx min_distance →
        |value - alphabet (quantize_loop value alphabet n fuel i min_idx min_distance)|
          < |value - alphabet j|) := by
  intro fuel
  induction fuel with
  | zero =>
    intro i min_idx min_distance hf hlt hd hall hlow
    have hmax : max i n = i := max_eq_left (by omega)
    simp only [quantize_loop, hmax]
    exact ⟨hlt, fun j hj => hd ▸ hall j hj, fun j hj => hd ▸ hlow j hj⟩
  | succ fuel ih =>
    intro i min_idx min_distance hf hlt hd hall hlow
    by_cases hin : i < n
    · have hmax : max i n = max (i + 1) n := by
        rw [max_eq_right (by omega), max_eq_right (by omega)]
      by_cases hcmp : ABS (value - alphabet i) < min_distance
      · have hstep : quantize_loop value alphabet n (fuel + 1) i min_idx min_distance
            = quantize_loop value alphabet n fuel (i + 1) i (ABS (value - alphabet i)) := by
          simp [quantize_loop, hin, hcmp]
        rw [hstep, hmax]
        rw [ABS_eq_abs] at hcmp ⊢
        apply ih (i + 1) i _ (by omega) (by omega) rfl
        · intro j hj
          rcases Nat.lt_succ_iff_lt_or_eq.mp hj with h | h
          · exact le_trans (le_of_lt hcmp) (hall j h)
          · rw [h]
        · intro j hj
          exact lt_of_lt_of_le hcmp (hall j hj)
      · have hstep : quantize_loop value alphabet n (fuel + 1) i min_idx min_distance
            = quantize_loop value alphabet n fuel (i + 1) min_idx min_distance := by
          simp [quantize_loop, hin, hcmp]
        rw [hstep, hmax]
        rw [ABS_eq_abs] at hcmp
        apply ih (i + 1) min_idx _ (by omega) (by omega) hd
        · intro j hj
          rcases Nat.lt_succ_iff_lt_or_eq.mp hj with h | h
          · exact hall j h
          · rw [h]; exact not_lt.mp hcmp
        · exact hlow
    · have hmax : max i n = i := max_eq_left (by omega)
      have hstep : quantize_loop value alphabet n (fuel + 1) i min_idx min_distance
          = min_idx := by
        simp [quantize_loop, hin]
      rw [hstep, hmax]
      exact ⟨hlt, fun j hj => hd ▸ hall j hj, fun j hj => hd ▸ hlow j hj⟩

/-- `quantize` returns the smallest index below `alphabet_size` that minimises the
distance to `value`. -/
theorem quantize_spec (value : ℚ) (alphabet : Nat → ℚ) (n : Nat) (hn : 0 < n) :
    quantize value alphabet n < n ∧
    (∀ j, j < n → |value - alphabet (quantize value alphabet n)| ≤ |value - alphabet j|) ∧
    (∀ j, j < quantize value alphabet n →
      |value - alphabet (quantize value alphabet n)| < |value - alphabet j|) := by
  have h := quantize_loop_spec value alphabet n n 1 0 (ABS (value - alphabet 0))
    (by omega) (by omega) (ABS_eq_abs _)
    (by
      intro j hj
      have : j = 0 := by omega
      rw [this, ABS_eq_abs])
    (by intro j hj; omega)
  have hmax : max 1 n = n := max_eq_right (by omega)
  rw [hmax] at h
  exact h

/-- The twelve iterations of the two quantisation loops of `main`, unrolled. -/
theorem quantize_rc_unfold (huffman_threshold : Int) (bwc : bit_writer_context)
    (rc : Nat → ℚ) :
    (quantize_rc huffman_threshold bwc rc).indices =
      [1 + quantize (rc 0) (fun k => utk_rc_table (1 + k)) 63,
       1 + quantize (rc 1) (fun k => utk_rc_table (1 + k)) 63,
       1 + quantize (rc 2) (fun k => utk_rc_table (1 + k)) 63,
       1 + quantize (rc 3) (fun k => utk_rc_table (1 + k)) 63,
       quantize (rc 4) (fun k => utk_rc_table (16 + k)) 32,
       quantize (rc 5) (fun k => utk_rc_table (16 + k)) 32,
       quantize (rc 6) (fun k => utk_rc_table (16 + k)) 32,
       quantize (rc 7) (fun k => utk_rc_table (16 + k)) 32,
       quantize (rc 8) (fun k => utk_rc_table (16 + k)) 32,
       quantize (rc 9) (fun k => utk_rc_table (16 + k)) 32,
       quantize (rc 10) (fun k => utk_rc_table (16 + k)) 32,
       quantize (rc 11) (fun k => utk_rc_table (16 + k)) 32] ∧
    (quantize_rc huffman_threshold bwc rc).bwc =
      bwc_writes bwc
        (((quantize_rc huffman_threshold bwc rc).indices.take 4).map (fun idx => (idx, 6)) ++
         ((quantize_rc huffman_threshold bwc rc).indices.drop 4).map (fun idx => (idx, 5))) ∧
    (∀ k, k < 4 → (quantize_rc huffman_threshold bwc rc).rc k =
      utk_rc_table (1 + quantize (rc k) (fun j => utk_rc_table (1 + j)) 63)) ∧
    (∀ k, 4 ≤ k → k < 12 → (quantize_rc huffman_threshold bwc rc).rc k =
      utk_rc_table (16 + quantize (rc k) (fun j => utk_rc_table (16 + j)) 32)) := by
  have hidx : (quantize_rc huffman_threshold bwc rc).indices =
      [1 + quantize (rc 0) (fun k => utk_rc_table (1 + k)) 63,
       1 + quantize (rc 1) (fun k => utk_rc_table (1 + k)) 63,
       1 + quantize (rc 2) (fun k => utk_rc_table (1 + k)) 63,
       1 + quantize (rc 3) (fun k => utk_rc_table (1 + k)) 63,
       quantize (rc 4) (fun k => utk_rc_table (16 + k)) 32,
       quantize (rc 5) (fun k => utk_rc_table (16 + k)) 32,
       quantize (rc 6) (fun k => utk_rc_table (16 + k)) 32,
       quantize (rc 7) (fun k => utk_rc_table (16 + k)) 32,
       quantize (rc 8) (fun k => utk_rc_table (16 + k)) 32,
       quantize (rc 9) (fun k => utk_rc_table (16 + k)) 32,
       quantize (rc 10) (fun k => utk_rc_table (16 + k)) 32,
       quantize (rc 11) (fun k => utk_rc_table (16 + k)) 32] := by
    simp [quantize_rc, quantize_rc_first, quantize_rc_rest, store]
  refine ⟨hidx, ?_, ?_, ?_⟩
  · rw [hidx]
    simp [quantize_rc, quantize_rc_first, quantize_rc_rest, store, bwc_writes]
  · intro k hk
    interval_cases k <;> simp [quantize_rc, quantize_rc_first, quantize_rc_rest, store]
  · intro k hk1 hk2
    interval_cases k <;> simp [quantize_rc, quantize_rc_first, quantize_rc_rest, store]

theorem total_bits_append (a b : List (Nat × Nat)) :
    total_bits (a ++ b) = total_bits a + total_bits b := by
  simp [total_bits]

theorem written_bits_append (a b : List (Nat × Nat)) :
    written_bits (a ++ b) = written_bits a ++ written_bits b := by
  induction a with
  | nil => rfl
  | cons w a ih => simp [written_bits, ih]

/-- A field whose bits are the low bits of `v` reads back as `v`. -/
theorem stream_field_eq (buffer : Nat → Nat) (start v : Nat) :
    ∀ width, (∀ j, j < width → stream_bit buffer (start + j) = v.testBit j) →
      stream_field buffer start width = v % 2 ^ width := by
  intro width
  induction width with
  | zero => intro _; simp [stream_field, Nat.mod_one]
  | succ w ih =>
    intro h
    rw [stream_field, ih (fun j hj => h j (by omega)), h w (by omega), Nat.mod_pow_succ,
      Nat.testBit_to_div_mod]
    rcases Nat.mod_two_eq_zero_or_one (v / 2 ^ w) with h0 | h1
    · simp [h0]
    · simp [h1]

/-- The write `(v, n)` inside a sequence of valid writes occupies the `n` stream bits that
follow the bits of the writes before it, and reads back as `v`. -/
theorem bwc_writes_field (bwc : bit_writer_context) (pre post : List (Nat × Nat))
    (v n : Nat) (hok : bwc_ok bwc) (hws : ∀ w ∈ pre ++ (v, n) :: post, valid_write w) :
    (∀ j, j < n →
      stream_bit (bwc_writes bwc (pre ++ (v, n) :: post)).buffer
        (bit_position bwc + total_bits pre + j) = v.testBit j) ∧
    stream_field (bwc_writes bwc (pre ++ (v, n) :: post)).buffer
      (bit_position bwc + total_bits pre) n = v := by
  obtain ⟨_, _, _, h4⟩ := bwc_writes_spec (pre ++ (v, n) :: post) bwc hok hws
  have hv : valid_write (v, n) := hws (v, n) (by simp)
  have hbits : ∀ j, j < n →
      stream_bit (bwc_writes bwc (pre ++ (v, n) :: post)).buffer
        (bit_position bwc + total_bits pre + j) = v.testBit j := by
    intro j hj
    have ht : total_bits pre + j < total_bits (pre ++ (v, n) :: post) := by
      rw [total_bits_append]
      simp only [total_bits, List.map_cons, List.sum_cons]
      omega
    have := h4 (total_bits pre + j) ht
    rw [written_bits_append, List.getElem?_append_right
      (by rw [length_written_bits]; exact Nat.le_add_right _ _), length_written_bits] at this
    have e : total_bits pre + j - (List.map Prod.snd pre).sum = j := by
      simp [total_bits]
    rw [e] at this
    simp only [written_bits] at this
    rw [List.getElem?_append_left (by rw [length_low_bits]; exact hj),
      getElem?_low_bits _ _ _ hj] at this
    have e2 : bit_position bwc + (total_bits pre + j)
        = bit_position bwc + total_bits pre + j := by omega
    rw [e2] at this
    exact (Option.some.inj this).symm
  refine ⟨hbits, ?_⟩
  rw [stream_field_eq _ _ v n hbits]
  exact Nat.mod_eq_of_lt hv.2.2

theorem to_unsigned_of_nonneg (x : Int) (h0 : 0 ≤ x) (h1 : x < 2 ^ 32) :
    to_unsigned x = x.toNat := by
  unfold to_unsigned
  rw [Int.emod_eq_of_lt h0 h1]

/-- `ROUND` of a value less than one half away from a non-negative integer. -/
theorem ROUND_near (y : ℚ) (m : Int) (hm : 0 ≤ m) (h : |y - m| < 1 / 2) : ROUND y = m := by
  obtain ⟨h1, h2⟩ := abs_lt.mp h
  unfold ROUND c_int
  by_cases hy : y ≥ 0
  · have hp : (0 : ℚ) ≤ y + 1 / 2 := by linarith
    rw [if_pos hy, if_pos hp, Int.floor_eq_iff]
    constructor <;> linarith
  · have hy' : y < 0 := not_le.mp hy
    have hm0 : m = 0 := by
      have : (m : ℚ) < 1 := by linarith
      have : m < 1 := by exact_mod_cast this
      omega
    subst hm0
    have hn : ¬ ((0 : ℚ) ≤ y - 1 / 2) := by
      intro hc
      linarith
    rw [if_neg hy, if_neg hn, Int.ceil_eq_iff]
    simp only [Int.cast_zero] at h1 h2 ⊢
    constructor <;> linarith

/-! ## C9: the stream parameter word -/

/-- The stream parameter word for thresholds that fit the 4-bit field: for
`halved_innovation ∈ {0,1}`, `huffman_threshold ∈ [17, 32]`, `inngain_sig ∈ {8, ..., 128}`
and `inngain_base` within half a step of `1 + v/1000`, `v ∈ [40, 103]`, the word is 15
bits long and each field reads back as the value that was written. -/
theorem stream_parameter_word_fields (buffer : Nat → Nat)
    (halved_innovation huffman_threshold inngain_sig v : Int) (inngain_base : ℚ)
    (hh : halved_innovation = 0 ∨ halved_innovation = 1)
    (hT : 17 ≤ huffman_threshold ∧ huffman_threshold ≤ 32)
    (hS : 8 ≤ inngain_sig ∧ inngain_sig ≤ 128 ∧ inngain_sig % 8 = 0)
    (hv : 40 ≤ v ∧ v ≤ 103)
    (hB : |inngain_base - (1 + (v : ℚ) / 1000)| < 1 / 2000) :
    8 * (write_stream_parameters buffer halved_innovation huffman_threshold inngain_sig
          inngain_base).pos
      + (write_stream_parameters buffer halved_innovation huffman_threshold inngain_sig
          inngain_base).written_bits_count = 15 ∧
    (stream_field (write_stream_parameters buffer halved_innovation huffman_threshold
        inngain_sig inngain_base).buffer 0 1 : Int) = halved_innovation ∧
    (stream_field (write_stream_parameters buffer halved_innovation huffman_threshold
        inngain_sig inngain_base).buffer 1 4 : Int) = 32 - huffman_threshold ∧
    (stream_field (write_stream_parameters buffer halved_innovation huffman_threshold
        inngain_sig inngain_base).buffer 5 4 : Int) = inngain_sig / 8 - 1 ∧
    (stream_field (write_stream_parameters buffer halved_innovation huffman_threshold
        inngain_sig inngain_base).buffer 9 6 : Int) = v - 40 := by
  obtain ⟨hT1, hT2⟩ := hT
  obtain ⟨hS1, hS2, hS3⟩ := hS
  obtain ⟨hv1, hv2⟩ := hv
  have hround : ROUND ((inngain_base - 1.04) * 1000) = v - 40 := by
    apply ROUND_near _ _ (by omega)
    have e : (inngain_base - 1.04) * 1000 - ((v - 40 : Int) : ℚ)
        = 1000 * (inngain_base - (1 + (v : ℚ) / 1000)) := by
      push_cast
      ring
    rw [e, abs_mul, abs_of_pos (by norm_num : (0 : ℚ) < 1000)]
    linarith
  have htdiv : Int.tdiv inngain_sig 8 = inngain_sig / 8 :=
    Int.tdiv_eq_ediv (by omega) (by omega)
  have e1 : to_unsigned halved_innovation = halved_innovation.toNat :=
    to_unsigned_of_nonneg _ (by omega) (by omega)
  have e2 : to_unsigned (32 - huffman_threshold) = (32 - huffman_threshold).toNat :=
    to_unsigned_of_nonneg _ (by omega) (by omega)
  have e3 : to_unsigned (Int.tdiv inngain_sig 8 - 1) = (inngain_sig / 8 - 1).toNat := by
    rw [htdiv]
    exact to_unsigned_of_nonneg _ (by omega) (by omega)
  have e4 : to_unsigned (ROUND ((inngain_base - 1.04) * 1000)) = (v - 40).toNat := by
    rw [hround]
    exact to_unsigned_of_nonneg _ (by omega) (by omega)
  have hdef : write_stream_parameters buffer halved_innovation huffman_threshold inngain_sig
      inngain_base = bwc_writes (bwc_init buffer)
        [(halved_innovation.toNat, 1), ((32 - huffman_threshold).toNat, 4),
         ((inngain_sig / 8 - 1).toNat, 4), ((v - 40).toNat, 6)] := by
    simp only [write_stream_parameters, e1, e2, e3, e4, bwc_writes, List.foldl]
  have hvalid : ∀ w ∈ [(halved_innovation.toNat, 1), ((32 - huffman_threshold).toNat, 4),
      ((inngain_sig / 8 - 1).toNat, 4), ((v - 40).toNat, 6)], valid_write w := by
    intro w hw
    simp only [List.mem_cons, List.mem_singleton, List.not_mem_nil, or_false] at hw
    rcases hw with h | h | h | h <;> subst h <;> simp only [valid_write] <;>
      refine ⟨by decide, by decide, ?_⟩ <;> omega
  have hpos := (bwc_writes_spec _ (bwc_init buffer) (bwc_ok_init buffer) hvalid).2.1
  have f1 := (bwc_writes_field (bwc_init buffer) [] _ _ _ (bwc_ok_init buffer) hvalid).2
  have f2 := (bwc_writes_field (bwc_init buffer) [(halved_innovation.toNat, 1)] _ _ _
    (bwc_ok_init buffer) hvalid).2
  have f3 := (bwc_writes_field (bwc_init buffer)
    [(halved_innovation.toNat, 1), ((32 - huffman_threshold).toNat, 4)] _ _ _
    (bwc_ok_init buffer) hvalid).2
  have f4 := (bwc_writes_field (bwc_init buffer)
    [(halved_innovation.toNat, 1), ((32 - huffman_threshold).toNat, 4),
     ((inngain_sig / 8 - 1).toNat, 4)] _ _ _ (bwc_ok_init buffer) hvalid).2
  have hz : bit_position (bwc_init buffer) = 0 := rfl
  simp only [hz, total_bits, List.map_cons, List.map_nil, List.sum_cons, List.sum_nil,
    List.nil_append, List.cons_append, Nat.zero_add, Nat.add_zero] at hpos f1 f2 f3 f4
  rw [hdef]
  refine ⟨hpos, ?_, ?_, ?_, ?_⟩
  · rw [f1]; omega
  · rw [f2]; omega
  · rw [f3]; omega
  · rw [f4]; omega

/-- C9 (failing input): with `huffman_threshold = 16`, which the option parser accepts, the
value `32 - 16 = 16` does not fit its 4-bit field: the stream parameter word is still 15
bits long, but bits 1..4 hold 0 instead of 16 and the overflowing bit lands in bit 5, so
that with `inngain_sig = 8` the field in bits 5..8 holds 1 instead of `8/8 - 1 = 0`. -/
theorem C9_threshold_16_overflows_its_field :
    8 * (write_stream_parameters (fun _ => 0) 1 16 8 (1 + 68 / 1000)).pos
      + (write_stream_parameters (fun _ => 0) 1 16 8 (1 + 68 / 1000)).written_bits_count
      = 15 ∧
    stream_field (write_stream_parameters (fun _ => 0) 1 16 8 (1 + 68 / 1000)).buffer 1 4 = 0 ∧
    stream_field (write_stream_parameters (fun _ => 0) 1 16 8 (1 + 68 / 1000)).buffer 5 4 = 1 ∧
    stream_field (write_stream_parameters (fun _ => 0) 1 16 8 (1 + 68 / 1000)).buffer 9 6
      = 28 := by
  decide!

/-! ## Sample loops: the positions visited -/

theorem storeI_same {α : Type} (m : Int → α) (i : Int) (v : α) : storeI m i v i = v := by
  simp [storeI]

theorem storeI_other {α : Type} (m : Int → α) (i j : Int) (v : α) (h : j ≠ i) :
    storeI m i v j = m j := by
  simp [storeI, h]

/-- A sample loop is the fold of its body over the positions it visits. -/
theorem for_positions_eq_foldl {σ : Type} (step : Int) (body : Int → σ → σ) :
    ∀ (fuel : Nat) (i : Int) (s : σ),
      for_positions step body fuel i s
        = (positions step fuel i).foldl (fun s i => body i s) s := by
  intro fuel
  induction fuel with
  | zero => intro i s; rfl
  | succ fuel ih =>
    intro i s
    by_cases h : i < 108
    · simp only [for_positions, positions, h, if_true, List.foldl_cons]
      exact ih _ _
    · simp only [for_positions, positions, h, if_false, List.foldl_nil]

/-- With enough fuel, a loop with step 1 or 2 visits exactly the indices `start`,
`start + step`, ... below 108. -/
theorem mem_positions (step : Int) (hstep : step = 1 ∨ step = 2) :
    ∀ (fuel : Nat) (start i : Int), 108 ≤ start + fuel →
      (i ∈ positions step fuel start ↔ start ≤ i ∧ i < 108 ∧ (i - start) % step = 0) := by
  intro fuel
  induction fuel with
  | zero =>
    intro start i hf
    simp only [positions, List.not_mem_nil, false_iff]
    intro h
    omega
  | succ fuel ih =>
    intro start i hf
    by_cases h : start < 108
    · simp only [positions, h, if_true, List.mem_cons]
      rw [ih (start + step) i (by rcases hstep with h1 | h1 <;> subst h1 <;> omega)]
      rcases hstep with h1 | h1 <;> subst h1 <;> omega
    · simp only [positions, h, if_false, List.not_mem_nil, false_iff]
      intro h'
      omega

/-- The positions of a loop with a positive step are strictly increasing from `start`. -/
theorem positions_lower (step : Int) (hstep : 0 < step) :
    ∀ (fuel : Nat) (start i : Int), i ∈ positions step fuel start → start ≤ i := by
  intro fuel
  induction fuel with
  | zero => intro start i h; cases h
  | succ fuel ih =>
    intro start i h
    by_cases hlt : start < 108
    · simp only [positions, hlt, if_true, List.mem_cons] at h
      rcases h with h | h
      · omega
      · have := ih _ _ h
        omega
    · simp only [positions, hlt, if_false] at h
      cases h

theorem positions_nodup (step : Int) (hstep : 0 < step) :
    ∀ (fuel : Nat) (start : Int), (positions step fuel start).Nodup := by
  intro fuel
  induction fuel with
  | zero => intro start; exact List.nodup_nil
  | succ fuel ih =>
    intro start
    by_cases hlt : start < 108
    · simp only [positions, hlt, if_true, List.nodup_cons]
      refine ⟨?_, ih _⟩
      intro hmem
      have := positions_lower step hstep _ _ _ hmem
      omega
    · simp only [positions, hlt, if_false]
      exact List.nodup_nil

theorem innovation_interval_cases (halved_innovation : Nat) :
    innovation_interval halved_innovation = 1 ∨ innovation_interval halved_innovation = 2 := by
  unfold innovation_interval
  split
  · right; rfl
  · left; rfl

/-- The active positions are `a, a + interval, ...` below 108. -/
theorem mem_active_positions (halved_innovation a : Nat) (i : Int) :
    i ∈ active_positions halved_innovation a ↔
      (a : Int) ≤ i ∧ i < 108 ∧ (i - a) % innovation_interval halved_innovation = 0 := by
  unfold active_positions
  exact mem_positions _ (innovation_interval_cases _) 108 a i (by omega)

/-- Number of active positions: 108 in full mode, 54 in halved mode. -/
theorem length_active_positions :
    (∀ a : Nat, a < 2 → (active_positions 1 a).length = 54) ∧
    (active_positions 0 0).length = 108 := by
  decide!

/-- A fold that stores `f i` at every visited index `i` leaves `f j` at the visited
indices and the old content elsewhere. -/
theorem foldl_storeI {α : Type} (f : Int → α) :
    ∀ (l : List Int) (m : Int → α) (j : Int),
      (l.foldl (fun m i => storeI m i (f i)) m) j = if j ∈ l then f j else m j := by
  intro l
  induction l with
  | nil => intro m j; simp
  | cons x l ih =>
    intro m j
    rw [List.foldl_cons, ih]
    by_cases h1 : j ∈ l
    · simp [h1]
    · by_cases h2 : j = x
      · subst h2
        simp [h1, storeI_same]
      · simp [h1, h2, storeI_other _ _ _ _ h2]

/-! ## Quantiser lemmas -/

theorem CLAMP_range (y lo hi : ℚ) (h : lo ≤ hi) : lo ≤ CLAMP y lo hi ∧ CLAMP y lo hi ≤ hi := by
  unfold CLAMP
  split
  · exact ⟨le_refl _, h⟩
  · next h1 =>
    split
    · exact ⟨h, le_refl _⟩
    · next h2 => exact ⟨not_lt.mp h1, not_lt.mp h2⟩

theorem ROUND_of_nonneg (y : ℚ) (h : 0 ≤ y) : ROUND y = ⌊y + 1 / 2⌋ := by
  unfold ROUND c_int
  have hp : (0 : ℚ) ≤ y + 1 / 2 := by linarith
  rw [if_pos h, if_pos hp]

theorem ROUND_of_neg (y : ℚ) (h : y < 0) : ROUND y = ⌈y - 1 / 2⌉ := by
  unfold ROUND c_int
  have hn : ¬ ((0 : ℚ) ≤ y - 1 / 2) := by
    intro hc
    linarith
  rw [if_neg (not_le.mpr h), if_neg hn]

/-- `ROUND` keeps a value of `[-n, n]` in `[-n, n]`. -/
theorem ROUND_bounds (y : ℚ) (n : Int) (h1 : -(n : ℚ) ≤ y) (h2 : y ≤ n) :
    -n ≤ ROUND y ∧ ROUND y ≤ n := by
  by_cases hy : 0 ≤ y
  · rw [ROUND_of_nonneg y hy]
    constructor
    · have h0 : (0 : Int) ≤ ⌊y + 1 / 2⌋ := Int.floor_nonneg.mpr (by linarith)
      have hn : (0 : ℚ) ≤ n := le_trans hy h2
      have : (0 : Int) ≤ n := by exact_mod_cast hn
      omega
    · have : ⌊y + 1 / 2⌋ < n + 1 := by
        rw [Int.floor_lt]
        push_cast
        linarith
      omega
  · have hy' : y < 0 := not_le.mp hy
    rw [ROUND_of_neg y hy']
    constructor
    · have : -n - 1 < ⌈y - 1 / 2⌉ := by
        rw [Int.lt_ceil]
        push_cast
        linarith
      omega
    · have h0 : ⌈y - 1 / 2⌉ ≤ 0 := by
        rw [Int.ceil_le]
        push_cast
        linarith
      have hn : (0 : ℚ) ≤ n := by linarith
      have : (0 : Int) ≤ n := by exact_mod_cast hn
      omega

/-- The Huffman quantiser yields a symbol of `[-13, 13]`. -/
theorem huffman_symbol_range (y : ℚ) :
    -13 ≤ ROUND (CLAMP y (-13) 13) ∧ ROUND (CLAMP y (-13) 13) ≤ 13 := by
  obtain ⟨h1, h2⟩ := CLAMP_range y (-13) 13 (by norm_num)
  exact ROUND_bounds _ 13 (by push_cast; linarith) (by push_cast; linarith)

/-- The ternary quantiser rounds the clamped ratio to the nearest of `-1, 0, 1`, halves
away from zero. -/
theorem triangular_symbol_eq (inn_gain x : ℚ) :
    triangular_symbol inn_gain x =
      if 1 / 2 ≤ x / inn_gain then 1 else if x / inn_gain ≤ -(1 / 2) then -1 else 0 := by
  unfold triangular_symbol
  obtain ⟨h1, h2⟩ := CLAMP_range (x / inn_gain) (-1) 1 (by norm_num)
  by_cases hy : 0 ≤ CLAMP (x / inn_gain) (-1) 1
  · rw [ROUND_of_nonneg _ hy]
    by_cases hc : 1 / 2 ≤ x / inn_gain
    · rw [if_pos hc, Int.floor_eq_iff]
      have : 1 / 2 ≤ CLAMP (x / inn_gain) (-1) 1 := by
        unfold CLAMP
        split
        · next h => linarith
        · split
          · norm_num
          · exact hc
      push_cast
      constructor <;> linarith
    · have hlt : CLAMP (x / inn_gain) (-1) 1 < 1 / 2 := by
        unfold CLAMP
        split
        · norm_num
        · split
          · next h => linarith
          · exact not_le.mp hc
      have hnn : ¬ x / inn_gain ≤ -(1 / 2) := by
        intro hle
        have : CLAMP (x / inn_gain) (-1) 1 < 0 := by
          unfold CLAMP
          split
          · norm_num
          · split
            · next h => linarith
            · linarith
        linarith
      rw [if_neg hc, if_neg hnn, Int.floor_eq_iff]
      push_cast
      constructor <;> linarith
  · have hy' : CLAMP (x / inn_gain) (-1) 1 < 0 := not_le.mp hy
    rw [ROUND_of_neg _ hy']
    have hxneg : x / inn_gain < 0 := by
      by_contra hc
      have h0 : 0 ≤ x / inn_gain := not_lt.mp hc
      have : 0 ≤ CLAMP (x / inn_gain) (-1) 1 := by
        unfold CLAMP
        split
        · next h => linarith
        · split
          · norm_num
          · exact h0
      linarith
    have hc : ¬ (1 / 2 ≤ x / inn_gain) := by
      intro h
      linarith
    rw [if_neg hc]
    by_cases hle : x / inn_gain ≤ -(1 / 2)
    · have : CLAMP (x / inn_gain) (-1) 1 ≤ -(1 / 2) := by
        unfold CLAMP
        split
        · norm_num
        · split
          · next h => linarith
          · exact hle
      rw [if_pos hle, Int.ceil_eq_iff]
      push_cast
      constructor <;> linarith
    · have : -(1 / 2) < CLAMP (x / inn_gain) (-1) 1 := by
        unfold CLAMP
        split
        · next h => linarith
        · split
          · norm_num
          · exact not_le.mp hle
      rw [if_neg hle, Int.ceil_eq_iff]
      push_cast
      constructor <;> linarith

/-! ## The loops of `encode_huffman` -/

/-- Fold of the quantisation step: the visited positions receive their symbol and
reconstruction, the others keep their content. -/
theorem foldl_huffman_quantize_step (inn_gain : ℚ) (innovation_in : Int → ℚ) :
    ∀ (l : List Int) (s : huffman_quantized) (j : Int),
      ((l.foldl (fun s i => huffman_quantize_step inn_gain innovation_in i s) s).values j =
        if j ∈ l then ROUND (CLAMP (innovation_in j / inn_gain) (-13) 13) else s.values j) ∧
      ((l.foldl (fun s i => huffman_quantize_step inn_gain innovation_in i s) s).innovation_out j
        = if j ∈ l then inn_gain * ROUND (CLAMP (innovation_in j / inn_gain) (-13) 13)
          else s.innovation_out j) := by
  intro l
  induction l with
  | nil => intro s j; simp
  | cons x l ih =>
    intro s j
    rw [List.foldl_cons]
    obtain ⟨h1, h2⟩ := ih (huffman_quantize_step inn_gain innovation_in x s) j
    rw [h1, h2]
    by_cases c1 : j ∈ l
    · simp [c1]
    · by_cases c2 : j = x
      · subst c2
        simp [c1, huffman_quantize_step, storeI_same]
      · simp [c1, c2, huffman_quantize_step, storeI_other _ _ _ _ c2]

/-- After the quantisation loop of `encode_huffman`, `values[i]` is the rounded, clamped
ratio and `innovation_out[i]` is `inn_gain*values[i]` at every active position; the other
slots of both arrays keep what they held on entry. -/
theorem encode_huffman_quantized_spec (inn_gains : Nat → ℚ) (locals : huffman_locals)
    (innovation_out innovation_in : Int → ℚ) (halved_innovation pow a z : Nat) (j : Int) :
    ((encode_huffman_quantized inn_gains locals innovation_out innovation_in
        halved_innovation pow a z).values j =
      if j ∈ active_positions halved_innovation a
      then ROUND (CLAMP (innovation_in j / huffman_gain inn_gains pow z) (-13) 13)
      else locals.values j) ∧
    ((encode_huffman_quantized inn_gains locals innovation_out innovation_in
        halved_innovation pow a z).innovation_out j =
      if j ∈ active_positions halved_innovation a
      then huffman_gain inn_gains pow z
        * ROUND (CLAMP (innovation_in j / huffman_gain inn_gains pow z) (-13) 13)
      else innovation_out j) := by
  unfold encode_huffman_quantized active_positions
  rw [for_positions_eq_foldl]
  exact foldl_huffman_quantize_step _ _ _ _ j

/-- The emission loop writes exactly the items it reports, in order. -/
theorem huffman_emit_loop_writes (values zero_counts : Int → Int) (interval : Int) :
    ∀ (fuel : Nat) (i : Int) (model : Nat) (bwc : bit_writer_context),
      (huffman_emit_loop values zero_counts interval fuel i model bwc).1 =
        bwc_writes bwc
          ((huffman_emit_loop values zero_counts interval fuel i model bwc).2.map
            emitted_item.write) := by
  intro fuel
  induction fuel with
  | zero => intro i model bwc; rfl
  | succ fuel ih =>
    intro i model bwc
    by_cases h1 : i < 108
    · by_cases h2 : zero_counts i ≥ 7
      · simp only [huffman_emit_loop, h1, h2, if_true, List.map_cons]
        rw [ih]
        by_cases h3 : model = 0
        · simp [h3, emitted_item.write, bwc_writes]
        · simp [h3, emitted_item.write, bwc_writes]
      · simp only [huffman_emit_loop, h1, h2, if_true, if_false, List.map_cons]
        rw [ih]
        simp [emitted_item.write, bwc_writes]
    · simp only [huffman_emit_loop, h1, if_false]
      rfl

/-- The items of the emission loop do not depend on the writer. -/
theorem huffman_emit_loop_items (values zero_counts : Int → Int) (interval : Int) :
    ∀ (fuel : Nat) (i : Int) (model : Nat) (bwc bwc' : bit_writer_context),
      (huffman_emit_loop values zero_counts interval fuel i model bwc).2 =
        (huffman_emit_loop values zero_counts interval fuel i model bwc').2 := by
  intro fuel
  induction fuel with
  | zero => intro i model bwc bwc'; rfl
  | succ fuel ih =>
    intro i model bwc bwc'
    by_cases h1 : i < 108
    · by_cases h2 : zero_counts i ≥ 7
      · simp only [huffman_emit_loop, h1, h2, if_true]
        rw [ih _ _ _ _]
      · simp only [huffman_emit_loop, h1, h2, if_true, if_false]
        rw [ih _ _ _ _]
    · simp only [huffman_emit_loop, h1, if_false]

/-- Structure of the item list of the emission loop started at position `i` in `model`:
the first item is written at `i` in `model`; every item is written at a position below
108 that is reached from `i` in steps of `interval`, is an escape of length
`MIN(zero_counts[pos], 70)` when `zero_counts[pos] >= 7` and the symbol `values[pos]`
otherwise, in model 0 or 1; and the item after an item is written at the position the
item advances to, in model 0 after an escape and in model `(value < -1 || value > 1)`
after a symbol. -/
theorem huffman_emit_loop_structure (values zero_counts : Int → Int) (interval : Int)
    (hint : interval = 1 ∨ interval = 2) :
    ∀ (fuel : Nat) (i : Int) (model : Nat) (bwc : bit_writer_context), model < 2 →
      (∀ it, (huffman_emit_loop values zero_counts interval fuel i model bwc).2.head? = some it →
        it.position = i ∧ it.in_model = model) ∧
      (∀ it ∈ (huffman_emit_loop values zero_counts interval fuel i model bwc).2,
        i ≤ it.position ∧ it.position < 108 ∧ (it.position - i) % interval = 0 ∧
        it.in_model < 2 ∧
        it = (if zero_counts it.position ≥ 7
              then emitted_item.escape it.position it.in_model
                (MIN (zero_counts it.position) 70)
              else emitted_item.symbol it.position it.in_model (values it.position))) ∧
      (∀ k it nxt,
        (huffman_emit_loop values zero_counts interval fuel i model bwc).2[k]? = some it →
        (huffman_emit_loop values zero_counts interval fuel i model bwc).2[k + 1]? = some nxt →
        nxt.position = it.next_position interval ∧
        nxt.in_model = (match it with
          | emitted_item.symbol _ _ v => if v < -1 ∨ v > 1 then 1 else 0
          | _ => 0)) := by
  intro fuel
  induction fuel with
  | zero =>
    intro i model bwc _
    simp [huffman_emit_loop]
  | succ fuel ih =>
    intro i model bwc hm
    by_cases h1 : i < 108
    · by_cases h2 : zero_counts i ≥ 7
      · -- escape
        have hl : 7 ≤ MIN (zero_counts i) 70 := by
          unfold MIN
          split <;> omega
        obtain ⟨ha, hb, hc⟩ := ih (i + MIN (zero_counts i) 70 * interval) 0
          (if model = 0 then bwc_write_bits bwc
              (255 ||| ((MIN (zero_counts i) 70 - 7).toNat <<< 8)) 14
            else bwc_write_bits bwc (127 ||| ((MIN (zero_counts i) 70 - 7).toNat <<< 7)) 13)
          (by decide)
        simp only [huffman_emit_loop, h1, h2, if_true]
        refine ⟨?_, ?_, ?_⟩
        · intro it hit
          simp only [List.head?_cons, Option.some.injEq] at hit
          subst hit
          exact ⟨rfl, rfl⟩
        · intro it hit
          rcases List.mem_cons.mp hit with h | h
          · subst h
            simp only [emitted_item.position, emitted_item.in_model, h2, if_true]
            refine ⟨le_refl _, h1, by simp, hm, trivial⟩
          · obtain ⟨b1, b2, b3, b4, b5⟩ := hb it h
            refine ⟨?_, b2, ?_, b4, b5⟩
            · rcases hint with hi | hi <;> subst hi <;> omega
            · rcases hint with hi | hi <;> subst hi <;> omega
        · intro k it nxt hk hk1
          cases k with
          | zero =>
            simp only [List.getElem?_cons_zero, Option.some.injEq] at hk
            subst hk
            simp only [List.getElem?_cons_succ] at hk1
            have hh := ha nxt (by rw [List.head?_eq_getElem?]; exact hk1)
            exact ⟨hh.1, hh.2⟩
          | succ k =>
            simp only [List.getElem?_cons_succ] at hk hk1
            exact hc k it nxt hk hk1
      · -- symbol
        obtain ⟨ha, hb, hc⟩ := ih (i + interval)
          (if values i < -1 ∨ values i > 1 then 1 else 0)
          (bwc_write_bits bwc (huffman_models model (values i)).bits_value
            (huffman_models model (values i)).bits_count)
          (by split <;> decide)
        simp only [huffman_emit_loop, h1, h2, if_true, if_false]
        refine ⟨?_, ?_, ?_⟩
        · intro it hit
          simp only [List.head?_cons, Option.some.injEq] at hit
          subst hit
          exact ⟨rfl, rfl⟩
        · intro it hit
          rcases List.mem_cons.mp hit with h | h
          · subst h
            simp only [emitted_item.position, emitted_item.in_model, h2, if_false]
            refine ⟨le_refl _, h1, by simp, hm, trivial⟩
          · obtain ⟨b1, b2, b3, b4, b5⟩ := hb it h
            refine ⟨?_, b2, ?_, b4, b5⟩
            · rcases hint with hi | hi <;> subst hi <;> omega
            · rcases hint with hi | hi <;> subst hi <;> omega
        · intro k it nxt hk hk1
          cases k with
          | zero =>
            simp only [List.getElem?_cons_zero, Option.some.injEq] at hk
            subst hk
            simp only [List.getElem?_cons_succ] at hk1
            have hh := ha nxt (by rw [List.head?_eq_getElem?]; exact hk1)
            exact ⟨hh.1, hh.2⟩
          | succ k =>
            simp only [List.getElem?_cons_succ] at hk hk1
            exact hc k it nxt hk hk1
    · simp [huffman_emit_loop, h1]

/-- With fuel for every remaining index, the emission loop stops because the position
has reached 108: the last item advances to a position of at least 108. -/
theorem huffman_emit_loop_complete (values zero_counts : Int → Int) (interval : Int)
    (hint : interval = 1 ∨ interval = 2) :
    ∀ (fuel : Nat) (i : Int) (model : Nat) (bwc : bit_writer_context), 108 ≤ i + fuel →
      ((huffman_emit_loop values zero_counts interval fuel i model bwc).2 = [] → 108 ≤ i) ∧
      (∀ it, (huffman_emit_loop values zero_counts interval fuel i model bwc).2.getLast?
          = some it → 108 ≤ it.next_position interval) := by
  intro fuel
  induction fuel with
  | zero =>
    intro i model bwc hf
    simp [huffman_emit_loop]
    omega
  | succ fuel ih =>
    intro i model bwc hf
    by_cases h1 : i < 108
    · by_cases h2 : zero_counts i ≥ 7
      · have hl : 7 ≤ MIN (zero_counts i) 70 := by
          unfold MIN
          split <;> omega
        obtain ⟨ha, hb⟩ := ih (i + MIN (zero_counts i) 70 * interval) 0
          (if model = 0 then bwc_write_bits bwc
              (255 ||| ((MIN (zero_counts i) 70 - 7).toNat <<< 8)) 14
            else bwc_write_bits bwc (127 ||| ((MIN (zero_counts i) 70 - 7).toNat <<< 7)) 13)
          (by rcases hint with hi | hi <;> subst hi <;> omega)
        simp only [huffman_emit_loop, h1, h2, if_true]
        refine ⟨by simp, ?_⟩
        intro it hit
        rw [List.getLast?_cons] at hit
        cases hrest : (huffman_emit_loop values zero_counts interval fuel
            (i + MIN (zero_counts i) 70 * interval) 0
            (if model = 0 then bwc_write_bits bwc
                (255 ||| ((MIN (zero_counts i) 70 - 7).toNat <<< 8)) 14
              else bwc_write_bits bwc
                (127 ||| ((MIN (zero_counts i) 70 - 7).toNat <<< 7)) 13)).2.getLast? with
        | none =>
          rw [hrest] at hit
          simp only [Option.getD_none, Option.some.injEq] at hit
          subst hit
          exact ha (List.getLast?_eq_none_iff.mp hrest)
        | some last =>
          rw [hrest] at hit
          simp only [Option.getD_some, Option.some.injEq] at hit
          subst hit
          exact hb _ hrest
      · obtain ⟨ha, hb⟩ := ih (i + interval)
          (if values i < -1 ∨ values i > 1 then 1 else 0)
          (bwc_write_bits bwc (huffman_models model (values i)).bits_value
            (huffman_models model (values i)).bits_count)
          (by rcases hint with hi | hi <;> subst hi <;> omega)
        simp only [huffman_emit_loop, h1, h2, if_true, if_false]
        refine ⟨by simp, ?_⟩
        intro it hit
        rw [List.getLast?_cons] at hit
        cases hrest : (huffman_emit_loop values zero_counts interval fuel (i + interval)
            (if values i < -1 ∨ values i > 1 then 1 else 0)
            (bwc_write_bits bwc (huffman_models model (values i)).bits_value
              (huffman_models model (values i)).bits_count)).2.getLast? with
        | none =>
          rw [hrest] at hit
          simp only [Option.getD_none, Option.some.injEq] at hit
          subst hit
          exact ha (List.getLast?_eq_none_iff.mp hrest)
        | some last =>
          rw [hrest] at hit
          simp only [Option.getD_some, Option.some.injEq] at hit
          subst hit
          exact hb _ hrest
    · simp only [huffman_emit_loop, h1, if_false]
      refine ⟨fun _ => by omega, ?_⟩
      intro it hit
      simp at hit

/-- The writer of `encode_huffman` is the entry writer after the preamble write and the
writes of the items. -/
theorem encode_huffman_writes (inn_gains : Nat → ℚ) (locals : huffman_locals)
    (bwc : bit_writer_context) (innovation_out innovation_in : Int → ℚ)
    (halved_innovation pow a z : Nat) :
    (encode_huffman inn_gains locals bwc innovation_out innovation_in halved_innovation
        pow a z).bwc =
      bwc_writes bwc (block_writes halved_innovation pow a z
        (encode_huffman inn_gains locals bwc innovation_out innovation_in halved_innovation
          pow a z).items) := by
  simp only [encode_huffman, block_writes]
  rw [huffman_emit_loop_writes]
  rfl

/-! ## C3: which model encodes the next symbol -/

/-- C3 (counterexample): in full mode with 108 samples that all quantise to the symbol 1,
the symbol at position 0 has absolute value `≤ 1`, yet the next symbol is encoded with
model 0; the claim says model 1. -/
theorem C3_small_symbol_keeps_model_0 :
    ¬ (∀ (k : Nat) (i : Int) (m : Nat) (v : Int) (nxt : emitted_item),
        (encode_huffman (inn_gains 64 1.068) ⟨fun _ => 0, fun _ => 0⟩ (bwc_init (fun _ => 0))
          (fun _ => 0) (fun _ => 64) 0 0 0 1).items[k]? = some (emitted_item.symbol i m v) →
        (encode_huffman (inn_gains 64 1.068) ⟨fun _ => 0, fun _ => 0⟩ (bwc_init (fun _ => 0))
          (fun _ => 0) (fun _ => 64) 0 0 0 1).items[k + 1]? = some nxt →
        nxt.in_model = if |v| ≤ 1 then 1 else 0) := by
  intro h
  have h0 := h 0 0 0 1 (emitted_item.symbol 1 0 1) (by decide!) (by decide!)
  revert h0
  decide

/-- C3 (amended): in `encode_huffman`, for every innovation block, the item written right
after a symbol whose absolute value is `≤ 1` is encoded with Huffman model 0, and the
item written right after a symbol whose absolute value is `> 1` with model 1; the first
item of a block is encoded with model 0. -/
theorem C3_next_symbol_model (inn_gains : Nat → ℚ) (locals : huffman_locals)
    (bwc : bit_writer_context) (innovation_out innovation_in : Int → ℚ)
    (halved_innovation pow a z : Nat) (k : Nat) (i : Int) (m : Nat) (v : Int)
    (nxt : emitted_item)
    (hk : (encode_huffman inn_gains locals bwc innovation_out innovation_in
      halved_innovation pow a z).items[k]? = some (emitted_item.symbol i m v))
    (hk1 : (encode_huffman inn_gains locals bwc innovation_out innovation_in
      halved_innovation pow a z).items[k + 1]? = some nxt) :
    nxt.in_model = (if |v| ≤ 1 then 0 else 1) ∧
    (∀ first, (encode_huffman inn_gains locals bwc innovation_out innovation_in
      halved_innovation pow a z).items.head? = some first → first.in_model = 0) ∧
    (encode_huffman inn_gains locals bwc innovation_out innovation_in halved_innovation
        pow a z).bwc =
      bwc_writes bwc (block_writes halved_innovation pow a z
        (encode_huffman inn_gains locals bwc innovation_out innovation_in halved_innovation
          pow a z).items) := by
  obtain ⟨ha, _, hc⟩ := huffman_emit_loop_structure
    (encode_huffman_quantized inn_gains locals innovation_out innovation_in
      halved_innovation pow a z).values
    (encode_huffman_zero_counts inn_gains locals innovation_out innovation_in
      halved_innovation pow a z)
    (innovation_interval halved_innovation) (innovation_interval_cases _) 108 a 0
    (bwc_write_bits bwc (preamble halved_innovation pow a z).1
      (preamble halved_innovation pow a z).2) (by decide)
  refine ⟨?_, fun first hf => (ha first hf).2, encode_huffman_writes _ _ _ _ _ _ _ _ _⟩
  have h := (hc k _ nxt hk hk1).2
  simp only at h
  rw [h]
  by_cases hv : v < -1 ∨ v > 1
  · have : ¬ |v| ≤ 1 := by
      rw [abs_le]
      omega
    rw [if_pos hv, if_neg this]
  · have : |v| ≤ 1 := by
      rw [abs_le]
      omega
    rw [if_neg hv, if_pos this]

/-- Witness for C3 (amended): the first two symbols of the all-ones block. -/
theorem C3_next_symbol_model_witness :
    (emitted_item.symbol 1 0 1).in_model = (if |(1 : Int)| ≤ 1 then 0 else 1) :=
  (C3_next_symbol_model (inn_gains 64 1.068) ⟨fun _ => 0, fun _ => 0⟩ (bwc_init (fun _ => 0))
    (fun _ => 0) (fun _ => 64) 0 0 0 1 0 0 0 1 (emitted_item.symbol 1 0 1)
    (by decide!) (by decide!)).1

/-! ## C4: zero-run escapes -/

theorem escape_value_valid :
    ∀ n : Nat, n < 64 → 255 ||| (n <<< 8) < 2 ^ 14 ∧ 127 ||| (n <<< 7) < 2 ^ 13 := by
  decide

/-- C4: in `encode_huffman`, whenever the zero-run count `zero_counts[i]` at the current
active position `i` is `>= 7`, exactly one escape is written for the length
`l = min(run, 70)`: the 14-bit value `255 | ((l-7)<<8)` when the current model is 0 and
the 13-bit value `127 | ((l-7)<<7)` when it is 1; the next item, if there is one, is
written `l` active positions further in model 0, and otherwise the position has reached
the end of the block.  In particular a run of exactly 7 met in model 1 emits the 13-bit
value 127. -/
theorem C4_zero_run_escape (inn_gains : Nat → ℚ) (locals : huffman_locals)
    (bwc : bit_writer_context) (innovation_out innovation_in : Int → ℚ)
    (halved_innovation pow a z : Nat) (k : Nat) (it : emitted_item)
    (hk : (encode_huffman inn_gains locals bwc innovation_out innovation_in
      halved_innovation pow a z).items[k]? = some it)
    (hrun : encode_huffman_zero_counts inn_gains locals innovation_out innovation_in
      halved_innovation pow a z it.position ≥ 7) :
    it = emitted_item.escape it.position it.in_model
      (MIN (encode_huffman_zero_counts inn_gains locals innovation_out innovation_in
        halved_innovation pow a z it.position) 70) ∧
    7 ≤ MIN (encode_huffman_zero_counts inn_gains locals innovation_out innovation_in
        halved_innovation pow a z it.position) 70 ∧
    MIN (encode_huffman_zero_counts inn_gains locals innovation_out innovation_in
        halved_innovation pow a z it.position) 70 ≤ 70 ∧
    (it.in_model = 0 ∨ it.in_model = 1) ∧
    (it.in_model = 0 → it.write =
      (255 ||| ((MIN (encode_huffman_zero_counts inn_gains locals innovation_out
        innovation_in halved_innovation pow a z it.position) 70 - 7).toNat <<< 8), 14)) ∧
    (it.in_model = 1 → it.write =
      (127 ||| ((MIN (encode_huffman_zero_counts inn_gains locals innovation_out
        innovation_in halved_innovation pow a z it.position) 70 - 7).toNat <<< 7), 13)) ∧
    (it.in_model = 1 →
      encode_huffman_zero_counts inn_gains locals innovation_out innovation_in
        halved_innovation pow a z it.position = 7 → it.write = (127, 13)) ∧
    it.write.1 < 2 ^ it.write.2 ∧
    (∀ nxt, (encode_huffman inn_gains locals bwc innovation_out innovation_in
        halved_innovation pow a z).items[k + 1]? = some nxt →
      nxt.position = it.position
        + MIN (encode_huffman_zero_counts inn_gains locals innovation_out innovation_in
            halved_innovation pow a z it.position) 70
          * innovation_interval halved_innovation ∧
      nxt.in_model = 0) ∧
    ((encode_huffman inn_gains locals bwc innovation_out innovation_in
        halved_innovation pow a z).items[k + 1]? = none →
      108 ≤ it.position
        + MIN (encode_huffman_zero_counts inn_gains locals innovation_out innovation_in
            halved_innovation pow a z it.position) 70
          * innovation_interval halved_innovation) ∧
    (encode_huffman inn_gains locals bwc innovation_out innovation_in halved_innovation
        pow a z).bwc =
      bwc_writes bwc (block_writes halved_innovation pow a z
        (encode_huffman inn_gains locals bwc innovation_out innovation_in halved_innovation
          pow a z).items) := by
  obtain ⟨_, hb, hc⟩ := huffman_emit_loop_structure
    (encode_huffman_quantized inn_gains locals innovation_out innovation_in
      halved_innovation pow a z).values
    (encode_huffman_zero_counts inn_gains locals innovation_out innovation_in
      halved_innovation pow a z)
    (innovation_interval halved_innovation) (innovation_interval_cases _) 108 a 0
    (bwc_write_bits bwc (preamble halved_innovation pow a z).1
      (preamble halved_innovation pow a z).2) (by decide)
  obtain ⟨_, hlast⟩ := huffman_emit_loop_complete
    (encode_huffman_quantized inn_gains locals innovation_out innovation_in
      halved_innovation pow a z).values
    (encode_huffman_zero_counts inn_gains locals innovation_out innovation_in
      halved_innovation pow a z)
    (innovation_interval halved_innovation) (innovation_interval_cases _) 108 a 0
    (bwc_write_bits bwc (preamble halved_innovation pow a z).1
      (preamble halved_innovation pow a z).2) (by omega)
  have hmem := List.getElem?_mem hk
  obtain ⟨_, _, _, hm2, hshape⟩ := hb it hmem
  rw [if_pos hrun] at hshape
  have hl7 : 7 ≤ MIN (encode_huffman_zero_counts inn_gains locals innovation_out
      innovation_in halved_innovation pow a z it.position) 70 := by
    unfold MIN
    split <;> omega
  have hl70 : MIN (encode_huffman_zero_counts inn_gains locals innovation_out
      innovation_in halved_innovation pow a z it.position) 70 ≤ 70 := by
    unfold MIN
    split <;> omega
  have hw0 : it.in_model = 0 → it.write =
      (255 ||| ((MIN (encode_huffman_zero_counts inn_gains locals innovation_out
        innovation_in halved_innovation pow a z it.position) 70 - 7).toNat <<< 8), 14) := by
    intro h0
    rw [congrArg emitted_item.write hshape]
    simp only [emitted_item.write]
    rw [if_pos h0]
  have hw1 : it.in_model = 1 → it.write =
      (127 ||| ((MIN (encode_huffman_zero_counts inn_gains locals innovation_out
        innovation_in halved_innovation pow a z it.position) 70 - 7).toNat <<< 7), 13) := by
    intro h1
    rw [congrArg emitted_item.write hshape]
    simp only [emitted_item.write]
    rw [if_neg (by omega)]
  have hn : (MIN (encode_huffman_zero_counts inn_gains locals innovation_out
      innovation_in halved_innovation pow a z it.position) 70 - 7).toNat < 64 := by
    omega
  refine ⟨hshape, hl7, hl70, by omega, hw0, hw1, ?_, ?_, ?_, ?_,
    encode_huffman_writes _ _ _ _ _ _ _ _ _⟩
  · intro h1 h7
    rw [hw1 h1, h7]
    rfl
  · rcases (show it.in_model = 0 ∨ it.in_model = 1 by omega) with h | h
    · rw [hw0 h]
      exact (escape_value_valid _ hn).1
    · rw [hw1 h]
      exact (escape_value_valid _ hn).2
  · intro nxt hnxt
    have h := hc k it nxt hk hnxt
    rw [congrArg (emitted_item.next_position (innovation_interval halved_innovation)) hshape]
      at h
    have h2 := h.2
    rw [hshape] at h2
    exact ⟨h.1, h2⟩
  · intro hnone
    have hlen : (encode_huffman inn_gains locals bwc innovation_out innovation_in
        halved_innovation pow a z).items.getLast? = some it := by
      have h1 := List.getElem?_eq_none_iff.mp hnone
      obtain ⟨h2, _⟩ := List.getElem?_eq_some_iff.mp hk
      rw [List.getLast?_eq_getElem?]
      have e : (encode_huffman inn_gains locals bwc innovation_out innovation_in
          halved_innovation pow a z).items.length - 1 = k := by omega
      rw [e]
      exact hk
    have h := hlast it hlen
    rw [congrArg (emitted_item.next_position (innovation_interval halved_innovation)) hshape]
      at h
    exact h

/-- Witness for C4: full mode, a symbol 2 at position 0 (which selects model 1), seven
zeros at positions 1..7 and ones after them: the second item is the escape of a run of
exactly 7 met in model 1, written as the 13-bit value 127. -/
theorem C4_zero_run_escape_witness :
    (emitted_item.escape 1 1 7).write = (127, 13) :=
  (C4_zero_run_escape (inn_gains 64 1.068) ⟨fun _ => 0, fun _ => 0⟩ (bwc_init (fun _ => 0))
    (fun _ => 0) (fun i => if i = 0 then 128 else if i < 8 then 0 else 64) 0 0 0 1 1
    (emitted_item.escape 1 1 7) (by decide!) (by decide!)).2.2.2.2.2.2.1 rfl (by decide!)

/-! ## Validity of the writes of an innovation block -/

/-- Bit layout of the halved-mode preamble value `pow | (a<<6) | (z<<7)`. -/
theorem preamble_value_layout :
    ∀ pow : Nat, pow < 64 → ∀ a : Nat, a < 2 → ∀ z : Nat, z < 2 →
      pow ||| (a <<< 6) ||| (z <<< 7) < 2 ^ 8 ∧
      (pow ||| (a <<< 6) ||| (z <<< 7)) % 2 ^ 6 = pow ∧
      ((pow ||| (a <<< 6) ||| (z <<< 7)) >>> 6) % 2 ^ 1 = a ∧
      ((pow ||| (a <<< 6) ||| (z <<< 7)) >>> 7) % 2 ^ 1 = z := by
  decide

theorem preamble_valid (halved_innovation pow a z : Nat) (hp : pow < 64) (ha : a < 2)
    (hz : z < 2) : valid_write (preamble halved_innovation pow a z) := by
  unfold preamble valid_write
  split
  · exact ⟨by simp, by simp, (preamble_value_layout pow hp a ha z hz).1⟩
  · exact ⟨by simp, by simp, by simp only; omega⟩

/-- Every item of `encode_huffman` stands for a valid write: a code word of the table for
a symbol of `[-13, 13]`, or an escape for a length of `[7, 70]`. -/
theorem encode_huffman_items_valid (inn_gains : Nat → ℚ) (locals : huffman_locals)
    (bwc : bit_writer_context) (innovation_out innovation_in : Int → ℚ)
    (halved_innovation pow a z : Nat) :
    ∀ it ∈ (encode_huffman inn_gains locals bwc innovation_out innovation_in
      halved_innovation pow a z).items, valid_write it.write := by
  intro it hit
  obtain ⟨_, hb, _⟩ := huffman_emit_loop_structure
    (encode_huffman_quantized inn_gains locals innovation_out innovation_in
      halved_innovation pow a z).values
    (encode_huffman_zero_counts inn_gains locals innovation_out innovation_in
      halved_innovation pow a z)
    (innovation_interval halved_innovation) (innovation_interval_cases _) 108 a 0
    (bwc_write_bits bwc (preamble halved_innovation pow a z).1
      (preamble halved_innovation pow a z).2) (by decide)
  obtain ⟨b1, b2, b3, b4, b5⟩ := hb it hit
  by_cases hrun : encode_huffman_zero_counts inn_gains locals innovation_out innovation_in
      halved_innovation pow a z it.position ≥ 7
  · rw [if_pos hrun] at b5
    have hn : (MIN (encode_huffman_zero_counts inn_gains locals innovation_out
        innovation_in halved_innovation pow a z it.position) 70 - 7).toNat < 64 := by
      unfold MIN
      split <;> omega
    rw [congrArg emitted_item.write b5]
    simp only [emitted_item.write]
    split
    · exact ⟨by simp, by simp, (escape_value_valid _ hn).1⟩
    · exact ⟨by simp, by simp, (escape_value_valid _ hn).2⟩
  · rw [if_neg hrun] at b5
    have hact : it.position ∈ active_positions halved_innovation a :=
      (mem_active_positions _ _ _).mpr ⟨b1, b2, b3⟩
    have hval := (encode_huffman_quantized_spec inn_gains locals innovation_out
      innovation_in halved_innovation pow a z it.position).1
    rw [if_pos hact] at hval
    obtain ⟨r1, r2⟩ := huffman_symbol_range
      (innovation_in it.position / huffman_gain inn_gains pow z)
    rw [← hval] at r1 r2
    rw [congrArg emitted_item.write b5]
    simp only [emitted_item.write]
    have hk : (((encode_huffman_quantized inn_gains locals innovation_out innovation_in
        halved_innovation pow a z).values it.position + 13).toNat : Int) - 13
        = (encode_huffman_quantized inn_gains locals innovation_out innovation_in
          halved_innovation pow a z).values it.position := by omega
    obtain ⟨c1, c2, c3, _, _⟩ := huffman_models_check it.in_model b4
      ((encode_huffman_quantized inn_gains locals innovation_out innovation_in
        halved_innovation pow a z).values it.position + 13).toNat (by omega)
    rw [hk] at c1 c2 c3
    exact ⟨c2, c3, c1⟩

/-- All writes of a Huffman block are valid. -/
theorem encode_huffman_block_valid (inn_gains : Nat → ℚ) (locals : huffman_locals)
    (bwc : bit_writer_context) (innovation_out innovation_in : Int → ℚ)
    (halved_innovation pow a z : Nat) (hp : pow < 64) (ha : a < 2) (hz : z < 2) :
    ∀ w ∈ block_writes halved_innovation pow a z
      (encode_huffman inn_gains locals bwc innovation_out innovation_in
        halved_innovation pow a z).items, valid_write w := by
  intro w hw
  simp only [block_writes, List.mem_cons, List.mem_map] at hw
  rcases hw with h | ⟨it, hit, rfl⟩
  · rw [h]
    exact preamble_valid _ _ _ _ hp ha hz
  · exact encode_huffman_items_valid _ _ _ _ _ _ _ _ _ it hit

/-- A part of a field: if the `n` bits from `start` are the low bits of `v`, the `w` bits
from `start + off` read as `(v >> off) mod 2^w`. -/
theorem stream_subfield (buffer : Nat → Nat) (start v n off w : Nat) (h : off + w ≤ n)
    (hbits : ∀ j, j < n → stream_bit buffer (start + j) = v.testBit j) :
    stream_field buffer (start + off) w = (v >>> off) % 2 ^ w := by
  apply stream_field_eq
  intro j hj
  rw [Nat.testBit_shiftRight, Nat.add_assoc]
  exact hbits (off + j) (by omega)

/-- What the preamble of a block of valid writes reads as, in stream order from the bit
position the block starts at: in halved mode 8 bits, the 6-bit `pow`, then `a`, then `z`;
in full mode the 6-bit `pow`. -/
theorem block_preamble_fields (bwc : bit_writer_context) (hok : bwc_ok bwc)
    (halved_innovation pow a z : Nat) (hp : pow < 64) (ha : a < 2) (hz : z < 2)
    (items : List emitted_item)
    (hvalid : ∀ w ∈ block_writes halved_innovation pow a z items, valid_write w) :
    stream_field (bwc_writes bwc (block_writes halved_innovation pow a z items)).buffer
      (bit_position bwc) 6 = pow ∧
    (halved_innovation ≠ 0 →
      (preamble halved_innovation pow a z).2 = 8 ∧
      stream_field (bwc_writes bwc (block_writes halved_innovation pow a z items)).buffer
        (bit_position bwc + 6) 1 = a ∧
      stream_field (bwc_writes bwc (block_writes halved_innovation pow a z items)).buffer
        (bit_position bwc + 7) 1 = z) ∧
    (halved_innovation = 0 → (preamble halved_innovation pow a z).2 = 6) := by
  have hbits := (bwc_writes_field bwc [] (items.map emitted_item.write)
    (preamble halved_innovation pow a z).1 (preamble halved_innovation pow a z).2 hok
    hvalid).1
  simp only [List.nil_append, total_bits, List.map_nil, List.sum_nil, Nat.add_zero] at hbits
  have hbw : bwc_writes bwc (block_writes halved_innovation pow a z items) =
      bwc_writes bwc (((preamble halved_innovation pow a z).1,
        (preamble halved_innovation pow a z).2) :: items.map emitted_item.write) := rfl
  rw [hbw]
  obtain ⟨l1, l2, l3, l4⟩ := preamble_value_layout pow hp a ha z hz
  by_cases hh : halved_innovation ≠ 0
  · have e1 : (preamble halved_innovation pow a z).1 = pow ||| (a <<< 6) ||| (z <<< 7) := by
      simp [preamble, hh]
    have e2 : (preamble halved_innovation pow a z).2 = 8 := by
      simp [preamble, hh]
    rw [e1, e2] at hbits
    have f0 := stream_subfield _ (bit_position bwc) _ 8 0 6 (by omega) hbits
    have f6 := stream_subfield _ (bit_position bwc) _ 8 6 1 (by omega) hbits
    have f7 := stream_subfield _ (bit_position bwc) _ 8 7 1 (by omega) hbits
    rw [Nat.add_zero, Nat.shiftRight_zero, l2] at f0
    rw [l3] at f6
    rw [l4] at f7
    rw [e1, e2]
    exact ⟨f0, fun _ => ⟨rfl, f6, f7⟩, fun h => absurd h hh⟩
  · have hh0 : halved_innovation = 0 := by omega
    have e1 : (preamble halved_innovation pow a z).1 = pow := by
      simp [preamble, hh0]
    have e2 : (preamble halved_innovation pow a z).2 = 6 := by
      simp [preamble, hh0]
    rw [e1, e2] at hbits
    have f0 := stream_subfield _ (bit_position bwc) _ 6 0 6 (by omega) hbits
    rw [Nat.add_zero, Nat.shiftRight_zero, Nat.mod_eq_of_lt (by omega)] at f0
    rw [e1, e2]
    exact ⟨f0, fun h => absurd hh0 h, fun _ => rfl⟩

/-! ## The loop of `encode_triangular` -/

theorem triangular_step_bwc (inn_gain : ℚ) (innovation_in : Int → ℚ) (i : Int)
    (s : innovation_encoding) :
    (triangular_step inn_gain innovation_in i s).bwc =
      bwc_write_bits s.bwc
        (emitted_item.ternary i (triangular_symbol inn_gain (innovation_in i))).write.1
        (emitted_item.ternary i (triangular_symbol inn_gain (innovation_in i))).write.2 := by
  simp only [triangular_step, emitted_item.write]
  split
  · rfl
  · split <;> rfl

/-- Fold of the ternary step over a list of positions. -/
theorem foldl_triangular_step (inn_gain : ℚ) (innovation_in : Int → ℚ) :
    ∀ (l : List Int) (s : innovation_encoding),
      (l.foldl (fun s i => triangular_step inn_gain innovation_in i s) s).items =
        s.items ++ l.map
          (fun i => emitted_item.ternary i (triangular_symbol inn_gain (innovation_in i))) ∧
      (l.foldl (fun s i => triangular_step inn_gain innovation_in i s) s).bwc =
        bwc_writes s.bwc (l.map (fun i =>
          (emitted_item.ternary i (triangular_symbol inn_gain (innovation_in i))).write)) ∧
      (∀ j, (l.foldl (fun s i => triangular_step inn_gain innovation_in i s) s).innovation j =
        if j ∈ l then inn_gain * triangular_symbol inn_gain (innovation_in j)
        else s.innovation j) := by
  intro l
  induction l with
  | nil => intro s; simp [bwc_writes]
  | cons x l ih =>
    intro s
    rw [List.foldl_cons]
    obtain ⟨h1, h2, h3⟩ := ih (triangular_step inn_gain innovation_in x s)
    refine ⟨?_, ?_, ?_⟩
    · rw [h1]
      simp [triangular_step]
    · rw [h2, triangular_step_bwc]
      rfl
    · intro j
      rw [h3 j]
      by_cases c1 : j ∈ l
      · simp [c1]
      · by_cases c2 : j = x
        · subst c2
          simp [c1, triangular_step, storeI_same]
        · simp [c1, c2, triangular_step, storeI_other _ _ _ _ c2]

/-- Number of bits of a list of ternary symbols: one per symbol and one more per non-zero
symbol. -/
theorem total_bits_ternary (f : Int → Int) :
    ∀ l : List Int,
      total_bits (l.map (fun i => (emitted_item.ternary i (f i)).write)) =
        l.length + (l.filter (fun i => decide (f i ≠ 0))).length := by
  intro l
  induction l with
  | nil => rfl
  | cons x l ih =>
    have hc : total_bits ((x :: l).map (fun i => (emitted_item.ternary i (f i)).write))
        = (emitted_item.ternary x (f x)).write.2
          + total_bits (l.map (fun i => (emitted_item.ternary i (f i)).write)) := by
      simp [total_bits]
    rw [hc, ih]
    by_cases h0 : f x = 0
    · simp [emitted_item.write, h0]
      omega
    · by_cases hpos : f x > 0
      · simp [emitted_item.write, h0, hpos]
        omega
      · have hneg : f x < 0 := by omega
        simp [emitted_item.write, h0, hpos, hneg]
        omega

/-- `encode_triangular`: items, writer and output array. -/
theorem encode_triangular_spec (inn_gains : Nat → ℚ) (bwc : bit_writer_context)
    (innovation_out innovation_in : Int → ℚ) (halved_innovation pow a z : Nat) :
    (encode_triangular inn_gains bwc innovation_out innovation_in halved_innovation
        pow a z).items =
      (active_positions halved_innovation a).map (fun i =>
        emitted_item.ternary i
          (triangular_symbol (triangular_gain inn_gains pow z) (innovation_in i))) ∧
    (encode_triangular inn_gains bwc innovation_out innovation_in halved_innovation
        pow a z).bwc =
      bwc_writes bwc (block_writes halved_innovation pow a z
        (encode_triangular inn_gains bwc innovation_out innovation_in halved_innovation
          pow a z).items) ∧
    (∀ j, (encode_triangular inn_gains bwc innovation_out innovation_in halved_innovation
        pow a z).innovation j =
      if j ∈ active_positions halved_innovation a
      then triangular_gain inn_gains pow z
        * triangular_symbol (triangular_gain inn_gains pow z) (innovation_in j)
      else innovation_out j) := by
  obtain ⟨h1, h2, h3⟩ := foldl_triangular_step (triangular_gain inn_gains pow z)
    innovation_in (active_positions halved_innovation a)
    { bwc := bwc_write_bits bwc (preamble halved_innovation pow a z).1
        (preamble halved_innovation pow a z).2
      innovation := innovation_out, bits_used := 0, error := 0, pow := pow, items := [] }
  have hitems : (encode_triangular inn_gains bwc innovation_out innovation_in
      halved_innovation pow a z).items =
      (active_positions halved_innovation a).map (fun i =>
        emitted_item.ternary i
          (triangular_symbol (triangular_gain inn_gains pow z) (innovation_in i))) := by
    simp only [encode_triangular, for_positions_eq_foldl]
    rw [show positions (innovation_interval halved_innovation) 108 a
      = active_positions halved_innovation a from rfl, h1]
    rfl
  refine ⟨hitems, ?_, ?_⟩
  · rw [hitems]
    simp only [encode_triangular, for_positions_eq_foldl, block_writes]
    rw [show positions (innovation_interval halved_innovation) 108 a
      = active_positions halved_innovation a from rfl, h2]
    simp [bwc_writes, List.map_map, Function.comp_def]
  · intro j
    simp only [encode_triangular, for_positions_eq_foldl]
    rw [show positions (innovation_interval halved_innovation) 108 a
      = active_positions halved_innovation a from rfl, h3 j]

theorem ternary_write_valid (i v : Int) : valid_write (emitted_item.ternary i v).write := by
  simp only [emitted_item.write, valid_write]
  split
  · simp
  · split <;> simp

/-- All writes of a ternary block are valid. -/
theorem encode_triangular_block_valid (inn_gains : Nat → ℚ) (bwc : bit_writer_context)
    (innovation_out innovation_in : Int → ℚ) (halved_innovation pow a z : Nat)
    (hp : pow < 64) (ha : a < 2) (hz : z < 2) :
    ∀ w ∈ block_writes halved_innovation pow a z
      (encode_triangular inn_gains bwc innovation_out innovation_in
        halved_innovation pow a z).items, valid_write w := by
  intro w hw
  rw [(encode_triangular_spec _ _ _ _ _ _ _ _).1] at hw
  simp only [block_writes, List.mem_cons, List.mem_map] at hw
  rcases hw with h | ⟨it, ⟨i, _, rfl⟩, rfl⟩
  · rw [h]
    exact preamble_valid _ _ _ _ hp ha hz
  · exact ternary_write_valid _ _

/-! ## C5: the preamble of an innovation block -/

/-- C5 (counterexample): a halved-mode block with `pow = 0`, `a = 1`, `z = 0` written to a
fresh writer.  Were the preamble the power, then `z`, then `a`, stream bit 6 would hold
`z = 0` and stream bit 7 would hold `a = 1`; both encoders write the opposite. -/
theorem C5_flag_a_is_written_before_z :
    ¬ (stream_field (encode_huffman (inn_gains 64 1.068) ⟨fun _ => 0, fun _ => 0⟩
          (bwc_init (fun _ => 0)) (fun _ => 0) (fun _ => 0) 1 0 1 0).bwc.buffer 6 1 = 0 ∧
       stream_field (encode_huffman (inn_gains 64 1.068) ⟨fun _ => 0, fun _ => 0⟩
          (bwc_init (fun _ => 0)) (fun _ => 0) (fun _ => 0) 1 0 1 0).bwc.buffer 7 1 = 1) ∧
    ¬ (stream_field (encode_triangular (inn_gains 64 1.068) (bwc_init (fun _ => 0))
          (fun _ => 0) (fun _ => 0) 1 0 1 0).bwc.buffer 6 1 = 0 ∧
       stream_field (encode_triangular (inn_gains 64 1.068) (bwc_init (fun _ => 0))
          (fun _ => 0) (fun _ => 0) 1 0 1 0).bwc.buffer 7 1 = 1) := by
  decide!

/-- C5 (amended): in halved mode the innovation-block preamble written by `encode_huffman`
and by `encode_triangular` is one 8-bit write which holds, in LSB-first stream order from
the bit position of the writer on entry, the 6-bit power `pow`, then the flag `a`, then
the flag `z`; in full mode the preamble is the 6-bit power alone.  The items of the block
follow the preamble. -/
theorem C5_preamble_pow_then_a_then_z (inn_gains : Nat → ℚ) (locals : huffman_locals)
    (bwc : bit_writer_context) (innovation_out innovation_in : Int → ℚ)
    (halved_innovation pow a z : Nat) (hok : bwc_ok bwc) (hp : pow < 64) (ha : a < 2)
    (hz : z < 2) :
    ((encode_huffman inn_gains locals bwc innovation_out innovation_in halved_innovation
        pow a z).bwc =
      bwc_writes bwc (preamble halved_innovation pow a z ::
        (encode_huffman inn_gains locals bwc innovation_out innovation_in halved_innovation
          pow a z).items.map emitted_item.write) ∧
     stream_field (encode_huffman inn_gains locals bwc innovation_out innovation_in
        halved_innovation pow a z).bwc.buffer (8 * bwc.pos + bwc.written_bits_count) 6 = pow ∧
     (halved_innovation ≠ 0 →
       (preamble halved_innovation pow a z).2 = 8 ∧
       stream_field (encode_huffman inn_gains locals bwc innovation_out innovation_in
          halved_innovation pow a z).bwc.buffer
          (8 * bwc.pos + bwc.written_bits_count + 6) 1 = a ∧
       stream_field (encode_huffman inn_gains locals bwc innovation_out innovation_in
          halved_innovation pow a z).bwc.buffer
          (8 * bwc.pos + bwc.written_bits_count + 7) 1 = z) ∧
     (halved_innovation = 0 → (preamble halved_innovation pow a z).2 = 6)) ∧
    ((encode_triangular inn_gains bwc innovation_out innovation_in halved_innovation
        pow a z).bwc =
      bwc_writes bwc (preamble halved_innovation pow a z ::
        (encode_triangular inn_gains bwc innovation_out innovation_in halved_innovation
          pow a z).items.map emitted_item.write) ∧
     stream_field (encode_triangular inn_gains bwc innovation_out innovation_in
        halved_innovation pow a z).bwc.buffer (8 * bwc.pos + bwc.written_bits_count) 6 = pow ∧
     (halved_innovation ≠ 0 →
       (preamble halved_innovation pow a z).2 = 8 ∧
       stream_field (encode_triangular inn_gains bwc innovation_out innovation_in
          halved_innovation pow a z).bwc.buffer
          (8 * bwc.pos + bwc.written_bits_count + 6) 1 = a ∧
       stream_field (encode_triangular inn_gains bwc innovation_out innovation_in
          halved_innovation pow a z).bwc.buffer
          (8 * bwc.pos + bwc.written_bits_count + 7) 1 = z) ∧
     (halved_innovation = 0 → (preamble halved_innovation pow a z).2 = 6)) := by
  have hH := encode_huffman_writes inn_gains locals bwc innovation_out innovation_in
    halved_innovation pow a z
  have hT := (encode_triangular_spec inn_gains bwc innovation_out innovation_in
    halved_innovation pow a z).2.1
  have fH := block_preamble_fields bwc hok halved_innovation pow a z hp ha hz _
    (encode_huffman_block_valid inn_gains locals bwc innovation_out innovation_in
      halved_innovation pow a z hp ha hz)
  have fT := block_preamble_fields bwc hok halved_innovation pow a z hp ha hz _
    (encode_triangular_block_valid inn_gains bwc innovation_out innovation_in
      halved_innovation pow a z hp ha hz)
  rw [← hH] at fH
  rw [← hT] at fT
  exact ⟨⟨hH, fH⟩, ⟨hT, fT⟩⟩

/-- Witness for C5 (amended): halved mode, `pow = 5`, `a = 1`, `z = 0`, fresh writer. -/
theorem C5_preamble_pow_then_a_then_z_witness :
    stream_field (encode_huffman (inn_gains 64 1.068) ⟨fun _ => 0, fun _ => 0⟩
      (bwc_init (fun _ => 0)) (fun _ => 0) (fun _ => 0) 1 5 1 0).bwc.buffer
      (8 * (bwc_init (fun _ => 0)).pos + (bwc_init (fun _ => 0)).written_bits_count) 6 = 5 :=
  (C5_preamble_pow_then_a_then_z (inn_gains 64 1.068) ⟨fun _ => 0, fun _ => 0⟩
    (bwc_init (fun _ => 0)) (fun _ => 0) (fun _ => 0) 1 5 1 0 (bwc_ok_init _)
    (by decide) (by decide) (by decide)).1.2.1

/-! ## C6: the ternary encoder -/

theorem encode_triangular_bits_used (inn_gains : Nat → ℚ) (bwc : bit_writer_context)
    (innovation_out innovation_in : Int → ℚ) (halved_innovation pow a z : Nat) :
    (encode_triangular inn_gains bwc innovation_out innovation_in halved_innovation
        pow a z).bits_used =
      (bit_position (encode_triangular inn_gains bwc innovation_out innovation_in
        halved_innovation pow a z).bwc : Int) - (bit_position bwc : Int) := by
  simp only [encode_triangular, bit_position]
  push_cast
  rfl

/-- C6: for every input block, power `pow ∈ [0, 63]` and flags `a`, `z ∈ {0, 1}`,
`encode_triangular` quantises each active sample `x` to `round(clamp(x/step, -1, 1))`,
a symbol of `{-1, 0, +1}` (halves away from zero), with `step = 2*G(pow)` when `z = 1` and
`G(pow)` when `z = 0`; it writes 0 as the single bit 0, `+1` as the 2-bit value 3 and `-1`
as the 2-bit value 1, after the preamble and in position order; it stores `step*symbol`
as the reconstructed sample; and it reports `bits_used` = preamble width (8 halved,
6 full) + number of active positions + number of non-zero symbols. -/
theorem C6_encode_triangular (inn_gains : Nat → ℚ) (bwc : bit_writer_context)
    (innovation_out innovation_in : Int → ℚ) (halved_innovation pow a z : Nat)
    (hok : bwc_ok bwc) (hp : pow < 64) (ha : a < 2) (hz : z < 2) :
    triangular_gain inn_gains pow z = (if z = 1 then 2 * inn_gains pow else inn_gains pow) ∧
    (∀ x : ℚ, triangular_symbol (triangular_gain inn_gains pow z) x =
      if 1 / 2 ≤ x / triangular_gain inn_gains pow z then 1
      else if x / triangular_gain inn_gains pow z ≤ -(1 / 2) then -1 else 0) ∧
    (encode_triangular inn_gains bwc innovation_out innovation_in halved_innovation
        pow a z).items =
      (active_positions halved_innovation a).map (fun i =>
        emitted_item.ternary i
          (triangular_symbol (triangular_gain inn_gains pow z) (innovation_in i))) ∧
    (encode_triangular inn_gains bwc innovation_out innovation_in halved_innovation
        pow a z).bwc =
      bwc_writes bwc (preamble halved_innovation pow a z ::
        (encode_triangular inn_gains bwc innovation_out innovation_in halved_innovation
          pow a z).items.map emitted_item.write) ∧
    (∀ i : Int, (emitted_item.ternary i 0).write = (0, 1) ∧
      (emitted_item.ternary i 1).write = (3, 2) ∧
      (emitted_item.ternary i (-1)).write = (1, 2)) ∧
    (∀ i ∈ active_positions halved_innovation a,
      (encode_triangular inn_gains bwc innovation_out innovation_in halved_innovation
        pow a z).innovation i =
      triangular_gain inn_gains pow z
        * triangular_symbol (triangular_gain inn_gains pow z) (innovation_in i)) ∧
    (encode_triangular inn_gains bwc innovation_out innovation_in halved_innovation
        pow a z).bits_used =
      (((preamble halved_innovation pow a z).2
        + (active_positions halved_innovation a).length
        + ((active_positions halved_innovation a).filter (fun i =>
            decide (triangular_symbol (triangular_gain inn_gains pow z) (innovation_in i)
              ≠ 0))).length : Nat) : Int) ∧
    (preamble halved_innovation pow a z).2 = (if halved_innovation ≠ 0 then 8 else 6) ∧
    (active_positions halved_innovation a).length
      = (if halved_innovation ≠ 0 then 54 else 108 - a) := by
  obtain ⟨s1, s2, s3⟩ := encode_triangular_spec inn_gains bwc innovation_out innovation_in
    halved_innovation pow a z
  have hvalid := encode_triangular_block_valid inn_gains bwc innovation_out innovation_in
    halved_innovation pow a z hp ha hz
  have hpos := (bwc_writes_spec _ bwc hok hvalid).2.1
  rw [← s2] at hpos
  have hgain : triangular_gain inn_gains pow z
      = (if z = 1 then 2 * inn_gains pow else inn_gains pow) := by
    unfold triangular_gain
    have : z = 0 ∨ z = 1 := by omega
    rcases this with h | h <;> subst h
    · simp only [if_true]
      rw [if_neg (by decide)]
      ring
    · rw [if_neg (by decide), if_pos rfl]
  have hlen : (active_positions halved_innovation a).length
      = (if halved_innovation ≠ 0 then 54 else 108 - a) := by
    by_cases hh : halved_innovation ≠ 0
    · rw [if_pos hh]
      have e : active_positions halved_innovation a = active_positions 1 a := by
        simp [active_positions, innovation_interval, hh]
      rw [e]
      exact length_active_positions.1 a ha
    · rw [if_neg hh]
      have hh0 : halved_innovation = 0 := by omega
      subst hh0
      have : a = 0 ∨ a = 1 := by omega
      rcases this with h | h <;> subst h <;> decide!
  refine ⟨hgain, fun x => triangular_symbol_eq _ x, s1, s2, fun i => ⟨rfl, rfl, rfl⟩, ?_, ?_,
    ?_, hlen⟩
  · intro i hi
    rw [s3 i, if_pos hi]
  · rw [encode_triangular_bits_used, hpos]
    have htot : total_bits (block_writes halved_innovation pow a z
        (encode_triangular inn_gains bwc innovation_out innovation_in halved_innovation
          pow a z).items) =
        (preamble halved_innovation pow a z).2
        + ((active_positions halved_innovation a).length
        + ((active_positions halved_innovation a).filter (fun i =>
            decide (triangular_symbol (triangular_gain inn_gains pow z) (innovation_in i)
              ≠ 0))).length) := by
      rw [s1]
      have := total_bits_ternary
        (fun i => triangular_symbol (triangular_gain inn_gains pow z) (innovation_in i))
        (active_positions halved_innovation a)
      simp only [block_writes, total_bits, List.map_cons, List.sum_cons, List.map_map,
        Function.comp_def] at this ⊢
      rw [this]
    rw [htot]
    push_cast
    ring
  · unfold preamble
    split <;> rfl

/-- Witness for C6: the all-zero block in halved mode takes 8 + 54 + 0 bits. -/
theorem C6_encode_triangular_witness :
    (encode_triangular (inn_gains 64 1.068) (bwc_init (fun _ => 0)) (fun _ => 0) (fun _ => 0)
      1 0 0 1).bits_used =
      (((preamble 1 0 0 1).2 + (active_positions 1 0).length
        + ((active_positions 1 0).filter (fun i =>
            decide (triangular_symbol (triangular_gain (inn_gains 64 1.068) 0 1)
              ((fun _ => 0) i) ≠ 0))).length : Nat) : Int) :=
  (C6_encode_triangular (inn_gains 64 1.068) (bwc_init (fun _ => 0)) (fun _ => 0)
    (fun _ => 0) 1 0 0 1 (bwc_ok_init _) (by decide) (by decide)
    (by decide)).2.2.2.2.2.2.1

/-! ## C10: the innovation left in place against the decoding rule -/

/-- The flags chosen for a block that is zero except for sample 107. -/
theorem find_a_z_flags_last_sample :
    find_a_z_flags (fun i => if i = 107 then 1000000 else 0) = (1, 1) := by
  decide!

/-- C10 (failing input): halved mode, Huffman coding, default gains (64, 1.068), a block
that is zero except for sample 107, and the stack slot `zero_counts[107]`, which the
backward scan of `encode_huffman` never assigns when `a = 1`, holding 7.  The flags are
`a = 1`, `z = 1`, the committed power is 63, and the committed items are a 53-zero escape
at position 1 and a zero-run escape at position 107: the decoding rule yields 0 at
sample 107, while `encode_innovation` leaves `13 * G(63)` there.  With the same input and
the slot holding 0, the second item is the symbol 13 and the decoding rule yields the
`13 * G(63)` that is left in place: the emitted items depend on the unassigned slot. -/
theorem C10_unassigned_zero_count_at_107 :
    (encode_innovation (inn_gains 64 1.068)
      (fun _ => ⟨bwc_init (fun _ => 0), fun _ => 0, 0, 0, 0, []⟩)
      (fun _ => ⟨fun _ => 0, fun i => if i = 107 then 7 else 0⟩)
      (bwc_init (fun _ => 0)) (fun i => if i = 107 then 1000000 else 0) 1 1 138).committed.pow
      = 63 ∧
    (encode_innovation (inn_gains 64 1.068)
      (fun _ => ⟨bwc_init (fun _ => 0), fun _ => 0, 0, 0, 0, []⟩)
      (fun _ => ⟨fun _ => 0, fun i => if i = 107 then 7 else 0⟩)
      (bwc_init (fun _ => 0)) (fun i => if i = 107 then 1000000 else 0) 1 1 138).committed.items
      = [emitted_item.escape 1 0 53, emitted_item.escape 107 0 7] ∧
    (encode_innovation (inn_gains 64 1.068)
      (fun _ => ⟨bwc_init (fun _ => 0), fun _ => 0, 0, 0, 0, []⟩)
      (fun _ => ⟨fun _ => 0, fun i => if i = 107 then 7 else 0⟩)
      (bwc_init (fun _ => 0)) (fun i => if i = 107 then 1000000 else 0) 1 1 138).innovation 107
      = 13 * inn_gains 64 1.068 63 ∧
    spec_decode_innovation 1 1 1 (spec_step 1 (inn_gains 64 1.068 63) 1)
      (expand_items [emitted_item.escape 1 0 53, emitted_item.escape 107 0 7]) 107 = 0 ∧
    (13 * inn_gains 64 1.068 63 ≠ 0) ∧
    (encode_innovation (inn_gains 64 1.068)
      (fun _ => ⟨bwc_init (fun _ => 0), fun _ => 0, 0, 0, 0, []⟩)
      (fun _ => ⟨fun _ => 0, fun _ => 0⟩)
      (bwc_init (fun _ => 0)) (fun i => if i = 107 then 1000000 else 0) 1 1 138).committed.items
      = [emitted_item.escape 1 0 53, emitted_item.symbol 107 0 13] ∧
    spec_decode_innovation 1 1 1 (spec_step 1 (inn_gains 64 1.068 63) 1)
      (expand_items [emitted_item.escape 1 0 53, emitted_item.symbol 107 0 13]) 107
      = 13 * inn_gains 64 1.068 63 := by
  refine ⟨?_, ?_, ?_, by decide!, by decide!, ?_, by decide!⟩
  · unfold encode_innovation
    simp only [find_a_z_flags_last_sample]
    decide!
  · unfold encode_innovation
    simp only [find_a_z_flags_last_sample]
    decide!
  · unfold encode_innovation
    simp only [find_a_z_flags_last_sample]
    decide!
  · unfold encode_innovation
    simp only [find_a_z_flags_last_sample]
    decide!

/-! ## File headers -/

theorem and_clear_low_bit (n : Nat) (h : n < 2 ^ 32) : n &&& 0xFFFFFFFE = n - n % 2 := by
  apply Nat.eq_of_testBit_eq
  intro i
  have h2 : n - n % 2 = (n >>> 1) <<< 1 := by
    rw [Nat.shiftRight_eq_div_pow, Nat.shiftLeft_eq]; omega
  have h3 : (0xFFFFFFFE : Nat) = (2 ^ 31 - 1) <<< 1 := by decide
  rw [Nat.testBit_and, h2, h3, Nat.testBit_shiftLeft, Nat.testBit_shiftLeft,
    Nat.testBit_shiftRight, Nat.testBit_two_pow_sub_one]
  by_cases hi : 1 ≤ i
  · have e : 1 + (i - 1) = i := by omega
    rw [e]
    by_cases h32 : i < 32
    · have : i - 1 < 31 := by omega
      simp [hi, this]
    · have hlt : n < 2 ^ i := lt_of_lt_of_le h (Nat.pow_le_pow_right (by decide) (by omega))
      simp [Nat.testBit_lt_two_pow hlt]
  · simp [hi]

theorem READ32_lt (x : Nat → Nat) (off : Nat) : READ32 x off < 2 ^ 32 :=
  Nat.mod_lt _ (by decide)

theorem READ16_lt (x : Nat → Nat) (off : Nat) : READ16 x off < 2 ^ 16 :=
  Nat.mod_lt _ (by decide)

theorem or_shift_bytes (a b c d : Nat) (ha : a < 256) (hb : b < 256) (hc : c < 256) :
    a ||| (b <<< 8) ||| (c <<< 16) ||| (d <<< 24) = a + 256 * b + 65536 * c + 16777216 * d := by
  have h1 : a ||| (b <<< 8) = 2 ^ 8 * b + a := by
    rw [Nat.lor_comm, Nat.shiftLeft_eq, Nat.mul_comm]
    exact (Nat.mul_add_lt_is_or (by simpa using ha) b).symm
  have h2 : (2 ^ 8 * b + a) ||| (c <<< 16) = 2 ^ 16 * c + (2 ^ 8 * b + a) := by
    rw [Nat.lor_comm, Nat.shiftLeft_eq, Nat.mul_comm]
    exact (Nat.mul_add_lt_is_or (by omega) c).symm
  have h3 : (2 ^ 16 * c + (2 ^ 8 * b + a)) ||| (d <<< 24)
      = 2 ^ 24 * d + (2 ^ 16 * c + (2 ^ 8 * b + a)) := by
    rw [Nat.lor_comm, Nat.shiftLeft_eq, Nat.mul_comm]
    exact (Nat.mul_add_lt_is_or (by omega) d).symm
  rw [h1, h2, h3]; omega

/-- Reading back with `read_u32` the four bytes `WRITE32` / `write_u32` store. -/
theorem READ32_of_bytes (x : Nat → Nat) (off m : Nat) (hm : m < 2 ^ 32)
    (h0 : x off = m % 256) (h1 : x (off + 1) = (m >>> 8) % 256)
    (h2 : x (off + 2) = (m >>> 16) % 256) (h3 : x (off + 3) = (m >>> 24) % 256) :
    READ32 x off = m := by
  unfold READ32
  rw [h0, h1, h2, h3, or_shift_bytes _ _ _ _ (Nat.mod_lt _ (by decide))
    (Nat.mod_lt _ (by decide)) (Nat.mod_lt _ (by decide))]
  simp only [Nat.shiftRight_eq_div_pow]
  omega

/-- The 32 bytes `main` of utkencode hands to `write_data`, for any accepted header and
any initial content of the local array. -/
theorem utkencode_header_bytes (wav_header utk_header : Nat → Nat)
    (h : utkencode_accepts wav_header = true) :
    utkencode_header wav_header utk_header = some
      { utk_header := utk_header_layout wav_header
        bytes_remaining := READ32 wav_header 40 &&& 0xFFFFFFFE
        sampling_rate := to_int32 (READ32 wav_header 24) } := by
  unfold utkencode_header
  rw [if_pos h]
  simp [List.range_succ, WRITE32, store, memcpy_bytes, utk_header_layout]

/-- C11: for every 44-byte WAV header that utkencode accepts (and whatever the local
array held before), the 32 bytes written are the signature UTM0, then dwOutSize = the
WAV data size with its lowest bit cleared (even, equal to the data size or one less) in
little-endian order, then dwWfxSize = 20, then WAV bytes 20..35 unchanged, then four zero
bytes (cbSize and the padding); the same value is the number of bytes left to encode. -/
theorem C11_utkencode_header (wav_header utk_header : Nat → Nat)
    (h : utkencode_accepts wav_header = true) :
    ∃ r m, utkencode_header wav_header utk_header = some r
      ∧ m = READ32 wav_header 40 - READ32 wav_header 40 % 2
      ∧ m % 2 = 0 ∧ (m = READ32 wav_header 40 ∨ m + 1 = READ32 wav_header 40)
      ∧ r.bytes_remaining = m
      ∧ r.utk_header =
          [0x55, 0x54, 0x4D, 0x30]
            ++ [m % 256, m / 256 % 256, m / 65536 % 256, m / 16777216 % 256]
            ++ [20, 0, 0, 0]
            ++ [wav_header 20, wav_header 21, wav_header 22, wav_header 23,
                wav_header 24, wav_header 25, wav_header 26, wav_header 27,
                wav_header 28, wav_header 29, wav_header 30, wav_header 31,
                wav_header 32, wav_header 33, wav_header 34, wav_header 35]
            ++ [0, 0]
            ++ [0, 0]
      ∧ r.utk_header.length = 32 := by
  refine ⟨_, _, utkencode_header_bytes wav_header utk_header h, rfl, by omega, by omega, ?_, ?_, ?_⟩
  · exact and_clear_low_bit _ (READ32_lt _ _)
  · simp only [utk_header_layout, and_clear_low_bit _ (READ32_lt wav_header 40)]
    simp [Nat.shiftRight_eq_div_pow]
  · simp [utk_header_layout]

theorem C11_utkencode_header_witness :
    utkencode_accepts (wav_header_of 22050 44100 865) = true
    ∧ ∃ r m, utkencode_header (wav_header_of 22050 44100 865) (fun _ => 170) = some r
      ∧ m = READ32 (wav_header_of 22050 44100 865) 40
          - READ32 (wav_header_of 22050 44100 865) 40 % 2
      ∧ m % 2 = 0
      ∧ (m = READ32 (wav_header_of 22050 44100 865) 40
          ∨ m + 1 = READ32 (wav_header_of 22050 44100 865) 40)
      ∧ r.bytes_remaining = m
      ∧ r.utk_header =
          [0x55, 0x54, 0x4D, 0x30]
            ++ [m % 256, m / 256 % 256, m / 65536 % 256, m / 16777216 % 256]
            ++ [20, 0, 0, 0]
            ++ [wav_header_of 22050 44100 865 20, wav_header_of 22050 44100 865 21,
                wav_header_of 22050 44100 865 22, wav_header_of 22050 44100 865 23,
                wav_header_of 22050 44100 865 24, wav_header_of 22050 44100 865 25,
                wav_header_of 22050 44100 865 26, wav_header_of 22050 44100 865 27,
                wav_header_of 22050 44100 865 28, wav_header_of 22050 44100 865 29,
                wav_header_of 22050 44100 865 30, wav_header_of 22050 44100 865 31,
                wav_header_of 22050 44100 865 32, wav_header_of 22050 44100 865 33,
                wav_header_of 22050 44100 865 34, wav_header_of 22050 44100 865 35]
            ++ [0, 0]
            ++ [0, 0]
      ∧ r.utk_header.length = 32 :=
  ⟨by decide!, C11_utkencode_header (wav_header_of 22050 44100 865) (fun _ => 170) (by decide!)⟩

/-- The header of the witness above, evaluated: data size 865 is written as 864. -/
theorem utkencode_header_example :
    (utkencode_header (wav_header_of 22050 44100 865) (fun _ => 170)).map
        (fun r => (r.utk_header, r.bytes_remaining, r.sampling_rate))
      = some ([0x55, 0x54, 0x4D, 0x30, 0x60, 0x03, 0, 0, 20, 0, 0, 0, 1, 0, 1, 0,
               0x22, 0x56, 0, 0, 0x44, 0xAC, 0, 0, 2, 0, 16, 0, 0, 0, 0, 0], 864, 22050) := by
  decide!

/-- The signature field equals `MAKE_U32('U','T','M','0')` exactly when the first four
bytes are the characters U, T, M, 0. -/
theorem sID_eq_iff_bytes (file : Nat → Nat) (hb : ∀ k, file k < 256) :
    (utkdecode_parse file).sID = MAKE_U32 0x55 0x54 0x4D 0x30
      ↔ file 0 = 0x55 ∧ file 1 = 0x54 ∧ file 2 = 0x4D ∧ file 3 = 0x30 := by
  have e : (utkdecode_parse file).sID = READ32 file 0 := rfl
  have h0 := hb 0
  have h1 := hb 1
  have h2 := hb 2
  have h3 := hb 3
  rw [e]
  unfold READ32
  simp only [Nat.zero_add]
  rw [or_shift_bytes _ _ _ _ h0 h1 h2]
  have hm : MAKE_U32 0x55 0x54 0x4D 0x30 = 810374229 := by decide
  rw [hm]
  omega

theorem utkdecode_valid_iff (f : utk_header_fields) :
    utkdecode_valid f = true ↔
      (f.sID = MAKE_U32 0x55 0x54 0x4D 0x30
        ∧ f.dwOutSize % 2 = 0 ∧ f.dwOutSize < 2 ^ 24
        ∧ f.dwWfxSize = 20 ∧ f.wFormatTag = 1 ∧ f.nChannels = 1
        ∧ 8000 ≤ f.nSamplesPerSec ∧ f.nSamplesPerSec ≤ 192000
        ∧ f.nAvgBytesPerSec = (f.nSamplesPerSec * f.nBlockAlign) % 2 ^ 32
        ∧ f.nBlockAlign = 2 ∧ f.wBitsPerSample = 16 ∧ f.cbSize = 0) := by
  have hand : f.dwOutSize &&& 0x01 = f.dwOutSize % 2 := Nat.and_one_is_mod _
  unfold utkdecode_valid
  rw [hand]
  by_cases h1 : f.sID = MAKE_U32 0x55 0x54 0x4D 0x30 <;>
  by_cases h2 : f.dwOutSize % 2 = 0 <;>
  by_cases h3 : f.dwOutSize < 2 ^ 24 <;>
  by_cases h4 : f.dwWfxSize = 20 <;>
  by_cases h5 : f.wFormatTag = 1 <;>
  simp [h1, h2, h3, h4, h5] <;>
  omega

/-- C12: utkdecode accepts a 32-byte header exactly when sID is UTM0, dwOutSize is even and
below 2^24, dwWfxSize = 20, wFormatTag = 1, nChannels = 1, nSamplesPerSec lies in
[8000, 192000], nAvgBytesPerSec = nSamplesPerSec * nBlockAlign modulo 2^32, nBlockAlign = 2,
wBitsPerSample = 16 and cbSize = 0; when it does not accept, no output byte has been
written, and when it accepts the 44-byte WAV header has been. -/
theorem C12_utkdecode_header_validation (file : Nat → Nat) :
    ((utkdecode_header file).1 = true ↔
      ((utkdecode_parse file).sID = MAKE_U32 0x55 0x54 0x4D 0x30
        ∧ (utkdecode_parse file).dwOutSize % 2 = 0
        ∧ (utkdecode_parse file).dwOutSize < 2 ^ 24
        ∧ (utkdecode_parse file).dwWfxSize = 20
        ∧ (utkdecode_parse file).wFormatTag = 1
        ∧ (utkdecode_parse file).nChannels = 1
        ∧ 8000 ≤ (utkdecode_parse file).nSamplesPerSec
        ∧ (utkdecode_parse file).nSamplesPerSec ≤ 192000
        ∧ (utkdecode_parse file).nAvgBytesPerSec
            = ((utkdecode_parse file).nSamplesPerSec * (utkdecode_parse file).nBlockAlign)
                % 2 ^ 32
        ∧ (utkdecode_parse file).nBlockAlign = 2
        ∧ (utkdecode_parse file).wBitsPerSample = 16
        ∧ (utkdecode_parse file).cbSize = 0))
    ∧ ((utkdecode_header file).1 = false → (utkdecode_header file).2.2 = [])
    ∧ ((utkdecode_header file).1 = true → (utkdecode_header file).2.2.length = 44) := by
  rw [← utkdecode_valid_iff]
  unfold utkdecode_header
  by_cases h : utkdecode_valid (utkdecode_parse file) = true
  · simp [h, utkdecode_wav_header, write_u32, write_u16]
  · simp [h]

theorem C12_utkdecode_header_validation_witness :
    (utkdecode_header (bytes_of [0x55, 0x54, 0x4D, 0x30, 0x60, 0x03, 0, 0, 20, 0, 0, 0,
        1, 0, 1, 0, 0x3F, 0x1F, 0, 0, 0x7E, 0x3E, 0, 0, 2, 0, 16, 0, 0, 0, 0, 0])).1 = false
    ∧ (utkdecode_header (bytes_of [0x55, 0x54, 0x4D, 0x30, 0x60, 0x03, 0, 0, 20, 0, 0, 0,
        1, 0, 1, 0, 0x3F, 0x1F, 0, 0, 0x7E, 0x3E, 0, 0, 2, 0, 16, 0, 0, 0, 0, 0])).2.2 = []
    ∧ (utkdecode_header (bytes_of [0x55, 0x54, 0x4D, 0x30, 0x60, 0x03, 0, 0, 20, 0, 0, 0,
        1, 0, 1, 0, 0x22, 0x56, 0, 0, 0x44, 0xAC, 0, 0, 2, 0, 16, 0, 0, 0, 0, 0])).1 = true
    ∧ (utkdecode_header (bytes_of [0x55, 0x54, 0x4D, 0x30, 0x60, 0x03, 0, 0, 20, 0, 0, 0,
        1, 0, 1, 0, 0x22, 0x56, 0, 0, 0x44, 0xAC, 0, 0, 2, 0, 16, 0, 0, 0, 0, 0])).2.2.length
      = 44 :=
  ⟨by decide!,
   (C12_utkdecode_header_validation (bytes_of [0x55, 0x54, 0x4D, 0x30, 0x60, 0x03, 0, 0, 20,
      0, 0, 0, 1, 0, 1, 0, 0x3F, 0x1F, 0, 0, 0x7E, 0x3E, 0, 0, 2, 0, 16, 0, 0, 0, 0, 0])).2.1
      (by decide!),
   by decide!,
   (C12_utkdecode_header_validation (bytes_of [0x55, 0x54, 0x4D, 0x30, 0x60, 0x03, 0, 0, 20,
      0, 0, 0, 1, 0, 1, 0, 0x22, 0x56, 0, 0, 0x44, 0xAC, 0, 0, 2, 0, 16, 0, 0, 0, 0, 0])).2.2
      (by decide!)⟩

/-- Two headers under utkdecode: the header written for a 22050 Hz file is accepted, the
same header with sampling rate 7999 is refused with nothing written. -/
theorem utkdecode_header_examples :
    (utkdecode_header (bytes_of [0x55, 0x54, 0x4D, 0x30, 0x60, 0x03, 0, 0, 20, 0, 0, 0,
        1, 0, 1, 0, 0x22, 0x56, 0, 0, 0x44, 0xAC, 0, 0, 2, 0, 16, 0, 0, 0, 0, 0])).1 = true
    ∧ utkdecode_header (bytes_of [0x55, 0x54, 0x4D, 0x30, 0x60, 0x03, 0, 0, 20, 0, 0, 0,
        1, 0, 1, 0, 0x3F, 0x1F, 0, 0, 0x7E, 0x3E, 0, 0, 2, 0, 16, 0, 0, 0, 0, 0])
      = (false, 0, []) := by
  decide!

/-- What utkdecode parses from the header utkencode writes. -/
theorem parse_encoded_header (wav_header : Nat → Nat) :
    utkdecode_parse (bytes_of (utk_header_layout wav_header))
      = { sID := MAKE_U32 0x55 0x54 0x4D 0x30
          dwOutSize := READ32 wav_header 40 - READ32 wav_header 40 % 2
          dwWfxSize := 20
          wFormatTag := READ16 wav_header 20
          nChannels := READ16 wav_header 22
          nSamplesPerSec := READ32 wav_header 24
          nAvgBytesPerSec := READ32 wav_header 28
          nBlockAlign := READ16 wav_header 32
          wBitsPerSample := READ16 wav_header 34
          cbSize := 0 } := by
  have hm : READ32 wav_header 40 - READ32 wav_header 40 % 2 < 2 ^ 32 :=
    lt_of_le_of_lt (Nat.sub_le _ _) (READ32_lt _ _)
  have e0 : READ32 (bytes_of (utk_header_layout wav_header)) 0 = MAKE_U32 0x55 0x54 0x4D 0x30 := by
    apply READ32_of_bytes _ _ _ (by decide) <;> simp [bytes_of, utk_header_layout] <;> decide
  have e4 : READ32 (bytes_of (utk_header_layout wav_header)) 4
      = READ32 wav_header 40 - READ32 wav_header 40 % 2 := by
    apply READ32_of_bytes _ _ _ hm <;>
      simp [bytes_of, utk_header_layout, and_clear_low_bit _ (READ32_lt wav_header 40)]
  have e8 : READ32 (bytes_of (utk_header_layout wav_header)) 8 = 20 := by
    apply READ32_of_bytes _ _ _ (by decide) <;> simp [bytes_of, utk_header_layout]
  have e12 : READ16 (bytes_of (utk_header_layout wav_header)) 12 = READ16 wav_header 20 := by
    simp [READ16, bytes_of, utk_header_layout]
  have e14 : READ16 (bytes_of (utk_header_layout wav_header)) 14 = READ16 wav_header 22 := by
    simp [READ16, bytes_of, utk_header_layout]
  have e16 : READ32 (bytes_of (utk_header_layout wav_header)) 16 = READ32 wav_header 24 := by
    simp [READ32, bytes_of, utk_header_layout]
  have e20 : READ32 (bytes_of (utk_header_layout wav_header)) 20 = READ32 wav_header 28 := by
    simp [READ32, bytes_of, utk_header_layout]
  have e24 : READ16 (bytes_of (utk_header_layout wav_header)) 24 = READ16 wav_header 32 := by
    simp [READ16, bytes_of, utk_header_layout]
  have e26 : READ16 (bytes_of (utk_header_layout wav_header)) 26 = READ16 wav_header 34 := by
    simp [READ16, bytes_of, utk_header_layout]
  have e28 : READ16 (bytes_of (utk_header_layout wav_header)) 28 = 0 := by
    simp [READ16, bytes_of, utk_header_layout]
  unfold utkdecode_parse
  rw [e0, e4, e8, e12, e14, e16, e20, e24, e26, e28]

/-- C13, as stated, fails: utkencode accepts a 4000 Hz header, a header whose data size
is 2^24, and a header whose average byte rate is not twice the sampling rate, and
utkdecode refuses the UTK header written for each of them. -/
theorem C13_utkdecode_refuses_accepted_headers :
    (utkencode_accepts (wav_header_of 4000 8000 864) = true
      ∧ (decode_encoded_header (wav_header_of 4000 8000 864) (fun _ => 0)).map (fun d => d.1)
          = some false)
    ∧ (utkencode_accepts (wav_header_of 22050 44100 16777216) = true
      ∧ (decode_encoded_header (wav_header_of 22050 44100 16777216) (fun _ => 0)).map
          (fun d => d.1) = some false)
    ∧ (utkencode_accepts (wav_header_of 22050 22050 864) = true
      ∧ (decode_encoded_header (wav_header_of 22050 22050 864) (fun _ => 0)).map
          (fun d => d.1) = some false) := by
  decide!

/-- C13, amended: for every WAV header that utkencode accepts whose sampling rate lies in
[8000, 192000], whose data size with the lowest bit cleared is below 2^24 and whose
average byte rate is twice the sampling rate, the UTK header utkencode writes passes the
header validation of utkdecode, and the PCM length utkdecode declares (the data-size
field of the WAV header it writes, 2 * num_samples) equals the dwOutSize field. -/
theorem C13_accepted_header_decodes (wav_header utk_header : Nat → Nat)
    (h : utkencode_accepts wav_header = true)
    (hrate : 8000 ≤ READ32 wav_header 24 ∧ READ32 wav_header 24 ≤ 192000)
    (hsize : READ32 wav_header 40 - READ32 wav_header 40 % 2 < 2 ^ 24)
    (havg : READ32 wav_header 28 = 2 * READ32 wav_header 24) :
    ∃ r num_samples out,
      utkencode_header wav_header utk_header = some r
      ∧ decode_encoded_header wav_header utk_header = some (true, num_samples, out)
      ∧ 2 * num_samples = READ32 (bytes_of r.utk_header) 4
      ∧ 2 * num_samples = r.bytes_remaining
      ∧ out.length = 44
      ∧ READ32 (bytes_of out) 40 = 2 * num_samples := by
  have hacc := h
  unfold utkencode_accepts at hacc
  simp only [Bool.or_eq_true, Bool.not_eq_true', ne_eq] at hacc
  split at hacc
  · exact absurd hacc (by simp)
  split at hacc
  · exact absurd hacc (by simp)
  rename_i hfmt
  have hfmt' : READ16 wav_header 20 = 1 ∧ READ16 wav_header 22 = 1
      ∧ READ16 wav_header 32 = 2 ∧ READ16 wav_header 34 = 16 := by
    refine ⟨?_, ?_, ?_, ?_⟩ <;> by_contra hc <;> simp [hc] at hfmt
  obtain ⟨f1, f2, f3, f4⟩ := hfmt'
  have henc := utkencode_header_bytes wav_header utk_header h
  have hparse := parse_encoded_header wav_header
  have hvalid : utkdecode_valid (utkdecode_parse (bytes_of (utk_header_layout wav_header))) = true := by
    rw [utkdecode_valid_iff, hparse]
    dsimp only
    refine ⟨rfl, by omega, hsize, rfl, f1, f2, hrate.1, hrate.2, ?_, f3, f4, rfl⟩
    rw [havg, f3, Nat.mul_comm]
    exact (Nat.mod_eq_of_lt (by omega)).symm
  have hm : READ32 wav_header 40 - READ32 wav_header 40 % 2 < 2 ^ 32 := by omega
  have hsz : READ32 (bytes_of (utk_header_layout wav_header)) 4 = READ32 wav_header 40 - READ32 wav_header 40 % 2 := by
    have := congrArg utk_header_fields.dwOutSize hparse
    simpa [utkdecode_parse] using this
  have hlen : (utkdecode_wav_header
      (utkdecode_parse (bytes_of (utk_header_layout wav_header)))).length = 44 := by
    simp [utkdecode_wav_header, write_u32, write_u16]
  refine ⟨_, (READ32 wav_header 40 - READ32 wav_header 40 % 2) / 2,
    utkdecode_wav_header (utkdecode_parse (bytes_of (utk_header_layout wav_header))),
    henc, ?_, ?_, ?_, hlen, ?_⟩
  · unfold decode_encoded_header
    rw [henc]
    simp only [Option.map_some']
    unfold utkdecode_header
    rw [if_pos hvalid, hparse]
  · simp only [hsz]; omega
  · simp only [and_clear_low_bit _ (READ32_lt wav_header 40)]; omega
  · have hw : (READ32 wav_header 40 - READ32 wav_header 40 % 2) / 2 * 2 % 2 ^ 32
        = 2 * ((READ32 wav_header 40 - READ32 wav_header 40 % 2) / 2) := by omega
    apply READ32_of_bytes _ _ _ (by omega) <;>
      simp only [hparse, utkdecode_wav_header, hw] <;>
      simp [write_u32, write_u16, bytes_of]

theorem C13_accepted_header_decodes_witness :
    utkencode_accepts (wav_header_of 22050 44100 865) = true
    ∧ (8000 ≤ READ32 (wav_header_of 22050 44100 865) 24
        ∧ READ32 (wav_header_of 22050 44100 865) 24 ≤ 192000)
    ∧ READ32 (wav_header_of 22050 44100 865) 40
        - READ32 (wav_header_of 22050 44100 865) 40 % 2 < 2 ^ 24
    ∧ READ32 (wav_header_of 22050 44100 865) 28 = 2 * READ32 (wav_header_of 22050 44100 865) 24
    ∧ ∃ r num_samples out,
      utkencode_header (wav_header_of 22050 44100 865) (fun _ => 170) = some r
      ∧ decode_encoded_header (wav_header_of 22050 44100 865) (fun _ => 170)
          = some (true, num_samples, out)
      ∧ 2 * num_samples = READ32 (bytes_of r.utk_header) 4
      ∧ 2 * num_samples = r.bytes_remaining
      ∧ out.length = 44
      ∧ READ32 (bytes_of out) 40 = 2 * num_samples :=
  ⟨by decide!, by decide!, by decide!, by decide!,
    C13_accepted_header_decodes (wav_header_of 22050 44100 865) (fun _ => 170)
      (by decide!) (by decide!) (by decide!) (by decide!)⟩

theorem length_decoder_sample (out_of_range : ℚ → Int) (x : ℚ) :
    (decoder_sample out_of_range x).length = 2 := by
  simp [decoder_sample, write_u16]

theorem write_frame_samples_spec (out_of_range : ℚ → Int) (frame : Nat → ℚ) (count : Nat) :
    ∀ (fuel i : Nat) (out : List Nat), i ≤ count → count - i ≤ fuel →
      write_frame_samples out_of_range frame count fuel i out
        = out ++ ((List.range (count - i)).flatMap
            (fun j => decoder_sample out_of_range (frame (i + j)))) := by
  intro fuel
  induction fuel with
  | zero =>
    intro i out hi hf
    have : count - i = 0 := by omega
    simp [write_frame_samples, this]
  | succ fuel ih =>
    intro i out hi hf
    unfold write_frame_samples
    by_cases h : i < count
    · rw [if_pos h, ih (i + 1) _ (by omega) (by omega)]
      have e : count - i = (count - (i + 1)) + 1 := by omega
      rw [e, List.range_succ_eq_map, List.flatMap_cons, List.flatMap_map, List.append_assoc]
      simp [Nat.succ_eq_add_one, Nat.add_assoc, Nat.add_comm 1]
    · have : count - i = 0 := by omega
      rw [if_neg h, this]
      simp

theorem write_frame_samples_eq (out_of_range : ℚ → Int) (frame : Nat → ℚ) (count : Nat)
    (out : List Nat) :
    write_frame_samples out_of_range frame count count 0 out
      = out ++ frame_bytes out_of_range frame count := by
  rw [write_frame_samples_spec out_of_range frame count count 0 out (by omega) (by omega)]
  simp [frame_bytes]

theorem length_frame_bytes (out_of_range : ℚ → Int) (frame : Nat → ℚ) (count : Nat) :
    (frame_bytes out_of_range frame count).length = 2 * count := by
  unfold frame_bytes
  induction count with
  | zero => simp
  | succ n ih =>
    rw [List.range_succ, List.flatMap_append, List.length_append, ih]
    simp [length_decoder_sample]
    omega

/-- The frame sizes of `decoded_bytes`, shifted by one frame. -/
theorem decoded_bytes_step {σ : Type} (utk_decode_frame : σ → σ)
    (decompressed_frame : σ → Nat → ℚ) (out_of_range : ℚ → Int) (ctx : σ) (n : Nat)
    (h : 0 < n) :
    decoded_bytes utk_decode_frame decompressed_frame out_of_range ctx n
      = frame_bytes out_of_range (decompressed_frame (utk_decode_frame ctx))
          (if n < 432 then n else 432)
        ++ decoded_bytes utk_decode_frame decompressed_frame out_of_range
            (utk_decode_frame ctx) (n - (if n < 432 then n else 432)) := by
  unfold decoded_bytes
  by_cases hn : n < 432
  · have e1 : (n + 431) / 432 = 1 := by omega
    have e2 : (n - n + 431) / 432 = 0 := by omega
    simp only [if_pos hn, e1, e2]
    simp [List.range_succ]
  · have hn' : 432 ≤ n := by omega
    have e1 : (n + 431) / 432 = (n - 432 + 431) / 432 + 1 := by omega
    simp only [if_neg hn]
    rw [e1, List.range_succ_eq_map, List.flatMap_cons, List.flatMap_map]
    congr 1
    · by_cases h0 : (n - 432 + 431) / 432 = 0
      · have : n = 432 := by omega
        subst this
        simp
      · have : 0 + 1 < (n - 432 + 431) / 432 + 1 := by omega
        rw [if_pos this]
        rfl
    · apply List.flatMap_congr
      intro k hk
      have hk' := List.mem_range.mp hk
      simp only [Nat.succ_eq_add_one, Function.iterate_succ_apply]
      congr 1
      by_cases hlast : k + 1 < (n - 432 + 431) / 432
      · have : k + 1 + 1 < (n - 432 + 431) / 432 + 1 := by omega
        rw [if_pos hlast, if_pos this]
      · have : ¬ (k + 1 + 1 < (n - 432 + 431) / 432 + 1) := by omega
        rw [if_neg hlast, if_neg this]
        omega

theorem decode_loop_spec {σ : Type} (utk_decode_frame : σ → σ)
    (decompressed_frame : σ → Nat → ℚ) (out_of_range : ℚ → Int) :
    ∀ (fuel : Nat) (s : decode_state σ), (s.num_samples + 431) / 432 ≤ fuel →
      decode_loop utk_decode_frame decompressed_frame out_of_range fuel s
        = { ctx := utk_decode_frame^[(s.num_samples + 431) / 432] s.ctx
            num_samples := 0
            out := s.out ++ decoded_bytes utk_decode_frame decompressed_frame out_of_range
              s.ctx s.num_samples
            frames := s.frames + (s.num_samples + 431) / 432 } := by
  intro fuel
  induction fuel with
  | zero =>
    intro s hf
    have h0 : s.num_samples = 0 := by omega
    cases s with
    | mk ctx num_samples out frames =>
      simp only at h0
      subst h0
      simp [decode_loop, decoded_bytes]
  | succ fuel ih =>
    intro s hf
    unfold decode_loop
    by_cases hpos : s.num_samples > 0
    · rw [if_pos hpos]
      simp only []
      rw [ih _ (by simp only []; split <;> omega)]
      simp only []
      rw [write_frame_samples_eq, decoded_bytes_step _ _ _ _ _ hpos, List.append_assoc]
      have e : (s.num_samples + 431) / 432
          = (s.num_samples - (if s.num_samples < 432 then s.num_samples else 432) + 431) / 432
            + 1 := by
        split <;> omega
      congr 1
      · rw [e, Function.iterate_succ_apply]
      · rw [Nat.add_assoc, Nat.add_comm 1, ← e]
    · rw [if_neg hpos]
      have h0 : s.num_samples = 0 := by omega
      cases s with
      | mk ctx num_samples out frames =>
        simp only at h0
        subst h0
        simp [decoded_bytes]

theorem length_decoded_bytes {σ : Type} (utk_decode_frame : σ → σ)
    (decompressed_frame : σ → Nat → ℚ) (out_of_range : ℚ → Int) :
    ∀ (n : Nat) (ctx : σ),
      (decoded_bytes utk_decode_frame decompressed_frame out_of_range ctx n).length = 2 * n := by
  intro n
  induction n using Nat.strong_induction_on with
  | _ n ih =>
    intro ctx
    by_cases h : 0 < n
    · rw [decoded_bytes_step _ _ _ _ _ h, List.length_append, length_frame_bytes,
        ih _ (by split <;> omega)]
      split <;> omega
    · have : n = 0 := by omega
      subst this
      simp [decoded_bytes]

theorem utkdecode_wav_header_data_size (f : utk_header_fields) (h : f.dwOutSize < 2 ^ 32) :
    (utkdecode_wav_header f).length = 44
      ∧ READ32 (bytes_of (utkdecode_wav_header f)) 40 = 2 * (f.dwOutSize / 2) := by
  have hw : f.dwOutSize / 2 * 2 % 2 ^ 32 = 2 * (f.dwOutSize / 2) := by omega
  constructor
  · simp [utkdecode_wav_header, write_u32, write_u16]
  · apply READ32_of_bytes _ _ _ (by omega) <;>
      simp only [utkdecode_wav_header, hw] <;>
      simp [write_u32, write_u16, bytes_of]

theorem pt_wav_header_data_size (num_samples : Nat) (h : num_samples < 2 ^ 31) :
    (pt_wav_header num_samples).length = 44
      ∧ READ32 (bytes_of (pt_wav_header num_samples)) 40 = 2 * num_samples := by
  have hw : num_samples * 2 % 2 ^ 32 = 2 * num_samples := by omega
  constructor
  · simp [pt_wav_header, write_u32, write_u16]
  · apply READ32_of_bytes _ _ _ (by omega) <;>
      simp only [pt_wav_header, hw] <;>
      simp [write_u32, write_u16, bytes_of]

/-- C15: for every num_samples the decode loop of utkdecode and of pt_decode ends (the
loop condition fails) after exactly ceil(num_samples/432) calls of the frame decoder,
having appended the first 432 samples of every frame but the last and the first
num_samples - 432*(frames-1) samples of the last: 2 * num_samples bytes.  In utkdecode
(for an accepted header) and in utkdecode-bnb (compression type 9, num_samples < 2^24)
these bytes follow a WAV header of exactly 44 bytes whose data-size field is
2 * num_samples. -/
theorem C15_decode_loop {σ : Type} (utk_decode_frame : σ → σ)
    (decompressed_frame : σ → Nat → ℚ) (out_of_range : ℚ → Int) (ctx : σ) :
    (∀ (num_samples : Nat) (header : List Nat),
      decode_loop utk_decode_frame decompressed_frame out_of_range num_samples
          { ctx := ctx, num_samples := num_samples, out := header, frames := 0 }
        = { ctx := utk_decode_frame^[(num_samples + 431) / 432] ctx
            num_samples := 0
            out := header ++ decoded_bytes utk_decode_frame decompressed_frame out_of_range
              ctx num_samples
            frames := (num_samples + 431) / 432 }
      ∧ (decoded_bytes utk_decode_frame decompressed_frame out_of_range
          ctx num_samples).length = 2 * num_samples)
    ∧ (∀ file : Nat → Nat, (utkdecode_header file).1 = true →
        ∃ r, utkdecode_main utk_decode_frame decompressed_frame out_of_range file ctx = some r
          ∧ r.num_samples = 0
          ∧ r.frames = ((utkdecode_header file).2.1 + 431) / 432
          ∧ r.out = (utkdecode_header file).2.2
              ++ decoded_bytes utk_decode_frame decompressed_frame out_of_range ctx
                  (utkdecode_header file).2.1
          ∧ (utkdecode_header file).2.2.length = 44
          ∧ READ32 (bytes_of (utkdecode_header file).2.2) 40 = 2 * (utkdecode_header file).2.1
          ∧ r.out.length = 44 + 2 * (utkdecode_header file).2.1)
    ∧ (∀ num_samples : Nat, num_samples < 0x01000000 →
        ∃ r, pt_main utk_decode_frame decompressed_frame out_of_range num_samples 9 ctx = some r
          ∧ r.num_samples = 0
          ∧ r.frames = (num_samples + 431) / 432
          ∧ r.out = pt_wav_header num_samples
              ++ decoded_bytes utk_decode_frame decompressed_frame out_of_range ctx num_samples
          ∧ (pt_wav_header num_samples).length = 44
          ∧ READ32 (bytes_of (pt_wav_header num_samples)) 40 = 2 * num_samples
          ∧ r.out.length = 44 + 2 * num_samples) := by
  have hloop : ∀ (num_samples : Nat) (header : List Nat),
      decode_loop utk_decode_frame decompressed_frame out_of_range num_samples
          { ctx := ctx, num_samples := num_samples, out := header, frames := 0 }
        = { ctx := utk_decode_frame^[(num_samples + 431) / 432] ctx
            num_samples := 0
            out := header ++ decoded_bytes utk_decode_frame decompressed_frame out_of_range
              ctx num_samples
            frames := (num_samples + 431) / 432 } := by
    intro num_samples header
    rw [decode_loop_spec _ _ _ num_samples _ (by simp only []; omega)]
    simp
  refine ⟨fun n hd => ⟨hloop n hd, length_decoded_bytes _ _ _ n ctx⟩, ?_, ?_⟩
  · intro file hfile
    have hvalid : utkdecode_valid (utkdecode_parse file) = true := by
      by_contra hc
      simp [utkdecode_header, hc] at hfile
    have hhdr : utkdecode_header file = (true, (utkdecode_parse file).dwOutSize / 2,
        utkdecode_wav_header (utkdecode_parse file)) := by
      simp [utkdecode_header, hvalid]
    have hsz := utkdecode_wav_header_data_size (utkdecode_parse file) (READ32_lt file 4)
    have hmain : utkdecode_main utk_decode_frame decompressed_frame out_of_range file ctx
        = some
          { ctx := utk_decode_frame^[((utkdecode_header file).2.1 + 431) / 432] ctx
            num_samples := 0
            out := (utkdecode_header file).2.2
              ++ decoded_bytes utk_decode_frame decompressed_frame out_of_range ctx
                  (utkdecode_header file).2.1
            frames := ((utkdecode_header file).2.1 + 431) / 432 } := by
      unfold utkdecode_main
      simp only [hfile, if_true]
      rw [hloop]
    refine ⟨_, hmain, rfl, rfl, rfl, ?_, ?_, ?_⟩
    · rw [hhdr]; exact hsz.1
    · rw [hhdr]; exact hsz.2
    · simp only [List.length_append, length_decoded_bytes]
      rw [hhdr]
      simp only [hsz.1]
  · intro num_samples hn
    have hsz := pt_wav_header_data_size num_samples (by omega)
    have hmain : pt_main utk_decode_frame decompressed_frame out_of_range num_samples 9 ctx
        = some
          { ctx := utk_decode_frame^[(num_samples + 431) / 432] ctx
            num_samples := 0
            out := pt_wav_header num_samples
              ++ decoded_bytes utk_decode_frame decompressed_frame out_of_range ctx num_samples
            frames := (num_samples + 431) / 432 } := by
      unfold pt_main
      rw [if_neg (by simp), if_neg (by omega), hloop]
    refine ⟨_, hmain, rfl, rfl, rfl, hsz.1, hsz.2, ?_⟩
    simp only [List.length_append, length_decoded_bytes, hsz.1]

theorem C15_decode_loop_witness :
    (utkdecode_header (bytes_of [0x55, 0x54, 0x4D, 0x30, 0x62, 0x03, 0, 0, 20, 0, 0, 0,
        1, 0, 1, 0, 0x22, 0x56, 0, 0, 0x44, 0xAC, 0, 0, 2, 0, 16, 0, 0, 0, 0, 0])).1 = true
    ∧ (∃ r, utkdecode_main (fun c : Nat => c + 1) (fun c i => (c : ℚ) * 1000 + i)
          (fun _ => 0)
          (bytes_of [0x55, 0x54, 0x4D, 0x30, 0x62, 0x03, 0, 0, 20, 0, 0, 0,
            1, 0, 1, 0, 0x22, 0x56, 0, 0, 0x44, 0xAC, 0, 0, 2, 0, 16, 0, 0, 0, 0, 0]) 0
          = some r
        ∧ r.frames = 2 ∧ r.out.length = 44 + 2 * 433)
    ∧ (433 < 0x01000000
      ∧ ∃ r, pt_main (fun c : Nat => c + 1) (fun c i => (c : ℚ) * 1000 + i) (fun _ => 0)
          433 9 0 = some r
        ∧ r.frames = 2 ∧ r.out.length = 44 + 2 * 433) := by
  have hacc : (utkdecode_header (bytes_of [0x55, 0x54, 0x4D, 0x30, 0x62, 0x03, 0, 0, 20, 0,
      0, 0, 1, 0, 1, 0, 0x22, 0x56, 0, 0, 0x44, 0xAC, 0, 0, 2, 0, 16, 0, 0, 0, 0, 0])).1
      = true := by decide!
  have hn : (utkdecode_header (bytes_of [0x55, 0x54, 0x4D, 0x30, 0x62, 0x03, 0, 0, 20, 0,
      0, 0, 1, 0, 1, 0, 0x22, 0x56, 0, 0, 0x44, 0xAC, 0, 0, 2, 0, 16, 0, 0, 0, 0, 0])).2.1
      = 433 := by decide!
  have h := C15_decode_loop (fun c : Nat => c + 1) (fun c i => (c : ℚ) * 1000 + i)
    (fun _ => 0) 0
  refine ⟨hacc, ?_, by decide, ?_⟩
  · obtain ⟨r, h1, _, h3, _, _, _, h7⟩ := h.2.1 _ hacc
    rw [hn] at h3 h7
    exact ⟨r, h1, h3, h7⟩
  · obtain ⟨r, h1, _, h3, _, _, _, h7⟩ := h.2.2 433 (by decide)
    exact ⟨r, h1, h3, h7⟩

/-! ## Decoder output -/

/-- The decoder's rounding, as floor and ceiling, when the single-precision sum is the
exact sum. -/
theorem c_int_decoder_ROUND (x : ℚ)
    (hsum : decoder_ROUND x = if x ≥ 0 then x + 1 / 2 else x - 1 / 2) :
    c_int (decoder_ROUND x) = if 0 ≤ x then ⌊x + 1 / 2⌋ else ⌈x - 1 / 2⌉ := by
  rw [hsum]
  unfold c_int
  by_cases h : 0 ≤ x
  · have hp : (0 : ℚ) ≤ x + 1 / 2 := by linarith
    simp only [ge_iff_le, h, if_true, hp]
  · have hn : ¬ ((0 : ℚ) ≤ x - 1 / 2) := by
      intro hc
      exact h (by linarith)
    simp only [ge_iff_le, h, if_false, hn]

theorem decoder_CLAMP_eq (x : Int) :
    decoder_CLAMP x (-32768) 32767 = max (-32768) (min x 32767) := by
  unfold decoder_CLAMP MIN MAX
  split <;> split <;> omega

theorem write_u16_sample (v : Int) (h1 : -32768 ≤ v) (h2 : v ≤ 32767) :
    write_u16 (to_uint16 (to_int16 v))
        = [(v % 65536).toNat % 256, (v % 65536).toNat / 256]
      ∧ to_int16 (((v % 65536).toNat % 256 + 256 * ((v % 65536).toNat / 256) : Nat) : Int) = v := by
  have e : to_int16 v = v := by unfold to_int16; omega
  have hlt : (v % 65536).toNat < 65536 := by omega
  constructor
  · rw [e]
    unfold write_u16 to_uint16
    rw [Nat.shiftRight_eq_div_pow]
    have : (v % 65536).toNat / 2 ^ 8 % 256 = (v % 65536).toNat / 256 := by omega
    rw [this]
  · unfold to_int16
    omega

/-- A decoded sample x for which the single-precision sum `x + 0.5f` (`x - 0.5f` for
negative x) is the exact sum, and whose rounded value fits a C int, is written as the two
bytes, low byte first, of the 16-bit two's complement value v = clamp(r, -32768, 32767),
where r is the truncation of x + 0.5 for x >= 0 and of x - 0.5 for x < 0: the integer
nearest to x, the one farther from zero when x lies halfway between two integers. -/
theorem decoder_sample_exact_sum (out_of_range : ℚ → Int) (x : ℚ)
    (hsum : decoder_ROUND x = if x ≥ 0 then x + 1 / 2 else x - 1 / 2)
    (hfit : -2 ^ 31 ≤ c_int (decoder_ROUND x) ∧ c_int (decoder_ROUND x) < 2 ^ 31) :
    ∃ r v : Int,
      r = (if 0 ≤ x then ⌊x + 1 / 2⌋ else ⌈x - 1 / 2⌉)
      ∧ |x - r| ≤ 1 / 2 ∧ (|x - r| = 1 / 2 → |x| < |(r : ℚ)|)
      ∧ v = max (-32768) (min r 32767)
      ∧ decoder_sample out_of_range x = [(v % 65536).toNat % 256, (v % 65536).toNat / 256]
      ∧ to_int16 (((v % 65536).toNat % 256 + 256 * ((v % 65536).toNat / 256) : Nat) : Int) = v := by
  have hr := c_int_decoder_ROUND x hsum
  have hv1 : -32768 ≤ max (-32768) (min (c_int (decoder_ROUND x)) 32767) := le_max_left _ _
  have hv2 : max (-32768) (min (c_int (decoder_ROUND x)) 32767) ≤ 32767 :=
    max_le (by decide) (min_le_right _ _)
  have hw := write_u16_sample _ hv1 hv2
  refine ⟨c_int (decoder_ROUND x), max (-32768) (min (c_int (decoder_ROUND x)) 32767),
    hr, ?_, ?_, rfl, ?_, hw.2⟩
  · rw [hr]
    by_cases h : 0 ≤ x
    · rw [if_pos h, abs_le]
      have h1 := Int.floor_le (x + 1 / 2)
      have h2 := Int.lt_floor_add_one (x + 1 / 2)
      constructor <;> linarith
    · rw [if_neg h, abs_le]
      have h1 := Int.le_ceil (x - 1 / 2)
      have h2 := Int.ceil_lt_add_one (x - 1 / 2)
      constructor <;> linarith
  · rw [hr]
    by_cases h : 0 ≤ x
    · rw [if_pos h]
      intro ht
      have h2 := Int.lt_floor_add_one (x + 1 / 2)
      have hneg : x - (⌊x + 1 / 2⌋ : ℚ) = -(1 / 2) := by
        rcases abs_eq (by norm_num : (0 : ℚ) ≤ 1 / 2) |>.mp ht with h3 | h3
        · linarith
        · exact h3
      have hrx : (⌊x + 1 / 2⌋ : ℚ) = x + 1 / 2 := by linarith
      rw [hrx, abs_of_nonneg h, abs_of_nonneg (by linarith)]
      linarith
    · rw [if_neg h]
      intro ht
      have hx : x < 0 := not_le.mp h
      have h2 := Int.ceil_lt_add_one (x - 1 / 2)
      have hpos : x - (⌈x - 1 / 2⌉ : ℚ) = 1 / 2 := by
        rcases abs_eq (by norm_num : (0 : ℚ) ≤ 1 / 2) |>.mp ht with h3 | h3
        · exact h3
        · linarith
      have hrx : (⌈x - 1 / 2⌉ : ℚ) = x - 1 / 2 := by linarith
      rw [hrx, abs_of_neg hx, abs_of_neg (by linarith)]
      linarith
  · unfold decoder_sample float_to_int
    simp only [hfit, and_self, if_true]
    rw [decoder_CLAMP_eq]
    exact hw.1

/-- The sample -2.5, whose sum -3 is exact: it is written as -3, bytes FD FF. -/
theorem decoder_sample_exact_sum_example :
    ∃ r v : Int,
      r = (if 0 ≤ (-(5 / 2) : ℚ) then ⌊(-(5 / 2) : ℚ) + 1 / 2⌋ else ⌈(-(5 / 2) : ℚ) - 1 / 2⌉)
      ∧ |(-(5 / 2) : ℚ) - r| ≤ 1 / 2 ∧ (|(-(5 / 2) : ℚ) - r| = 1 / 2 → |(-(5 / 2) : ℚ)| < |(r : ℚ)|)
      ∧ v = max (-32768) (min r 32767)
      ∧ decoder_sample (fun _ => 0) (-(5 / 2))
          = [(v % 65536).toNat % 256, (v % 65536).toNat / 256]
      ∧ to_int16 (((v % 65536).toNat % 256 + 256 * ((v % 65536).toNat / 256) : Nat) : Int) = v :=
  decoder_sample_exact_sum (fun _ => 0) (-(5 / 2)) (by decide!) (by decide!)

/-- Samples as the decoder writes them: -2.5 becomes -3 (bytes FD FF), 2.5 becomes 3,
2.375 becomes 2, 40000.25 is clamped to 32767 and -40000.25 to -32768. -/
theorem decoder_sample_examples :
    decoder_sample (fun _ => 0) (-(5 / 2)) = [0xFD, 0xFF]
    ∧ decoder_sample (fun _ => 0) (5 / 2) = [0x03, 0x00]
    ∧ decoder_sample (fun _ => 0) (19 / 8) = [0x02, 0x00]
    ∧ decoder_sample (fun _ => 0) (160001 / 4) = [0xFF, 0x7F]
    ∧ decoder_sample (fun _ => 0) (-(160001 / 4)) = [0x00, 0x80] := by
  decide!

/-- The single-precision sum at the largest `float` below one half. -/
theorem decoder_ROUND_below_half :
    decoder_ROUND (16777215 / 33554432) = 1 ∧ decoder_ROUND (-(16777215 / 33554432)) = -1 := by
  decide!

/-- C16: the decoded sample x = 0x3EFFFFFF = 1/2 - 2^-25, the largest `float` below one
half (a value `float32_round` leaves as it is).  The sum `x + 0.5f` is `1 - 2^-25`,
halfway between the neighbouring single-precision values `1 - 2^-24` and `1`, and is
rounded to 1; its truncation 1 fits a C int, and the bytes written are 01 00.  The
integer nearest to x is 0, which is also the truncation of the exact `x + 0.5`: the
claimed bytes are 00 00.  In the same way -x is written as -1 (bytes FF FF), not as 0. -/
theorem C16_sum_rounds_up_below_half (out_of_range : ℚ → Int) :
    float32_round (16777215 / 33554432) = 16777215 / 33554432
    ∧ decoder_ROUND (16777215 / 33554432) = 1
    ∧ (-2 ^ 31 ≤ c_int (decoder_ROUND (16777215 / 33554432))
        ∧ c_int (decoder_ROUND (16777215 / 33554432)) < 2 ^ 31)
    ∧ decoder_sample out_of_range (16777215 / 33554432) = [0x01, 0x00]
    ∧ ⌊(16777215 / 33554432 : ℚ) + 1 / 2⌋ = 0
    ∧ |(16777215 / 33554432 : ℚ) - 0| < 1 / 2
    ∧ 1 / 2 < |(16777215 / 33554432 : ℚ) - 1|
    ∧ decoder_sample out_of_range (-(16777215 / 33554432)) = [0xFF, 0xFF]
    ∧ ⌈(-(16777215 / 33554432) : ℚ) - 1 / 2⌉ = 0 := by
  obtain ⟨h1, h2⟩ := decoder_ROUND_below_half
  have hc1 : c_int (1 : ℚ) = 1 := by decide!
  have hc2 : c_int (-1 : ℚ) = -1 := by decide!
  refine ⟨by decide!, h1, by decide!, ?_, by decide!, by decide!, by decide!, ?_, by decide!⟩
  · unfold decoder_sample float_to_int
    simp only [h1, hc1]
    rw [if_pos (show (-2 ^ 31 ≤ (1 : Int) ∧ (1 : Int) < 2 ^ 31) by decide)]
    decide!
  · unfold decoder_sample float_to_int
    simp only [h2, hc2]
    rw [if_pos (show (-2 ^ 31 ≤ (-1 : Int) ∧ (-1 : Int) < 2 ^ 31) by decide)]
    decide!
/-! ## Flushing the bit writer -/

/-- The effect of one `bwc_write_bits` call on the writer, for any writer and arguments:
only the byte at `pos` and the bytes after it change. -/
theorem bwc_write_bits_layout (bwc : bit_writer_context) (value count : Nat) :
    (bwc_write_bits bwc value count).pos
        = bwc.pos + (bwc.written_bits_count + count) % 256 / 8
    ∧ (bwc_write_bits bwc value count).written_bits_count
        = (bwc.written_bits_count + count) % 256 % 8
    ∧ ∀ i, (bwc_write_bits bwc value count).buffer i =
        if bwc.pos < i ∧ i ≤ bwc.pos + (bwc.written_bits_count + count) % 256 / 8
        then (((value <<< bwc.written_bits_count) % 2 ^ 32) >>> (8 * (i - bwc.pos))) % 256
        else if i = bwc.pos
        then bwc.buffer bwc.pos ||| (((value <<< bwc.written_bits_count) % 2 ^ 32) % 256)
        else bwc.buffer i := by
  have hloop := bwc_write_loop_spec 32
    { written_bits_count := (bwc.written_bits_count + count) % 256
      pos := bwc.pos
      buffer := store bwc.buffer bwc.pos
        (bwc.buffer bwc.pos ||| (((value <<< bwc.written_bits_count) % 2 ^ 32) % 256)) }
    ((value <<< bwc.written_bits_count) % 2 ^ 32) (by simp only; omega)
  obtain ⟨hp, hcnt, hbuf⟩ := hloop
  refine ⟨by simpa [bwc_write_bits] using hp, by simpa [bwc_write_bits] using hcnt, ?_⟩
  intro i
  have := hbuf i
  simp only [store] at this
  simpa [bwc_write_bits] using this

/-- The relation between the flushed writer with its file and the writer that was never
flushed: same pending bit count, the file followed by the flushed writer's buffer up to
and including its pending byte is the other buffer up to its pending byte. -/
theorem run_calls_refines (buffer : Nat → Nat) (calls : List writer_call) :
    (run_calls { bwc := bwc_init buffer, file := [] } calls).bwc.written_bits_count
        = (bwc_writes (bwc_init buffer) (calls_writes calls)).written_bits_count
    ∧ (bwc_writes (bwc_init buffer) (calls_writes calls)).pos
        = (run_calls { bwc := bwc_init buffer, file := [] } calls).file.length
          + (run_calls { bwc := bwc_init buffer, file := [] } calls).bwc.pos
    ∧ (∀ i, i ≤ (run_calls { bwc := bwc_init buffer, file := [] } calls).bwc.pos →
        (run_calls { bwc := bwc_init buffer, file := [] } calls).bwc.buffer i
          = (bwc_writes (bwc_init buffer) (calls_writes calls)).buffer
              ((run_calls { bwc := bwc_init buffer, file := [] } calls).file.length + i))
    ∧ (run_calls { bwc := bwc_init buffer, file := [] } calls).file
        = (List.range (run_calls { bwc := bwc_init buffer, file := [] } calls).file.length).map
            (bwc_writes (bwc_init buffer) (calls_writes calls)).buffer := by
  suffices h : ∀ (calls : List writer_call) (s : writer_output) (u : bit_writer_context),
      (s.bwc.written_bits_count = u.written_bits_count
        ∧ u.pos = s.file.length + s.bwc.pos
        ∧ (∀ i, i ≤ s.bwc.pos → s.bwc.buffer i = u.buffer (s.file.length + i))
        ∧ s.file = (List.range s.file.length).map u.buffer) →
      ((run_calls s calls).bwc.written_bits_count
          = (bwc_writes u (calls_writes calls)).written_bits_count
        ∧ (bwc_writes u (calls_writes calls)).pos
          = (run_calls s calls).file.length + (run_calls s calls).bwc.pos
        ∧ (∀ i, i ≤ (run_calls s calls).bwc.pos →
            (run_calls s calls).bwc.buffer i
              = (bwc_writes u (calls_writes calls)).buffer ((run_calls s calls).file.length + i))
        ∧ (run_calls s calls).file
          = (List.range (run_calls s calls).file.length).map
              (bwc_writes u (calls_writes calls)).buffer) by
    exact h calls _ _ ⟨rfl, by simp, fun i _ => by simp, by simp⟩
  intro calls
  induction calls with
  | nil =>
    intro s u h
    simpa [run_calls, calls_writes, bwc_writes] using h
  | cons c cs ih =>
    intro s u ⟨h1, h2, h3, h4⟩
    cases c with
    | write value count =>
      have hs : run_calls s (writer_call.write value count :: cs)
          = run_calls { s with bwc := bwc_write_bits s.bwc value count } cs := by
        simp [run_calls, run_call]
      have hu : bwc_writes u (calls_writes (writer_call.write value count :: cs))
          = bwc_writes (bwc_write_bits u value count) (calls_writes cs) := by
        simp [calls_writes, bwc_writes]
      rw [hs, hu]
      obtain ⟨sp, sc, sb⟩ := bwc_write_bits_layout s.bwc value count
      obtain ⟨up, uc, ub⟩ := bwc_write_bits_layout u value count
      apply ih
      refine ⟨?_, ?_, ?_, ?_⟩
      · simp only [sc, uc, h1]
      · simp only [sp, up, h1, h2]; omega
      · intro i hi
        simp only [sp] at hi
        simp only []
        rw [sb i, ub (s.file.length + i), h1, h2]
        by_cases c1 : s.bwc.pos < i
        · have c2 : s.bwc.pos < i ∧
              i ≤ s.bwc.pos + (u.written_bits_count + count) % 256 / 8 := by
            rw [h1] at hi; exact ⟨c1, hi⟩
          have c3 : s.file.length + s.bwc.pos < s.file.length + i ∧
              s.file.length + i
                ≤ s.file.length + s.bwc.pos + (u.written_bits_count + count) % 256 / 8 := by
            omega
          rw [if_pos c2, if_pos c3]
          have e : s.file.length + i - (s.file.length + s.bwc.pos) = i - s.bwc.pos := by omega
          rw [e]
        · have c2 : ¬ (s.bwc.pos < i ∧
              i ≤ s.bwc.pos + (u.written_bits_count + count) % 256 / 8) := by omega
          have c3 : ¬ (s.file.length + s.bwc.pos < s.file.length + i ∧
              s.file.length + i
                ≤ s.file.length + s.bwc.pos + (u.written_bits_count + count) % 256 / 8) := by
            omega
          rw [if_neg c2, if_neg c3]
          by_cases c4 : i = s.bwc.pos
          · have c5 : s.file.length + i = s.file.length + s.bwc.pos := by omega
            rw [if_pos c4, if_pos c5, h3 _ (le_refl _), ← h2]
          · have c5 : ¬ (s.file.length + i = s.file.length + s.bwc.pos) := by omega
            rw [if_neg c4, if_neg c5]
            exact h3 i (by omega)
      · simp only []
        rw [h4]
        simp only [List.length_map, List.length_range]
        apply List.map_congr_left
        intro i hi
        have hi' := List.mem_range.mp hi
        rw [ub i]
        have c3 : ¬ (u.pos < i ∧ i ≤ u.pos + (u.written_bits_count + count) % 256 / 8) := by
          omega
        have c5 : ¬ (i = u.pos) := by omega
        rw [if_neg c3, if_neg c5]
    | flush =>
      have hs : run_calls s (writer_call.flush :: cs)
          = run_calls { bwc := (bwc_flush s.bwc).2, file := s.file ++ (bwc_flush s.bwc).1 } cs := by
        simp [run_calls, run_call]
      have hu : bwc_writes u (calls_writes (writer_call.flush :: cs))
          = bwc_writes u (calls_writes cs) := by
        simp [calls_writes]
      rw [hs, hu]
      apply ih
      refine ⟨?_, ?_, ?_, ?_⟩
      · simpa [bwc_flush] using h1
      · simp [bwc_flush, h2]
      · intro i hi
        have hi0 : i = 0 := by simpa [bwc_flush] using hi
        subst hi0
        simp [bwc_flush, store, h3 s.bwc.pos (le_refl _)]
      · simp only [bwc_flush, List.length_append, List.length_map, List.length_range]
        rw [List.range_add, List.map_append, List.map_map]
        congr 1
        apply List.map_congr_left
        intro i hi
        have hi' := List.mem_range.mp hi
        simp only [Function.comp]
        rw [h3 i (by omega), Nat.add_comm]

/-- The bytes `bwc_pad` then `bwc_flush` hand over: the buffer up to the pending byte,
which is included when it holds bits. -/
theorem flush_pad_bytes (bwc : bit_writer_context) :
    (bwc_flush (bwc_pad bwc)).1
      = (List.range (bwc.pos + (if bwc.written_bits_count ≠ 0 then 1 else 0))).map bwc.buffer := by
  unfold bwc_pad bwc_flush
  by_cases h : bwc.written_bits_count ≠ 0
  · simp only [if_pos h]
    apply List.map_congr_left
    intro i hi
    have hi' := List.mem_range.mp hi
    exact store_other _ _ _ _ (by omega)
  · simp only [if_neg h, Nat.add_zero]

theorem flushed_stream_eq_unflushed (buffer : Nat → Nat) (calls : List writer_call) :
    flushed_stream buffer calls = unflushed_stream buffer (calls_writes calls) := by
  obtain ⟨h1, h2, h3, h4⟩ := run_calls_refines buffer calls
  unfold flushed_stream finish_stream unflushed_stream
  rw [flush_pad_bytes, flush_pad_bytes, h1]
  conv_rhs => rw [h2, Nat.add_assoc, List.range_add, List.map_append, List.map_map]
  refine congrArg₂ (fun x y => x ++ y) h4 ?_
  apply List.map_congr_left
  intro i hi
  have hi' := List.mem_range.mp hi
  simp only [Function.comp]
  apply h3
  split at hi' <;> omega

theorem unflushed_stream_spec (buffer : Nat → Nat) (ws : List (Nat × Nat))
    (h : ∀ w ∈ ws, valid_write w) :
    (unflushed_stream buffer ws).length = (total_bits ws + 7) / 8
    ∧ (∀ t, t < total_bits ws →
        (written_bits ws)[t]? = some (list_bit (unflushed_stream buffer ws) t))
    ∧ (∀ t, total_bits ws ≤ t → t < 8 * ((total_bits ws + 7) / 8) →
        list_bit (unflushed_stream buffer ws) t = false) := by
  obtain ⟨hok, hpos, _, hbits⟩ := bwc_writes_spec ws (bwc_init buffer) (bwc_ok_init buffer) h
  have hz : bit_position (bwc_init buffer) = 0 := rfl
  rw [hz, Nat.zero_add] at hpos
  simp only [hz, Nat.zero_add] at hbits
  unfold bit_position at hpos
  obtain ⟨hw, hhi⟩ := hok
  have hlen : (bwc_writes (bwc_init buffer) ws).pos
      + (if (bwc_writes (bwc_init buffer) ws).written_bits_count ≠ 0 then 1 else 0)
      = (total_bits ws + 7) / 8 := by
    split <;> omega
  have hget : ∀ t, t < 8 * ((total_bits ws + 7) / 8) →
      list_bit (unflushed_stream buffer ws) t
        = stream_bit (bwc_writes (bwc_init buffer) ws).buffer t := by
    intro t ht
    unfold list_bit stream_bit unflushed_stream
    rw [flush_pad_bytes, hlen]
    have hlt : t / 8 < (total_bits ws + 7) / 8 := by omega
    rw [List.getD_eq_getElem?_getD, List.getElem?_map, List.getElem?_range hlt]
    rfl
  refine ⟨?_, ?_, ?_⟩
  · unfold unflushed_stream
    rw [flush_pad_bytes, hlen]
    simp
  · intro t ht
    rw [hbits t ht, hget t (by omega)]
  · intro t h1 h2
    rw [hget t h2]
    unfold stream_bit
    have e : t / 8 = (bwc_writes (bwc_init buffer) ws).pos := by omega
    rw [e]
    exact testBit_of_lt_pow hhi (by omega)

theorem valid_calls_writes (calls : List writer_call)
    (h : ∀ value count, writer_call.write value count ∈ calls → valid_write (value, count)) :
    ∀ w ∈ calls_writes calls, valid_write w := by
  induction calls with
  | nil => intro w hw; simp [calls_writes] at hw
  | cons c cs ih =>
    have hcs : ∀ value count, writer_call.write value count ∈ cs → valid_write (value, count) :=
      fun v n hm => h v n (List.mem_cons_of_mem _ hm)
    cases c with
    | write value count =>
      intro w hw
      simp only [calls_writes, List.mem_cons] at hw
      rcases hw with hw | hw
      · rw [hw]; exact h value count (List.mem_cons_self _ _)
      · exact ih hcs w hw
    | flush =>
      intro w hw
      exact ih hcs w hw

/-- C18: for every sequence of valid `bwc_write_bits` calls interleaved with `bwc_flush`
calls at arbitrary points and ended by `bwc_pad` then `bwc_flush` (starting after
`bwc_init` on any buffer memory), the bytes the file receives are the bytes the same
writes leave in a single buffer that is only padded and flushed at the end: exactly
ceil(total_bits/8) bytes, whose stream bits are the written bits followed by zero bits up
to the byte boundary.  Each flush of any writer emits the `pos` completed bytes, keeps
the pending byte as the new byte 0 and leaves `written_bits_count` unchanged. -/
theorem C18_flush_is_transparent (buffer : Nat → Nat) (calls : List writer_call)
    (h : ∀ value count, writer_call.write value count ∈ calls →
      1 ≤ count ∧ count ≤ 16 ∧ value < 2 ^ count) :
    flushed_stream buffer calls = unflushed_stream buffer (calls_writes calls)
    ∧ (flushed_stream buffer calls).length = (total_bits (calls_writes calls) + 7) / 8
    ∧ (∀ t, t < total_bits (calls_writes calls) →
        (written_bits (calls_writes calls))[t]? = some (list_bit (flushed_stream buffer calls) t))
    ∧ (∀ t, total_bits (calls_writes calls) ≤ t →
        t < 8 * ((total_bits (calls_writes calls) + 7) / 8) →
        list_bit (flushed_stream buffer calls) t = false)
    ∧ (∀ bwc : bit_writer_context,
        (bwc_flush bwc).1 = (List.range bwc.pos).map bwc.buffer
        ∧ (bwc_flush bwc).1.length = bwc.pos
        ∧ (bwc_flush bwc).2.pos = 0
        ∧ (bwc_flush bwc).2.buffer 0 = bwc.buffer bwc.pos
        ∧ (bwc_flush bwc).2.written_bits_count = bwc.written_bits_count) := by
  have hv := valid_calls_writes calls h
  obtain ⟨s1, s2, s3⟩ := unflushed_stream_spec buffer (calls_writes calls) hv
  rw [flushed_stream_eq_unflushed]
  refine ⟨rfl, s1, s2, s3, ?_⟩
  intro bwc
  simp [bwc_flush, store]

theorem C18_flush_is_transparent_witness :
    (∀ value count, writer_call.write value count ∈
        [writer_call.write 5 3, writer_call.flush, writer_call.write 1000 10,
         writer_call.flush, writer_call.write 1 1] →
      1 ≤ count ∧ count ≤ 16 ∧ value < 2 ^ count)
    ∧ flushed_stream (fun _ => 0xAA)
        [writer_call.write 5 3, writer_call.flush, writer_call.write 1000 10,
         writer_call.flush, writer_call.write 1 1]
      = unflushed_stream (fun _ => 0xAA) [(5, 3), (1000, 10), (1, 1)]
    ∧ (flushed_stream (fun _ => 0xAA)
        [writer_call.write 5 3, writer_call.flush, writer_call.write 1000 10,
         writer_call.flush, writer_call.write 1 1]).length = 2 := by
  have hv : ∀ value count, writer_call.write value count ∈
        [writer_call.write 5 3, writer_call.flush, writer_call.write 1000 10,
         writer_call.flush, writer_call.write 1 1] →
      1 ≤ count ∧ count ≤ 16 ∧ value < 2 ^ count := by
    intro value count hm
    simp only [List.mem_cons, writer_call.write.injEq, List.mem_singleton, reduceCtorEq,
      false_or, List.not_mem_nil, or_false] at hm
    rcases hm with ⟨rfl, rfl⟩ | ⟨rfl, rfl⟩ | ⟨rfl, rfl⟩ <;> decide
  have hc := C18_flush_is_transparent (fun _ => 0xAA)
    [writer_call.write 5 3, writer_call.flush, writer_call.write 1000 10,
     writer_call.flush, writer_call.write 1 1] hv
  exact ⟨hv, hc.1, hc.2.1⟩

/-- The stream of the witness above, evaluated: 14 bits in two bytes, the two unused high
bits of the second byte zero, with flushes (first line) and without (second line). -/
theorem flushed_stream_example :
    flushed_stream (fun _ => 0xAA)
        [writer_call.write 5 3, writer_call.flush, writer_call.write 1000 10,
         writer_call.flush, writer_call.write 1 1] = [0x45, 0x3F]
    ∧ unflushed_stream (fun _ => 0xAA) [(5, 3), (1000, 10), (1, 1)] = [0x45, 0x3F] := by
  decide!

/-! ## utkdecode-fifa: sample accounting -/

theorem length_write_frame_samples (out_of_range : ℚ → Int) (frame : Nat → ℚ) (count : Nat)
    (out : List Nat) :
    (write_frame_samples out_of_range frame count count 0 out).length
      = out.length + 2 * count := by
  rw [write_frame_samples_eq, List.length_append, length_frame_bytes]

/-- The frame loop of `ea_read_scdl`: it consumes the whole local `num_samples`, advances
`audio_pos` by it and writes two bytes per sample; the other fields stay. -/
theorem scdl_loop_spec {σ : Type} (lib : utk_functions σ) (out_of_range : ℚ → Int) :
    ∀ (fuel n : Nat) (ea : EAContext σ), n ≤ fuel → ea.audio_pos + n < 2 ^ 32 →
      (scdl_loop lib out_of_range fuel n ea).audio_pos = ea.audio_pos + n
      ∧ (scdl_loop lib out_of_range fuel n ea).out.length = ea.out.length + 2 * n
      ∧ (scdl_loop lib out_of_range fuel n ea).num_samples = ea.num_samples
      ∧ (scdl_loop lib out_of_range fuel n ea).num_data_chunks = ea.num_data_chunks
      ∧ (scdl_loop lib out_of_range fuel n ea).codec_revision = ea.codec_revision := by
  intro fuel
  induction fuel with
  | zero =>
    intro n ea hn _
    have : n = 0 := by omega
    subst this
    simp [scdl_loop]
  | succ fuel ih =>
    intro n ea hn hlt
    unfold scdl_loop
    by_cases hpos : n > 0
    · rw [if_pos hpos]
      simp only []
      have hc : (if n < 432 then n else 432) ≤ n := by split <;> omega
      have hc0 : 0 < (if n < 432 then n else 432) := by split <;> omega
      have hmod : (ea.audio_pos + (if n < 432 then n else 432)) % 2 ^ 32
          = ea.audio_pos + (if n < 432 then n else 432) := Nat.mod_eq_of_lt (by omega)
      obtain ⟨h1, h2, h3, h4, h5⟩ := ih (n - (if n < 432 then n else 432))
        { ea with
          utk := if ea.codec_revision ≥ 3 then lib.utk_rev3_decode_frame ea.utk
                 else lib.utk_decode_frame ea.utk
          out := write_frame_samples out_of_range
            (lib.decompressed_frame (if ea.codec_revision ≥ 3 then lib.utk_rev3_decode_frame ea.utk
                 else lib.utk_decode_frame ea.utk))
            (if n < 432 then n else 432) (if n < 432 then n else 432) 0 ea.out
          audio_pos := ea.audio_pos + (if n < 432 then n else 432) }
        (by omega) (by simp only []; omega)
      simp only [length_write_frame_samples] at h1 h2 h3 h4 h5
      simp only [hmod]
      refine ⟨by rw [h1]; omega, by rw [h2]; omega, h3, h4, h5⟩
    · have : n = 0 := by omega
      subst this
      simp

theorem READ32_take (l : List Nat) :
    READ32 (bytes_of (l.take 4)) 0 = READ32 (bytes_of l) 0 := by
  have e : ∀ k, k < 4 → bytes_of (l.take 4) k = bytes_of l k := by
    intro k hk
    simp [bytes_of, List.getD_eq_getElem?_getD, List.getElem?_take, hk]
  unfold READ32
  rw [e 0 (by decide), e (0 + 1) (by decide), e (0 + 2) (by decide), e (0 + 3) (by decide)]

/-- One SCDl chunk, read with `audio_pos <= num_samples`. -/
theorem ea_read_scdl_spec {σ : Type} (lib : utk_functions σ) (out_of_range : ℚ → Int)
    (ea : EAContext σ) (chunk : EAChunk)
    (htype : chunk.type = MAKE_U32 0x53 0x43 0x44 0x6c) (hlen : 9 ≤ chunk.data.length)
    (hpos : ea.audio_pos ≤ ea.num_samples) (hn : ea.num_samples < 2 ^ 32) :
    ∃ ea1, ea_read_scdl lib out_of_range ea chunk = some ea1
      ∧ ea1.audio_pos
          = ea.audio_pos + min (declared_samples chunk) (ea.num_samples - ea.audio_pos)
      ∧ ea1.audio_pos ≤ ea1.num_samples
      ∧ ea1.out.length
          = ea.out.length + 2 * min (declared_samples chunk) (ea.num_samples - ea.audio_pos)
      ∧ ea1.num_samples = ea.num_samples
      ∧ ea1.num_data_chunks = ea.num_data_chunks := by
  have hrem : (ea.num_samples + 2 ^ 32 - ea.audio_pos) % 2 ^ 32
      = ea.num_samples - ea.audio_pos := by omega
  have hmin : (if declared_samples chunk > ea.num_samples - ea.audio_pos
      then ea.num_samples - ea.audio_pos else declared_samples chunk)
      = min (declared_samples chunk) (ea.num_samples - ea.audio_pos) := by
    split <;> omega
  obtain ⟨h1, h2, h3, h4, _⟩ := scdl_loop_spec lib out_of_range
    (min (declared_samples chunk) (ea.num_samples - ea.audio_pos))
    (min (declared_samples chunk) (ea.num_samples - ea.audio_pos))
    { ea with utk := lib.utk_set_ptr ea.utk (chunk.data.drop 9) } (le_refl _)
    (by simp only []; omega)
  refine ⟨scdl_loop lib out_of_range
    (min (declared_samples chunk) (ea.num_samples - ea.audio_pos))
    (min (declared_samples chunk) (ea.num_samples - ea.audio_pos))
    { ea with utk := lib.utk_set_ptr ea.utk (chunk.data.drop 9) }, ?_, h1, ?_, h2, h3, h4⟩
  · unfold ea_read_scdl
    rw [if_neg (by simp [htype])]
    have r1 : chunk_read_u32 chunk
        = some (declared_samples chunk, { chunk with data := chunk.data.drop 4 }) := by
      unfold chunk_read_u32 chunk_read_bytes
      rw [if_neg (by omega)]
      simp only [declared_samples, READ32_take chunk.data]
    have r2 : chunk_read_u32 { chunk with data := chunk.data.drop 4 }
        = some (READ32 (bytes_of ((chunk.data.drop 4).take 4)) 0,
            { chunk with data := chunk.data.drop 8 }) := by
      unfold chunk_read_u32 chunk_read_bytes
      rw [if_neg (by simp only [List.length_drop]; omega)]
      simp
    have r3 : chunk_read_u8 { chunk with data := chunk.data.drop 8 }
        = some (((chunk.data.drop 8).take 1).getD 0 0,
            { chunk with data := chunk.data.drop 9 }) := by
      unfold chunk_read_u8 chunk_read_bytes
      rw [if_neg (by simp only [List.length_drop]; omega)]
      simp
    simp only [r1, r2, r3, hrem, hmin]
  · rw [h1, h3]
    simp only []
    omega

theorem ea_read_scel_iff {σ : Type} (ea : EAContext σ) (chunk : EAChunk) :
    ea_read_scel ea chunk = true
      ↔ chunk.type = MAKE_U32 0x53 0x43 0x45 0x6c ∧ ea.audio_pos = ea.num_samples := by
  unfold ea_read_scel
  by_cases h1 : chunk.type = MAKE_U32 0x53 0x43 0x45 0x6c <;>
  by_cases h2 : ea.audio_pos = ea.num_samples <;>
  simp [h1, h2]

/-- All data chunks: `audio_pos` ends at the smaller of `num_samples` and the position
plus the declared total, and two bytes were written per counted sample. -/
theorem ea_read_data_chunks_spec {σ : Type} (lib : utk_functions σ) (out_of_range : ℚ → Int) :
    ∀ (chunks : List EAChunk) (ea : EAContext σ) (rest : List EAChunk),
      (∀ c ∈ chunks, c.type = MAKE_U32 0x53 0x43 0x44 0x6c ∧ 9 ≤ c.data.length) →
      ea.audio_pos ≤ ea.num_samples → ea.num_samples < 2 ^ 32 →
      ∃ ea1, ea_read_data_chunks lib out_of_range chunks.length ea (chunks ++ rest)
          = some (ea1, rest)
        ∧ ea1.audio_pos
            = min ea.num_samples (ea.audio_pos + (chunks.map declared_samples).sum)
        ∧ ea1.out.length = ea.out.length + 2 * (ea1.audio_pos - ea.audio_pos)
        ∧ ea1.num_samples = ea.num_samples
        ∧ ea1.num_data_chunks = ea.num_data_chunks := by
  intro chunks
  induction chunks with
  | nil =>
    intro ea rest _ hpos _
    refine ⟨ea, by simp [ea_read_data_chunks], ?_, by simp, rfl, rfl⟩
    simp only [List.map_nil, List.sum_nil, Nat.add_zero]
    omega
  | cons c cs ih =>
    intro ea rest hall hpos hn
    obtain ⟨hct, hcl⟩ := hall c (List.mem_cons_self _ _)
    obtain ⟨ea1, e1, p1, p2, p3, p4, p5⟩ :=
      ea_read_scdl_spec lib out_of_range ea c hct hcl hpos hn
    obtain ⟨ea2, e2, q1, q2, q3, q4⟩ := ih ea1 rest
      (fun c hc => hall c (List.mem_cons_of_mem _ hc)) p2 (by rw [p4]; exact hn)
    refine ⟨ea2, ?_, ?_, ?_, by rw [q3, p4], by rw [q4, p5]⟩
    · simp only [List.length_cons, List.cons_append, ea_read_data_chunks, e1]
      exact e2
    · rw [q1, p4, p1]
      simp only [List.map_cons, List.sum_cons]
      omega
    · rw [q2, p3]
      have : ea1.audio_pos ≤ ea2.audio_pos := by
        rw [q1, p4]
        rw [p4] at p2
        omega
      omega

/-- C19: in utkdecode-fifa, an SCDl chunk read with audio_pos <= num_samples contributes
exactly min(its declared sample count, num_samples - audio_pos) samples (two bytes each)
and leaves audio_pos <= num_samples, advanced by that number; the SCEl check succeeds
exactly when audio_pos = num_samples; so from audio_pos = 0, after the data chunks
audio_pos = min(num_samples, declared total) = the number of samples written, and a
stream with num_samples = 540 whose data chunks declare at least 540 samples in total
yields exactly 540 samples and passes the SCEl check. -/
theorem C19_fifa_sample_accounting {σ : Type} (lib : utk_functions σ)
    (out_of_range : ℚ → Int) :
    (∀ (ea : EAContext σ) (chunk : EAChunk),
      chunk.type = MAKE_U32 0x53 0x43 0x44 0x6c → 9 ≤ chunk.data.length →
      ea.audio_pos ≤ ea.num_samples → ea.num_samples < 2 ^ 32 →
      ∃ ea1, ea_read_scdl lib out_of_range ea chunk = some ea1
        ∧ ea1.audio_pos
            = ea.audio_pos + min (declared_samples chunk) (ea.num_samples - ea.audio_pos)
        ∧ ea1.audio_pos ≤ ea1.num_samples
        ∧ ea1.out.length
            = ea.out.length + 2 * min (declared_samples chunk) (ea.num_samples - ea.audio_pos)
        ∧ ea1.num_samples = ea.num_samples)
    ∧ (∀ (ea : EAContext σ) (chunk : EAChunk),
        ea_read_scel ea chunk = true
          ↔ chunk.type = MAKE_U32 0x53 0x43 0x45 0x6c ∧ ea.audio_pos = ea.num_samples)
    ∧ (∀ (ea : EAContext σ) (chunks : List EAChunk) (last : EAChunk) (rest : List EAChunk),
        (∀ c ∈ chunks, c.type = MAKE_U32 0x53 0x43 0x44 0x6c ∧ 9 ≤ c.data.length) →
        last.type = MAKE_U32 0x53 0x43 0x45 0x6c →
        ea.num_data_chunks = chunks.length → ea.audio_pos = 0 → ea.num_samples < 2 ^ 32 →
        (∃ ea1, ea_read_data_chunks lib out_of_range ea.num_data_chunks ea
              (chunks ++ last :: rest) = some (ea1, last :: rest)
          ∧ ea1.audio_pos = min ea.num_samples (chunks.map declared_samples).sum
          ∧ ea1.out.length = ea.out.length + 2 * ea1.audio_pos
          ∧ (ea_decode_chunks lib out_of_range ea (chunks ++ last :: rest)
              = if ea.num_samples ≤ (chunks.map declared_samples).sum then some ea1 else none))
        ∧ (ea.num_samples = 540 → 540 ≤ (chunks.map declared_samples).sum →
            ∃ ea1, ea_decode_chunks lib out_of_range ea (chunks ++ last :: rest) = some ea1
              ∧ ea1.audio_pos = 540 ∧ ea1.out.length = ea.out.length + 2 * 540)) := by
  refine ⟨?_, fun ea chunk => ea_read_scel_iff ea chunk, ?_⟩
  · intro ea chunk h1 h2 h3 h4
    obtain ⟨ea1, e1, p1, p2, p3, p4, _⟩ := ea_read_scdl_spec lib out_of_range ea chunk h1 h2 h3 h4
    exact ⟨ea1, e1, p1, p2, p3, p4⟩
  · intro ea chunks last rest hall hlast hcount hzero hn
    obtain ⟨ea1, e1, p1, p2, p3, _⟩ := ea_read_data_chunks_spec lib out_of_range chunks ea
      (last :: rest) hall (by omega) hn
    rw [hzero, Nat.zero_add] at p1
    rw [hzero, Nat.sub_zero] at p2
    have hdec : ea_decode_chunks lib out_of_range ea (chunks ++ last :: rest)
        = if ea.num_samples ≤ (chunks.map declared_samples).sum then some ea1 else none := by
      unfold ea_decode_chunks
      rw [hcount, e1]
      simp only []
      by_cases hle : ea.num_samples ≤ (chunks.map declared_samples).sum
      · have : ea_read_scel ea1 last = true :=
          (ea_read_scel_iff ea1 last).mpr ⟨hlast, by rw [p1, p3]; omega⟩
        rw [if_pos this, if_pos hle]
      · have : ¬ (ea_read_scel ea1 last = true) := by
          rw [ea_read_scel_iff]
          intro hc
          rw [p1, p3] at hc
          omega
        rw [if_neg this, if_neg hle]
    refine ⟨⟨ea1, by rw [hcount]; exact e1, p1, p2, hdec⟩, ?_⟩
    intro h540 hsum
    refine ⟨ea1, ?_, ?_, ?_⟩
    · rw [hdec, if_pos (by omega)]
    · rw [p1]; omega
    · rw [p2, p1]; omega

theorem C19_fifa_sample_accounting_witness :
    ∃ ea1 : EAContext Nat,
      ea_decode_chunks
          { utk_decode_frame := fun (c : Nat) => c + 1
            utk_rev3_decode_frame := fun c => c + 2
            utk_set_ptr := fun c _ => c
            decompressed_frame := fun (c : Nat) (i : Nat) => (c : ℚ) * 1000 + i }
          (fun _ => 0)
          { audio_pos := 0, num_samples := 540, num_data_chunks := 2, compression_type := 4,
            codec_revision := 0, utk := 0, out := [] }
          ([scdl_chunk 432 [], scdl_chunk 432 []]
            ++ { type := MAKE_U32 0x53 0x43 0x45 0x6c, data := [] } :: []) = some ea1
      ∧ ea1.audio_pos = 540
      ∧ ea1.out.length = 0 + 2 * 540 :=
  (C19_fifa_sample_accounting
      { utk_decode_frame := fun (c : Nat) => c + 1
        utk_rev3_decode_frame := fun c => c + 2
        utk_set_ptr := fun c _ => c
        decompressed_frame := fun (c : Nat) (i : Nat) => (c : ℚ) * 1000 + i }
      (fun _ => 0)).2.2
    { audio_pos := 0, num_samples := 540, num_data_chunks := 2, compression_type := 4,
      codec_revision := 0, utk := 0, out := [] }
    [scdl_chunk 432 [], scdl_chunk 432 []]
    { type := MAKE_U32 0x53 0x43 0x45 0x6c, data := [] } []
    (by decide!) rfl rfl rfl (by decide) |>.2 rfl (by decide!)

/-! ## C20: the items of `encode_huffman` against the quantised values -/

/-- C20 (failing input): halved mode, a = 1, z = 1, power 63, default gains (64, 1.068), a
block that is zero except for sample 107, and the stack slot `zero_counts[107]`, which
the backward scan never assigns when a = 1, holding 7.  The quantised values at the 54
active positions 1, 3, ..., 107 are 53 zeros and then 13, but the items written are a
53-zero escape at position 1 and a 7-zero escape at position 107: their expansion is 60
zeros, the second escape covers position 107 whose quantised value is 13, and it
advances the loop to position 121, beyond the block.  With the slot holding 0 the items
are the escape and the symbol 13, whose expansion is the quantised values. -/
theorem C20_escape_at_unassigned_zero_count :
    (encode_huffman (inn_gains 64 1.068) ⟨fun _ => 0, fun i => if i = 107 then 7 else 0⟩
        (bwc_init (fun _ => 0)) (fun _ => 0) (fun i => if i = 107 then 1000000 else 0)
        1 63 1 1).items
      = [emitted_item.escape 1 0 53, emitted_item.escape 107 0 7]
    ∧ (active_positions 1 1).map
        (encode_huffman_quantized (inn_gains 64 1.068)
          ⟨fun _ => 0, fun i => if i = 107 then 7 else 0⟩ (fun _ => 0)
          (fun i => if i = 107 then 1000000 else 0) 1 63 1 1).values
      = List.replicate 53 0 ++ [13]
    ∧ expand_items [emitted_item.escape 1 0 53, emitted_item.escape 107 0 7]
      = List.replicate 60 0
    ∧ (emitted_item.escape 107 0 7).next_position (innovation_interval 1) = 121
    ∧ (encode_huffman (inn_gains 64 1.068) ⟨fun _ => 0, fun _ => 0⟩
        (bwc_init (fun _ => 0)) (fun _ => 0) (fun i => if i = 107 then 1000000 else 0)
        1 63 1 1).items
      = [emitted_item.escape 1 0 53, emitted_item.symbol 107 0 13]
    ∧ expand_items [emitted_item.escape 1 0 53, emitted_item.symbol 107 0 13]
      = List.replicate 53 0 ++ [13] := by
  refine ⟨by decide!, by decide!, by decide!, by decide!, by decide!, by decide!⟩

/-- The backward scan leaves, at every index it visits, the length of the zero run that
starts there (runs end at `limit`, one step above the first index visited), and does not
touch the indices above its start. -/
theorem zero_run_loop_spec (values : Int → Int) (interval limit : Int) (hint : 0 < interval) :
    ∀ (fuel : Nat) (i counter : Int) (zero_counts : Int → Int),
      i + interval ≤ limit → zero_run_at values interval limit (i + interval) counter →
      (∀ j, 0 ≤ j → j ≤ i → i - fuel * interval < j → (i - j) % interval = 0 →
        zero_run_at values interval limit j
          (zero_run_loop values interval fuel i counter zero_counts j))
      ∧ (∀ j, i < j →
          zero_run_loop values interval fuel i counter zero_counts j = zero_counts j) := by
  intro fuel
  induction fuel with
  | zero =>
    intro i counter zero_counts _ _
    refine ⟨?_, fun j _ => rfl⟩
    intro j _ h2 h3 _
    simp only [Nat.cast_zero, zero_mul, sub_zero] at h3
    omega
  | succ fuel ih =>
    intro i counter zero_counts hlim hrun
    unfold zero_run_loop
    by_cases hi : i ≥ 0
    · rw [if_pos hi]
      have hrun1 : zero_run_at values interval limit i
          (if values i = 0 then counter + 1 else 0) := by
        obtain ⟨c0, c1, c2⟩ := hrun
        by_cases hv : values i = 0
        · rw [if_pos hv]
          refine ⟨by omega, ?_, ?_⟩
          · intro j hj0 hj1
            by_cases hj : j = 0
            · subst hj
              simp only [zero_mul, add_zero]
              exact ⟨by omega, hv⟩
            · have e : i + j * interval = (i + interval) + (j - 1) * interval := by ring
              rw [e]
              exact c1 (j - 1) (by omega) (by omega)
          · have e : i + (counter + 1) * interval = (i + interval) + counter * interval := by
              ring
            rw [e]
            exact c2
        · rw [if_neg hv]
          refine ⟨le_refl _, ?_, ?_⟩
          · intro j hj0 hj1
            omega
          · right
            simpa using hv
      obtain ⟨ih1, ih2⟩ := ih (i - interval) (if values i = 0 then counter + 1 else 0)
        (storeI zero_counts i (if values i = 0 then counter + 1 else 0))
        (by omega) (by simpa using hrun1)
      refine ⟨?_, ?_⟩
      · intro j hj0 hj1 hj2 hj3
        by_cases hji : j = i
        · subst hji
          rw [ih2 j (by omega), storeI_same]
          exact hrun1
        · have hlt : j < i := by omega
          have hstep : j ≤ i - interval := by
            obtain ⟨k, hk⟩ := Int.dvd_of_emod_eq_zero hj3
            have hkpos : 0 < k := by
              by_contra hc
              have hk0 : k ≤ 0 := by omega
              have : interval * k ≤ 0 := Int.mul_nonpos_of_nonneg_of_nonpos (by omega) hk0
              omega
            have : interval * 1 ≤ interval * k := Int.mul_le_mul_of_nonneg_left (by omega) (by omega)
            omega
          apply ih1 j hj0 hstep
          · have e : i - ((fuel + 1 : Nat) : Int) * interval
                = i - interval - (fuel : Int) * interval := by
              push_cast; ring
            omega
          · have e : i - interval - j = (i - j) + (-1) * interval := by ring
            rw [e, Int.add_mul_emod_self]
            exact hj3
      · intro j hj
        rw [ih2 j (by omega), storeI_other _ _ _ _ (by omega)]
    · rw [if_neg hi]
      refine ⟨?_, fun j _ => rfl⟩
      intro j hj0 hj1 _ _
      omega

theorem positions_fuel (step : Int) (hstep : 0 < step) :
    ∀ (fuel : Nat) (i : Int), 108 ≤ i + fuel →
      positions step fuel i = positions step (fuel + 1) i := by
  intro fuel
  induction fuel with
  | zero =>
    intro i h
    have : ¬ (i < 108) := by simp only [Nat.cast_zero, add_zero] at h; omega
    simp [positions, this]
  | succ fuel ih =>
    intro i h
    by_cases hlt : i < 108
    · have e := ih (i + step) (by push_cast at h; omega)
      rw [positions, if_pos hlt, e]
      conv_rhs => rw [positions, if_pos hlt]
    · rw [positions, if_neg hlt]
      conv_rhs => rw [positions, if_neg hlt]

theorem positions_cons (step : Int) (hstep : 0 < step) (i : Int) (h0 : 0 ≤ i) (h : i < 108) :
    positions step 108 i = i :: positions step 108 (i + step) := by
  conv_lhs => rw [positions, if_pos h]
  rw [positions_fuel step hstep 107 (i + step) (by omega)]

theorem positions_done (step : Int) (i : Int) (h : 108 ≤ i) : positions step 108 i = [] := by
  rw [positions, if_neg (by omega)]

/-- The values over a run of zeros. -/
theorem positions_zero_run (values : Int → Int) (step : Int) (hstep : 0 < step) :
    ∀ (n : Nat) (i : Int), 0 ≤ i →
      (∀ j : Int, 0 ≤ j → j < n → i + j * step < 108 ∧ values (i + j * step) = 0) →
      (positions step 108 i).map values
        = List.replicate n 0 ++ (positions step 108 (i + n * step)).map values := by
  intro n
  induction n with
  | zero => intro i _ _; simp
  | succ n ih =>
    intro i h0 hz
    have hz0 := hz 0 (le_refl _) (by push_cast; omega)
    simp only [zero_mul, add_zero] at hz0
    rw [positions_cons step hstep i h0 hz0.1, List.map_cons, hz0.2,
      ih (i + step) (by omega) ?_]
    · have e : i + step + (n : Int) * step = i + ((n + 1 : Nat) : Int) * step := by
        push_cast; ring
      rw [e]
      rfl
    · intro j hj0 hj1
      have e : i + step + j * step = i + (j + 1) * step := by ring
      rw [e]
      exact hz (j + 1) (by omega) (by push_cast; omega)

/-- When `zero_counts` holds the zero-run length at every position the emission loop can
reach, the expansion of the items is the sequence of values at the positions visited,
and every escape covers zero values below 108 only. -/
theorem huffman_emit_loop_expansion (values zero_counts : Int → Int) (interval : Int)
    (hint : interval = 1 ∨ interval = 2) :
    ∀ (fuel : Nat) (i : Int) (model : Nat) (bwc : bit_writer_context),
      0 ≤ i → 108 ≤ i + fuel →
      (∀ j, i ≤ j → j < 108 → (j - i) % interval = 0 →
        zero_run_at values interval 108 j (zero_counts j)) →
      expand_items (huffman_emit_loop values zero_counts interval fuel i model bwc).2
          = (positions interval 108 i).map values
      ∧ (∀ p m l,
          emitted_item.escape p m l
            ∈ (huffman_emit_loop values zero_counts interval fuel i model bwc).2 →
          ∀ j : Int, 0 ≤ j → j < l →
            p + j * interval < 108 ∧ values (p + j * interval) = 0) := by
  have hpos : 0 < interval := by rcases hint with h | h <;> omega
  intro fuel
  induction fuel with
  | zero =>
    intro i model bwc _ hf _
    have : 108 ≤ i := by simpa using hf
    simp [huffman_emit_loop, expand_items, positions_done interval i this]
  | succ fuel ih =>
    intro i model bwc h0 hf hzc
    by_cases h1 : i < 108
    · have hrun := hzc i (le_refl _) h1 (by simp)
      obtain ⟨r0, r1, r2⟩ := hrun
      by_cases h2 : zero_counts i ≥ 7
      · have hl : 7 ≤ MIN (zero_counts i) 70 ∧ MIN (zero_counts i) 70 ≤ zero_counts i := by
          unfold MIN
          split <;> omega
        have hcover : ∀ j : Int, 0 ≤ j → j < MIN (zero_counts i) 70 →
            i + j * interval < 108 ∧ values (i + j * interval) = 0 :=
          fun j hj0 hj1 => r1 j hj0 (by omega)
        have hmul : 7 * interval ≤ MIN (zero_counts i) 70 * interval :=
          Int.mul_le_mul_of_nonneg_right hl.1 (by omega)
        obtain ⟨ia, ib⟩ := ih (i + MIN (zero_counts i) 70 * interval) 0
          (if model = 0 then bwc_write_bits bwc
              (255 ||| ((MIN (zero_counts i) 70 - 7).toNat <<< 8)) 14
            else bwc_write_bits bwc (127 ||| ((MIN (zero_counts i) 70 - 7).toNat <<< 7)) 13)
          (by omega) (by push_cast at hf; omega)
          (by
            intro j hj0 hj1 hj2
            apply hzc j (by omega) hj1
            have e : j - i = (j - (i + MIN (zero_counts i) 70 * interval))
                + MIN (zero_counts i) 70 * interval := by ring
            rw [e, Int.add_mul_emod_self]
            exact hj2)
        simp only [huffman_emit_loop, h1, h2, if_true]
        refine ⟨?_, ?_⟩
        · simp only [expand_items, emitted_item.expand]
          rw [ia]
          have hrep := positions_zero_run values interval hpos
            (MIN (zero_counts i) 70).toNat i h0
            (by
              intro j hj0 hj1
              exact hcover j hj0 (by omega))
          rw [hrep]
          have e : ((MIN (zero_counts i) 70).toNat : Int) = MIN (zero_counts i) 70 :=
            Int.toNat_of_nonneg (by omega)
          rw [e]
        · intro p m l hmem j hj0 hj1
          simp only [List.mem_cons, emitted_item.escape.injEq] at hmem
          rcases hmem with ⟨rfl, _, rfl⟩ | hmem
          · exact hcover j hj0 hj1
          · exact ib p m l hmem j hj0 hj1
      · obtain ⟨ia, ib⟩ := ih (i + interval)
          (if values i < -1 ∨ values i > 1 then 1 else 0)
          (bwc_write_bits bwc (huffman_models model (values i)).bits_value
            (huffman_models model (values i)).bits_count)
          (by omega) (by push_cast at hf; omega)
          (by
            intro j hj0 hj1 hj2
            apply hzc j (by omega) hj1
            have e : j - i = (j - (i + interval)) + 1 * interval := by ring
            rw [e, Int.add_mul_emod_self]
            exact hj2)
        simp only [huffman_emit_loop, h1, h2, if_true, if_false]
        refine ⟨?_, ?_⟩
        · simp only [expand_items, emitted_item.expand]
          rw [ia, positions_cons interval hpos i h0 h1]
          rfl
        · intro p m l hmem j hj0 hj1
          simp only [List.mem_cons, reduceCtorEq, false_or] at hmem
          exact ib p m l hmem j hj0 hj1
    · simp only [huffman_emit_loop, h1, if_false, expand_items,
        positions_done interval i (by omega)]
      refine ⟨rfl, ?_⟩
      intro p m l hmem
      simp at hmem

/-- With a = 0, in full and in halved mode, for every input, power, flag z and content of
the uninitialised locals: the expansion of the items `encode_huffman` writes after the
preamble is the sequence of quantised values at the active positions, and every escape
covers only positions below 108 whose quantised value is zero. -/
theorem encode_huffman_expansion (inn_gains : Nat → ℚ) (locals : huffman_locals)
    (bwc : bit_writer_context) (innovation_out innovation_in : Int → ℚ)
    (halved_innovation pow z : Nat) :
    expand_items (encode_huffman inn_gains locals bwc innovation_out innovation_in
        halved_innovation pow 0 z).items
      = (active_positions halved_innovation 0).map
          (encode_huffman_quantized inn_gains locals innovation_out innovation_in
            halved_innovation pow 0 z).values
    ∧ (∀ p m l,
        emitted_item.escape p m l
          ∈ (encode_huffman inn_gains locals bwc innovation_out innovation_in
              halved_innovation pow 0 z).items →
        ∀ j : Int, 0 ≤ j → j < l →
          p + j * innovation_interval halved_innovation < 108
          ∧ (encode_huffman_quantized inn_gains locals innovation_out innovation_in
              halved_innovation pow 0 z).values
                (p + j * innovation_interval halved_innovation) = 0) := by
  have hint := innovation_interval_cases halved_innovation
  have hpos : 0 < innovation_interval halved_innovation := by rcases hint with h | h <;> omega
  have hscan := (zero_run_loop_spec
    (encode_huffman_quantized inn_gains locals innovation_out innovation_in
      halved_innovation pow 0 z).values
    (innovation_interval halved_innovation) 108 hpos 108
    (108 - innovation_interval halved_innovation - ((0 : Nat) : Int)) 0 locals.zero_counts
    (by push_cast; omega)
    ⟨le_refl _, fun j hj0 hj1 => by omega, Or.inl (by push_cast; omega)⟩).1
  have hzc : ∀ j, ((0 : Nat) : Int) ≤ j → j < 108 →
      (j - ((0 : Nat) : Int)) % innovation_interval halved_innovation = 0 →
      zero_run_at (encode_huffman_quantized inn_gains locals innovation_out innovation_in
          halved_innovation pow 0 z).values (innovation_interval halved_innovation) 108 j
        (encode_huffman_zero_counts inn_gains locals innovation_out innovation_in
          halved_innovation pow 0 z j) := by
    intro j hj0 hj1 hj2
    unfold encode_huffman_zero_counts
    apply hscan j (by simpa using hj0)
    · rcases hint with h | h <;> rw [h] <;> rw [h] at hj2 <;> push_cast at hj2 ⊢ <;> omega
    · rcases hint with h | h <;> rw [h] <;> push_cast <;> omega
    · rcases hint with h | h <;> rw [h] <;> rw [h] at hj2 <;> push_cast at hj2 ⊢ <;> omega
  have h := huffman_emit_loop_expansion
    (encode_huffman_quantized inn_gains locals innovation_out innovation_in
      halved_innovation pow 0 z).values
    (encode_huffman_zero_counts inn_gains locals innovation_out innovation_in
      halved_innovation pow 0 z)
    (innovation_interval halved_innovation) hint 108 ((0 : Nat) : Int) 0
    (bwc_write_bits bwc (preamble halved_innovation pow 0 z).1
      (preamble halved_innovation pow 0 z).2)
    (by simp) (by simp) hzc
  exact h

/-! ## A silent frame -/

theorem for_range_fixed {σ : Type} (body : Nat → σ → σ) (s : σ) :
    ∀ (count i : Nat), (∀ j, i ≤ j → j < i + count → body j s = s) →
      for_range body count i s = s := by
  intro count
  induction count with
  | zero => intro i _; rfl
  | succ n ih =>
    intro i h
    rw [for_range, h i (le_refl _) (by omega)]
    exact ih (i + 1) (fun j h1 h2 => h j (by omega) (by omega))

/-- Loop invariants of a counting loop. -/
theorem for_range_induction {σ : Type} (body : Nat → σ → σ) (P : Nat → σ → Prop)
    (hstep : ∀ j s, P j s → P (j + 1) (body j s)) :
    ∀ (count i : Nat) (s : σ), P i s → P (i + count) (for_range body count i s) := by
  intro count
  induction count with
  | zero => intro i s h; exact h
  | succ n ih =>
    intro i s h
    rw [for_range]
    have := ih (i + 1) (body i s) (hstep i s h)
    have e : i + 1 + n = i + (n + 1) := by omega
    rw [e] at this
    exact this

theorem for_positions_induction {σ : Type} (step : Int) (body : Int → σ → σ) (P : σ → Prop)
    (hstep : ∀ i s, P s → P (body i s)) :
    ∀ (fuel : Nat) (i : Int) (s : σ), P s → P (for_positions step body fuel i s) := by
  intro fuel
  induction fuel with
  | zero => intro i s h; exact h
  | succ n ih =>
    intro i s h
    rw [for_positions]
    split
    · exact ih _ _ (hstep i s h)
    · exact h

theorem store_zero (i : Nat) : store (fun _ => (0 : ℚ)) i 0 = fun _ => 0 := by
  funext j
  simp [store]

theorem storeI_zero (i : Int) : storeI (fun _ => (0 : ℚ)) i 0 = fun _ => 0 := by
  funext j
  simp [storeI]

theorem store_self {α : Type} (m : Nat → α) (i : Nat) : store m i (m i) = m := by
  funext j
  unfold store
  split
  · next h => rw [h]
  · rfl

theorem offset_view_zero (off : Int) :
    offset_view (fun _ => (0 : ℚ)) off = fun _ => 0 := rfl

theorem find_autocorrelations_zero :
    find_autocorrelations (fun _ => 0) (fun _ => 0) = fun _ => 0 := by
  unfold find_autocorrelations
  apply for_range_fixed
  intro i _ _
  rw [store_zero]
  apply for_range_fixed
  intro j _ _
  simp [store_zero]

theorem levinson_durbin_symmetric_zero :
    levinson_durbin_symmetric (fun _ => 0) (fun _ => 0) (fun _ => 0) (fun _ => 0)
      = (fun _ => 0, fun _ => 0) := by
  have hz : ∀ n, for_range (fun i (x : Nat → ℚ) => store x i 0) n 0 (fun _ => 0) = fun _ => 0 :=
    fun n => for_range_fixed _ _ n 0 (fun j _ _ => store_zero j)
  have hc : (fun _ => (0 : ℚ)) 0 ≤ 1 / 32768 ∧ (fun _ => (0 : ℚ)) 0 ≥ -(1 / 32768) := by
    norm_num
  unfold levinson_durbin_symmetric
  simp only [if_pos hc, if_true, hz]

theorem find_rc_zero : find_rc (fun _ => 0) (fun _ => 0) = fun _ => 0 := by
  unfold find_rc
  simp only [find_autocorrelations_zero, levinson_durbin_symmetric_zero]

/-- With all reflection coefficients zero the predictor coefficients are zero. -/
theorem rc_to_lpc_zero : rc_to_lpc (fun _ => 0) (fun _ => 0) = fun _ => 0 := by
  have ha : for_range
      (fun i (a : Nat → ℚ) =>
        for_range (fun j a1 => store a1 j (a1 j + (0 : ℚ) * a (i - j))) i 1 (store a i 0))
      12 1 (store (fun _ => 0) 0 1) = store (fun _ => 0) 0 1 := by
    apply for_range_fixed
    intro i hi _
    have e : store (store (fun _ => (0 : ℚ)) 0 1) i 0 = store (fun _ => 0) 0 1 := by
      funext j
      by_cases h1 : j = i
      · subst h1
        have : ¬ (j = 0) := by omega
        simp [store, this]
      · simp [store, h1]
    rw [e]
    apply for_range_fixed
    intro j _ _
    simp only [zero_mul, add_zero]
    exact store_self _ _
  unfold rc_to_lpc
  simp only [ha]
  apply for_range_fixed
  intro i hi _
  have : store (fun _ => (0 : ℚ)) 0 1 i = 0 := by
    unfold store
    rw [if_neg (by omega)]
  rw [this, neg_zero, store_zero]

theorem find_excitation_zero (length : Nat) :
    find_excitation (fun _ => 0) (fun _ => 0) length (fun _ => 0) = fun _ => 0 := by
  unfold find_excitation
  apply for_range_fixed
  intro i _ _
  have : for_range (fun (j : Nat) (prediction : ℚ) => prediction + (0 : ℚ) * (0 : ℚ)) 12 0 0
      = 0 := for_range_fixed _ _ 12 0 (fun j _ _ => by simp)
  simp only [this, sub_zero, storeI_zero]

theorem find_pitch_zero : find_pitch (fun _ => 0) = (108, 0) := by
  have hc : for_range (fun (j : Nat) (corr : ℚ) => corr + (0 : ℚ) * (0 : ℚ)) 108 0 0 = 0 :=
    for_range_fixed _ _ 108 0 (fun j _ _ => by simp)
  have hb : for_range
      (fun (i : Nat) (best : Int × ℚ) =>
        if for_range (fun (j : Nat) (corr : ℚ) => corr + (0 : ℚ) * (0 : ℚ)) 108 0 0 > best.2
        then ((i : Int), for_range (fun (j : Nat) (corr : ℚ) => corr + (0 : ℚ) * (0 : ℚ)) 108 0 0)
        else best)
      216 108 ((108 : Int), (0 : ℚ)) = (108, 0) := by
    apply for_range_fixed
    intro i _ _
    rw [hc]
    simp
  have hh : for_range
      (fun (i : Nat) (history_energy : ℚ) => history_energy + (0 : ℚ) * (0 : ℚ)) 108 0 0 = 0 :=
    for_range_fixed _ _ 108 0 (fun j _ _ => by simp)
  unfold find_pitch
  simp only [hb, hh]
  norm_num

theorem quantize_zero :
    quantize 0 (fun k => utk_rc_table (1 + k)) 63 = 31
    ∧ quantize 0 (fun k => utk_rc_table (16 + k)) 32 = 16
    ∧ utk_rc_table 32 = 0 := by
  decide!

/-- The quantisation of twelve zero reflection coefficients. -/
theorem quantize_rc_zero (huffman_threshold : Int) (bwc : bit_writer_context)
    (hT : huffman_threshold ≤ 32) :
    quantize_rc huffman_threshold bwc (fun _ => 0)
      = { bwc := bwc_writes bwc
            [(32, 6), (32, 6), (32, 6), (32, 6), (16, 5), (16, 5), (16, 5), (16, 5),
             (16, 5), (16, 5), (16, 5), (16, 5)]
          rc := fun _ => 0
          use_huffman := 0
          indices := [32, 32, 32, 32, 16, 16, 16, 16, 16, 16, 16, 16] } := by
  obtain ⟨h1, h2, h3⟩ := quantize_zero
  have hn : ¬ ((32 : Int) < huffman_threshold) := by omega
  simp [quantize_rc, quantize_rc_first, quantize_rc_rest, h1, h2, h3, store_zero, hn, bwc_writes]

theorem triangular_symbol_zero (inn_gain : ℚ) : triangular_symbol inn_gain 0 = 0 := by
  unfold triangular_symbol
  rw [zero_div]
  decide!

theorem find_a_z_flags_zero : find_a_z_flags (fun _ => 0) = (0, 1) := by
  decide!

theorem low_pass_innovation_zero (a z : Nat) :
    low_pass_innovation (fun _ => 0) a z = fun _ => 0 := by
  unfold low_pass_innovation
  apply for_positions_induction 2 _ (fun x => x = fun _ => 0)
  · intro i x hx
    subst hx
    simp only [add_zero, zero_mul, mul_zero]
    exact storeI_zero i
  · rfl

/-- A ternary trial on a zero block has error zero. -/
theorem encode_triangular_zero_error (inn_gains : Nat → ℚ) (bwc : bit_writer_context)
    (innovation_out : Int → ℚ) (halved_innovation pow a z : Nat) :
    (encode_triangular inn_gains bwc innovation_out (fun _ => 0) halved_innovation pow a z).error
      = 0 := by
  unfold encode_triangular
  simp only []
  refine for_positions_induction _ _ (fun (s : innovation_encoding) => s.error = 0) ?_ 108 _ _ rfl
  intro i s hs
  simp only [triangular_step, triangular_symbol_zero, hs]
  norm_num

/-- On a zero block, after the trial of power 0 no later trial replaces the best one. -/
theorem triangular_trial_loop_zero (inn_gains : Nat → ℚ) (bwc : bit_writer_context)
    (halved_innovation a z : Nat) :
    ∀ (fuel pow : Nat) (s : trial_state), 1 ≤ pow → s.m = 1 → s.best_error = 0 →
      (triangular_trial_loop inn_gains bwc (fun _ => 0) halved_innovation a z fuel pow s).m = 1
      ∧ (triangular_trial_loop inn_gains bwc (fun _ => 0) halved_innovation a z fuel pow
          s).encodings 0 = s.encodings 0 := by
  intro fuel
  induction fuel with
  | zero => intro pow s _ hm _; exact ⟨hm, rfl⟩
  | succ fuel ih =>
    intro pow s hp hm he
    unfold triangular_trial_loop
    by_cases h : pow ≤ 63
    · rw [if_pos h]
      simp only []
      have hc : ¬ (pow = 0 ∨
          (encode_triangular inn_gains (trial_writer bwc (s.encodings s.m).bwc)
            (s.encodings s.m).innovation (fun _ => 0) halved_innovation pow a z).error
              < s.best_error) := by
        rw [encode_triangular_zero_error, he]
        simp
        omega
      rw [if_neg hc]
      obtain ⟨i1, i2⟩ := ih (pow + 1)
        { encodings := store s.encodings s.m
            (encode_triangular inn_gains (trial_writer bwc (s.encodings s.m).bwc)
              (s.encodings s.m).innovation (fun _ => 0) halved_innovation pow a z)
          m := s.m
          best_distance := s.best_distance
          best_error := s.best_error } (by omega) hm he
      refine ⟨i1, ?_⟩
      rw [i2]
      simp only [hm]
      exact store_other _ _ _ _ (by decide)
    · rw [if_neg h]
      exact ⟨hm, rfl⟩

/-- `encode_innovation` on a zero block with the ternary quantiser: the flags are a = 0,
z = 1, the committed trial is the one of power 0, every symbol is zero and the block
stays zero, whatever the scratch memory held. -/
theorem encode_innovation_zero (inn_gains : Nat → ℚ) (encodings : Nat → innovation_encoding)
    (locals : Nat → huffman_locals) (bwc : bit_writer_context)
    (halved_innovation : Nat) (target : Int) :
    (encode_innovation inn_gains encodings locals bwc (fun _ => 0) halved_innovation 0
        target).a = 0
    ∧ (encode_innovation inn_gains encodings locals bwc (fun _ => 0) halved_innovation 0
        target).z = 1
    ∧ (encode_innovation inn_gains encodings locals bwc (fun _ => 0) halved_innovation 0
        target).committed.pow = 0
    ∧ (encode_innovation inn_gains encodings locals bwc (fun _ => 0) halved_innovation 0
        target).committed.items
        = (active_positions halved_innovation 0).map (fun i => emitted_item.ternary i 0)
    ∧ (encode_innovation inn_gains encodings locals bwc (fun _ => 0) halved_innovation 0
        target).innovation = fun _ => 0 := by
  have haz : (if halved_innovation ≠ 0 then find_a_z_flags (fun _ => 0) else (0, 1))
      = ((0, 1) : Nat × Nat) := by
    split
    · exact find_a_z_flags_zero
    · rfl
  have hlp : (if halved_innovation ≠ 0 then low_pass_innovation (fun _ => 0) 0 1
      else fun _ => 0) = fun _ => (0 : ℚ) := by
    split
    · exact low_pass_innovation_zero 0 1
    · rfl
  -- the state after the trial of power 0
  have hloop := triangular_trial_loop_zero inn_gains bwc halved_innovation 0 1 63 1
    { encodings := store encodings 0
        (encode_triangular inn_gains (trial_writer bwc (encodings 0).bwc)
          (encodings 0).innovation (fun _ => 0) halved_innovation 0 0 1)
      m := c_not 0
      best_distance := 0
      best_error := (encode_triangular inn_gains (trial_writer bwc (encodings 0).bwc)
          (encodings 0).innovation (fun _ => 0) halved_innovation 0 0 1).error }
    (le_refl _) rfl (encode_triangular_zero_error _ _ _ _ _ _ _)
  have hstart : triangular_trial_loop inn_gains bwc (fun _ => 0) halved_innovation 0 1 64 0
      { encodings := encodings, m := 0, best_distance := 0, best_error := 0 }
      = triangular_trial_loop inn_gains bwc (fun _ => 0) halved_innovation 0 1 63 1
        { encodings := store encodings 0
            (encode_triangular inn_gains (trial_writer bwc (encodings 0).bwc)
              (encodings 0).innovation (fun _ => 0) halved_innovation 0 0 1)
          m := c_not 0
          best_distance := 0
          best_error := (encode_triangular inn_gains (trial_writer bwc (encodings 0).bwc)
              (encodings 0).innovation (fun _ => 0) halved_innovation 0 0 1).error } := by
    conv_lhs => rw [triangular_trial_loop]
    simp
  obtain ⟨hm, he⟩ := hloop
  simp only [store_same] at he
  obtain ⟨sitems, _, sinn⟩ := encode_triangular_spec inn_gains
    (trial_writer bwc (encodings 0).bwc) (encodings 0).innovation (fun _ => 0)
    halved_innovation 0 0 1
  have hcommit : (encode_innovation inn_gains encodings locals bwc (fun _ => 0)
      halved_innovation 0 target).committed
      = encode_triangular inn_gains (trial_writer bwc (encodings 0).bwc)
          (encodings 0).innovation (fun _ => 0) halved_innovation 0 0 1 := by
    unfold encode_innovation
    simp only [haz, hlp, ne_eq, not_true_eq_false, if_false, hstart, hm]
    exact he
  refine ⟨?_, ?_, ?_, ?_, ?_⟩
  · unfold encode_innovation
    simp only [haz]
  · unfold encode_innovation
    simp only [haz]
  · rw [hcommit]
    rfl
  · rw [hcommit, sitems]
    simp only [triangular_symbol_zero]
  · have hinn : (encode_innovation inn_gains encodings locals bwc (fun _ => 0)
        halved_innovation 0 target).innovation
        = (if halved_innovation ≠ 0 then
            interpolate (fun j => if 0 ≤ j ∧ j < 108 then
              (encode_triangular inn_gains (trial_writer bwc (encodings 0).bwc)
                (encodings 0).innovation (fun _ => 0) halved_innovation 0 0 1).innovation j
              else 0) 0 1
          else (fun j => if 0 ≤ j ∧ j < 108 then
              (encode_triangular inn_gains (trial_writer bwc (encodings 0).bwc)
                (encodings 0).innovation (fun _ => 0) halved_innovation 0 0 1).innovation j
              else 0)) := by
      unfold encode_innovation
      simp only [haz, hlp, ne_eq, not_true_eq_false, if_false, hstart, hm]
      rw [show c_not 1 = 0 from rfl, he]
    rw [hinn]
    funext j
    by_cases hh : halved_innovation ≠ 0
    · rw [if_pos hh]
      unfold interpolate
      rw [if_pos (by decide), for_positions_eq_foldl,
        foldl_storeI (fun _ => (0 : ℚ)) _ _ j]
      split
      · rfl
      · next hnot =>
        split
        · next hr =>
          rw [sinn j, triangular_symbol_zero]
          have hiv : innovation_interval halved_innovation = 2 := by
            unfold innovation_interval; rw [if_pos hh]
          rw [show c_not 0 = 1 from rfl, mem_positions 2 (Or.inr rfl) 108 _ j (by decide)] at hnot
          have hmem : j ∈ active_positions halved_innovation 0 := by
            rw [mem_active_positions, hiv]
            push_cast at hnot ⊢
            omega
          rw [if_pos hmem]
          simp
        · rfl
    · rw [if_neg hh]
      split
      · next hr =>
        rw [sinn j, triangular_symbol_zero]
        have hiv : innovation_interval halved_innovation = 1 := by
          unfold innovation_interval; rw [if_neg hh]
        have hmem : j ∈ active_positions halved_innovation 0 := by
          rw [mem_active_positions, hiv]
          push_cast
          omega
        rw [if_pos hmem]
        simp
      · rfl

/-- One subframe on a silent state: lag code 0, gain code 0, and the state stays silent. -/
theorem encode_subframe_zero (opt : encoder_options) (sampling_rate : Int)
    (stack : subframe_stack) (i : Nat) (bwc : bit_writer_context) :
    ∃ bwc1 r,
      encode_subframe opt sampling_rate 0 stack i (initial_encoder_state bwc)
        = (initial_encoder_state bwc1, { lag_code := 0, gain_code := 0, innovation := r })
      ∧ r.a = 0 ∧ r.z = 1 ∧ r.committed.pow = 0
      ∧ r.committed.items
          = (active_positions opt.halved_innovation 0).map (fun i => emitted_item.ternary i 0)
      ∧ r.innovation = fun _ => 0 := by
  have hR : ROUND ((0 : ℚ) * 15) = 0 := by decide!
  have hU : to_unsigned 0 = 0 := by decide
  have hI : for_range
      (fun (j : Nat) (innovation : Int → ℚ) =>
        storeI innovation (j : Int) ((0 : ℚ) - ((0 : Int) : ℚ) / 15 * 0))
      108 0 (fun _ => 0) = fun _ => 0 := by
    apply for_range_fixed
    intro j _ _
    simp [storeI_zero]
  have hE : for_range
      (fun (j : Nat) (excitation : Int → ℚ) =>
        storeI excitation (j : Int) ((0 : ℚ) + ((0 : Int) : ℚ) / 15 * excitation ((j : Int) - 108)))
      108 0 (fun _ => 0) = fun _ => 0 := by
    apply for_range_fixed
    intro j _ _
    simp [storeI_zero]
  obtain ⟨za, zz, zp, zi, zinn⟩ := encode_innovation_zero
    (inn_gains opt.inngain_sig opt.inngain_base) stack.encodings stack.locals
    (bwc_write_bits (bwc_write_bits bwc 0 8) 0 4) opt.halved_innovation
    (target_bit_count opt.bitrate sampling_rate)
  refine ⟨(encode_innovation (inn_gains opt.inngain_sig opt.inngain_base) stack.encodings
      stack.locals (bwc_write_bits (bwc_write_bits bwc 0 8) 0 4) (fun _ => 0)
      opt.halved_innovation 0 (target_bit_count opt.bitrate sampling_rate)).bwc,
    encode_innovation (inn_gains opt.inngain_sig opt.inngain_base) stack.encodings
      stack.locals (bwc_write_bits (bwc_write_bits bwc 0 8) 0 4) (fun _ => 0)
      opt.halved_innovation 0 (target_bit_count opt.bitrate sampling_rate),
    ?_, za, zz, zp, zi, zinn⟩
  unfold encode_subframe initial_encoder_state
  simp only [offset_view_zero, find_pitch_zero, sub_self, hR, hU, hI, zinn, hE]

theorem load_samples_zero (wav_buffer : Nat → Nat) (hzero : ∀ k, k < 864 → wav_buffer k = 0) :
    load_samples (fun _ => 0) wav_buffer 432 = fun _ => 0 := by
  unfold load_samples
  have h1 : for_range
      (fun (i : Nat) (input_samples : Int → ℚ) =>
        storeI input_samples (12 + (i : Int))
          ((to_int16 (READ16 wav_buffer (2 * i)) : Int) : ℚ))
      432 0 (fun _ => 0) = fun _ => 0 := by
    apply for_range_fixed
    intro i _ hi
    have e : to_int16 (READ16 wav_buffer (2 * i)) = 0 := by
      unfold READ16
      rw [hzero (2 * i) (by omega), hzero (2 * i + 1) (by omega)]
      decide
    rw [e]
    simp [storeI_zero]
  simp only [h1]
  rfl

theorem find_frame_excitation_zero :
    find_frame_excitation (fun _ => 0) (fun _ => 0) (fun _ => 0) (fun _ => 0)
      = ((fun _ => 0), (fun _ => 0)) := by
  have hinterp : for_range
      (fun (j : Nat) (rc : Nat → ℚ) => store rc j (rc j + (0 : ℚ))) 12 0 (fun _ => 0)
      = fun _ => 0 := by
    apply for_range_fixed
    intro i _ _
    simp [store_zero]
  unfold find_frame_excitation
  apply for_range_fixed
  intro i _ _
  simp only [hinterp, rc_to_lpc_zero, offset_view_zero, find_excitation_zero]

/-- The four subframes on a silent state. -/
theorem encode_subframes_zero (opt : encoder_options) (sampling_rate : Int)
    (stack : Nat → subframe_stack) (bwc : bit_writer_context) :
    ∃ bwc1 subframes,
      encode_subframes opt sampling_rate 0 stack (initial_encoder_state bwc)
        = (initial_encoder_state bwc1, subframes)
      ∧ subframes.length = 4
      ∧ ∀ sf ∈ subframes,
          sf.lag_code = 0 ∧ sf.gain_code = 0 ∧ sf.innovation.a = 0 ∧ sf.innovation.z = 1
          ∧ sf.innovation.committed.pow = 0
          ∧ sf.innovation.committed.items
              = (active_positions opt.halved_innovation 0).map
                  (fun i => emitted_item.ternary i 0)
          ∧ sf.innovation.innovation = fun _ => 0 := by
  have hsub : ∀ (n i : Nat) (bwc0 : bit_writer_context) (l : List subframe_record),
      ∃ bwc1 l1,
        for_range
          (fun (i : Nat) (st : encoder_state × List subframe_record) =>
            ((encode_subframe opt sampling_rate 0 (stack i) i st.1).1,
             st.2 ++ [(encode_subframe opt sampling_rate 0 (stack i) i st.1).2]))
          n i (initial_encoder_state bwc0, l) = (initial_encoder_state bwc1, l ++ l1)
        ∧ l1.length = n
        ∧ ∀ sf ∈ l1,
            sf.lag_code = 0 ∧ sf.gain_code = 0 ∧ sf.innovation.a = 0 ∧ sf.innovation.z = 1
            ∧ sf.innovation.committed.pow = 0
            ∧ sf.innovation.committed.items
                = (active_positions opt.halved_innovation 0).map
                    (fun i => emitted_item.ternary i 0)
            ∧ sf.innovation.innovation = fun _ => 0 := by
    intro n
    induction n with
    | zero =>
      intro i bwc0 l
      exact ⟨bwc0, [], by simp [for_range], rfl, by simp⟩
    | succ n ih =>
      intro i bwc0 l
      obtain ⟨b1, r, e1, p1, p2, p3, p4, p5⟩ :=
        encode_subframe_zero opt sampling_rate (stack i) i bwc0
      obtain ⟨b2, l2, e2, q1, q2⟩ := ih (i + 1) b1
        (l ++ [{ lag_code := 0, gain_code := 0, innovation := r }])
      refine ⟨b2, { lag_code := 0, gain_code := 0, innovation := r } :: l2, ?_, ?_, ?_⟩
      · rw [for_range]
        simp only [e1]
        rw [e2]
        simp
      · simp [q1]
      · intro sf hsf
        simp only [List.mem_cons] at hsf
        rcases hsf with rfl | hsf
        · exact ⟨rfl, rfl, p1, p2, p3, p4, p5⟩
        · exact q2 sf hsf
  obtain ⟨b1, l1, e1, q1, q2⟩ := hsub 4 0 bwc []
  refine ⟨b1, l1, ?_, q1, q2⟩
  unfold encode_subframes
  simpa using e1

/-- The frame body in terms of the results of its parts. -/
theorem encode_frame_parts (opt : encoder_options) (sampling_rate : Int)
    (stack : Nat → subframe_stack) (s : encoder_state) (wav_buffer : Nat → Nat)
    (samples_to_read : Nat) (input : Int → ℚ) (q : rc_quantization) (rc_delta : Nat → ℚ)
    (lp : (Nat → ℚ) × (Int → ℚ)) (sub : encoder_state × List subframe_record)
    (h1 : load_samples s.input_samples wav_buffer samples_to_read = input)
    (h2 : quantize_rc opt.huffman_threshold s.bwc (find_rc (fun _ => 0) (offset_view input 12))
      = q)
    (h3 : for_range (fun i rc_delta => store rc_delta i ((q.rc i - s.prev_rc i) / 4)) 12 0
      (fun _ => 0) = rc_delta)
    (h4 : find_frame_excitation rc_delta (fun j => if j < 12 then s.prev_rc j else q.rc j)
      s.adaptive_codebook input = lp)
    (h5 : encode_subframes opt sampling_rate q.use_huffman stack
      { bwc := q.bwc
        input_samples := fun j => if 0 ≤ j ∧ j < 12 then input (432 + j) else input j
        adaptive_codebook := lp.2
        prev_rc := fun j => if j < 12 then lp.1 j else s.prev_rc j
        innovation := s.innovation } = sub) :
    encode_frame opt sampling_rate stack s wav_buffer samples_to_read
      = ({ bwc := sub.1.bwc
           input_samples := sub.1.input_samples
           adaptive_codebook := fun j =>
             if 0 ≤ j ∧ j < 324 then sub.1.adaptive_codebook (432 + j)
             else sub.1.adaptive_codebook j
           prev_rc := sub.1.prev_rc
           innovation := sub.1.innovation },
         { samples_to_read := samples_to_read
           input := input
           rc_indices := q.indices
           use_huffman := q.use_huffman
           subframes := sub.2 }) := by
  subst h1 h2 h3 h4 h5
  rfl

/-- The frame body on a silent state and 432 zero samples. -/
theorem encode_frame_zero (opt : encoder_options) (sampling_rate : Int)
    (stack : Nat → subframe_stack) (bwc : bit_writer_context) (wav_buffer : Nat → Nat)
    (hT : opt.huffman_threshold ≤ 32) (hzero : ∀ k, k < 864 → wav_buffer k = 0) :
    ∃ bwc1 subframes,
      encode_frame opt sampling_rate stack (initial_encoder_state bwc) wav_buffer 432
        = (initial_encoder_state bwc1,
           { samples_to_read := 432
             input := fun _ => 0
             rc_indices := [32, 32, 32, 32, 16, 16, 16, 16, 16, 16, 16, 16]
             use_huffman := 0
             subframes := subframes })
      ∧ subframes.length = 4
      ∧ ∀ sf ∈ subframes,
          sf.lag_code = 0 ∧ sf.gain_code = 0 ∧ sf.innovation.a = 0 ∧ sf.innovation.z = 1
          ∧ sf.innovation.committed.pow = 0
          ∧ sf.innovation.committed.items
              = (active_positions opt.halved_innovation 0).map
                  (fun i => emitted_item.ternary i 0)
          ∧ sf.innovation.innovation = fun _ => 0 := by
  obtain ⟨b1, l1, e1, q1, q2⟩ := encode_subframes_zero opt sampling_rate stack
    (bwc_writes bwc
      [(32, 6), (32, 6), (32, 6), (32, 6), (16, 5), (16, 5), (16, 5), (16, 5),
       (16, 5), (16, 5), (16, 5), (16, 5)])
  refine ⟨b1, l1, ?_, q1, q2⟩
  have h2 : quantize_rc opt.huffman_threshold (initial_encoder_state bwc).bwc
      (find_rc (fun _ => 0) (offset_view (fun _ => (0 : ℚ)) 12))
      = { bwc := bwc_writes bwc
            [(32, 6), (32, 6), (32, 6), (32, 6), (16, 5), (16, 5), (16, 5), (16, 5),
             (16, 5), (16, 5), (16, 5), (16, 5)]
          rc := fun _ => 0
          use_huffman := 0
          indices := [32, 32, 32, 32, 16, 16, 16, 16, 16, 16, 16, 16] } := by
    rw [offset_view_zero, find_rc_zero]
    exact quantize_rc_zero opt.huffman_threshold bwc hT
  generalize hq : quantize_rc opt.huffman_threshold (initial_encoder_state bwc).bwc
      (find_rc (fun _ => 0) (offset_view (fun _ => (0 : ℚ)) 12)) = q at h2
  have hq_rc : q.rc = fun _ => 0 := by rw [h2]
  have hq_use : q.use_huffman = 0 := by rw [h2]
  have hq_bwc : q.bwc = bwc_writes bwc
      [(32, 6), (32, 6), (32, 6), (32, 6), (16, 5), (16, 5), (16, 5), (16, 5),
       (16, 5), (16, 5), (16, 5), (16, 5)] := by rw [h2]
  have hq_idx : q.indices = [32, 32, 32, 32, 16, 16, 16, 16, 16, 16, 16, 16] := by rw [h2]
  have hprev : (initial_encoder_state bwc).prev_rc = fun _ => 0 := rfl
  have h3 : for_range
      (fun (i : Nat) (rc_delta : Nat → ℚ) =>
        store rc_delta i ((q.rc i - (initial_encoder_state bwc).prev_rc i) / 4))
      12 0 (fun _ => 0) = fun _ => 0 := by
    rw [hq_rc, hprev]
    apply for_range_fixed
    intro i _ _
    simp [store_zero]
  have h4 : find_frame_excitation (fun _ => 0)
      (fun j => if j < 12 then (initial_encoder_state bwc).prev_rc j else q.rc j)
      (initial_encoder_state bwc).adaptive_codebook (fun _ => 0)
      = (((fun _ => 0), (fun _ => 0)) : (Nat → ℚ) × (Int → ℚ)) := by
    have e : (fun j => if j < 12 then (initial_encoder_state bwc).prev_rc j else q.rc j)
        = fun _ => (0 : ℚ) := by
      funext j
      rw [hq_rc, hprev]
      simp
    rw [e]
    exact find_frame_excitation_zero
  have h5 : encode_subframes opt sampling_rate q.use_huffman stack
      { bwc := q.bwc
        input_samples := fun j =>
          if 0 ≤ j ∧ j < 12 then (fun (_ : Int) => (0 : ℚ)) (432 + j)
          else (fun (_ : Int) => (0 : ℚ)) j
        adaptive_codebook := (((fun _ => 0), (fun _ => 0)) : (Nat → ℚ) × (Int → ℚ)).2
        prev_rc := fun j =>
          if j < 12 then (((fun _ => 0), (fun _ => 0)) : (Nat → ℚ) × (Int → ℚ)).1 j
          else (initial_encoder_state bwc).prev_rc j
        innovation := (initial_encoder_state bwc).innovation }
      = (initial_encoder_state b1, l1) := by
    have ea : (fun (j : Int) =>
        if 0 ≤ j ∧ j < 12 then (fun (_ : Int) => (0 : ℚ)) (432 + j)
          else (fun (_ : Int) => (0 : ℚ)) j)
        = fun _ => (0 : ℚ) := by
      funext j
      simp
    have eb : (fun (j : Nat) =>
        if j < 12 then (((fun _ => 0), (fun _ => 0)) : (Nat → ℚ) × (Int → ℚ)).1 j
        else (initial_encoder_state bwc).prev_rc j) = fun _ => (0 : ℚ) := by
      funext j
      rw [hprev]
      simp
    rw [ea, eb, hq_use, hq_bwc]
    exact e1
  have key := encode_frame_parts opt sampling_rate stack (initial_encoder_state bwc)
    wav_buffer 432 (fun _ => 0) q (fun _ => 0)
    (((fun _ => 0), (fun _ => 0)) : (Nat → ℚ) × (Int → ℚ)) (initial_encoder_state b1, l1)
    (load_samples_zero wav_buffer hzero) hq h3 h4 h5
  rw [key, hq_idx, hq_use]
  have ec : (fun (j : Int) =>
      if 0 ≤ j ∧ j < 324 then (initial_encoder_state b1).adaptive_codebook (432 + j)
      else (initial_encoder_state b1).adaptive_codebook j) = fun _ => (0 : ℚ) := by
    funext j
    simp [initial_encoder_state]
  simp only [ec]
  rfl

/-- C17: from the initial encoder state (all arrays zero) and any stream writer, the frame
body on 432 zero samples, for any bitrate, sampling rate, gain parameters, mode, stack
content and any Huffman threshold in [16, 32]: the reflection coefficients are zero and
their quantisation writes the indices 32, 32, 32, 32 with 6 bits each and 16 eight times
with 5 bits each; the ternary quantiser is selected (use_huffman = 0); each of the 4
subframes has lag code 0, gain code 0, flags a = 0 and z = 1, committed power 0 and only
zero symbols, one per active position, and leaves a zero innovation; and the encoder
state after the frame (input overlap, adaptive codebook with the reconstructed
excitation, prev_rc, innovation buffer with its guards) is the initial all-zero state. -/
theorem C17_silent_frame (opt : encoder_options) (sampling_rate : Int)
    (stack : Nat → subframe_stack) (bwc : bit_writer_context) (wav_buffer : Nat → Nat)
    (hT : 16 ≤ opt.huffman_threshold ∧ opt.huffman_threshold ≤ 32)
    (hzero : ∀ k, k < 864 → wav_buffer k = 0) :
    (∃ bwc1 subframes,
      encode_frame opt sampling_rate stack (initial_encoder_state bwc) wav_buffer 432
        = ({ bwc := bwc1
             input_samples := fun _ => 0
             adaptive_codebook := fun _ => 0
             prev_rc := fun _ => 0
             innovation := fun _ => 0 },
           { samples_to_read := 432
             input := fun _ => 0
             rc_indices := [32, 32, 32, 32, 16, 16, 16, 16, 16, 16, 16, 16]
             use_huffman := 0
             subframes := subframes })
      ∧ subframes.length = 4
      ∧ ∀ sf ∈ subframes,
          sf.lag_code = 0 ∧ sf.gain_code = 0 ∧ sf.innovation.a = 0 ∧ sf.innovation.z = 1
          ∧ sf.innovation.committed.pow = 0
          ∧ sf.innovation.committed.items
              = (active_positions opt.halved_innovation 0).map
                  (fun i => emitted_item.ternary i 0)
          ∧ sf.innovation.innovation = fun _ => 0)
    ∧ find_rc (fun _ => 0)
        (offset_view (load_samples (initial_encoder_state bwc).input_samples wav_buffer 432) 12)
      = (fun _ => 0)
    ∧ (quantize_rc opt.huffman_threshold bwc (fun _ => 0)).bwc
      = bwc_writes bwc
          [(32, 6), (32, 6), (32, 6), (32, 6), (16, 5), (16, 5), (16, 5), (16, 5),
           (16, 5), (16, 5), (16, 5), (16, 5)] := by
  refine ⟨encode_frame_zero opt sampling_rate stack bwc wav_buffer hT.2 hzero, ?_, ?_⟩
  · have : (initial_encoder_state bwc).input_samples = fun _ => 0 := rfl
    rw [this, load_samples_zero wav_buffer hzero, offset_view_zero, find_rc_zero]
  · rw [quantize_rc_zero opt.huffman_threshold bwc hT.2]

theorem C17_silent_frame_witness :
    (16 ≤ default_options.huffman_threshold ∧ default_options.huffman_threshold ≤ 32)
    ∧ (∀ k, k < 864 → (fun _ => 0 : Nat → Nat) k = 0)
    ∧ (encode_frame default_options 22050 (fun _ => zero_stack)
        (initial_encoder_state (bwc_init (fun _ => 0))) (fun _ => 0) 432).2.rc_indices
      = [32, 32, 32, 32, 16, 16, 16, 16, 16, 16, 16, 16]
    ∧ (encode_frame default_options 22050 (fun _ => zero_stack)
        (initial_encoder_state (bwc_init (fun _ => 0))) (fun _ => 0) 432).2.use_huffman = 0
    ∧ (encode_frame default_options 22050 (fun _ => zero_stack)
        (initial_encoder_state (bwc_init (fun _ => 0))) (fun _ => 0) 432).1.adaptive_codebook
      = fun _ => 0 := by
  have hT : 16 ≤ default_options.huffman_threshold ∧ default_options.huffman_threshold ≤ 32 := by
    decide
  obtain ⟨⟨b1, sf, e, _, _⟩, _, _⟩ := C17_silent_frame default_options 22050
    (fun _ => zero_stack) (bwc_init (fun _ => 0)) (fun _ => 0) hT (fun _ _ => rfl)
  refine ⟨hT, fun _ _ => rfl, ?_, ?_, ?_⟩
  · rw [e]
  · rw [e]
  · rw [e]

/-! ## The frame loop of utkencode -/

/-- A counting loop that stores `f i` at index `c + i` leaves `f` at the indices visited
and the old content elsewhere. -/
theorem for_range_storeI {α : Type} (c : Int) (f : Nat → α) :
    ∀ (count i : Nat) (m : Int → α) (j : Int),
      for_range (fun i m => storeI m (c + (i : Int)) (f i)) count i m j
        = if c + i ≤ j ∧ j < c + i + count then f (j - c).toNat else m j := by
  intro count
  induction count with
  | zero =>
    intro i m j
    have : ¬ (c + (i : Int) ≤ j ∧ j < c + i + ((0 : Nat) : Int)) := by push_cast; omega
    rw [if_neg this]
    rfl
  | succ n ih =>
    intro i m j
    rw [for_range, ih]
    by_cases h1 : c + ((i + 1 : Nat) : Int) ≤ j ∧ j < c + ((i + 1 : Nat) : Int) + (n : Int)
    · have h2 : c + (i : Int) ≤ j ∧ j < c + i + ((n + 1 : Nat) : Int) := by
        push_cast at h1 ⊢; omega
      rw [if_pos h1, if_pos h2]
    · rw [if_neg h1]
      by_cases h3 : j = c + (i : Int)
      · have h2 : c + (i : Int) ≤ j ∧ j < c + i + ((n + 1 : Nat) : Int) := by
          push_cast; omega
        rw [if_pos h2, h3, storeI_same]
        congr 1
        omega
      · have h2 : ¬ (c + (i : Int) ≤ j ∧ j < c + i + ((n + 1 : Nat) : Int)) := by
          push_cast at h1 ⊢; omega
        rw [if_neg h2, storeI_other _ _ _ _ h3]

/-- The input of a frame after the load loops: the samples read, then zeros up to 432;
the 12 overlap samples and everything else are untouched. -/
theorem load_samples_spec (input_samples : Int → ℚ) (wav_buffer : Nat → Nat)
    (samples_to_read : Nat) (h : samples_to_read ≤ 432) :
    (∀ i : Nat, i < samples_to_read →
      load_samples input_samples wav_buffer samples_to_read (12 + (i : Int))
        = ((to_int16 (READ16 wav_buffer (2 * i)) : Int) : ℚ))
    ∧ (∀ i : Nat, samples_to_read ≤ i → i < 432 →
      load_samples input_samples wav_buffer samples_to_read (12 + (i : Int)) = 0)
    ∧ (∀ j : Int, j < 12 ∨ 444 ≤ j →
      load_samples input_samples wav_buffer samples_to_read j = input_samples j) := by
  unfold load_samples
  refine ⟨?_, ?_, ?_⟩
  · intro i hi
    rw [for_range_storeI 12 (fun _ => (0 : ℚ)),
      for_range_storeI 12 (fun i => ((to_int16 (READ16 wav_buffer (2 * i)) : Int) : ℚ))]
    have h1 : ¬ ((12 : Int) + (samples_to_read : Int) ≤ 12 + (i : Int)
        ∧ (12 : Int) + (i : Int) < 12 + samples_to_read + ((432 - samples_to_read : Nat) : Int)) := by
      omega
    have h2 : (12 : Int) + ((0 : Nat) : Int) ≤ 12 + (i : Int)
        ∧ (12 : Int) + (i : Int) < 12 + ((0 : Nat) : Int) + (samples_to_read : Int) := by
      omega
    rw [if_neg h1, if_pos h2]
    have e : ((12 : Int) + (i : Int) - 12).toNat = i := by omega
    rw [e]
  · intro i h1 h2
    rw [for_range_storeI 12 (fun _ => (0 : ℚ))]
    have h3 : (12 : Int) + (samples_to_read : Int) ≤ 12 + (i : Int)
        ∧ (12 : Int) + (i : Int) < 12 + samples_to_read + ((432 - samples_to_read : Nat) : Int) := by
      omega
    rw [if_pos h3]
  · intro j hj
    rw [for_range_storeI 12 (fun _ => (0 : ℚ)),
      for_range_storeI 12 (fun i => ((to_int16 (READ16 wav_buffer (2 * i)) : Int) : ℚ))]
    have h1 : ¬ ((12 : Int) + (samples_to_read : Int) ≤ j
        ∧ j < 12 + samples_to_read + ((432 - samples_to_read : Nat) : Int)) := by
      omega
    have h2 : ¬ ((12 : Int) + ((0 : Nat) : Int) ≤ j
        ∧ j < 12 + ((0 : Nat) : Int) + (samples_to_read : Int)) := by
      omega
    rw [if_neg h1, if_neg h2]

theorem encode_frame_record (opt : encoder_options) (sampling_rate : Int)
    (stack : Nat → subframe_stack) (s : encoder_state) (wav_buffer : Nat → Nat)
    (samples_to_read : Nat) :
    (encode_frame opt sampling_rate stack s wav_buffer samples_to_read).2.samples_to_read
        = samples_to_read
    ∧ (encode_frame opt sampling_rate stack s wav_buffer samples_to_read).2.input
        = load_samples s.input_samples wav_buffer samples_to_read :=
  ⟨rfl, rfl⟩

theorem READ16_offset (wav_data : Nat → Nat) (pos k : Nat) :
    READ16 (fun j => wav_data (pos + j)) k = READ16 wav_data (pos + k) := by
  unfold READ16
  simp only [Nat.add_assoc]

/-- The frame loop, when the input holds the bytes still to be read: it ends with
`bytes_remaining = 0` after ceil(bytes_remaining / 864) frames, frame `k` reading
`min(864, bytes_remaining - 864 k)` bytes. -/
theorem encode_loop_spec (opt : encoder_options) (sampling_rate : Int)
    (stack : Nat → Nat → subframe_stack) (wav_data : Nat → Nat) (data_length : Nat) :
    ∀ (fuel : Nat) (s : main_state), (s.bytes_remaining + 863) / 864 ≤ fuel →
      s.file_pos + s.bytes_remaining ≤ data_length →
      ∃ r records,
        encode_loop opt sampling_rate stack wav_data data_length fuel s = some r
        ∧ r.bytes_remaining = 0
        ∧ r.file_pos = s.file_pos + s.bytes_remaining
        ∧ r.frames = s.frames ++ records
        ∧ records.length = (s.bytes_remaining + 863) / 864
        ∧ ∀ (k : Nat) (record : frame_record), records[k]? = some record →
            frame_input_ok wav_data (s.file_pos + 864 * k)
              (min 864 (s.bytes_remaining - 864 * k)) record := by
  intro fuel
  induction fuel with
  | zero =>
    intro s hf _
    have h0 : s.bytes_remaining = 0 := by omega
    refine ⟨s, [], rfl, h0, by omega, by simp, by simp [h0], ?_⟩
    intro k record hk
    simp at hk
  | succ fuel ih =>
    intro s hf hd
    unfold encode_loop
    by_cases h0 : s.bytes_remaining ≠ 0
    · rw [if_pos h0]
      simp only []
      have hb : (if s.bytes_remaining < 432 * 2 then s.bytes_remaining else 432 * 2)
          = min 864 s.bytes_remaining := by
        split <;> omega
      rw [hb]
      have hmin : min 864 s.bytes_remaining ≤ s.bytes_remaining := Nat.min_le_right _ _
      have hmin0 : 0 < min 864 s.bytes_remaining := by omega
      rw [if_neg (by omega)]
      obtain ⟨r, records, e, p1, p2, p3, p4, p5⟩ := ih
        { bytes_remaining := s.bytes_remaining - min 864 s.bytes_remaining
          file_pos := s.file_pos + min 864 s.bytes_remaining
          enc :=
            { bwc := (bwc_flush (encode_frame opt sampling_rate (stack s.frames.length) s.enc
                (fun k => wav_data (s.file_pos + k)) (min 864 s.bytes_remaining >>> 1)).1.bwc).2
              input_samples := (encode_frame opt sampling_rate (stack s.frames.length) s.enc
                (fun k => wav_data (s.file_pos + k)) (min 864 s.bytes_remaining >>> 1)).1.input_samples
              adaptive_codebook := (encode_frame opt sampling_rate (stack s.frames.length) s.enc
                (fun k => wav_data (s.file_pos + k))
                (min 864 s.bytes_remaining >>> 1)).1.adaptive_codebook
              prev_rc := (encode_frame opt sampling_rate (stack s.frames.length) s.enc
                (fun k => wav_data (s.file_pos + k)) (min 864 s.bytes_remaining >>> 1)).1.prev_rc
              innovation := (encode_frame opt sampling_rate (stack s.frames.length) s.enc
                (fun k => wav_data (s.file_pos + k)) (min 864 s.bytes_remaining >>> 1)).1.innovation }
          out := s.out ++ (bwc_flush (encode_frame opt sampling_rate (stack s.frames.length) s.enc
                (fun k => wav_data (s.file_pos + k)) (min 864 s.bytes_remaining >>> 1)).1.bwc).1
          frames := s.frames ++ [(encode_frame opt sampling_rate (stack s.frames.length) s.enc
                (fun k => wav_data (s.file_pos + k)) (min 864 s.bytes_remaining >>> 1)).2] }
        (by simp only []; omega) (by simp only []; omega)
      simp only [] at p2 p3 p4 p5
      refine ⟨r, (encode_frame opt sampling_rate (stack s.frames.length) s.enc
        (fun k => wav_data (s.file_pos + k)) (min 864 s.bytes_remaining >>> 1)).2 :: records,
        e, p1, by omega, by rw [p3]; simp, by simp only [List.length_cons, p4]; omega, ?_⟩
      intro k record hk
      cases k with
      | zero =>
        simp only [List.getElem?_cons_zero, Option.some.injEq] at hk
        subst hk
        obtain ⟨r1, r2⟩ := encode_frame_record opt sampling_rate (stack s.frames.length) s.enc
          (fun k => wav_data (s.file_pos + k)) (min 864 s.bytes_remaining >>> 1)
        have hshift : min 864 s.bytes_remaining >>> 1 = min 864 s.bytes_remaining / 2 := by
          rw [Nat.shiftRight_eq_div_pow]
        obtain ⟨l1, l2, _⟩ := load_samples_spec s.enc.input_samples
          (fun k => wav_data (s.file_pos + k)) (min 864 s.bytes_remaining / 2) (by omega)
        simp only [Nat.mul_zero, Nat.add_zero, Nat.sub_zero]
        refine ⟨by rw [r1, hshift], ?_, ?_⟩
        · intro i hi
          rw [r2, hshift, l1 i hi, READ16_offset]
        · intro i hi1 hi2
          rw [r2, hshift, l2 i hi1 hi2]
      | succ k =>
        simp only [List.getElem?_cons_succ] at hk
        have hklt : k < records.length := by
          rcases Nat.lt_or_ge k records.length with h | h
          · exact h
          · rw [List.getElem?_eq_none h] at hk
            cases hk
        have h864 : min 864 s.bytes_remaining = 864 := by
          rw [p4] at hklt
          omega
        have := p5 k record hk
        rw [h864] at this
        have e1 : s.file_pos + 864 + 864 * k = s.file_pos + 864 * (k + 1) := by ring
        have e2 : s.bytes_remaining - 864 - 864 * k = s.bytes_remaining - 864 * (k + 1) := by
          omega
        rw [e1, e2] at this
        exact this
    · rw [if_neg h0]
      have h0' : s.bytes_remaining = 0 := by omega
      refine ⟨s, [], rfl, h0', by omega, by simp, by simp [h0'], ?_⟩
      intro k record hk
      simp at hk

/-- C14: for every WAV data size n, with m = n with its lowest bit cleared and an input
that holds at least m bytes of sample data, the frame loop of utkencode ends (with
bytes_remaining = 0, without the exit of a short read) after exactly ceil(m/864) frames.
Every frame but the last reads 864 bytes, that is 432 samples; the last one reads the
remaining m - 864 (frames - 1) bytes (m mod 864 when that is not zero), and its input is
these samples followed by zeros up to 432.  The frame count equals ceil((m/2)/432), the
number of frames the decode loop of utkdecode decodes for num_samples = m/2. -/
theorem C14_frame_count {σ : Type} (opt : encoder_options) (sampling_rate : Int)
    (stack : Nat → Nat → subframe_stack) (wav_data : Nat → Nat) (data_length : Nat)
    (enc : encoder_state) (out : List Nat) (n : Nat)
    (utk_decode_frame : σ → σ) (decompressed_frame : σ → Nat → ℚ) (out_of_range : ℚ → Int)
    (ctx : σ) (header : List Nat)
    (hdata : n - n % 2 ≤ data_length) :
    ∃ r,
      encode_loop opt sampling_rate stack wav_data data_length (n - n % 2)
          { bytes_remaining := n - n % 2, file_pos := 0, enc := enc, out := out, frames := [] }
        = some r
      ∧ r.bytes_remaining = 0
      ∧ r.frames.length = (n - n % 2 + 863) / 864
      ∧ (∀ (k : Nat) (record : frame_record), r.frames[k]? = some record →
          frame_input_ok wav_data (864 * k)
            (if k + 1 < (n - n % 2 + 863) / 864 then 864
             else n - n % 2 - 864 * ((n - n % 2 + 863) / 864 - 1)) record)
      ∧ ((n - n % 2) % 864 ≠ 0 →
          n - n % 2 - 864 * ((n - n % 2 + 863) / 864 - 1) = (n - n % 2) % 864)
      ∧ ((n - n % 2) % 864 = 0 → 0 < n - n % 2 →
          n - n % 2 - 864 * ((n - n % 2 + 863) / 864 - 1) = 864)
      ∧ (n - n % 2 + 863) / 864 = ((n - n % 2) / 2 + 431) / 432
      ∧ (decode_loop utk_decode_frame decompressed_frame out_of_range ((n - n % 2) / 2)
          { ctx := ctx, num_samples := (n - n % 2) / 2, out := header, frames := 0 }).frames
        = r.frames.length := by
  obtain ⟨r, records, e, p1, _, p3, p4, p5⟩ := encode_loop_spec opt sampling_rate stack
    wav_data data_length (n - n % 2)
    { bytes_remaining := n - n % 2, file_pos := 0, enc := enc, out := out, frames := [] }
    (by simp only []; omega) (by simp only []; omega)
  simp only [List.nil_append, Nat.zero_add] at p3 p4 p5
  have hdec := decode_loop_spec utk_decode_frame decompressed_frame out_of_range
    ((n - n % 2) / 2)
    { ctx := ctx, num_samples := (n - n % 2) / 2, out := header, frames := 0 }
    (by simp only []; omega)
  refine ⟨r, e, p1, by rw [p3, p4], ?_, by omega, by omega, by omega, ?_⟩
  · intro k record hk
    rw [p3] at hk
    have hklt : k < records.length := by
      rcases Nat.lt_or_ge k records.length with h | h
      · exact h
      · rw [List.getElem?_eq_none h] at hk
        cases hk
    have := p5 k record hk
    have e1 : min 864 (n - n % 2 - 864 * k)
        = if k + 1 < (n - n % 2 + 863) / 864 then 864
          else n - n % 2 - 864 * ((n - n % 2 + 863) / 864 - 1) := by
      rw [p4] at hklt
      split
      · omega
      · have : k = (n - n % 2 + 863) / 864 - 1 := by omega
        rw [← this]
        omega
    rw [e1] at this
    exact this
  · rw [hdec, p3, p4]
    simp only [Nat.zero_add]
    omega

theorem C14_frame_count_witness :
    1001 - 1001 % 2 ≤ 1001
    ∧ ∃ r,
      encode_loop default_options 22050 (fun _ _ => zero_stack) (fun k => k % 256) 1001
          (1001 - 1001 % 2)
          { bytes_remaining := 1001 - 1001 % 2, file_pos := 0
            enc := initial_encoder_state (bwc_init (fun _ => 0)), out := [], frames := [] }
        = some r
      ∧ r.bytes_remaining = 0
      ∧ r.frames.length = (1001 - 1001 % 2 + 863) / 864
      ∧ (decode_loop (fun c : Nat => c + 1) (fun c i => (c : ℚ) * 1000 + i) (fun _ => 0)
          ((1001 - 1001 % 2) / 2)
          { ctx := 0, num_samples := (1001 - 1001 % 2) / 2, out := [], frames := 0 }).frames
        = r.frames.length := by
  obtain ⟨r, h1, h2, h3, _, _, _, _, h8⟩ := C14_frame_count default_options 22050
    (fun _ _ => zero_stack) (fun k => k % 256) 1001
    (initial_encoder_state (bwc_init (fun _ => 0))) [] 1001
    (fun c : Nat => c + 1) (fun c i => (c : ℚ) * 1000 + i) (fun _ => 0) 0 []
    (by decide)
  exact ⟨by decide, r, h1, h2, h3, h8⟩

/-- The whole run of utkencode on a file with an accepted header that holds the declared
sample data: it does not fail and encodes ceil(m/864) frames, m being the data size with
its lowest bit cleared. -/
theorem utkencode_main_frames (opt : encoder_options) (stack : Nat → Nat → subframe_stack)
    (compressed_buffer utk_header file : Nat → Nat) (file_length : Nat)
    (hacc : utkencode_accepts file = true)
    (hlen : 44 + (READ32 file 40 - READ32 file 40 % 2) ≤ file_length) :
    ∃ out frames,
      utkencode_main opt stack compressed_buffer utk_header file file_length
        = some (out, frames)
      ∧ frames.length = (READ32 file 40 - READ32 file 40 % 2 + 863) / 864 := by
  have hm := and_clear_low_bit (READ32 file 40) (READ32_lt file 40)
  obtain ⟨r, records, e, _, _, p3, p4, _⟩ := encode_loop_spec opt
    (to_int32 (READ32 file 24)) stack (fun k => file (44 + k)) (file_length - 44)
    (READ32 file 40 &&& 0xFFFFFFFE)
    { bytes_remaining := READ32 file 40 &&& 0xFFFFFFFE
      file_pos := 0
      enc := initial_encoder_state (bwc_flush (write_stream_parameters compressed_buffer
        opt.halved_innovation opt.huffman_threshold opt.inngain_sig opt.inngain_base)).2
      out := utk_header_layout file ++ (bwc_flush (write_stream_parameters compressed_buffer
        opt.halved_innovation opt.huffman_threshold opt.inngain_sig opt.inngain_base)).1
      frames := [] }
    (by simp only []; omega) (by simp only []; omega)
  refine ⟨r.out ++ (bwc_flush (bwc_pad r.enc.bwc)).1, r.frames, ?_, ?_⟩
  · unfold utkencode_main
    rw [if_neg (by omega), utkencode_header_bytes file utk_header hacc]
    simp only []
    rw [e]
  · rw [p3, List.nil_append, p4]
    simp only [hm]

/-! ## C21: which `zero_counts` entries the emission loop reads -/

/-- Two runs of a sample loop keep a relation between their states. -/
theorem for_positions_rel {σ τ : Type} (step : Int) (body : Int → σ → σ)
    (body2 : Int → τ → τ) (R : σ → τ → Prop)
    (hstep : ∀ i s t, R s t → R (body i s) (body2 i t)) :
    ∀ (fuel : Nat) (i : Int) (s : σ) (t : τ), R s t →
      R (for_positions step body fuel i s) (for_positions step body2 fuel i t) := by
  intro fuel
  induction fuel with
  | zero => intro i s t h; exact h
  | succ n ih =>
    intro i s t h
    rw [for_positions, for_positions]
    split
    · exact ih _ _ _ (hstep i s t h)
    · exact h

/-- The emission loop reads `values` and `zero_counts` only at the positions
`i, i + interval, ...` below 108. -/
theorem huffman_emit_loop_congr (values zero_counts values2 zero_counts2 : Int → Int)
    (interval : Int) (hint : 0 < interval) :
    ∀ (fuel : Nat) (i : Int) (model : Nat) (bwc : bit_writer_context),
      (∀ j, i ≤ j → j < 108 → (j - i) % interval = 0 →
        values j = values2 j ∧ zero_counts j = zero_counts2 j) →
      huffman_emit_loop values zero_counts interval fuel i model bwc
        = huffman_emit_loop values2 zero_counts2 interval fuel i model bwc := by
  intro fuel
  induction fuel with
  | zero => intro i model bwc _; rfl
  | succ fuel ih =>
    intro i model bwc h
    by_cases h1 : i < 108
    · obtain ⟨hv, hz⟩ := h i (le_refl _) h1 (by simp)
      by_cases h2 : zero_counts i ≥ 7
      · have h2b : zero_counts2 i ≥ 7 := by rw [← hz]; exact h2
        have hl : 7 ≤ MIN (zero_counts i) 70 := by
          unfold MIN
          split <;> omega
        have hmul : 0 ≤ MIN (zero_counts i) 70 * interval :=
          Int.mul_nonneg (by omega) hint.le
        have hrec := ih (i + MIN (zero_counts i) 70 * interval) 0
          (if model = 0 then bwc_write_bits bwc
              (255 ||| ((MIN (zero_counts i) 70 - 7).toNat <<< 8)) 14
            else bwc_write_bits bwc (127 ||| ((MIN (zero_counts i) 70 - 7).toNat <<< 7)) 13)
          (by
            intro j hj0 hj1 hj2
            apply h j (by omega) hj1
            have e : j - i = (j - (i + MIN (zero_counts i) 70 * interval))
                + MIN (zero_counts i) 70 * interval := by ring
            rw [e, Int.add_mul_emod_self]
            exact hj2)
        simp only [huffman_emit_loop, h1, h2, h2b, if_true]
        rw [← hz, hrec]
      · have h2b : ¬ zero_counts2 i ≥ 7 := by rw [← hz]; exact h2
        have hrec := ih (i + interval)
          (if values i < -1 ∨ values i > 1 then 1 else 0)
          (bwc_write_bits bwc (huffman_models model (values i)).bits_value
            (huffman_models model (values i)).bits_count)
          (by
            intro j hj0 hj1 hj2
            apply h j (by omega) hj1
            have e : j - i = (j - (i + interval)) + 1 * interval := by ring
            rw [e, Int.add_mul_emod_self]
            exact hj2)
        simp only [huffman_emit_loop, h1, h2, h2b, if_true, if_false]
        rw [← hv, hrec]
    · simp only [huffman_emit_loop, h1, if_false]

/-- The length of the zero run that starts at a position is determined by the values at
the positions of the run. -/
theorem zero_run_at_unique (values values2 : Int → Int) (interval limit i c c2 : Int)
    (hv : ∀ j : Int, 0 ≤ j → i + j * interval < limit →
      values (i + j * interval) = values2 (i + j * interval))
    (h1 : zero_run_at values interval limit i c)
    (h2 : zero_run_at values2 interval limit i c2) : c = c2 := by
  obtain ⟨a0, a1, a2⟩ := h1
  obtain ⟨b0, b1, b2⟩ := h2
  rcases lt_trichotomy c c2 with h | h | h
  · exfalso
    obtain ⟨p, q⟩ := b1 c a0 h
    rcases a2 with a2 | a2
    · omega
    · exact a2 ((hv c a0 p).trans q)
  · exact h
  · exfalso
    obtain ⟨p, q⟩ := a1 c2 b0 h
    rcases b2 with b2 | b2
    · omega
    · exact b2 ((hv c2 b0 p).symm.trans q)

/-- With a = 0 the backward scan of `encode_huffman` assigns the zero-run length to
every position the emission loop can reach. -/
theorem encode_huffman_zero_counts_run (inn_gains : Nat → ℚ) (locals : huffman_locals)
    (innovation_out innovation_in : Int → ℚ) (halved_innovation pow z : Nat) (j : Int)
    (hj0 : 0 ≤ j) (hj1 : j < 108) (hj2 : j % innovation_interval halved_innovation = 0) :
    zero_run_at (encode_huffman_quantized inn_gains locals innovation_out innovation_in
        halved_innovation pow 0 z).values (innovation_interval halved_innovation) 108 j
      (encode_huffman_zero_counts inn_gains locals innovation_out innovation_in
        halved_innovation pow 0 z j) := by
  have hint := innovation_interval_cases halved_innovation
  have hpos : 0 < innovation_interval halved_innovation := by rcases hint with h | h <;> omega
  have hscan := (zero_run_loop_spec
    (encode_huffman_quantized inn_gains locals innovation_out innovation_in
      halved_innovation pow 0 z).values
    (innovation_interval halved_innovation) 108 hpos 108
    (108 - innovation_interval halved_innovation - ((0 : Nat) : Int)) 0 locals.zero_counts
    (by push_cast; omega)
    ⟨le_refl _, fun j hj0 hj1 => by omega, Or.inl (by push_cast; omega)⟩).1
  unfold encode_huffman_zero_counts
  apply hscan j hj0
  · rcases hint with h | h <;> rw [h] <;> rw [h] at hj2 <;> push_cast at hj2 ⊢ <;> omega
  · rcases hint with h | h <;> rw [h] <;> push_cast <;> omega
  · rcases hint with h | h <;> rw [h] <;> rw [h] at hj2 <;> push_cast at hj2 ⊢ <;> omega

/-- With a = 0, in full and in halved mode, what `encode_huffman` writes and returns
(the writer with its buffer, the output array, `bits_used`, the error and the items)
does not depend on what its local arrays `values` and `zero_counts` hold on entry. -/
theorem encode_huffman_locals_irrelevant (inn_gains : Nat → ℚ) (locals locals2 : huffman_locals)
    (bwc : bit_writer_context) (innovation_out innovation_in : Int → ℚ)
    (halved_innovation pow z : Nat) :
    encode_huffman inn_gains locals bwc innovation_out innovation_in halved_innovation pow 0 z
      = encode_huffman inn_gains locals2 bwc innovation_out innovation_in
          halved_innovation pow 0 z := by
  have hint := innovation_interval_cases halved_innovation
  have hpos : 0 < innovation_interval halved_innovation := by rcases hint with h | h <;> omega
  have hrel := for_positions_rel (innovation_interval halved_innovation)
    (huffman_quantize_step (huffman_gain inn_gains pow z) innovation_in)
    (huffman_quantize_step (huffman_gain inn_gains pow z) innovation_in)
    (fun s t => s.innovation_out = t.innovation_out ∧ s.total_error = t.total_error)
    (by
      intro i s t h
      obtain ⟨h1, h2⟩ := h
      simp only [huffman_quantize_step, h1, h2, and_self])
    108 ((0 : Nat) : Int)
    { values := locals.values, innovation_out := innovation_out, total_error := 0 }
    { values := locals2.values, innovation_out := innovation_out, total_error := 0 }
    ⟨rfl, rfl⟩
  have hout : (encode_huffman_quantized inn_gains locals innovation_out innovation_in
        halved_innovation pow 0 z).innovation_out
      = (encode_huffman_quantized inn_gains locals2 innovation_out innovation_in
        halved_innovation pow 0 z).innovation_out := hrel.1
  have herr : (encode_huffman_quantized inn_gains locals innovation_out innovation_in
        halved_innovation pow 0 z).total_error
      = (encode_huffman_quantized inn_gains locals2 innovation_out innovation_in
        halved_innovation pow 0 z).total_error := hrel.2
  have hval : ∀ j : Int, 0 ≤ j → j < 108 → j % innovation_interval halved_innovation = 0 →
      (encode_huffman_quantized inn_gains locals innovation_out innovation_in
        halved_innovation pow 0 z).values j
      = (encode_huffman_quantized inn_gains locals2 innovation_out innovation_in
        halved_innovation pow 0 z).values j := by
    intro j hj0 hj1 hj2
    have hmem : j ∈ active_positions halved_innovation 0 := by
      rw [mem_active_positions]
      exact ⟨by simpa using hj0, hj1, by simpa using hj2⟩
    rw [(encode_huffman_quantized_spec inn_gains locals innovation_out innovation_in
        halved_innovation pow 0 z j).1,
      (encode_huffman_quantized_spec inn_gains locals2 innovation_out innovation_in
        halved_innovation pow 0 z j).1, if_pos hmem, if_pos hmem]
  have hloop := huffman_emit_loop_congr
    (encode_huffman_quantized inn_gains locals innovation_out innovation_in
      halved_innovation pow 0 z).values
    (encode_huffman_zero_counts inn_gains locals innovation_out innovation_in
      halved_innovation pow 0 z)
    (encode_huffman_quantized inn_gains locals2 innovation_out innovation_in
      halved_innovation pow 0 z).values
    (encode_huffman_zero_counts inn_gains locals2 innovation_out innovation_in
      halved_innovation pow 0 z)
    (innovation_interval halved_innovation) hpos 108 ((0 : Nat) : Int) 0
    (bwc_write_bits bwc (preamble halved_innovation pow 0 z).1
      (preamble halved_innovation pow 0 z).2)
    (by
      intro j hj0 hj1 hj2
      have hj0 : 0 ≤ j := by simpa using hj0
      have hj2 : j % innovation_interval halved_innovation = 0 := by simpa using hj2
      refine ⟨hval j hj0 hj1 hj2, ?_⟩
      refine zero_run_at_unique _ _ (innovation_interval halved_innovation) 108 j _ _ ?_
        (encode_huffman_zero_counts_run inn_gains locals innovation_out innovation_in
          halved_innovation pow z j hj0 hj1 hj2)
        (encode_huffman_zero_counts_run inn_gains locals2 innovation_out innovation_in
          halved_innovation pow z j hj0 hj1 hj2)
      intro k hk0 hk1
      apply hval _ _ hk1
      · rw [Int.add_mul_emod_self]
        exact hj2
      · have := Int.mul_nonneg hk0 hpos.le
        omega)
  unfold encode_huffman
  simp only [hout, herr, hloop]

/-- In halved mode with a = 1 the backward scan starts at 105: whatever the input, the
entry `zero_counts[107]` after the scan is what the stack held on entry. -/
theorem encode_huffman_zero_counts_107 (inn_gains : Nat → ℚ) (locals : huffman_locals)
    (innovation_out innovation_in : Int → ℚ) (pow z : Nat) :
    encode_huffman_zero_counts inn_gains locals innovation_out innovation_in 1 pow 1 z 107
      = locals.zero_counts 107 := by
  unfold encode_huffman_zero_counts
  have h := (zero_run_loop_spec
    (encode_huffman_quantized inn_gains locals innovation_out innovation_in 1 pow 1 z).values
    (innovation_interval 1) 107 (by decide) 108
    (108 - innovation_interval 1 - ((1 : Nat) : Int)) 0 locals.zero_counts
    (by decide)
    ⟨le_refl _, fun j hj0 hj1 => by omega, Or.inl (by decide)⟩).2
  exact h 107 (by decide)

/-- C21 (failing input): halved mode, a = 1, z = 1, power 63, default gains (64, 1.068),
a block that is zero except for sample 107.  In this mode the entry `zero_counts[107]`
that the emission loop reads at its last position is, for every input, the value the
stack held on entry.  On the block above, with the stack slot holding 7 the function
writes 36 bits (bytes ff ff ee 3f, 4 bits pending); with the slot holding 0 it writes
38 bits (bytes ff ff ee df 2f, 6 bits pending): same input block, p, a and z, different
bits. -/
theorem C21_emitted_bits_depend_on_stack :
    (∀ (inn_gains : Nat → ℚ) (locals : huffman_locals) (innovation_out innovation_in : Int → ℚ)
        (pow z : Nat),
      encode_huffman_zero_counts inn_gains locals innovation_out innovation_in 1 pow 1 z 107
        = locals.zero_counts 107)
    ∧ (107 : Int) ∈ active_positions 1 1
    ∧ ((encode_huffman (inn_gains 64 1.068) ⟨fun _ => 0, fun i => if i = 107 then 7 else 0⟩
          (bwc_init (fun _ => 0)) (fun _ => 0) (fun i => if i = 107 then 1000000 else 0)
          1 63 1 1).bits_used = 36)
    ∧ ((List.range 5).map
        (encode_huffman (inn_gains 64 1.068) ⟨fun _ => 0, fun i => if i = 107 then 7 else 0⟩
          (bwc_init (fun _ => 0)) (fun _ => 0) (fun i => if i = 107 then 1000000 else 0)
          1 63 1 1).bwc.buffer = [255, 255, 238, 63, 0])
    ∧ ((encode_huffman (inn_gains 64 1.068) ⟨fun _ => 0, fun _ => 0⟩
          (bwc_init (fun _ => 0)) (fun _ => 0) (fun i => if i = 107 then 1000000 else 0)
          1 63 1 1).bits_used = 38)
    ∧ ((List.range 5).map
        (encode_huffman (inn_gains 64 1.068) ⟨fun _ => 0, fun _ => 0⟩
          (bwc_init (fun _ => 0)) (fun _ => 0) (fun i => if i = 107 then 1000000 else 0)
          1 63 1 1).bwc.buffer = [255, 255, 238, 223, 47]) := by
  refine ⟨?_, by decide!, by decide!, by decide!, by decide!, by decide!⟩
  intro inn_gains locals innovation_out innovation_in pow z
  exact encode_huffman_zero_counts_107 inn_gains locals innovation_out innovation_in pow z
/-! ## C22: the bit budget handed to `encode_innovation` -/

/-- `ROUND` leaves an integer as it is. -/
theorem ROUND_intCast (n : Int) : ROUND (n : ℚ) = n := by
  unfold ROUND c_int
  by_cases h : (n : ℚ) ≥ 0
  · have h1 : (0 : ℚ) ≤ (n : ℚ) + 1 / 2 := by linarith
    rw [if_pos h, if_pos h1, Int.floor_eq_iff]
    constructor <;> linarith
  · have hn : (n : ℚ) < 0 := not_le.mp h
    have hn1 : n ≤ -1 := by
      have : n < 0 := by exact_mod_cast hn
      omega
    have hq : (n : ℚ) ≤ -1 := by exact_mod_cast hn1
    have h1 : ¬ (0 : ℚ) ≤ (n : ℚ) - 1 / 2 := by linarith
    rw [if_neg h, if_neg h1, Int.ceil_eq_iff]
    constructor <;> linarith

/-- For the rates `parse_arguments` and the header check let through, the product
`bitrate * 432` stays below `2^31`, and the budget is the quotient of the two `int`
divisions, that is the floor of the exact quotient, minus 18: `ROUND` is applied to a
value that is already an integer. -/
theorem target_bit_count_floor (bitrate sampling_rate : Int)
    (hb : 1000 ≤ bitrate ∧ bitrate ≤ 1000000)
    (hs : 1000 ≤ sampling_rate ∧ sampling_rate ≤ 1000000) :
    bitrate * 432 < 2 ^ 31
    ∧ target_bit_count bitrate sampling_rate
      = ⌊((bitrate : ℚ) * 432) / sampling_rate / 4⌋ - 18 := by
  refine ⟨by omega, ?_⟩
  unfold target_bit_count
  rw [ROUND_intCast]
  congr 1
  obtain ⟨b, rfl⟩ := Int.eq_ofNat_of_zero_le (show (0 : Int) ≤ bitrate by omega)
  obtain ⟨s, rfl⟩ := Int.eq_ofNat_of_zero_le (show (0 : Int) ≤ sampling_rate by omega)
  have e1 : Int.tdiv (Int.tdiv ((b : Int) * 432) (s : Int)) 4 = ((b * 432 / (s * 4) : Nat) : Int) := by
    have hp : (0 : Int) ≤ (b : Int) * 432 := by omega
    have hs0 : (0 : Int) ≤ (s : Int) := by omega
    rw [Int.tdiv_eq_ediv hp hs0, Int.tdiv_eq_ediv (Int.ediv_nonneg hp hs0) (by norm_num)]
    rw [← Nat.div_div_eq_div_mul]
    push_cast
    rfl
  have e2 : (((b : Int) : ℚ) * 432) / ((s : Int) : ℚ) / 4
      = (((b * 432 : Nat) : Int) : ℚ) / (((s * 4 : Nat)) : ℚ) := by
    push_cast
    rw [div_div]
  rw [e1, e2, Rat.floor_intCast_div_natCast]
  push_cast
  rfl

/-- C22 (failing input): bitrate 32000 (the default) and sampling rate 22050.  Both
divisions of `bitrate * 432 / sampling_rate / 4` are `int` divisions, so the argument
of `ROUND` is the integer 156 and the budget is 138; the exact quotient is
13824000 / 88200 = 156.73..., whose rounding to the nearest integer gives 157 and a
budget of 139.  The product 13824000 is far below `2^31`. -/
theorem C22_target_bit_count_truncates :
    target_bit_count 32000 22050 = 138
    ∧ ROUND (((32000 : Int) : ℚ) * 432 / ((22050 : Int) : ℚ) / 4) - 18 = 139
    ∧ (32000 : Int) * 432 < 2 ^ 31 := by
  refine ⟨by decide!, by decide!, by decide⟩
/-! ## C25, C26: the pitch search -/

/-- An accumulating loop computes a sum. -/
theorem for_range_sum (f : Nat → ℚ) :
    ∀ (count i : Nat) (acc : ℚ),
      for_range (fun j c => c + f j) count i acc
        = acc + ∑ k in Finset.range count, f (i + k) := by
  intro count
  induction count with
  | zero => intro i acc; simp [for_range]
  | succ n ih =>
    intro i acc
    rw [for_range, ih, Finset.sum_range_succ']
    have e : ∀ k, f (i + 1 + k) = f (i + (k + 1)) := fun k => by rw [Nat.add_right_comm, Nat.add_assoc]
    simp only [e, add_zero]
    ring

/-- `find_pitch` in terms of its two loops. -/
theorem find_pitch_eq (excitation : Int → ℚ) :
    find_pitch excitation
      = if find_pitch_energy excitation (find_pitch_search excitation).1 ≥ 1 / 32768 then
          ((find_pitch_search excitation).1,
            CLAMP ((find_pitch_search excitation).2
              / find_pitch_energy excitation (find_pitch_search excitation).1) 0 1)
        else (108, 0) := rfl

/-- The energy loop computes the sum of the squares of the 108 history samples at the
lag. -/
theorem find_pitch_energy_eq (excitation : Int → ℚ) (L : Int) :
    find_pitch_energy excitation L
      = ∑ j in Finset.range 108, excitation ((j : Int) - L) ^ 2 := by
  unfold find_pitch_energy
  have h := for_range_sum (fun i => excitation ((i : Int) - L) * excitation ((i : Int) - L))
    108 0 0
  simp only [zero_add] at h
  rw [h]
  apply Finset.sum_congr rfl
  intro j _
  ring

/-- The lag loop: if no lag in 108..323 has a positive correlation the loop leaves
`(108, 0)`; otherwise it leaves the smallest lag of maximal correlation together with
that correlation. -/
theorem find_pitch_search_spec (excitation : Int → ℚ) :
    ((find_pitch_search excitation = (108, 0)
        ∧ ∀ L : Int, 108 ≤ L → L ≤ 323 →
            ∑ j in Finset.range 108, excitation j * excitation ((j : Int) - L) ≤ 0)
      ∨ (0 < (find_pitch_search excitation).2
        ∧ 108 ≤ (find_pitch_search excitation).1 ∧ (find_pitch_search excitation).1 ≤ 323
        ∧ (find_pitch_search excitation).2
            = ∑ j in Finset.range 108,
                excitation j * excitation ((j : Int) - (find_pitch_search excitation).1)
        ∧ (∀ L : Int, 108 ≤ L → L ≤ 323 →
            ∑ j in Finset.range 108, excitation j * excitation ((j : Int) - L)
              ≤ (find_pitch_search excitation).2)
        ∧ (∀ L : Int, 108 ≤ L → L < (find_pitch_search excitation).1 →
            ∑ j in Finset.range 108, excitation j * excitation ((j : Int) - L)
              < (find_pitch_search excitation).2))) := by
  have hcorr : ∀ i : Nat,
      for_range (fun j corr => corr + excitation j * excitation ((j : Int) - i)) 108 0 0
        = ∑ j in Finset.range 108, excitation j * excitation ((j : Int) - (i : Int)) := by
    intro i
    have h := for_range_sum (fun j => excitation j * excitation ((j : Int) - i)) 108 0 0
    simp only [zero_add] at h
    exact h
  have hinv := for_range_induction
    (fun i (best : Int × ℚ) =>
      let corr := for_range (fun j corr => corr + excitation j * excitation ((j : Int) - i)) 108 0 0
      if corr > best.2 then ((i : Int), corr) else best)
    (fun n (best : Int × ℚ) =>
      108 ≤ n ∧
      ((best = (108, 0)
        ∧ ∀ L : Int, 108 ≤ L → L < n →
            ∑ j in Finset.range 108, excitation j * excitation ((j : Int) - L) ≤ 0)
      ∨ (0 < best.2 ∧ 108 ≤ best.1 ∧ best.1 < n
        ∧ best.2 = ∑ j in Finset.range 108, excitation j * excitation ((j : Int) - best.1)
        ∧ (∀ L : Int, 108 ≤ L → L < n →
            ∑ j in Finset.range 108, excitation j * excitation ((j : Int) - L) ≤ best.2)
        ∧ (∀ L : Int, 108 ≤ L → L < best.1 →
            ∑ j in Finset.range 108, excitation j * excitation ((j : Int) - L) < best.2))))
    (by
      intro i best h
      obtain ⟨hi, h⟩ := h
      refine ⟨by omega, ?_⟩
      simp only [hcorr]
      by_cases hgt : ∑ j in Finset.range 108, excitation j * excitation ((j : Int) - (i : Int))
          > best.2
      · rw [if_pos hgt]
        right
        rcases h with ⟨hb, hall⟩ | ⟨hpos, hlo, hhi, hval, hmax, hfirst⟩
        · rw [hb] at hgt
          refine ⟨hgt, ?_, by push_cast; omega, rfl, ?_, ?_⟩
          · show (108 : Int) ≤ (i : Int)
            omega
          · intro L hL1 hL2
            by_cases hLi : L = i
            · rw [hLi]
            · exact le_trans (hall L hL1 (by push_cast at hL2; omega)) hgt.le
          · intro L hL1 hL2
            exact lt_of_le_of_lt (hall L hL1 hL2) hgt
        · refine ⟨lt_trans hpos hgt, ?_, by push_cast; omega, rfl, ?_, ?_⟩
          · show (108 : Int) ≤ (i : Int)
            omega
          · intro L hL1 hL2
            by_cases hLi : L = i
            · rw [hLi]
            · exact le_trans (hmax L hL1 (by push_cast at hL2; omega)) hgt.le
          · intro L hL1 hL2
            exact lt_of_le_of_lt (hmax L hL1 hL2) hgt
      · rw [if_neg hgt]
        have hle := not_lt.mp hgt
        rcases h with ⟨hb, hall⟩ | ⟨hpos, hlo, hhi, hval, hmax, hfirst⟩
        · left
          refine ⟨hb, ?_⟩
          intro L hL1 hL2
          by_cases hLi : L = i
          · rw [hLi]
            rw [hb] at hle
            exact hle
          · exact hall L hL1 (by push_cast at hL2; omega)
        · right
          refine ⟨hpos, hlo, by push_cast; omega, hval, ?_, hfirst⟩
          intro L hL1 hL2
          by_cases hLi : L = i
          · rw [hLi]
            exact hle
          · exact hmax L hL1 (by push_cast at hL2; omega))
    216 108 (108, 0) ⟨le_refl _, Or.inl ⟨rfl, fun L h1 h2 => by omega⟩⟩
  have e : for_range
      (fun i (best : Int × ℚ) =>
        let corr :=
          for_range (fun j corr => corr + excitation j * excitation ((j : Int) - i)) 108 0 0
        if corr > best.2 then ((i : Int), corr) else best) 216 108 (108, 0)
      = find_pitch_search excitation := rfl
  rw [e] at hinv
  rcases hinv.2 with ⟨hb, hall⟩ | ⟨hpos, hlo, hhi, hval, hmax, hfirst⟩
  · left
    exact ⟨hb, fun L h1 h2 => hall L h1 (by push_cast; omega)⟩
  · right
    exact ⟨hpos, hlo, by push_cast at hhi; omega, hval,
      fun L h1 h2 => hmax L h1 (by push_cast; omega), hfirst⟩

/-- The lag `find_pitch` returns lies in 108..323 and the gain in 0..1. -/
theorem find_pitch_range (excitation : Int → ℚ) :
    108 ≤ (find_pitch excitation).1 ∧ (find_pitch excitation).1 ≤ 323
    ∧ 0 ≤ (find_pitch excitation).2 ∧ (find_pitch excitation).2 ≤ 1 := by
  have h := find_pitch_eq excitation
  by_cases he : find_pitch_energy excitation (find_pitch_search excitation).1 ≥ 1 / 32768
  · rw [if_pos he] at h
    have hc := CLAMP_range ((find_pitch_search excitation).2
      / find_pitch_energy excitation (find_pitch_search excitation).1) 0 1 (by norm_num)
    rw [h]
    dsimp only
    rcases find_pitch_search_spec excitation with ⟨hb, _⟩ | ⟨_, hlo, hhi, _⟩
    · rw [hb] at hc ⊢
      exact ⟨le_refl _, by norm_num, hc.1, hc.2⟩
    · exact ⟨hlo, hhi, hc.1, hc.2⟩
  · rw [if_neg he] at h
    rw [h]
    exact ⟨le_refl _, by norm_num, le_refl _, by norm_num⟩

/-- The two codes `main` writes for a subframe are the lag found minus 108 and the
rounded gain times 15. -/
theorem encode_subframe_codes (opt : encoder_options) (sampling_rate : Int) (use_huffman : Nat)
    (stack : subframe_stack) (i : Nat) (s : encoder_state) :
    (encode_subframe opt sampling_rate use_huffman stack i s).2.lag_code
      = (find_pitch (offset_view s.adaptive_codebook (324 + 108 * (i : Int)))).1 - 108
    ∧ (encode_subframe opt sampling_rate use_huffman stack i s).2.gain_code
      = ROUND ((find_pitch (offset_view s.adaptive_codebook (324 + 108 * (i : Int)))).2 * 15) :=
  ⟨rfl, rfl⟩

/-- C26: for every excitation buffer `find_pitch` returns a lag in 108..323 and a gain
in 0..1, and it returns exactly lag 108 and gain 0 when the history energy at the lag
the search selected is below `1/32768`.  Hence the lag code `L - 108` lies in 0..215 and
is below `2^8` as the `unsigned` argument of `bwc_write_bits`, the gain index
`ROUND(15 g)` lies in 0..15 and is below `2^4`; these are the two codes `main` writes
for every subframe of every state. -/
theorem C26_find_pitch_range (excitation : Int → ℚ) :
    108 ≤ (find_pitch excitation).1 ∧ (find_pitch excitation).1 ≤ 323
    ∧ 0 ≤ (find_pitch excitation).2 ∧ (find_pitch excitation).2 ≤ 1
    ∧ (find_pitch_energy excitation (find_pitch_search excitation).1 < 1 / 32768 →
        find_pitch excitation = (108, 0))
    ∧ 0 ≤ (find_pitch excitation).1 - 108 ∧ (find_pitch excitation).1 - 108 ≤ 215
    ∧ to_unsigned ((find_pitch excitation).1 - 108) < 2 ^ 8
    ∧ 0 ≤ ROUND ((find_pitch excitation).2 * 15) ∧ ROUND ((find_pitch excitation).2 * 15) ≤ 15
    ∧ to_unsigned (ROUND ((find_pitch excitation).2 * 15)) < 2 ^ 4
    ∧ (∀ (opt : encoder_options) (sampling_rate : Int) (use_huffman : Nat)
        (stack : subframe_stack) (i : Nat) (s : encoder_state),
        s.adaptive_codebook = (fun j => excitation (j - (324 + 108 * (i : Int)))) →
        (encode_subframe opt sampling_rate use_huffman stack i s).2.lag_code
          = (find_pitch excitation).1 - 108
        ∧ (encode_subframe opt sampling_rate use_huffman stack i s).2.gain_code
          = ROUND ((find_pitch excitation).2 * 15)) := by
  obtain ⟨h1, h2, h3, h4⟩ := find_pitch_range excitation
  have hr0 : 0 ≤ ROUND ((find_pitch excitation).2 * 15) := by
    rw [ROUND_of_nonneg _ (by positivity)]
    exact Int.floor_nonneg.mpr (by positivity)
  have hr1 := (ROUND_bounds ((find_pitch excitation).2 * 15) 15 (by push_cast; linarith)
    (by push_cast; linarith)).2
  refine ⟨h1, h2, h3, h4, ?_, by omega, by omega, ?_, hr0, hr1, ?_, ?_⟩
  · intro h
    rw [find_pitch_eq, if_neg (not_le.mpr h)]
  · rw [to_unsigned_of_nonneg _ (by omega) (by omega)]
    omega
  · rw [to_unsigned_of_nonneg _ hr0 (by omega)]
    omega
  · intro opt sampling_rate use_huffman stack i s hs
    have e : offset_view s.adaptive_codebook (324 + 108 * (i : Int)) = excitation := by
      funext j
      unfold offset_view
      rw [hs]
      ring_nf
    have h := encode_subframe_codes opt sampling_rate use_huffman stack i s
    rw [e] at h
    exact h

/-- C26 witness: on a silent buffer the history energy is 0 and `find_pitch` returns
lag 108 and gain 0. -/
theorem C26_find_pitch_range_witness : find_pitch (fun _ => 0) = (108, 0) :=
  (C26_find_pitch_range (fun _ => 0)).2.2.2.2.1
    (by
      have e : find_pitch_energy (fun _ => 0) (find_pitch_search (fun _ => 0)).1 = 0 := by
        rw [find_pitch_energy_eq]
        simp
      rw [e]
      norm_num)
/-! ## C28, C29: interpolation of the reflection coefficients and the excitation -/

/-- A counting loop that replaces the entry at its index by a function of that entry. -/
theorem for_range_store_map {α : Type} (g : Nat → α → α) :
    ∀ (count i : Nat) (m : Nat → α) (k : Nat),
      for_range (fun j m => store m j (g j (m j))) count i m k
        = if i ≤ k ∧ k < i + count then g k (m k) else m k := by
  intro count
  induction count with
  | zero =>
    intro i m k
    rw [if_neg (by omega)]
    rfl
  | succ n ih =>
    intro i m k
    rw [for_range, ih]
    by_cases h1 : i + 1 ≤ k ∧ k < i + 1 + n
    · rw [if_pos h1, if_pos (by omega)]
      have : k ≠ i := by omega
      simp only [store, this, if_false]
    · rw [if_neg h1]
      by_cases h2 : k = i
      · subst h2
        rw [if_pos (by omega)]
        simp only [store, if_true]
      · rw [if_neg (by omega)]
        simp only [store, h2, if_false]

/-- `find_frame_excitation` is four steps of its loop body. -/
theorem find_frame_excitation_eq (rc_delta rc : Nat → ℚ)
    (adaptive_codebook input_samples : Int → ℚ) :
    find_frame_excitation rc_delta rc adaptive_codebook input_samples
      = for_range (find_frame_excitation_step rc_delta input_samples) 4 0
          (rc, adaptive_codebook) := rfl

/-- `find_excitation` writes the residual of the predictor at the indices below `length`
and leaves the rest of the output array as it was; it reads `source` only. -/
theorem find_excitation_spec (excitation source : Int → ℚ) (length : Nat) (lpc : Nat → ℚ)
    (j : Int) :
    find_excitation excitation source length lpc j
      = if 0 ≤ j ∧ j < length then
          source j - ∑ k in Finset.range 12, lpc k * source (j - 1 - (k : Int))
        else excitation j := by
  unfold find_excitation
  have hp : ∀ i : Nat,
      for_range (fun k prediction => prediction + lpc k * source ((i : Int) - 1 - k)) 12 0 0
        = ∑ k in Finset.range 12, lpc k * source ((i : Int) - 1 - (k : Int)) := by
    intro i
    have h := for_range_sum (fun k => lpc k * source ((i : Int) - 1 - k)) 12 0 0
    simp only [zero_add] at h
    exact h
  simp only [hp]
  have h := for_range_storeI 0
    (fun i : Nat => source i - ∑ k in Finset.range 12, lpc k * source ((i : Int) - 1 - (k : Int)))
    length 0 excitation j
  simp only [zero_add, Nat.cast_zero] at h
  rw [h]
  by_cases hj : 0 ≤ j ∧ j < length
  · rw [if_pos hj, if_pos hj]
    have e : ((j - 0).toNat : Int) = j := by
      rw [sub_zero]
      exact Int.toNat_of_nonneg hj.1
    rw [e]
  · rw [if_neg hj, if_neg hj]

/-- The reflection coefficients after one step of the interpolation loop. -/
theorem find_frame_excitation_step_rc (rc_delta : Nat → ℚ) (input_samples : Int → ℚ) (i : Nat)
    (st : (Nat → ℚ) × (Int → ℚ)) :
    (find_frame_excitation_step rc_delta input_samples i st).1
      = fun j => if j < 12 then st.1 j + rc_delta j else st.1 j := by
  funext j
  show for_range (fun j rc => store rc j (rc j + rc_delta j)) 12 0 st.1 j = _
  rw [for_range_store_map (fun j v => v + rc_delta j) 12 0 st.1 j]
  by_cases h : j < 12
  · rw [if_pos (by omega), if_pos h]
  · rw [if_neg (by omega), if_neg h]

/-- The adaptive codebook after one step of the interpolation loop: the `length` slots
from `324 + 12 i` on receive the residual of the input under the predictor of the
advanced reflection coefficients. -/
theorem find_frame_excitation_step_codebook (rc_delta : Nat → ℚ) (input_samples : Int → ℚ)
    (i : Nat) (st : (Nat → ℚ) × (Int → ℚ)) (k : Int) :
    (find_frame_excitation_step rc_delta input_samples i st).2 k
      = if 324 + 12 * (i : Int) ≤ k
            ∧ k < 324 + 12 * (i : Int) + ((if i < 3 then 12 else 396 : Nat) : Int) then
          input_samples (12 + (k - 324))
            - ∑ c in Finset.range 12,
                rc_to_lpc (fun _ => 0)
                  (find_frame_excitation_step rc_delta input_samples i st).1 c
                * input_samples (12 + (k - 324) - 1 - (c : Int))
        else st.2 k := by
  show offset_view (find_excitation (offset_view st.2 (324 + 12 * (i : Int)))
      (offset_view input_samples (12 + 12 * (i : Int))) (if i < 3 then 12 else 396)
      (rc_to_lpc (fun _ => 0) (find_frame_excitation_step rc_delta input_samples i st).1))
    (-(324 + 12 * (i : Int))) k = _
  unfold offset_view
  rw [find_excitation_spec]
  by_cases h : 324 + 12 * (i : Int) ≤ k
      ∧ k < 324 + 12 * (i : Int) + ((if i < 3 then 12 else 396 : Nat) : Int)
  · rw [if_pos h, if_pos (by constructor <;> omega)]
    have e1 : 12 + 12 * (i : Int) + (-(324 + 12 * (i : Int)) + k) = 12 + (k - 324) := by ring
    have e2 : ∀ c : Nat, 12 + 12 * (i : Int) + (-(324 + 12 * (i : Int)) + k - 1 - (c : Int))
        = 12 + (k - 324) - 1 - (c : Int) := fun c => by ring
    simp only [e1, e2]
  · rw [if_neg h, if_neg (by omega)]
    ring_nf

/-- The interpolation loop of a frame, for every content of the arrays.  After the loop
`rc` has advanced by four times `rc_delta` on its 12 entries.  The codebook slot
`324 + n`, for n = 0..431, holds the residual `s[n] - sum over k of lpc[k]*s[n-1-k]` of
the input (`s[n]` being `input_samples[12 + n]`), where `lpc` is `rc_to_lpc` of the
reflection coefficients advanced by `m` times `rc_delta`, with m = 1 for n = 0..11,
m = 2 for n = 12..23, m = 3 for n = 24..35 and m = 4 for n = 36..431.  The slots below
324 are left as they were. -/
theorem find_frame_excitation_spec (rc_delta rc : Nat → ℚ)
    (adaptive_codebook input_samples : Int → ℚ) :
    (find_frame_excitation rc_delta rc adaptive_codebook input_samples).1
      = (fun j => if j < 12 then rc j + 4 * rc_delta j else rc j)
    ∧ (∀ n : Nat, n < 432 →
        (find_frame_excitation rc_delta rc adaptive_codebook input_samples).2 (324 + (n : Int))
          = input_samples (12 + (n : Int))
            - ∑ c in Finset.range 12,
                rc_to_lpc (fun _ => 0)
                  (fun j => if j < 12 then rc j + ((min (n / 12) 3 + 1 : Nat) : ℚ) * rc_delta j
                    else rc j) c
                * input_samples (12 + (n : Int) - 1 - (c : Int)))
    ∧ (∀ k : Int, k < 324 ∨ 756 ≤ k →
        (find_frame_excitation rc_delta rc adaptive_codebook input_samples).2 k
          = adaptive_codebook k) := by
  rw [find_frame_excitation_eq]
  have hinv := for_range_induction (find_frame_excitation_step rc_delta input_samples)
    (fun m (st : (Nat → ℚ) × (Int → ℚ)) =>
      m ≤ 4 →
      st.1 = (fun j => if j < 12 then rc j + (m : ℚ) * rc_delta j else rc j)
      ∧ (∀ n : Nat, n < (if m ≤ 3 then 12 * m else 432) →
          st.2 (324 + (n : Int))
            = input_samples (12 + (n : Int))
              - ∑ c in Finset.range 12,
                  rc_to_lpc (fun _ => 0)
                    (fun j => if j < 12 then rc j + ((min (n / 12) 3 + 1 : Nat) : ℚ) * rc_delta j
                      else rc j) c
                  * input_samples (12 + (n : Int) - 1 - (c : Int)))
      ∧ (∀ k : Int, k < 324 ∨ 324 + (((if m ≤ 3 then 12 * m else 432) : Nat) : Int) ≤ k →
          st.2 k = adaptive_codebook k))
    (by
      intro m st h hm
      obtain ⟨h1, h2, h3⟩ := h (by omega)
      have hrc : (find_frame_excitation_step rc_delta input_samples m st).1
          = (fun j => if j < 12 then rc j + ((m + 1 : Nat) : ℚ) * rc_delta j else rc j) := by
        rw [find_frame_excitation_step_rc, h1]
        funext j
        by_cases hj : j < 12
        · simp only [hj, if_true]
          push_cast
          ring
        · simp only [hj, if_false]
      refine ⟨hrc, ?_, ?_⟩
      · intro n hn
        rw [find_frame_excitation_step_codebook]
        by_cases hk : 324 + 12 * (m : Int) ≤ 324 + (n : Int)
            ∧ 324 + (n : Int) < 324 + 12 * (m : Int) + ((if m < 3 then 12 else 396 : Nat) : Int)
        · rw [if_pos hk, hrc]
          have hmn : min (n / 12) 3 + 1 = m + 1 := by
            obtain ⟨hk1, hk2⟩ := hk
            by_cases hm3 : m < 3
            · rw [if_pos hm3] at hk2
              push_cast at hk2
              have : n / 12 = m := by omega
              omega
            · have hm3b : m = 3 := by omega
              subst hm3b
              have : 3 ≤ n / 12 := by omega
              omega
          rw [hmn]
          have e1 : (12 : Int) + (324 + (n : Int) - 324) = 12 + (n : Int) := by ring
          simp only [e1]
        · rw [if_neg hk]
          apply h2
          by_cases hm3 : m < 3
          · rw [if_pos hm3] at hk
            rw [if_pos (by omega)] at hn
            rw [if_pos (by omega)]
            push_cast at hk
            omega
          · have hm3b : m = 3 := by omega
            subst hm3b
            simp only [show ¬ (3 < 3) by omega, if_false] at hk
            simp only [show ¬ (3 + 1 ≤ 3) by omega, if_false] at hn
            simp only [show (3 ≤ 3) by omega, if_true]
            push_cast at hk
            omega
      · intro k hk
        rw [find_frame_excitation_step_codebook]
        have hneg : ¬ (324 + 12 * (m : Int) ≤ k
            ∧ k < 324 + 12 * (m : Int) + ((if m < 3 then 12 else 396 : Nat) : Int)) := by
          rcases hk with hk | hk
          · omega
          · by_cases hm3 : m < 3
            · rw [if_pos (by omega)] at hk
              rw [if_pos hm3]
              push_cast at hk ⊢
              omega
            · have hm3b : m = 3 := by omega
              subst hm3b
              simp only [show ¬ (3 + 1 ≤ 3) by omega, if_false] at hk
              simp only [show ¬ (3 < 3) by omega, if_false]
              push_cast at hk ⊢
              omega
        rw [if_neg hneg]
        apply h3
        rcases hk with hk | hk
        · exact Or.inl hk
        · right
          by_cases hm3 : m < 3
          · rw [if_pos (by omega)] at hk
            rw [if_pos (by omega)]
            push_cast at hk ⊢
            omega
          · have hm3b : m = 3 := by omega
            subst hm3b
            simp only [show ¬ (3 + 1 ≤ 3) by omega, if_false] at hk
            simp only [show (3 ≤ 3) by omega, if_true]
            push_cast at hk ⊢
            omega)
    4 0 (rc, adaptive_codebook)
    (by
      intro _
      refine ⟨?_, ?_, ?_⟩
      · funext j
        simp
      · intro n hn
        simp at hn
      · intro k _
        rfl)
  obtain ⟨h1, h2, h3⟩ := hinv (by omega)
  refine ⟨?_, ?_, ?_⟩
  · rw [h1]
    funext j
    norm_num
  · intro n hn
    exact h2 n (by simpa using hn)
  · intro k hk
    apply h3
    rcases hk with hk | hk
    · exact Or.inl hk
    · right
      simp only [show ¬ (0 + 4 ≤ 3) by omega, if_false]
      push_cast
      omega
/-- The reflection coefficients after `m` steps of the interpolation loop. -/
theorem find_frame_excitation_steps_rc (rc_delta rc : Nat → ℚ)
    (adaptive_codebook input_samples : Int → ℚ) (m : Nat) :
    (for_range (find_frame_excitation_step rc_delta input_samples) m 0
        (rc, adaptive_codebook)).1
      = fun j => if j < 12 then rc j + (m : ℚ) * rc_delta j else rc j := by
  have h := for_range_induction (find_frame_excitation_step rc_delta input_samples)
    (fun m (st : (Nat → ℚ) × (Int → ℚ)) =>
      st.1 = (fun j => if j < 12 then rc j + (m : ℚ) * rc_delta j else rc j))
    (by
      intro m st h
      rw [find_frame_excitation_step_rc, h]
      funext j
      by_cases hj : j < 12
      · simp only [hj, if_true]
        push_cast
        ring
      · simp only [hj, if_false])
    m 0 (rc, adaptive_codebook)
    (by
      funext j
      simp)
  rw [Nat.zero_add] at h
  exact h

/-- The array `rc_delta` of a frame: a quarter of the way from `prev_rc` to the quantised
reflection coefficients, on the 12 entries. -/
theorem rc_delta_spec (rc_q prev_rc : Nat → ℚ) (j : Nat) :
    for_range (fun i rc_delta => store rc_delta i ((rc_q i - prev_rc i) / 4)) 12 0
        (fun _ => 0) j
      = if j < 12 then (rc_q j - prev_rc j) / 4 else 0 := by
  rw [for_range_store_map (fun i _ => (rc_q i - prev_rc i) / 4) 12 0 (fun _ => 0) j]
  by_cases h : j < 12
  · rw [if_pos (by omega), if_pos h]
  · rw [if_neg (by omega), if_neg h]

/-- The subframe loop does not touch `prev_rc`. -/
theorem encode_subframes_prev_rc (opt : encoder_options) (sampling_rate : Int)
    (use_huffman : Nat) (stack : Nat → subframe_stack) (s : encoder_state) :
    (encode_subframes opt sampling_rate use_huffman stack s).1.prev_rc = s.prev_rc := by
  unfold encode_subframes
  have h := for_range_induction
    (fun i (st : encoder_state × List subframe_record) =>
      ((encode_subframe opt sampling_rate use_huffman (stack i) i st.1).1,
        st.2 ++ [(encode_subframe opt sampling_rate use_huffman (stack i) i st.1).2]))
    (fun _ (st : encoder_state × List subframe_record) => st.1.prev_rc = s.prev_rc)
    (by
      intro i st h
      exact h)
    4 0 (s, []) rfl
  exact h

/-- C28 (amended): for every frame (every previous and quantised reflection coefficient
vector, codebook and input), the excitation sample n, for n = 0..431, that the
interpolation loop writes to `adaptive_codebook[324 + n]` is the residual
`s[n] - sum over k = 0..11 of lpc[k]*s[n-1-k]` of the input (`s[n]` being
`input_samples[12 + n]`), with the predictor coefficients `rc_to_lpc` derives from the
reflection coefficients `prev_rc + (m/4)*(rc_q - prev_rc)` of interpolation step
m = min(floor(n/12), 3) + 1: step 1 for samples 0..11, step 2 for 12..23, step 3 for
24..35 and step 4, the quantised coefficients themselves, for samples 36..431. -/
theorem C28_excitation_filter_steps (prev_rc rc_q : Nat → ℚ)
    (adaptive_codebook input_samples : Int → ℚ) (n : Nat) (hn : n < 432) :
    (find_frame_excitation
        (for_range (fun i rc_delta => store rc_delta i ((rc_q i - prev_rc i) / 4)) 12 0
          (fun _ => 0))
        (fun j => if j < 12 then prev_rc j else rc_q j)
        adaptive_codebook input_samples).2 (324 + (n : Int))
      = input_samples (12 + (n : Int))
        - ∑ k in Finset.range 12,
            rc_to_lpc (fun _ => 0)
              (fun j =>
                if j < 12 then
                  prev_rc j + ((min (n / 12) 3 + 1 : Nat) : ℚ) / 4 * (rc_q j - prev_rc j)
                else rc_q j) k
            * input_samples (12 + (n : Int) - 1 - (k : Int)) := by
  rw [(find_frame_excitation_spec _ _ adaptive_codebook input_samples).2.1 n hn]
  have e : (fun j =>
        if j < 12 then
          (fun j => if j < 12 then prev_rc j else rc_q j) j
            + ((min (n / 12) 3 + 1 : Nat) : ℚ)
              * for_range (fun i rc_delta => store rc_delta i ((rc_q i - prev_rc i) / 4)) 12 0
                  (fun _ => 0) j
        else (fun j => if j < 12 then prev_rc j else rc_q j) j)
      = (fun j =>
        if j < 12 then
          prev_rc j + ((min (n / 12) 3 + 1 : Nat) : ℚ) / 4 * (rc_q j - prev_rc j)
        else rc_q j) := by
    funext j
    by_cases hj : j < 12
    · simp only [hj, if_true, rc_delta_spec]
      ring
    · simp only [hj, if_false]
  rw [e]

/-- C28 witness: previous coefficients zero, quantised coefficients 1/2 at index 0 and
zero elsewhere, a constant input 1.  With reflection coefficients (c, 0, ...) the
predictor is (-c, 0, ...) and the residual of the constant input is 1 + c.  Sample 40
is filtered with step 4 (c = 1/2): the residual is 3/2. -/
theorem C28_excitation_filter_steps_witness :
    (find_frame_excitation
        (for_range (fun i rc_delta =>
          store rc_delta i (((fun (j : Nat) => if j = 0 then (1 / 2 : ℚ) else 0) i
            - (fun (_ : Nat) => (0 : ℚ)) i) / 4)) 12 0 (fun _ => 0))
        (fun j => if j < 12 then (fun (_ : Nat) => (0 : ℚ)) j
          else (fun (j : Nat) => if j = 0 then (1 / 2 : ℚ) else 0) j)
        (fun _ => 0) (fun _ => 1)).2 (324 + ((40 : Nat) : Int))
      = 3 / 2 :=
  (C28_excitation_filter_steps (fun _ => 0) (fun j => if j = 0 then 1 / 2 else 0)
    (fun _ => 0) (fun _ => 1) 40 (by decide)).trans (by decide!)

/-- C28 (counterexample): previous coefficients zero, quantised coefficients 1/2 at
index 0 and zero elsewhere, a constant input 1, codebook zero.  With reflection
coefficients (c, 0, ...) the residual of the constant input is 1 + c.  Samples 40 and
108 lie in subframes 1 and 2, whose interpolated coefficients have c = 1/8 and
c = 1/4 (residuals 9/8 and 5/4), but the loop filters both with the coefficients of
step 4, c = 1/2, and writes 3/2; sample 12 is filtered with step 2 (5/4), not with step
1 (9/8). -/
theorem C28_excitation_uses_twelve_sample_steps :
    (find_frame_excitation
        (for_range (fun i rc_delta =>
          store rc_delta i (((fun (j : Nat) => if j = 0 then (1 / 2 : ℚ) else 0) i
            - (fun (_ : Nat) => (0 : ℚ)) i) / 4)) 12 0 (fun _ => 0))
        (fun j => if j < 12 then (fun (_ : Nat) => (0 : ℚ)) j
          else (fun (j : Nat) => if j = 0 then (1 / 2 : ℚ) else 0) j)
        (fun _ => 0) (fun _ => 1)).2 (324 + 40) = 3 / 2
    ∧ (find_frame_excitation
        (for_range (fun i rc_delta =>
          store rc_delta i (((fun (j : Nat) => if j = 0 then (1 / 2 : ℚ) else 0) i
            - (fun (_ : Nat) => (0 : ℚ)) i) / 4)) 12 0 (fun _ => 0))
        (fun j => if j < 12 then (fun (_ : Nat) => (0 : ℚ)) j
          else (fun (j : Nat) => if j = 0 then (1 / 2 : ℚ) else 0) j)
        (fun _ => 0) (fun _ => 1)).2 (324 + 108) = 3 / 2
    ∧ (find_frame_excitation
        (for_range (fun i rc_delta =>
          store rc_delta i (((fun (j : Nat) => if j = 0 then (1 / 2 : ℚ) else 0) i
            - (fun (_ : Nat) => (0 : ℚ)) i) / 4)) 12 0 (fun _ => 0))
        (fun j => if j < 12 then (fun (_ : Nat) => (0 : ℚ)) j
          else (fun (j : Nat) => if j = 0 then (1 / 2 : ℚ) else 0) j)
        (fun _ => 0) (fun _ => 1)).2 (324 + 12) = 5 / 4
    ∧ (1 : ℚ)
        - ∑ k in Finset.range 12,
            rc_to_lpc (fun _ => 0)
              (fun j => if j < 12 then
                  (0 : ℚ) + (1 : ℚ) / 4 * ((if j = 0 then (1 / 2 : ℚ) else 0) - 0)
                else 0) k * 1 = 9 / 8
    ∧ (1 : ℚ)
        - ∑ k in Finset.range 12,
            rc_to_lpc (fun _ => 0)
              (fun j => if j < 12 then
                  (0 : ℚ) + (2 : ℚ) / 4 * ((if j = 0 then (1 / 2 : ℚ) else 0) - 0)
                else 0) k * 1 = 5 / 4 := by
  refine ⟨by decide!, by decide!, by decide!, by decide!, by decide!⟩

/-- The quantised reflection coefficients are entries of `utk_rc_table`. -/
theorem quantize_rc_table_entry (huffman_threshold : Int) (bwc : bit_writer_context)
    (rc : Nat → ℚ) (j : Nat) (hj : j < 12) :
    ∃ idx, idx < 64 ∧ (quantize_rc huffman_threshold bwc rc).rc j = utk_rc_table idx := by
  obtain ⟨_, _, h3, h4⟩ := quantize_rc_unfold huffman_threshold bwc rc
  by_cases h : j < 4
  · refine ⟨1 + quantize (rc j) (fun k => utk_rc_table (1 + k)) 63, ?_, h3 j h⟩
    have := (quantize_spec (rc j) (fun k => utk_rc_table (1 + k)) 63 (by decide)).1
    omega
  · refine ⟨16 + quantize (rc j) (fun k => utk_rc_table (16 + k)) 32, ?_, h4 j (by omega) hj⟩
    have := (quantize_spec (rc j) (fun k => utk_rc_table (16 + k)) 32 (by decide)).1
    omega

/-- The `prev_rc` a frame leaves behind is that of the subframe loop. -/
theorem encode_frame_prev_rc_sub (opt : encoder_options) (sampling_rate : Int)
    (stack : Nat → subframe_stack) (s : encoder_state) (wav_buffer : Nat → Nat)
    (samples_to_read : Nat) (input : Int → ℚ) (q : rc_quantization) (rc_delta : Nat → ℚ)
    (lp : (Nat → ℚ) × (Int → ℚ))
    (h1 : load_samples s.input_samples wav_buffer samples_to_read = input)
    (h2 : quantize_rc opt.huffman_threshold s.bwc (find_rc (fun _ => 0) (offset_view input 12))
      = q)
    (h3 : for_range (fun i rc_delta => store rc_delta i ((q.rc i - s.prev_rc i) / 4)) 12 0
      (fun _ => 0) = rc_delta)
    (h4 : find_frame_excitation rc_delta (fun j => if j < 12 then s.prev_rc j else q.rc j)
      s.adaptive_codebook input = lp)
    (sub : encoder_state × List subframe_record)
    (h5 : encode_subframes opt sampling_rate q.use_huffman stack
      { bwc := q.bwc
        input_samples := fun j => if 0 ≤ j ∧ j < 12 then input (432 + j) else input j
        adaptive_codebook := lp.2
        prev_rc := fun j => if j < 12 then lp.1 j else s.prev_rc j
        innovation := s.innovation } = sub) :
    (encode_frame opt sampling_rate stack s wav_buffer samples_to_read).1.prev_rc
      = sub.1.prev_rc :=
  congrArg (fun r => r.1.prev_rc)
    (encode_frame_parts opt sampling_rate stack s wav_buffer samples_to_read input q rc_delta
      lp sub h1 h2 h3 h4 h5)

/-- The `prev_rc` a frame leaves behind is the `rc` array after the interpolation loop. -/
theorem encode_frame_prev_rc (opt : encoder_options) (sampling_rate : Int)
    (stack : Nat → subframe_stack) (s : encoder_state) (wav_buffer : Nat → Nat)
    (samples_to_read : Nat) (input : Int → ℚ) (q : rc_quantization) (rc_delta : Nat → ℚ)
    (lp : (Nat → ℚ) × (Int → ℚ))
    (h1 : load_samples s.input_samples wav_buffer samples_to_read = input)
    (h2 : quantize_rc opt.huffman_threshold s.bwc (find_rc (fun _ => 0) (offset_view input 12))
      = q)
    (h3 : for_range (fun i rc_delta => store rc_delta i ((q.rc i - s.prev_rc i) / 4)) 12 0
      (fun _ => 0) = rc_delta)
    (h4 : find_frame_excitation rc_delta (fun j => if j < 12 then s.prev_rc j else q.rc j)
      s.adaptive_codebook input = lp) :
    (encode_frame opt sampling_rate stack s wav_buffer samples_to_read).1.prev_rc
      = fun j => if j < 12 then lp.1 j else s.prev_rc j :=
  (encode_frame_prev_rc_sub opt sampling_rate stack s wav_buffer samples_to_read input q
    rc_delta lp h1 h2 h3 h4 _ rfl).trans
    (encode_subframes_prev_rc opt sampling_rate q.use_huffman stack
      { bwc := q.bwc
        input_samples := fun j => if 0 ≤ j ∧ j < 12 then input (432 + j) else input j
        adaptive_codebook := lp.2
        prev_rc := fun j => if j < 12 then lp.1 j else s.prev_rc j
        innovation := s.innovation })

/-- C29: in exact arithmetic, for every frame (every state, options, stack content and
frame input), with `rc_q` the reflection coefficients after the quantisation loops:
after i = 1..4 steps of the interpolation loop the vector `rc`, which is what step i
passes to `rc_to_lpc`, holds `prev_rc + (i/4)*(rc_q - prev_rc)` on its 12 entries;
after the fourth step it holds `rc_q`, which is an entry of `utk_rc_table`; and the
`prev_rc` the frame leaves behind is `rc_q`. -/
theorem C29_rc_interpolation (opt : encoder_options) (sampling_rate : Int)
    (stack : Nat → subframe_stack) (s : encoder_state) (wav_buffer : Nat → Nat)
    (samples_to_read : Nat) (input : Int → ℚ) (q : rc_quantization) (j : Nat) (hj : j < 12)
    (h1 : load_samples s.input_samples wav_buffer samples_to_read = input)
    (h2 : quantize_rc opt.huffman_threshold s.bwc (find_rc (fun _ => 0) (offset_view input 12))
      = q) :
    (∀ i : Nat, 1 ≤ i → i ≤ 4 →
      (for_range
          (find_frame_excitation_step
            (for_range (fun i rc_delta => store rc_delta i ((q.rc i - s.prev_rc i) / 4)) 12 0
              (fun _ => 0)) input) i 0
          ((fun j => if j < 12 then s.prev_rc j else q.rc j), s.adaptive_codebook)).1 j
        = s.prev_rc j + (i : ℚ) / 4 * (q.rc j - s.prev_rc j))
    ∧ (find_frame_excitation
          (for_range (fun i rc_delta => store rc_delta i ((q.rc i - s.prev_rc i) / 4)) 12 0
            (fun _ => 0))
          (fun j => if j < 12 then s.prev_rc j else q.rc j) s.adaptive_codebook input).1 j
        = q.rc j
    ∧ (∃ idx, idx < 64 ∧ q.rc j = utk_rc_table idx)
    ∧ (encode_frame opt sampling_rate stack s wav_buffer samples_to_read).1.prev_rc j
        = q.rc j := by
  have hsteps : ∀ i : Nat,
      (for_range
          (find_frame_excitation_step
            (for_range (fun i rc_delta => store rc_delta i ((q.rc i - s.prev_rc i) / 4)) 12 0
              (fun _ => 0)) input) i 0
          ((fun j => if j < 12 then s.prev_rc j else q.rc j), s.adaptive_codebook)).1 j
        = s.prev_rc j + (i : ℚ) / 4 * (q.rc j - s.prev_rc j) := by
    intro i
    rw [find_frame_excitation_steps_rc]
    simp only [hj, if_true, rc_delta_spec]
    ring
  have hlast : (find_frame_excitation
        (for_range (fun i rc_delta => store rc_delta i ((q.rc i - s.prev_rc i) / 4)) 12 0
          (fun _ => 0))
        (fun j => if j < 12 then s.prev_rc j else q.rc j) s.adaptive_codebook input).1 j
      = q.rc j := by
    rw [find_frame_excitation_eq, hsteps 4]
    push_cast
    ring
  refine ⟨fun i _ _ => hsteps i, hlast, ?_, ?_⟩
  · rw [← h2]
    exact quantize_rc_table_entry _ _ _ j hj
  · have hp := congrFun (encode_frame_prev_rc opt sampling_rate stack s wav_buffer
      samples_to_read input q _ _ h1 h2 rfl rfl) j
    rw [hp]
    simp only [hj, if_true]
    exact hlast

/-- C29 witness: the first frame of a stream with default options whose first sample
is 1 (little-endian bytes 1, 0) and whose other samples are 0. -/
theorem C29_rc_interpolation_witness :
    (encode_frame default_options 22050 (fun _ => zero_stack)
        (initial_encoder_state (bwc_init (fun _ => 0)))
        (fun k => if k = 0 then 1 else 0) 432).1.prev_rc 0
      = (quantize_rc default_options.huffman_threshold
          (initial_encoder_state (bwc_init (fun _ => 0))).bwc
          (find_rc (fun _ => 0)
            (offset_view
              (load_samples (initial_encoder_state (bwc_init (fun _ => 0))).input_samples
                (fun k => if k = 0 then 1 else 0) 432) 12))).rc 0 :=
  (C29_rc_interpolation default_options 22050 (fun _ => zero_stack)
    (initial_encoder_state (bwc_init (fun _ => 0))) (fun k => if k = 0 then 1 else 0) 432
    _ _ 0 (by decide) rfl rfl).2.2.2
/-! ## C27: the reads of the adaptive codebook in a subframe -/

/-- Two counting loops whose bodies agree on the indices visited give the same result. -/
theorem for_range_congr {σ : Type} (body body2 : Nat → σ → σ) :
    ∀ (count i : Nat) (s : σ),
      (∀ k t, i ≤ k → k < i + count → body k t = body2 k t) →
      for_range body count i s = for_range body2 count i s := by
  intro count
  induction count with
  | zero => intro i s _; rfl
  | succ n ih =>
    intro i s h
    rw [for_range, for_range, h i s (le_refl _) (by omega)]
    exact ih (i + 1) _ (fun k t h1 h2 => h k t (by omega) (by omega))

/-- `find_pitch` reads its buffer at the offsets -323..107 only. -/
theorem find_pitch_congr (e e2 : Int → ℚ) (h : ∀ k : Int, -323 ≤ k → k ≤ 107 → e k = e2 k) :
    find_pitch e = find_pitch e2 := by
  have hs : find_pitch_search e = find_pitch_search e2 := by
    unfold find_pitch_search
    apply for_range_congr
    intro k best hk1 hk2
    have hc : for_range (fun j corr => corr + e j * e ((j : Int) - k)) 108 0 0
        = for_range (fun j corr => corr + e2 j * e2 ((j : Int) - k)) 108 0 0 := by
      apply for_range_congr
      intro j c _ hj2
      rw [h j (by omega) (by omega), h ((j : Int) - k) (by omega) (by omega)]
    simp only [hc]
  have hr : 108 ≤ (find_pitch_search e2).1 ∧ (find_pitch_search e2).1 ≤ 323 := by
    rcases find_pitch_search_spec e2 with ⟨hb, _⟩ | ⟨_, hlo, hhi, _⟩
    · rw [hb]
      exact ⟨le_refl _, by norm_num⟩
    · exact ⟨hlo, hhi⟩
  have he : find_pitch_energy e (find_pitch_search e2).1
      = find_pitch_energy e2 (find_pitch_search e2).1 := by
    unfold find_pitch_energy
    apply for_range_congr
    intro j c _ hj2
    simp only
    rw [h ((j : Int) - (find_pitch_search e2).1) (by omega) (by omega)]
  rw [find_pitch_eq, find_pitch_eq, hs, he]

/-- A loop that stores at the index `j` a value computed from the entry `lag` slots
before it, for a lag larger than every index visited, reads only entries it has not
written: the result is the parallel assignment from the old array. -/
theorem for_range_storeI_lagged (f : Nat → ℚ → ℚ) (lag : Int) (old : Int → ℚ) :
    ∀ (count i : Nat) (m : Int → ℚ) (k : Int),
      ((i : Int) + count ≤ lag) → (∀ n : Int, n < 0 → m n = old n) →
      for_range (fun j m => storeI m (j : Int) (f j (m ((j : Int) - lag)))) count i m k
        = if (i : Int) ≤ k ∧ k < (i : Int) + count then f k.toNat (old (k - lag)) else m k := by
  intro count
  induction count with
  | zero =>
    intro i m k _ _
    rw [if_neg (by push_cast; omega)]
    rfl
  | succ n ih =>
    intro i m k hlag hold
    rw [for_range, ih (i + 1) _ k (by push_cast at hlag ⊢; omega)
      (by
        intro n hn
        rw [storeI_other _ _ _ _ (by omega)]
        exact hold n hn)]
    by_cases h1 : ((i + 1 : Nat) : Int) ≤ k ∧ k < ((i + 1 : Nat) : Int) + (n : Int)
    · rw [if_pos h1, if_pos (by push_cast at h1 ⊢; omega)]
    · rw [if_neg h1]
      by_cases h2 : k = (i : Int)
      · rw [if_pos (by push_cast; omega), h2, storeI_same, hold _ (by push_cast at hlag; omega)]
        simp
      · rw [if_neg (by push_cast at h1 ⊢; omega), storeI_other _ _ _ _ h2]

/-- One subframe in terms of the results of its parts. -/
theorem encode_subframe_parts (opt : encoder_options) (sampling_rate : Int) (use_huffman : Nat)
    (stack : subframe_stack) (i : Nat) (s : encoder_state) (p : Int × ℚ)
    (innovation : Int → ℚ) (r : innovation_result) (excitation : Int → ℚ)
    (h1 : find_pitch (offset_view s.adaptive_codebook (324 + 108 * (i : Int))) = p)
    (h2 : for_range
        (fun j innovation =>
          storeI innovation j
            (offset_view s.adaptive_codebook (324 + 108 * (i : Int)) j
              - ((ROUND (p.2 * 15) : Int) : ℚ) / 15
                * offset_view s.adaptive_codebook (324 + 108 * (i : Int)) ((j : Int) - p.1)))
        108 0 s.innovation = innovation)
    (h3 : encode_innovation (inn_gains opt.inngain_sig opt.inngain_base) stack.encodings
        stack.locals
        (bwc_write_bits (bwc_write_bits s.bwc (to_unsigned (p.1 - 108)) 8)
          (to_unsigned (ROUND (p.2 * 15))) 4)
        innovation opt.halved_innovation use_huffman
        (target_bit_count opt.bitrate sampling_rate) = r)
    (h4 : for_range
        (fun j excitation =>
          storeI excitation j
            (r.innovation j
              + ((ROUND (p.2 * 15) : Int) : ℚ) / 15 * excitation ((j : Int) - p.1)))
        108 0 (offset_view s.adaptive_codebook (324 + 108 * (i : Int))) = excitation) :
    encode_subframe opt sampling_rate use_huffman stack i s
      = ({ bwc := r.bwc
           input_samples := s.input_samples
           adaptive_codebook := offset_view excitation (-(324 + 108 * (i : Int)))
           prev_rc := s.prev_rc
           innovation := r.innovation },
         { lag_code := p.1 - 108, gain_code := ROUND (p.2 * 15), innovation := r }) := by
  subst h1 h2 h3 h4
  rfl

/-- What one subframe reads of the adaptive codebook, in terms of the results of its
parts. -/
theorem encode_subframe_reads (opt : encoder_options) (sampling_rate : Int) (use_huffman : Nat)
    (stack : subframe_stack) (i : Nat) (hi : i < 4) (s : encoder_state) (cb2 : Int → ℚ)
    (hcb : ∀ k : Int, 0 ≤ k → k < 756 → cb2 k = s.adaptive_codebook k)
    (p : Int × ℚ) (innovation : Int → ℚ) (r : innovation_result) (excitation : Int → ℚ)
    (h1 : find_pitch (offset_view s.adaptive_codebook (324 + 108 * (i : Int))) = p)
    (h2 : for_range
        (fun j innovation =>
          storeI innovation j
            (offset_view s.adaptive_codebook (324 + 108 * (i : Int)) j
              - ((ROUND (p.2 * 15) : Int) : ℚ) / 15
                * offset_view s.adaptive_codebook (324 + 108 * (i : Int)) ((j : Int) - p.1)))
        108 0 s.innovation = innovation)
    (h3 : encode_innovation (inn_gains opt.inngain_sig opt.inngain_base) stack.encodings
        stack.locals
        (bwc_write_bits (bwc_write_bits s.bwc (to_unsigned (p.1 - 108)) 8)
          (to_unsigned (ROUND (p.2 * 15))) 4)
        innovation opt.halved_innovation use_huffman
        (target_bit_count opt.bitrate sampling_rate) = r)
    (h4 : for_range
        (fun j excitation =>
          storeI excitation j
            (r.innovation j
              + ((ROUND (p.2 * 15) : Int) : ℚ) / 15 * excitation ((j : Int) - p.1)))
        108 0 (offset_view s.adaptive_codebook (324 + 108 * (i : Int))) = excitation) :
    (108 ≤ (encode_subframe opt sampling_rate use_huffman stack i s).2.lag_code + 108
      ∧ (encode_subframe opt sampling_rate use_huffman stack i s).2.lag_code + 108 ≤ 323)
    ∧ (encode_subframe opt sampling_rate use_huffman stack i
          { bwc := s.bwc, input_samples := s.input_samples, adaptive_codebook := cb2,
            prev_rc := s.prev_rc, innovation := s.innovation }).2
        = (encode_subframe opt sampling_rate use_huffman stack i s).2
    ∧ (encode_subframe opt sampling_rate use_huffman stack i
          { bwc := s.bwc, input_samples := s.input_samples, adaptive_codebook := cb2,
            prev_rc := s.prev_rc, innovation := s.innovation }).1.bwc
        = (encode_subframe opt sampling_rate use_huffman stack i s).1.bwc
    ∧ (encode_subframe opt sampling_rate use_huffman stack i
          { bwc := s.bwc, input_samples := s.input_samples, adaptive_codebook := cb2,
            prev_rc := s.prev_rc, innovation := s.innovation }).1.innovation
        = (encode_subframe opt sampling_rate use_huffman stack i s).1.innovation
    ∧ (∀ k : Int, 0 ≤ k → k < 756 →
        (encode_subframe opt sampling_rate use_huffman stack i
          { bwc := s.bwc, input_samples := s.input_samples, adaptive_codebook := cb2,
            prev_rc := s.prev_rc, innovation := s.innovation }).1.adaptive_codebook k
        = (encode_subframe opt sampling_rate use_huffman stack i s).1.adaptive_codebook k)
    ∧ (∀ j : Int, 0 ≤ j → j < 108 →
        (encode_subframe opt sampling_rate use_huffman stack i s).1.adaptive_codebook
            (324 + 108 * (i : Int) + j)
          = (encode_subframe opt sampling_rate use_huffman stack i s).2.innovation.innovation j
            + (((encode_subframe opt sampling_rate use_huffman stack i s).2.gain_code : Int) : ℚ)
                / 15
              * s.adaptive_codebook (324 + 108 * (i : Int) + j
                  - ((encode_subframe opt sampling_rate use_huffman stack i s).2.lag_code + 108)))
    ∧ (∀ k : Int, k < 324 + 108 * (i : Int) ∨ 324 + 108 * (i : Int) + 108 ≤ k →
        (encode_subframe opt sampling_rate use_huffman stack i s).1.adaptive_codebook k
          = s.adaptive_codebook k) := by
  have hE : ∀ k : Int, -(324 + 108 * (i : Int)) ≤ k → k < 756 - (324 + 108 * (i : Int)) →
      offset_view cb2 (324 + 108 * (i : Int)) k
        = offset_view s.adaptive_codebook (324 + 108 * (i : Int)) k := by
    intro k hk1 hk2
    unfold offset_view
    exact hcb _ (by omega) (by omega)
  have hp : 108 ≤ p.1 ∧ p.1 ≤ 323 := by
    have := find_pitch_range (offset_view s.adaptive_codebook (324 + 108 * (i : Int)))
    rw [h1] at this
    exact ⟨this.1, this.2.1⟩
  have h1b : find_pitch (offset_view cb2 (324 + 108 * (i : Int))) = p :=
    (find_pitch_congr _ _ (fun k hk1 hk2 => hE k (by omega) (by omega))).trans h1
  have h2b : for_range
      (fun j innovation =>
        storeI innovation j
          (offset_view cb2 (324 + 108 * (i : Int)) j
            - ((ROUND (p.2 * 15) : Int) : ℚ) / 15
              * offset_view cb2 (324 + 108 * (i : Int)) ((j : Int) - p.1)))
      108 0 s.innovation = innovation := by
    rw [← h2]
    apply for_range_congr
    intro j m _ hj
    rw [hE j (by omega) (by omega), hE ((j : Int) - p.1) (by omega) (by omega)]
  obtain ⟨excitation2, h4b⟩ : ∃ x, for_range
      (fun j excitation =>
        storeI excitation j
          (r.innovation j
            + ((ROUND (p.2 * 15) : Int) : ℚ) / 15 * excitation ((j : Int) - p.1)))
      108 0 (offset_view cb2 (324 + 108 * (i : Int))) = x := ⟨_, rfl⟩
  have hx : ∀ (old : Int → ℚ) (k : Int),
      for_range
        (fun j excitation =>
          storeI excitation j
            (r.innovation j
              + ((ROUND (p.2 * 15) : Int) : ℚ) / 15 * excitation ((j : Int) - p.1)))
        108 0 old k
      = if 0 ≤ k ∧ k < 108 then
          r.innovation k + ((ROUND (p.2 * 15) : Int) : ℚ) / 15 * old (k - p.1)
        else old k := by
    intro old k
    have h := for_range_storeI_lagged
      (fun j v => r.innovation (j : Int) + ((ROUND (p.2 * 15) : Int) : ℚ) / 15 * v)
      p.1 old 108 0 old k (by push_cast; omega) (fun _ _ => rfl)
    rw [h]
    by_cases hk : 0 ≤ k ∧ k < 108
    · rw [if_pos (by push_cast; omega), if_pos hk]
      simp only [Int.toNat_of_nonneg hk.1]
    · rw [if_neg (by push_cast; omega), if_neg hk]
  have k1 := encode_subframe_parts opt sampling_rate use_huffman stack i s p innovation r
    excitation h1 h2 h3 h4
  have k2 := encode_subframe_parts opt sampling_rate use_huffman stack i
    { bwc := s.bwc, input_samples := s.input_samples, adaptive_codebook := cb2,
      prev_rc := s.prev_rc, innovation := s.innovation } p innovation r excitation2
    h1b h2b h3 h4b
  rw [k1, k2]
  dsimp only
  refine ⟨by omega, rfl, rfl, rfl, ?_, ?_, ?_⟩
  · intro k hk0 hk1
    unfold offset_view
    rw [← h4, ← h4b, hx, hx]
    by_cases hk : 0 ≤ -(324 + 108 * (i : Int)) + k ∧ -(324 + 108 * (i : Int)) + k < 108
    · rw [if_pos hk, if_pos hk, hE _ (by omega) (by omega)]
    · rw [if_neg hk, if_neg hk, hE _ (by omega) (by omega)]
  · intro j hj0 hj1
    have e1 : -(324 + 108 * (i : Int)) + (324 + 108 * (i : Int) + j) = j := by ring
    have e2 : 324 + 108 * (i : Int) + (j - p.1)
        = 324 + 108 * (i : Int) + j - (p.1 - 108 + 108) := by ring
    unfold offset_view
    rw [e1, ← h4, hx, if_pos ⟨hj0, hj1⟩]
    unfold offset_view
    rw [e2]
  · intro k hk
    unfold offset_view
    rw [← h4, hx, if_neg (by omega)]
    unfold offset_view
    congr 1
    ring

/-- C27: for every subframe i = 0..3 of every state, with L the lag `find_pitch`
returned (the lag code plus 108): L lies in 108..323, so for j = 0..107 the codebook
index `324 + 108 i + j - L` lies at or above 0 and strictly below `324 + 108 i`, and
`324 + 108 i + j` lies below 756.  No read leaves the 756 slots: a second content of the
memory that agrees with the codebook on the slots 0..755 gives the same lag and gain
codes, the same innovation encoding, the same stream writer and the same new content of
the slots 0..755.  The reconstruction reads old samples only: the new slot
`324 + 108 i + j` holds the quantised innovation plus the gain times the content the
slot `324 + 108 i + j - L` had before the subframe, and the other slots are left as
they were. -/
theorem C27_codebook_reads (opt : encoder_options) (sampling_rate : Int) (use_huffman : Nat)
    (stack : subframe_stack) (i : Nat) (hi : i < 4) (s : encoder_state) (cb2 : Int → ℚ)
    (hcb : ∀ k : Int, 0 ≤ k → k < 756 → cb2 k = s.adaptive_codebook k) :
    (108 ≤ (encode_subframe opt sampling_rate use_huffman stack i s).2.lag_code + 108
      ∧ (encode_subframe opt sampling_rate use_huffman stack i s).2.lag_code + 108 ≤ 323)
    ∧ (∀ j : Int, 0 ≤ j → j < 108 →
        0 ≤ 324 + 108 * (i : Int) + j
            - ((encode_subframe opt sampling_rate use_huffman stack i s).2.lag_code + 108)
        ∧ 324 + 108 * (i : Int) + j
            - ((encode_subframe opt sampling_rate use_huffman stack i s).2.lag_code + 108)
          < 324 + 108 * (i : Int)
        ∧ 324 + 108 * (i : Int) + j < 756)
    ∧ (encode_subframe opt sampling_rate use_huffman stack i
          { bwc := s.bwc, input_samples := s.input_samples, adaptive_codebook := cb2,
            prev_rc := s.prev_rc, innovation := s.innovation }).2
        = (encode_subframe opt sampling_rate use_huffman stack i s).2
    ∧ (encode_subframe opt sampling_rate use_huffman stack i
          { bwc := s.bwc, input_samples := s.input_samples, adaptive_codebook := cb2,
            prev_rc := s.prev_rc, innovation := s.innovation }).1.bwc
        = (encode_subframe opt sampling_rate use_huffman stack i s).1.bwc
    ∧ (encode_subframe opt sampling_rate use_huffman stack i
          { bwc := s.bwc, input_samples := s.input_samples, adaptive_codebook := cb2,
            prev_rc := s.prev_rc, innovation := s.innovation }).1.innovation
        = (encode_subframe opt sampling_rate use_huffman stack i s).1.innovation
    ∧ (∀ k : Int, 0 ≤ k → k < 756 →
        (encode_subframe opt sampling_rate use_huffman stack i
          { bwc := s.bwc, input_samples := s.input_samples, adaptive_codebook := cb2,
            prev_rc := s.prev_rc, innovation := s.innovation }).1.adaptive_codebook k
        = (encode_subframe opt sampling_rate use_huffman stack i s).1.adaptive_codebook k)
    ∧ (∀ j : Int, 0 ≤ j → j < 108 →
        (encode_subframe opt sampling_rate use_huffman stack i s).1.adaptive_codebook
            (324 + 108 * (i : Int) + j)
          = (encode_subframe opt sampling_rate use_huffman stack i s).2.innovation.innovation j
            + (((encode_subframe opt sampling_rate use_huffman stack i s).2.gain_code : Int) : ℚ)
                / 15
              * s.adaptive_codebook (324 + 108 * (i : Int) + j
                  - ((encode_subframe opt sampling_rate use_huffman stack i s).2.lag_code + 108)))
    ∧ (∀ k : Int, k < 324 + 108 * (i : Int) ∨ 324 + 108 * (i : Int) + 108 ≤ k →
        (encode_subframe opt sampling_rate use_huffman stack i s).1.adaptive_codebook k
          = s.adaptive_codebook k) := by
  obtain ⟨a, b, c, d, e, f, g⟩ := encode_subframe_reads opt sampling_rate use_huffman stack i
    hi s cb2 hcb _ _ _ _ rfl rfl rfl rfl
  exact ⟨a, fun j h0 h1 => by omega, b, c, d, e, f, g⟩

/-- C27 witness: the first subframe of the first frame, against a memory that holds 1
just beyond the codebook, at index 756. -/
theorem C27_codebook_reads_witness :
    (encode_subframe default_options 22050 0 zero_stack 0
        { bwc := (initial_encoder_state (bwc_init (fun _ => 0))).bwc
          input_samples := (initial_encoder_state (bwc_init (fun _ => 0))).input_samples
          adaptive_codebook := fun k => if k = 756 then 1 else 0
          prev_rc := (initial_encoder_state (bwc_init (fun _ => 0))).prev_rc
          innovation := (initial_encoder_state (bwc_init (fun _ => 0))).innovation }).2
      = (encode_subframe default_options 22050 0 zero_stack 0
          (initial_encoder_state (bwc_init (fun _ => 0)))).2 :=
  (C27_codebook_reads default_options 22050 0 zero_stack 0 (by decide)
    (initial_encoder_state (bwc_init (fun _ => 0))) (fun k => if k = 756 then 1 else 0)
    (by
      intro k _ h1
      have hk : ¬ (k = 756) := by omega
      simp only [hk, if_false]
      rfl)).2.2.1
/-! ## C24: the minimum power and the quantisation error -/

/-- The search loop for `min_pow`: the result is at most the start index, the gain just
below it (if any) is too small for `max_value`, and no gain from it up to the start
index is too small. -/
theorem find_min_pow_spec (inn_gains : Nat → ℚ) (z : Nat) (max_value : ℚ) :
    ∀ n : Nat,
      find_min_pow inn_gains z max_value n ≤ n
      ∧ (find_min_pow inn_gains z max_value n = 0
        ∨ inn_gains (find_min_pow inn_gains z max_value n - 1)
            * (if z = 0 then 0.5 else 1) * 13.5 < max_value)
      ∧ (∀ i, find_min_pow inn_gains z max_value n ≤ i → i < n →
          ¬ (inn_gains i * (if z = 0 then 0.5 else 1) * 13.5 < max_value)) := by
  intro n
  induction n with
  | zero =>
    refine ⟨le_refl _, Or.inl rfl, ?_⟩
    intro i _ hi
    omega
  | succ n ih =>
    rw [find_min_pow]
    by_cases h : inn_gains n * (if z = 0 then 0.5 else 1) * 13.5 < max_value
    · rw [if_pos h]
      refine ⟨le_refl _, Or.inr ?_, ?_⟩
      · simpa using h
      · intro i h1 h2
        omega
    · rw [if_neg h]
      obtain ⟨h1, h2, h3⟩ := ih
      refine ⟨by omega, h2, ?_⟩
      intro i hi1 hi2
      by_cases hin : i = n
      · rw [hin]
        exact h
      · exact h3 i hi1 (by omega)

theorem c_not_lt_two (m : Nat) : c_not m < 2 := by
  unfold c_not
  split <;> omega

theorem c_not_c_not (m : Nat) (h : m < 2) : c_not (c_not m) = m := by
  unfold c_not
  by_cases h0 : m = 0
  · simp [h0]
  · have : m = 1 := by omega
    simp [this]

theorem c_not_ne (m : Nat) : c_not m ≠ m := by
  unfold c_not
  split <;> omega

/-- The position of the writer after a sequence of writes depends on the position
before only, not on the buffer. -/
theorem bwc_writes_position_congr (ws : List (Nat × Nat)) :
    ∀ (bwc bwc2 : bit_writer_context), bwc.pos = bwc2.pos →
      bwc.written_bits_count = bwc2.written_bits_count →
      (bwc_writes bwc ws).pos = (bwc_writes bwc2 ws).pos
      ∧ (bwc_writes bwc ws).written_bits_count = (bwc_writes bwc2 ws).written_bits_count := by
  induction ws with
  | nil => intro bwc bwc2 h1 h2; exact ⟨h1, h2⟩
  | cons w ws ih =>
    intro bwc bwc2 h1 h2
    simp only [bwc_writes, List.foldl_cons]
    apply ih
    · rw [(bwc_write_bits_layout bwc w.1 w.2).1, (bwc_write_bits_layout bwc2 w.1 w.2).1, h1, h2]
    · rw [(bwc_write_bits_layout bwc w.1 w.2).2.1, (bwc_write_bits_layout bwc2 w.1 w.2).2.1, h2]

/-- The position of the scratch writer a trial starts from does not depend on the
scratch buffer. -/
theorem trial_writer_position (bwc scratch scratch2 : bit_writer_context) :
    (trial_writer bwc scratch).pos = (trial_writer bwc scratch2).pos
    ∧ (trial_writer bwc scratch).written_bits_count
        = (trial_writer bwc scratch2).written_bits_count := by
  unfold trial_writer
  constructor
  · rw [(bwc_write_bits_layout _ _ _).1, (bwc_write_bits_layout _ _ _).1]
    rfl
  · rw [(bwc_write_bits_layout _ _ _).2.1, (bwc_write_bits_layout _ _ _).2.1]
    rfl

/-- The items and `bits_used` of `encode_huffman` do not depend on the buffer of the
writer nor on the content of the output array. -/
theorem encode_huffman_scratch_congr (inn_gains : Nat → ℚ) (locals : huffman_locals)
    (bwc bwc2 : bit_writer_context) (innovation_out innovation_out2 innovation_in : Int → ℚ)
    (halved_innovation pow a z : Nat) (h1 : bwc.pos = bwc2.pos)
    (h2 : bwc.written_bits_count = bwc2.written_bits_count) :
    (encode_huffman inn_gains locals bwc innovation_out innovation_in halved_innovation
        pow a z).items
      = (encode_huffman inn_gains locals bwc2 innovation_out2 innovation_in halved_innovation
        pow a z).items
    ∧ (encode_huffman inn_gains locals bwc innovation_out innovation_in halved_innovation
        pow a z).bits_used
      = (encode_huffman inn_gains locals bwc2 innovation_out2 innovation_in halved_innovation
        pow a z).bits_used := by
  have hrel := for_positions_rel (innovation_interval halved_innovation)
    (huffman_quantize_step (huffman_gain inn_gains pow z) innovation_in)
    (huffman_quantize_step (huffman_gain inn_gains pow z) innovation_in)
    (fun s t => s.values = t.values)
    (by
      intro i s t h
      simp only [huffman_quantize_step, h])
    108 (a : Int)
    { values := locals.values, innovation_out := innovation_out, total_error := 0 }
    { values := locals.values, innovation_out := innovation_out2, total_error := 0 }
    rfl
  have hval : (encode_huffman_quantized inn_gains locals innovation_out innovation_in
        halved_innovation pow a z).values
      = (encode_huffman_quantized inn_gains locals innovation_out2 innovation_in
        halved_innovation pow a z).values := hrel
  have hzc : encode_huffman_zero_counts inn_gains locals innovation_out innovation_in
        halved_innovation pow a z
      = encode_huffman_zero_counts inn_gains locals innovation_out2 innovation_in
        halved_innovation pow a z := by
    unfold encode_huffman_zero_counts
    rw [hval]
  have hitems : (encode_huffman inn_gains locals bwc innovation_out innovation_in
        halved_innovation pow a z).items
      = (encode_huffman inn_gains locals bwc2 innovation_out2 innovation_in halved_innovation
        pow a z).items := by
    simp only [encode_huffman]
    rw [hval, hzc]
    exact huffman_emit_loop_items _ _ _ _ _ _ _ _
  refine ⟨hitems, ?_⟩
  have hw1 := encode_huffman_writes inn_gains locals bwc innovation_out innovation_in
    halved_innovation pow a z
  have hw2 := encode_huffman_writes inn_gains locals bwc2 innovation_out2 innovation_in
    halved_innovation pow a z
  rw [hitems] at hw1
  obtain ⟨p1, p2⟩ := bwc_writes_position_congr
    (block_writes halved_innovation pow a z
      (encode_huffman inn_gains locals bwc2 innovation_out2 innovation_in halved_innovation
        pow a z).items) bwc bwc2 h1 h2
  rw [← hw1, ← hw2] at p1 p2
  have e1 : (encode_huffman inn_gains locals bwc innovation_out innovation_in
      halved_innovation pow a z).bits_used
      = 8 * ((encode_huffman inn_gains locals bwc innovation_out innovation_in
          halved_innovation pow a z).bwc.pos : Int)
        + (encode_huffman inn_gains locals bwc innovation_out innovation_in
          halved_innovation pow a z).bwc.written_bits_count
        - (8 * (bwc.pos : Int) + bwc.written_bits_count) := rfl
  have e2 : (encode_huffman inn_gains locals bwc2 innovation_out2 innovation_in
      halved_innovation pow a z).bits_used
      = 8 * ((encode_huffman inn_gains locals bwc2 innovation_out2 innovation_in
          halved_innovation pow a z).bwc.pos : Int)
        + (encode_huffman inn_gains locals bwc2 innovation_out2 innovation_in
          halved_innovation pow a z).bwc.written_bits_count
        - (8 * (bwc2.pos : Int) + bwc2.written_bits_count) := rfl
  rw [e1, e2, p1, p2, h1, h2]

/-- The distance of a trial as it is run, from whatever scratch content. -/
theorem trial_distance_eq (inn_gains : Nat → ℚ) (locals : Nat → huffman_locals)
    (bwc scratch : bit_writer_context) (out innovation : Int → ℚ)
    (halved_innovation a z : Nat) (target_bit_count : Int) (pow : Nat) :
    ABSi ((encode_huffman inn_gains (locals pow) (trial_writer bwc scratch) out innovation
        halved_innovation pow a z).bits_used - target_bit_count)
      = trial_distance inn_gains locals bwc innovation halved_innovation a z target_bit_count
          pow := by
  unfold trial_distance
  rw [(encode_huffman_scratch_congr inn_gains (locals pow) (trial_writer bwc scratch)
    (trial_writer bwc (bwc_init (fun _ => 0))) out (fun _ => 0) innovation halved_innovation
    pow a z (trial_writer_position bwc scratch _).1 (trial_writer_position bwc scratch _).2).2]

/-- The trial loop of the Huffman branch: the slot `!m` holds, at the end, the trial of
the first power among `min_pow..63` whose distance is minimal. -/
theorem huffman_trial_loop_spec (inn_gains : Nat → ℚ) (locals : Nat → huffman_locals)
    (bwc : bit_writer_context) (innovation : Int → ℚ) (halved_innovation a z : Nat)
    (target_bit_count : Int) (min_pow : Nat) (hmin : min_pow ≤ 63) :
    ∀ (fuel pow : Nat) (s : trial_state),
      min_pow ≤ pow → pow ≤ 64 → 64 ≤ pow + fuel → s.m < 2 →
      (pow = min_pow
        ∨ ∃ q, min_pow ≤ q ∧ q < pow
          ∧ (∃ scratch out, s.encodings (c_not s.m)
              = encode_huffman inn_gains (locals q) (trial_writer bwc scratch) out innovation
                  halved_innovation q a z)
          ∧ s.best_distance
              = trial_distance inn_gains locals bwc innovation halved_innovation a z
                  target_bit_count q
          ∧ (∀ p, min_pow ≤ p → p < pow →
              trial_distance inn_gains locals bwc innovation halved_innovation a z
                  target_bit_count q
                ≤ trial_distance inn_gains locals bwc innovation halved_innovation a z
                  target_bit_count p)
          ∧ (∀ p, min_pow ≤ p → p < q →
              trial_distance inn_gains locals bwc innovation halved_innovation a z
                  target_bit_count q
                < trial_distance inn_gains locals bwc innovation halved_innovation a z
                  target_bit_count p)) →
      ∃ q, min_pow ≤ q ∧ q ≤ 63
        ∧ (∃ scratch out,
            (huffman_trial_loop inn_gains locals bwc innovation halved_innovation a z
                target_bit_count min_pow fuel pow s).encodings
              (c_not (huffman_trial_loop inn_gains locals bwc innovation halved_innovation a z
                target_bit_count min_pow fuel pow s).m)
            = encode_huffman inn_gains (locals q) (trial_writer bwc scratch) out innovation
                halved_innovation q a z)
        ∧ (∀ p, min_pow ≤ p → p ≤ 63 →
            trial_distance inn_gains locals bwc innovation halved_innovation a z
                target_bit_count q
              ≤ trial_distance inn_gains locals bwc innovation halved_innovation a z
                target_bit_count p)
        ∧ (∀ p, min_pow ≤ p → p < q →
            trial_distance inn_gains locals bwc innovation halved_innovation a z
                target_bit_count q
              < trial_distance inn_gains locals bwc innovation halved_innovation a z
                target_bit_count p) := by
  have hdone : ∀ (s : trial_state),
      ((64 : Nat) = min_pow
        ∨ ∃ q, min_pow ≤ q ∧ q < 64
          ∧ (∃ scratch out, s.encodings (c_not s.m)
              = encode_huffman inn_gains (locals q) (trial_writer bwc scratch) out innovation
                  halved_innovation q a z)
          ∧ s.best_distance
              = trial_distance inn_gains locals bwc innovation halved_innovation a z
                  target_bit_count q
          ∧ (∀ p, min_pow ≤ p → p < 64 →
              trial_distance inn_gains locals bwc innovation halved_innovation a z
                  target_bit_count q
                ≤ trial_distance inn_gains locals bwc innovation halved_innovation a z
                  target_bit_count p)
          ∧ (∀ p, min_pow ≤ p → p < q →
              trial_distance inn_gains locals bwc innovation halved_innovation a z
                  target_bit_count q
                < trial_distance inn_gains locals bwc innovation halved_innovation a z
                  target_bit_count p)) →
      ∃ q, min_pow ≤ q ∧ q ≤ 63
        ∧ (∃ scratch out, s.encodings (c_not s.m)
            = encode_huffman inn_gains (locals q) (trial_writer bwc scratch) out innovation
                halved_innovation q a z)
        ∧ (∀ p, min_pow ≤ p → p ≤ 63 →
            trial_distance inn_gains locals bwc innovation halved_innovation a z
                target_bit_count q
              ≤ trial_distance inn_gains locals bwc innovation halved_innovation a z
                target_bit_count p)
        ∧ (∀ p, min_pow ≤ p → p < q →
            trial_distance inn_gains locals bwc innovation halved_innovation a z
                target_bit_count q
              < trial_distance inn_gains locals bwc innovation halved_innovation a z
                target_bit_count p) := by
    intro s h
    rcases h with h | ⟨q, q1, q2, q3, _, q5, q6⟩
    · omega
    · exact ⟨q, q1, by omega, q3, fun p h1 h2 => q5 p h1 (by omega), q6⟩
  intro fuel
  induction fuel with
  | zero =>
    intro pow s h1 h2 h3 _ hinv
    have hp : pow = 64 := by omega
    subst hp
    exact hdone s hinv
  | succ fuel ih =>
    intro pow s h1 h2 h3 hm hinv
    by_cases hp : pow ≤ 63
    · rw [huffman_trial_loop, if_pos hp]
      dsimp only
      rw [trial_distance_eq]
      by_cases hc : pow = min_pow
          ∨ trial_distance inn_gains locals bwc innovation halved_innovation a z
              target_bit_count pow < s.best_distance
      · rw [if_pos hc]
        refine ih (pow + 1) _ (by omega) (by omega) (by omega) ?_ ?_
        · exact c_not_lt_two _
        right
        refine ⟨pow, h1, by omega, ⟨(s.encodings s.m).bwc, (s.encodings s.m).innovation, ?_⟩,
          rfl, ?_, ?_⟩
        · dsimp only
          rw [c_not_c_not _ hm]
          simp [store]
        · intro p hp1 hp2
          by_cases hpp : p = pow
          · rw [hpp]
          · rcases hinv with hinv | ⟨q, q1, q2, _, q4, q5, _⟩
            · omega
            · rcases hc with hc | hc
              · omega
              · rw [q4] at hc
                exact le_trans hc.le (q5 p hp1 (by omega))
        · intro p hp1 hp2
          rcases hinv with hinv | ⟨q, q1, q2, _, q4, q5, _⟩
          · omega
          · rcases hc with hc | hc
            · omega
            · rw [q4] at hc
              exact lt_of_lt_of_le hc (q5 p hp1 hp2)
      · rw [if_neg hc]
        have hc1 : pow ≠ min_pow := fun h => hc (Or.inl h)
        have hc2 : s.best_distance
            ≤ trial_distance inn_gains locals bwc innovation halved_innovation a z
              target_bit_count pow := not_lt.mp (fun h => hc (Or.inr h))
        refine ih (pow + 1) _ (by omega) (by omega) (by omega) ?_ ?_
        · exact hm
        right
        rcases hinv with hinv | ⟨q, q1, q2, ⟨scratch, out, q3⟩, q4, q5, q6⟩
        · exact absurd hinv hc1
        · refine ⟨q, q1, by omega, ⟨scratch, out, ?_⟩, q4, ?_, q6⟩
          · dsimp only
            rw [← q3]
            simp [store, c_not_ne]
          · intro p hp1 hp2
            by_cases hpp : p = pow
            · rw [hpp, ← q4]
              exact hc2
            · exact q5 p hp1 (by omega)
    · have hp64 : pow = 64 := by omega
      subst hp64
      rw [huffman_trial_loop, if_neg hp]
      exact hdone s hinv

/-- `encode_innovation` with the Huffman coder, in terms of the final state of its trial
loop. -/
theorem encode_innovation_huffman_parts (inn_gains : Nat → ℚ)
    (encodings : Nat → innovation_encoding) (locals : Nat → huffman_locals)
    (bwc : bit_writer_context) (innovation : Int → ℚ) (halved_innovation use_huffman : Nat)
    (target_bit_count : Int) (az : Nat × Nat) (innovation1 : Int → ℚ) (min_pow : Nat)
    (s : trial_state) (hu : use_huffman ≠ 0)
    (haz : (if halved_innovation ≠ 0 then find_a_z_flags innovation else (0, 1)) = az)
    (hx : (if halved_innovation ≠ 0 then low_pass_innovation innovation az.1 az.2
      else innovation) = innovation1)
    (hmin : find_min_pow inn_gains az.2
      (max_value_loop innovation1 (innovation_interval halved_innovation) az.1) 63 = min_pow)
    (hs : huffman_trial_loop inn_gains locals bwc innovation1 halved_innovation az.1 az.2
      target_bit_count min_pow 64 min_pow
      { encodings := encodings, m := 0, best_distance := 0, best_error := 0 } = s) :
    encode_innovation inn_gains encodings locals bwc innovation halved_innovation use_huffman
        target_bit_count
      = { bwc :=
            { written_bits_count := (s.encodings (c_not s.m)).bwc.written_bits_count
              pos := bwc.pos + (s.encodings (c_not s.m)).bwc.pos
              buffer := fun j =>
                if bwc.pos ≤ j ∧ j ≤ bwc.pos + (s.encodings (c_not s.m)).bwc.pos then
                  (s.encodings (c_not s.m)).bwc.buffer (j - bwc.pos)
                else bwc.buffer j }
          innovation :=
            if halved_innovation ≠ 0 then
              interpolate
                (fun j => if 0 ≤ j ∧ j < 108 then (s.encodings (c_not s.m)).innovation j
                  else innovation1 j) az.1 az.2
            else
              fun j => if 0 ≤ j ∧ j < 108 then (s.encodings (c_not s.m)).innovation j
                else innovation1 j
          bits_used := (s.encodings (c_not s.m)).bits_used
          a := az.1
          z := az.2
          committed := s.encodings (c_not s.m) } := by
  subst haz hx hmin hs
  unfold encode_innovation
  simp only [if_pos hu]

/-- C23 (amended): in Huffman mode, for every gain table, stack content, writer, block,
mode and target, with the flags a and z, the filtered block and `min_pow` as
`encode_innovation` computes them: there is a power p in `min_pow..63` such that the
committed encoding is the result of the `encode_huffman` trial with power p (run on one
of the scratch buffers); the distance `|bits_used - target_bit_count|` of p is minimal
among the powers `min_pow..63`, and every smaller power in that range has a strictly
larger distance, that is, of several equally close powers the smallest, the one tried
first, is committed.  The `bits_used` handed back, the bytes copied into the stream
and the samples copied into the innovation array (before the interpolation of the
halved mode) are those of that same trial. -/
theorem C23_closest_trial_smallest_power (inn_gains : Nat → ℚ)
    (encodings : Nat → innovation_encoding) (locals : Nat → huffman_locals)
    (bwc : bit_writer_context) (innovation : Int → ℚ) (halved_innovation use_huffman : Nat)
    (target_bit_count : Int) (a z : Nat) (innovation1 : Int → ℚ) (min_pow : Nat)
    (hu : use_huffman ≠ 0)
    (haz : (if halved_innovation ≠ 0 then find_a_z_flags innovation else (0, 1)) = (a, z))
    (hx : (if halved_innovation ≠ 0 then low_pass_innovation innovation a z
      else innovation) = innovation1)
    (hmin : find_min_pow inn_gains z
      (max_value_loop innovation1 (innovation_interval halved_innovation) a) 63 = min_pow) :
    ∃ p, min_pow ≤ p ∧ p ≤ 63
      ∧ (∃ scratch out,
          (encode_innovation inn_gains encodings locals bwc innovation halved_innovation
              use_huffman target_bit_count).committed
            = encode_huffman inn_gains (locals p) (trial_writer bwc scratch) out innovation1
                halved_innovation p a z)
      ∧ (∀ q, min_pow ≤ q → q ≤ 63 →
          trial_distance inn_gains locals bwc innovation1 halved_innovation a z
              target_bit_count p
            ≤ trial_distance inn_gains locals bwc innovation1 halved_innovation a z
              target_bit_count q)
      ∧ (∀ q, min_pow ≤ q → q < p →
          trial_distance inn_gains locals bwc innovation1 halved_innovation a z
              target_bit_count p
            < trial_distance inn_gains locals bwc innovation1 halved_innovation a z
              target_bit_count q)
      ∧ ABSi ((encode_innovation inn_gains encodings locals bwc innovation halved_innovation
            use_huffman target_bit_count).bits_used - target_bit_count)
          = trial_distance inn_gains locals bwc innovation1 halved_innovation a z
              target_bit_count p
      ∧ (encode_innovation inn_gains encodings locals bwc innovation halved_innovation
            use_huffman target_bit_count).bits_used
          = (encode_innovation inn_gains encodings locals bwc innovation halved_innovation
              use_huffman target_bit_count).committed.bits_used
      ∧ (encode_innovation inn_gains encodings locals bwc innovation halved_innovation
            use_huffman target_bit_count).bwc.pos
          = bwc.pos
            + (encode_innovation inn_gains encodings locals bwc innovation halved_innovation
                use_huffman target_bit_count).committed.bwc.pos
      ∧ (encode_innovation inn_gains encodings locals bwc innovation halved_innovation
            use_huffman target_bit_count).bwc.written_bits_count
          = (encode_innovation inn_gains encodings locals bwc innovation halved_innovation
              use_huffman target_bit_count).committed.bwc.written_bits_count
      ∧ (∀ j, bwc.pos ≤ j →
          j ≤ bwc.pos
            + (encode_innovation inn_gains encodings locals bwc innovation halved_innovation
                use_huffman target_bit_count).committed.bwc.pos →
          (encode_innovation inn_gains encodings locals bwc innovation halved_innovation
              use_huffman target_bit_count).bwc.buffer j
            = (encode_innovation inn_gains encodings locals bwc innovation halved_innovation
                use_huffman target_bit_count).committed.bwc.buffer (j - bwc.pos))
      ∧ (encode_innovation inn_gains encodings locals bwc innovation halved_innovation
            use_huffman target_bit_count).innovation
          = (if halved_innovation ≠ 0 then
              interpolate
                (fun j =>
                  if 0 ≤ j ∧ j < 108 then
                    (encode_innovation inn_gains encodings locals bwc innovation
                      halved_innovation use_huffman target_bit_count).committed.innovation j
                  else innovation1 j) a z
            else
              fun j =>
                if 0 ≤ j ∧ j < 108 then
                  (encode_innovation inn_gains encodings locals bwc innovation
                    halved_innovation use_huffman target_bit_count).committed.innovation j
                else innovation1 j) := by
  obtain ⟨s, hs⟩ : ∃ s, huffman_trial_loop inn_gains locals bwc innovation1 halved_innovation
      a z target_bit_count min_pow 64 min_pow
      { encodings := encodings, m := 0, best_distance := 0, best_error := 0 } = s := ⟨_, rfl⟩
  have hle : min_pow ≤ 63 := by
    rw [← hmin]
    exact (find_min_pow_spec _ _ _ 63).1
  have spec := huffman_trial_loop_spec inn_gains locals bwc innovation1 halved_innovation a z
    target_bit_count min_pow hle 64 min_pow
    { encodings := encodings, m := 0, best_distance := 0, best_error := 0 }
    (le_refl _) (by omega) (by omega) (show (0 : Nat) < 2 by decide) (Or.inl rfl)
  rw [hs] at spec
  obtain ⟨p, p1, p2, ⟨scratch, out, p3⟩, p4, p5⟩ := spec
  have key := encode_innovation_huffman_parts inn_gains encodings locals bwc innovation
    halved_innovation use_huffman target_bit_count (a, z) innovation1 min_pow s hu haz hx hmin hs
  rw [key]
  dsimp only
  refine ⟨p, p1, p2, ⟨scratch, out, p3⟩, p4, p5, ?_, rfl, rfl, rfl, ?_, rfl⟩
  · rw [p3]
    exact trial_distance_eq _ _ _ _ _ _ _ _ _ _ _
  · intro j hj1 hj2
    rw [if_pos ⟨hj1, hj2⟩]

/-- C23 witness: default gains (64, 1.068), full mode, target 138, a block that is zero
except for `innovation[0] = 50664`: `min_pow` is 62 and the committed encoding is the
trial of a power in 62..63. -/
theorem C23_closest_trial_smallest_power_witness :
    ∃ p, 62 ≤ p ∧ p ≤ 63
      ∧ ∃ scratch out,
          (encode_innovation (inn_gains 64 1.068)
              (fun _ => ⟨bwc_init (fun _ => 0), fun _ => 0, 0, 0, 0, []⟩)
              (fun _ => ⟨fun _ => 0, fun _ => 0⟩) (bwc_init (fun _ => 0))
              (fun i => if i = 0 then 50664 else 0) 0 1 138).committed
            = encode_huffman (inn_gains 64 1.068)
                ((fun (_ : Nat) => (⟨fun _ => 0, fun _ => 0⟩ : huffman_locals)) p)
                (trial_writer (bwc_init (fun _ => 0)) scratch) out
                (fun i => if i = 0 then 50664 else 0) 0 p 0 1 :=
  (C23_closest_trial_smallest_power (inn_gains 64 1.068)
    (fun _ => ⟨bwc_init (fun _ => 0), fun _ => 0, 0, 0, 0, []⟩)
    (fun _ => ⟨fun _ => 0, fun _ => 0⟩) (bwc_init (fun _ => 0))
    (fun i => if i = 0 then 50664 else 0) 0 1 138 0 1 (fun i => if i = 0 then 50664 else 0) 62
    (by decide) rfl rfl (by decide!)).imp (fun _ h => ⟨h.1, h.2.1, h.2.2.1⟩)

/-- C23 (counterexample): default gains (64, 1.068), full mode, Huffman coding, target
138 bits, a block that is zero except for `innovation[0] = 50664`.  `min_pow` is 62; the
trials of the powers 62 and 63 both quantise the sample to the symbol 13 and use 49
bits, so both are at distance 89 from the target.  `encode_innovation` commits the
trial of power 62, the smaller of the two, and leaves `13 * G(62)` in the block, not
`13 * G(63)`: a later trial replaces the best one only when it is strictly closer. -/
theorem C23_tie_commits_smaller_power :
    find_min_pow (inn_gains 64 1.068) 1
        (max_value_loop (fun i => if i = 0 then 50664 else 0) (innovation_interval 0) 0) 63
      = 62
    ∧ (encode_huffman (inn_gains 64 1.068) ⟨fun _ => 0, fun _ => 0⟩
        (trial_writer (bwc_init (fun _ => 0)) (bwc_init (fun _ => 0))) (fun _ => 0)
        (fun i => if i = 0 then 50664 else 0) 0 62 0 1).bits_used = 49
    ∧ (encode_huffman (inn_gains 64 1.068) ⟨fun _ => 0, fun _ => 0⟩
        (trial_writer (bwc_init (fun _ => 0)) (bwc_init (fun _ => 0))) (fun _ => 0)
        (fun i => if i = 0 then 50664 else 0) 0 63 0 1).bits_used = 49
    ∧ trial_distance (inn_gains 64 1.068) (fun _ => ⟨fun _ => 0, fun _ => 0⟩)
        (bwc_init (fun _ => 0)) (fun i => if i = 0 then 50664 else 0) 0 0 1 138 62 = 89
    ∧ trial_distance (inn_gains 64 1.068) (fun _ => ⟨fun _ => 0, fun _ => 0⟩)
        (bwc_init (fun _ => 0)) (fun i => if i = 0 then 50664 else 0) 0 0 1 138 63 = 89
    ∧ (encode_innovation (inn_gains 64 1.068)
        (fun _ => ⟨bwc_init (fun _ => 0), fun _ => 0, 0, 0, 0, []⟩)
        (fun _ => ⟨fun _ => 0, fun _ => 0⟩) (bwc_init (fun _ => 0))
        (fun i => if i = 0 then 50664 else 0) 0 1 138).committed.pow = 62
    ∧ (encode_innovation (inn_gains 64 1.068)
        (fun _ => ⟨bwc_init (fun _ => 0), fun _ => 0, 0, 0, 0, []⟩)
        (fun _ => ⟨fun _ => 0, fun _ => 0⟩) (bwc_init (fun _ => 0))
        (fun i => if i = 0 then 50664 else 0) 0 1 138).bits_used = 49
    ∧ (encode_innovation (inn_gains 64 1.068)
        (fun _ => ⟨bwc_init (fun _ => 0), fun _ => 0, 0, 0, 0, []⟩)
        (fun _ => ⟨fun _ => 0, fun _ => 0⟩) (bwc_init (fun _ => 0))
        (fun i => if i = 0 then 50664 else 0) 0 1 138).innovation 0
      = 13 * inn_gains 64 1.068 62
    ∧ 13 * inn_gains 64 1.068 62 ≠ 13 * inn_gains 64 1.068 63 := by
  refine ⟨by decide!, by decide!, by decide!, by decide!, by decide!, by decide!, by decide!,
    by decide!, by decide!⟩
/-! ## C30: `levinson_durbin_symmetric` solves the Toeplitz system -/

/-- A loop that subtracts computes a difference with a sum. -/
theorem for_range_sub_sum (f : Nat → ℚ) :
    ∀ (count i : Nat) (acc : ℚ),
      for_range (fun j c => c - f j) count i acc
        = acc - ∑ k in Finset.range count, f (i + k) := by
  intro count
  induction count with
  | zero => intro i acc; simp [for_range]
  | succ n ih =>
    intro i acc
    rw [for_range, ih, Finset.sum_range_succ']
    have e : ∀ k, f (i + 1 + k) = f (i + (k + 1)) := fun k => by
      rw [Nat.add_right_comm, Nat.add_assoc]
    simp only [e, add_zero]
    ring

/-- `levinson_durbin_symmetric` in terms of the state before its exits. -/
theorem levinson_durbin_symmetric_eq (x k r y : Nat → ℚ) :
    levinson_durbin_symmetric x k r y
      = if (levinson_durbin_state x k r y).zero then
          (for_range (fun i x => store x i 0) 12 0 (levinson_durbin_state x k r y).x,
            for_range (fun i k => store k i 0) 12 0 (levinson_durbin_state x k r y).k)
        else
          ((levinson_durbin_state x k r y).x,
            store (levinson_durbin_state x k r y).k 11
              (-((levinson_durbin_state x k r y).x 11))) := rfl

/-- A row of the system applied to a vector whose last entry is zero. -/
theorem toeplitz_row_pad (r v : Nat → ℚ) (i l : Nat) :
    toeplitz_row r (fun t => if t < i then v t else 0) (i + 1) l = toeplitz_row r v i l := by
  unfold toeplitz_row
  rw [Finset.sum_range_succ]
  simp only [lt_irrefl, if_false, mul_zero, add_zero]
  apply Finset.sum_congr rfl
  intro j hj
  rw [if_pos (Finset.mem_range.mp hj)]

/-- A row of the system applied to the reversed vector is the mirrored row applied to
the vector. -/
theorem toeplitz_row_reflect (r v : Nat → ℚ) (i l : Nat) (hl : l ≤ i) :
    toeplitz_row r (fun t => v (i - t)) (i + 1) l = toeplitz_row r v (i + 1) (i - l) := by
  unfold toeplitz_row
  rw [← Finset.sum_range_reflect
    (fun j => r (Int.natAbs (((i - l : Nat) : Int) - (j : Int))) * v j) (i + 1)]
  apply Finset.sum_congr rfl
  intro j hj
  have hj2 : j ≤ i := by
    have := Finset.mem_range.mp hj
    omega
  have e1 : i + 1 - 1 - j = i - j := by omega
  have e2 : Int.natAbs (((i - l : Nat) : Int) - ((i - j : Nat) : Int))
      = Int.natAbs ((l : Int) - (j : Int)) := by omega
  simp only [e1, e2]

/-- A row of the system is linear. -/
theorem toeplitz_row_add_mul (r v w : Nat → ℚ) (c : ℚ) (n l : Nat) :
    toeplitz_row r (fun t => v t + c * w t) n l
      = toeplitz_row r v n l + c * toeplitz_row r w n l := by
  unfold toeplitz_row
  rw [Finset.mul_sum, ← Finset.sum_add_distrib]
  apply Finset.sum_congr rfl
  intro j _
  ring

/-- A row of the system depends on the entries below the size only. -/
theorem toeplitz_row_congr (r v w : Nat → ℚ) (n l : Nat) (h : ∀ t, t < n → v t = w t) :
    toeplitz_row r v n l = toeplitz_row r w n l := by
  unfold toeplitz_row
  apply Finset.sum_congr rfl
  intro j hj
  rw [h j (Finset.mem_range.mp hj)]

/-- The last row applied to a vector of the previous size is the sum the code
accumulates in `u` or subtracts from `m`. -/
theorem toeplitz_row_last (r v : Nat → ℚ) (i : Nat) :
    toeplitz_row r v i i = ∑ j in Finset.range i, v j * r (i - j) := by
  unfold toeplitz_row
  apply Finset.sum_congr rfl
  intro j hj
  have hj2 := Finset.mem_range.mp hj
  have e : Int.natAbs ((i : Int) - (j : Int)) = i - j := by omega
  rw [e, mul_comm]

/-- The order update of the forward vector: if `a` of size `i` has the residual
`(e, 0, ..., 0)`, then `a + kk * reverse(a)`, both padded with a zero, has the residual
`(e + u * kk, 0, ..., 0)` of size `i + 1` when `kk * e = -u`, `u` being the last row
applied to `a`. -/
theorem levinson_forward_update (r a a2 : Nat → ℚ) (i : Nat) (hi : 1 ≤ i) (e kk : ℚ)
    (hB : ∀ l, l < i → toeplitz_row r a i l = if l = 0 then e else 0)
    (ha2 : ∀ t, t ≤ i →
      a2 t = (if t < i then a t else 0) + kk * (if i - t < i then a (i - t) else 0))
    (hk : kk * e = -(toeplitz_row r a i i)) :
    ∀ l, l ≤ i →
      toeplitz_row r a2 (i + 1) l = if l = 0 then e + toeplitz_row r a i i * kk else 0 := by
  intro l hl
  have hR : ∀ l2, l2 ≤ i →
      toeplitz_row r (fun t => if t < i then a t else 0) (i + 1) l2
        = if l2 < i then (if l2 = 0 then e else 0) else toeplitz_row r a i i := by
    intro l2 hl2
    rw [toeplitz_row_pad]
    by_cases h : l2 < i
    · rw [if_pos h, hB l2 h]
    · rw [if_neg h]
      have : l2 = i := by omega
      rw [this]
  have h1 : toeplitz_row r a2 (i + 1) l
      = toeplitz_row r (fun t => (fun t => if t < i then a t else 0) t
          + kk * (fun t => (fun t => if t < i then a t else 0) (i - t)) t) (i + 1) l := by
    apply toeplitz_row_congr
    intro t ht
    exact ha2 t (by omega)
  rw [h1, toeplitz_row_add_mul,
    toeplitz_row_reflect r (fun t => if t < i then a t else 0) i l hl, hR l hl,
    hR (i - l) (by omega)]
  by_cases h0 : l = 0
  · subst h0
    have hi0 : 0 < i := by omega
    simp only [hi0, if_true, Nat.sub_zero, lt_irrefl, if_false]
    ring
  · by_cases hli : l < i
    · have h2 : i - l < i := by omega
      have h3 : ¬ (i - l = 0) := by omega
      simp only [h0, hli, h2, h3, if_true, if_false]
      ring
    · have hle : l = i := by omega
      subst hle
      have h2 : l - l = 0 := by omega
      have h3 : 0 < l := by omega
      simp only [h0, hli, h2, h3, if_true, if_false]
      linarith

/-- The order update of the solution: if `x` of size `i` solves the system of size `i`
and `a2` of size `i + 1` has the residual `(e2, 0, ..., 0)`, then `x` padded with a zero
plus `m * reverse(a2)` solves the system of size `i + 1` when
`m * e2 = y[i] - (last row applied to x)`. -/
theorem levinson_solution_update (r y x x2 a2 : Nat → ℚ) (i : Nat) (e2 m : ℚ)
    (hC : ∀ l, l < i → toeplitz_row r x i l = y l)
    (hB2 : ∀ l, l ≤ i → toeplitz_row r a2 (i + 1) l = if l = 0 then e2 else 0)
    (hx2 : ∀ t, t ≤ i → x2 t = (if t < i then x t else 0) + m * a2 (i - t))
    (hm : m * e2 = y i - toeplitz_row r x i i) :
    ∀ l, l ≤ i → toeplitz_row r x2 (i + 1) l = y l := by
  intro l hl
  have h1 : toeplitz_row r x2 (i + 1) l
      = toeplitz_row r (fun t => (fun t => if t < i then x t else 0) t
          + m * (fun t => a2 (i - t)) t) (i + 1) l := by
    apply toeplitz_row_congr
    intro t ht
    exact hx2 t (by omega)
  rw [h1, toeplitz_row_add_mul, toeplitz_row_reflect r a2 i l hl, toeplitz_row_pad,
    hB2 (i - l) (by omega)]
  by_cases hli : l < i
  · have h3 : ¬ (i - l = 0) := by omega
    rw [hC l hli, if_neg h3]
    ring
  · have hle : l = i := by omega
    subst hle
    have h2 : l - l = 0 := by omega
    rw [if_pos h2]
    linarith

/-- One step of the recursion in terms of the values it computes. -/
theorem levinson_step_parts (r y : Nat → ℚ) (i : Nat) (s : levinson_state) (u kk e m : ℚ)
    (a x : Nat → ℚ) (hz : s.zero = false)
    (hu : for_range (fun j u => u + s.a j * r (i - j)) i 0 0 = u)
    (hk : -u / s.e = kk)
    (he : s.e + u * kk = e)
    (ha : for_range (fun j a => store a j (a j + kk * s.a (i - j))) i 1 (store s.a i 0) = a)
    (hm : for_range (fun j m => m - s.x j * r (i - j)) i 0 (y i) / e = m)
    (hx : for_range (fun j x => store x j (x j + m * a (i - j))) (i + 1) 0 (store s.x i 0) = x) :
    levinson_step r y i s
      = if e ≤ 1 / 32768 ∧ e ≥ -(1 / 32768) then
          { x := s.x, k := store s.k (i - 1) kk, a := s.a, e := e, zero := true }
        else { x := x, k := store s.k (i - 1) kk, a := a, e := e, zero := false } := by
  have hs : store s.k (i - 1) (-u / s.e) (i - 1) = -u / s.e := by simp [store]
  subst hk he ha hm hx
  unfold levinson_step
  rw [if_neg (by simp [hz])]
  simp only [hu, hs]

/-- The recursion, once it has jumped to `zero`, stays there. -/
theorem levinson_step_zero (r y : Nat → ℚ) (i : Nat) (s : levinson_state)
    (h : (levinson_step r y i s).zero = false) : s.zero = false := by
  by_contra hz
  have hz1 : s.zero = true := by simpa using hz
  unfold levinson_step at h
  rw [if_pos hz1, hz1] at h
  exact absurd h (by decide)

/-- One step of the recursion keeps the invariant: the forward vector `a` of size `i` has
the residual `(e, 0, ..., 0)`, `x` solves the system of size `i`, and `e` is not zero. -/
theorem levinson_step_invariant (r y : Nat → ℚ) (i : Nat) (hi : 1 ≤ i) (s : levinson_state)
    (hB : ∀ l, l < i → toeplitz_row r s.a i l = if l = 0 then s.e else 0)
    (hC : ∀ l, l < i → toeplitz_row r s.x i l = y l)
    (he : s.e ≠ 0)
    (hz : (levinson_step r y i s).zero = false) :
    (∀ l, l < i + 1 →
      toeplitz_row r (levinson_step r y i s).a (i + 1) l
        = if l = 0 then (levinson_step r y i s).e else 0)
    ∧ (∀ l, l < i + 1 → toeplitz_row r (levinson_step r y i s).x (i + 1) l = y l)
    ∧ (levinson_step r y i s).e ≠ 0 := by
  have hz0 := levinson_step_zero r y i s hz
  have key := levinson_step_parts r y i s _ _ _ _ _ _ hz0 rfl rfl rfl rfl rfl rfl
  have hu : for_range (fun j u => u + s.a j * r (i - j)) i 0 0 = toeplitz_row r s.a i i := by
    rw [toeplitz_row_last]
    have h := for_range_sum (fun j => s.a j * r (i - j)) i 0 0
    simp only [zero_add] at h
    exact h
  have hw : for_range (fun j m => m - s.x j * r (i - j)) i 0 (y i)
      = y i - toeplitz_row r s.x i i := by
    rw [toeplitz_row_last]
    have h := for_range_sub_sum (fun j => s.x j * r (i - j)) i 0 (y i)
    simp only [zero_add] at h
    exact h
  rw [hu, hw] at key
  rw [key] at hz ⊢
  by_cases hsmall : s.e + toeplitz_row r s.a i i * (-toeplitz_row r s.a i i / s.e) ≤ 1 / 32768
      ∧ s.e + toeplitz_row r s.a i i * (-toeplitz_row r s.a i i / s.e) ≥ -(1 / 32768)
  · rw [if_pos hsmall] at hz
    simp at hz
  · rw [if_neg hsmall]
    dsimp only
    have he2 : s.e + toeplitz_row r s.a i i * (-toeplitz_row r s.a i i / s.e) ≠ 0 := by
      intro h0
      apply hsmall
      rw [h0]
      constructor <;> norm_num
    have hB2 := levinson_forward_update r s.a
      (for_range
        (fun j a => store a j (a j + -toeplitz_row r s.a i i / s.e * s.a (i - j))) i 1
        (store s.a i 0))
      i hi s.e (-toeplitz_row r s.a i i / s.e) hB
      (by
        intro t ht
        rw [for_range_store_map
          (fun j v => v + -toeplitz_row r s.a i i / s.e * s.a (i - j)) i 1 (store s.a i 0) t]
        by_cases h0 : t = 0
        · subst h0
          have hi0 : 0 < i := by omega
          have hne : ¬ (0 = i) := by omega
          simp [store, hne, hi0]
        · by_cases hti : t < i
          · have hne : ¬ (t = i) := by omega
            have h2 : i - t < i := by omega
            simp only [store, hne, hti, h2, if_true, if_false]
            rw [if_pos (by omega)]
          · have hte : t = i := by omega
            subst hte
            have h3 : 0 < t := by omega
            simp only [store, lt_irrefl, if_true, if_false, Nat.sub_self, h3]
            rw [if_pos (by omega)])
      (div_mul_cancel₀ _ he)
    refine ⟨fun l hl => hB2 l (by omega), ?_, he2⟩
    intro l hl
    refine levinson_solution_update r y s.x _ _ i
      (s.e + toeplitz_row r s.a i i * (-toeplitz_row r s.a i i / s.e))
      ((y i - toeplitz_row r s.x i i)
        / (s.e + toeplitz_row r s.a i i * (-toeplitz_row r s.a i i / s.e)))
      hC hB2 ?_ (div_mul_cancel₀ _ he2) l (by omega)
    intro t ht
    rw [for_range_store_map
      (fun j v => v + (y i - toeplitz_row r s.x i i)
        / (s.e + toeplitz_row r s.a i i * (-toeplitz_row r s.a i i / s.e))
        * (for_range
            (fun j a => store a j (a j + -toeplitz_row r s.a i i / s.e * s.a (i - j))) i 1
            (store s.a i 0)) (i - j)) (i + 1) 0 (store s.x i 0) t]
    rw [if_pos (by omega)]
    by_cases hti : t < i
    · have hne : ¬ (t = i) := by omega
      simp only [store, hne, hti, if_true, if_false]
    · have hte : t = i := by omega
      subst hte
      simp only [store, lt_irrefl, if_true, if_false]

/-- The state before the exits: unless one of the two `goto zero` was taken, `x` solves
the system of size 12. -/
theorem levinson_durbin_state_spec (x k r y : Nat → ℚ)
    (hz : (levinson_durbin_state x k r y).zero = false) :
    ∀ l, l < 12 → toeplitz_row r (levinson_durbin_state x k r y).x 12 l = y l := by
  unfold levinson_durbin_state at hz ⊢
  by_cases h0 : r 0 ≤ 1 / 32768 ∧ r 0 ≥ -(1 / 32768)
  · rw [if_pos h0] at hz
    simp at hz
  · rw [if_neg h0] at hz ⊢
    have hr : r 0 ≠ 0 := by
      intro h
      apply h0
      rw [h]
      constructor <;> norm_num
    have hinv := for_range_induction (levinson_step r y)
      (fun i s => 1 ≤ i ∧ (s.zero = false →
        (∀ l, l < i → toeplitz_row r s.a i l = if l = 0 then s.e else 0)
        ∧ (∀ l, l < i → toeplitz_row r s.x i l = y l)
        ∧ s.e ≠ 0))
      (by
        intro i s h
        obtain ⟨hi, h⟩ := h
        refine ⟨by omega, ?_⟩
        intro hz2
        obtain ⟨hB, hC, he⟩ := h (levinson_step_zero r y i s hz2)
        exact levinson_step_invariant r y i hi s hB hC he hz2)
      11 1
      { x := store x 0 (y 0 / r 0), k := k, a := store (fun _ => 0) 0 1, e := r 0,
        zero := false }
      (by
        refine ⟨le_refl _, fun _ => ⟨?_, ?_, hr⟩⟩
        · intro l hl
          have : l = 0 := by omega
          subst this
          simp [toeplitz_row, store]
        · intro l hl
          have : l = 0 := by omega
          subst this
          simp only [toeplitz_row, store, Finset.sum_range_one, Nat.cast_zero, sub_self,
            Int.natAbs_zero, if_true]
          field_simp)
    exact (hinv.2 hz).2.1

/-- C30: in exact arithmetic, for every content of the arrays: unless
`levinson_durbin_symmetric` jumps to `zero` (which it does when `|r[0]| <= 1/32768` or
when an updated `e` has `|e| <= 1/32768`), the `x` it returns satisfies
`sum over j = 0..11 of r[|i - j|] * x[j] = y[i]` for every i in 0..11; when it jumps to
`zero`, the entries 0..11 of the `x` and of the `k` it returns are 0. -/
theorem C30_levinson_durbin_solves (x k r y : Nat → ℚ) :
    ((levinson_durbin_state x k r y).zero = false →
      ∀ i : Nat, i < 12 →
        ∑ j in Finset.range 12,
          r (Int.natAbs ((i : Int) - (j : Int))) * (levinson_durbin_symmetric x k r y).1 j
          = y i)
    ∧ ((levinson_durbin_state x k r y).zero = true →
      ∀ i : Nat, i < 12 →
        (levinson_durbin_symmetric x k r y).1 i = 0
        ∧ (levinson_durbin_symmetric x k r y).2 i = 0)
    ∧ ((r 0 ≤ 1 / 32768 ∧ r 0 ≥ -(1 / 32768)) →
      (levinson_durbin_state x k r y).zero = true) := by
  refine ⟨?_, ?_, ?_⟩
  · intro hz i hi
    have h := levinson_durbin_state_spec x k r y hz i hi
    rw [levinson_durbin_symmetric_eq, hz]
    exact h
  · intro hz i hi
    rw [levinson_durbin_symmetric_eq, hz]
    simp only [if_true]
    rw [for_range_store_map (fun _ _ => (0 : ℚ)) 12 0 _ i,
      for_range_store_map (fun _ _ => (0 : ℚ)) 12 0 _ i, if_pos (by omega), if_pos (by omega)]
    exact ⟨rfl, rfl⟩
  · intro h0
    unfold levinson_durbin_state
    rw [if_pos h0]

/-- C30 witness: the autocorrelation `r[i] = 2^-i` with the right-hand side
`y[i] = r[i+1]` that `find_rc` passes: no exit to `zero` is taken, and row 3 of the
system holds for the returned `x`. -/
theorem C30_levinson_durbin_solves_witness :
    ∑ j in Finset.range 12,
      (fun (i : Nat) => (1 / 2 : ℚ) ^ i) (Int.natAbs (((3 : Nat) : Int) - (j : Int)))
        * (levinson_durbin_symmetric (fun _ => 0) (fun _ => 0) (fun i => (1 / 2 : ℚ) ^ i)
            (fun i => (1 / 2 : ℚ) ^ (i + 1))).1 j
      = (fun (i : Nat) => (1 / 2 : ℚ) ^ (i + 1)) 3 :=
  (C30_levinson_durbin_solves (fun _ => 0) (fun _ => 0) (fun i => (1 / 2 : ℚ) ^ i)
    (fun i => (1 / 2 : ℚ) ^ (i + 1))).1 (by decide!) 3 (by decide)

/-! ## C31: the reflection coefficients convert back to the prediction coefficients -/

/-- A counting loop run for one more iteration. -/
theorem for_range_succ_last {σ : Type} (body : Nat → σ → σ) :
    ∀ (count i : Nat) (s : σ),
      for_range body (count + 1) i s = body (i + count) (for_range body count i s) := by
  intro count
  induction count with
  | zero => intro i s; rfl
  | succ n ih =>
    intro i s
    have h := ih (i + 1) (body i s)
    rw [show i + 1 + n = i + (n + 1) by omega] at h
    exact h

/-- `rc_to_lpc` in terms of its forward vector. -/
theorem rc_to_lpc_eq (x k : Nat → ℚ) :
    rc_to_lpc x k
      = for_range (fun i x => store x (i - 1) (-(rc_to_lpc_forward k 12 i))) 12 1 x := rfl

/-- The entries `rc_to_lpc` writes. -/
theorem rc_to_lpc_get (x k : Nat → ℚ) (j : Nat) (hj : j < 12) :
    rc_to_lpc x k j = -(rc_to_lpc_forward k 12 (j + 1)) := by
  rw [rc_to_lpc_eq]
  generalize rc_to_lpc_forward k 12 = a
  interval_cases j <;> simp [for_range, store]

/-- The update of the forward vector, entry by entry. -/
theorem forward_update_get (a : Nat → ℚ) (kk : ℚ) (i t : Nat) :
    for_range (fun j a2 => store a2 j (a2 j + kk * a (i - j))) i 1 (store a i 0) t
      = if 1 ≤ t ∧ t ≤ i then (if t = i then 0 else a t) + kk * a (i - t)
        else (if t = i then 0 else a t) := by
  rw [for_range_store_map (fun j v => v + kk * a (i - j)) i 1 (store a i 0) t]
  have hs : store a i 0 t = if t = i then 0 else a t := rfl
  rw [hs]
  by_cases h : 1 ≤ t ∧ t < 1 + i
  · have h2 : 1 ≤ t ∧ t ≤ i := ⟨h.1, by omega⟩
    rw [if_pos h, if_pos h2]
  · have h2 : ¬ (1 ≤ t ∧ t ≤ i) := fun h2 => h ⟨h2.1, by omega⟩
    rw [if_neg h, if_neg h2]

/-- One more iteration of the first loop of `rc_to_lpc`. -/
theorem rc_to_lpc_forward_succ (k : Nat → ℚ) (n : Nat) :
    rc_to_lpc_forward k (n + 1)
      = for_range
          (fun j a2 => store a2 j (a2 j + k n * rc_to_lpc_forward k n (n + 1 - j)))
          (n + 1) 1 (store (rc_to_lpc_forward k n) (n + 1) 0) := by
  unfold rc_to_lpc_forward
  rw [for_range_succ_last]
  simp only [Nat.add_comm 1 n, Nat.add_sub_cancel]

/-- The first `n` iterations of `rc_to_lpc` read `k[0..n-1]` only. -/
theorem rc_to_lpc_forward_congr (k k2 : Nat → ℚ) (n : Nat) (h : ∀ t, t < n → k t = k2 t) :
    rc_to_lpc_forward k n = rc_to_lpc_forward k2 n := by
  unfold rc_to_lpc_forward
  apply for_range_congr
  intro i a h1 h2
  simp only [h (i - 1) (by omega)]

/-- The algebra of one step when the right-hand side is `r[1..]`: if `x` is the negated
tail of the forward vector that the reflection coefficient of this step produces, the
same holds after the step for the next reflection coefficient. -/
theorem levinson_reflection_update (r a x a2 x2 : Nat → ℚ) (i : Nat) (hi : 1 ≤ i) (e e2 : ℚ)
    (ha0 : a 0 = 1)
    (hJ : ∀ j, j < i → x j = -((if j + 1 < i then a (j + 1) else 0)
      + (-(∑ t in Finset.range i, a t * r (i - t)) / e) * a (i - 1 - j)))
    (ha2 : ∀ t, a2 t = if 1 ≤ t ∧ t ≤ i then
        (if t = i then 0 else a t) + (-(∑ t in Finset.range i, a t * r (i - t)) / e) * a (i - t)
      else (if t = i then 0 else a t))
    (hx2 : ∀ t, t ≤ i → x2 t = (if t = i then 0 else x t)
      + (r (i + 1) - ∑ t in Finset.range i, x t * r (i - t)) / e2 * a2 (i - t)) :
    a2 0 = 1 ∧
    ∀ j, j < i + 1 → x2 j = -((if j + 1 < i + 1 then a2 (j + 1) else 0)
      + (-(∑ t in Finset.range (i + 1), a2 t * r (i + 1 - t)) / e2) * a2 (i + 1 - 1 - j)) := by
  have h0 : a2 0 = 1 := by
    rw [ha2 0, if_neg (by omega), if_neg (by omega), ha0]
  have hxa : ∀ j, j < i → x j = -a2 (j + 1) := by
    intro j hj
    have hc : 1 ≤ j + 1 ∧ j + 1 ≤ i := ⟨by omega, by omega⟩
    rw [hJ j hj, ha2 (j + 1), if_pos hc]
    have e1 : i - (j + 1) = i - 1 - j := by omega
    rw [e1]
    by_cases h : j + 1 < i
    · have hne : ¬ (j + 1 = i) := by omega
      rw [if_pos h, if_neg hne]
    · have he : j + 1 = i := by omega
      rw [if_neg h, if_pos he]
  have hU : ∑ t in Finset.range (i + 1), a2 t * r (i + 1 - t)
      = r (i + 1) - ∑ t in Finset.range i, x t * r (i - t) := by
    rw [Finset.sum_range_succ', h0]
    have hs : ∑ t in Finset.range i, a2 (t + 1) * r (i + 1 - (t + 1))
        = -∑ t in Finset.range i, x t * r (i - t) := by
      rw [← Finset.sum_neg_distrib]
      apply Finset.sum_congr rfl
      intro t ht
      rw [hxa t (Finset.mem_range.mp ht), Nat.add_sub_add_right]
      ring
    rw [hs]
    simp only [Nat.sub_zero]
    ring
  refine ⟨h0, ?_⟩
  intro j hj
  rw [hx2 j (by omega), hU]
  have e1 : i + 1 - 1 - j = i - j := by omega
  rw [e1]
  by_cases h : j < i
  · have hne : ¬ (j = i) := by omega
    have hlt : j + 1 < i + 1 := by omega
    rw [if_neg hne, if_pos hlt, hxa j h]
    ring
  · have he : j = i := by omega
    have hlt : ¬ (j + 1 < i + 1) := by omega
    rw [if_pos he, if_neg hlt]
    ring

/-- One step of the recursion of `levinson_durbin_symmetric` with the right-hand side
`r[1..]` keeps the invariant: `a[0]` is 1, `a` is the forward vector that `rc_to_lpc`
builds from the reflection coefficients stored so far, and `x` is the negated tail of the
forward vector that the next reflection coefficient produces. -/
theorem levinson_step_reflection (r : Nat → ℚ) (n : Nat) (s : levinson_state)
    (ha0 : s.a 0 = 1)
    (hrc : s.a = rc_to_lpc_forward s.k n)
    (hJ : ∀ j, j < n + 1 → s.x j = -((if j + 1 < n + 1 then s.a (j + 1) else 0)
      + (-(∑ t in Finset.range (n + 1), s.a t * r (n + 1 - t)) / s.e) * s.a (n + 1 - 1 - j)))
    (hz : (levinson_step r (fun i => r (i + 1)) (n + 1) s).zero = false) :
    (levinson_step r (fun i => r (i + 1)) (n + 1) s).a 0 = 1
    ∧ (levinson_step r (fun i => r (i + 1)) (n + 1) s).a
        = rc_to_lpc_forward (levinson_step r (fun i => r (i + 1)) (n + 1) s).k (n + 1)
    ∧ ∀ j, j < n + 2 →
        (levinson_step r (fun i => r (i + 1)) (n + 1) s).x j
          = -((if j + 1 < n + 2 then
                (levinson_step r (fun i => r (i + 1)) (n + 1) s).a (j + 1) else 0)
            + (-(∑ t in Finset.range (n + 2),
                  (levinson_step r (fun i => r (i + 1)) (n + 1) s).a t * r (n + 2 - t))
                / (levinson_step r (fun i => r (i + 1)) (n + 1) s).e)
              * (levinson_step r (fun i => r (i + 1)) (n + 1) s).a (n + 2 - 1 - j)) := by
  have hz0 := levinson_step_zero r _ (n + 1) s hz
  have key := levinson_step_parts r (fun i => r (i + 1)) (n + 1) s _ _ _ _ _ _ hz0
    rfl rfl rfl rfl rfl rfl
  have hu : for_range (fun j u => u + s.a j * r (n + 1 - j)) (n + 1) 0 0
      = ∑ t in Finset.range (n + 1), s.a t * r (n + 1 - t) := by
    have h := for_range_sum (fun j => s.a j * r (n + 1 - j)) (n + 1) 0 0
    simp only [zero_add] at h
    exact h
  have hw : for_range (fun j m => m - s.x j * r (n + 1 - j)) (n + 1) 0 (r (n + 1 + 1))
      = r (n + 1 + 1) - ∑ t in Finset.range (n + 1), s.x t * r (n + 1 - t) := by
    have h := for_range_sub_sum (fun j => s.x j * r (n + 1 - j)) (n + 1) 0 (r (n + 1 + 1))
    simp only [zero_add] at h
    exact h
  rw [hu, hw] at key
  rw [key] at hz ⊢
  obtain ⟨u, hud⟩ : ∃ u, ∑ t in Finset.range (n + 1), s.a t * r (n + 1 - t) = u := ⟨_, rfl⟩
  rw [hud] at hz hJ ⊢
  by_cases hsmall : s.e + u * (-u / s.e) ≤ 1 / 32768 ∧ s.e + u * (-u / s.e) ≥ -(1 / 32768)
  · rw [if_pos hsmall] at hz
    simp at hz
  · rw [if_neg hsmall]
    dsimp only
    have hcore := levinson_reflection_update r s.a s.x
      (for_range (fun j a => store a j (a j + -u / s.e * s.a (n + 1 - j))) (n + 1) 1
        (store s.a (n + 1) 0))
      (for_range
        (fun j x => store x j (x j
          + (r (n + 1 + 1) - ∑ t in Finset.range (n + 1), s.x t * r (n + 1 - t))
              / (s.e + u * (-u / s.e))
            * (for_range (fun j a => store a j (a j + -u / s.e * s.a (n + 1 - j))) (n + 1) 1
                (store s.a (n + 1) 0)) (n + 1 - j)))
        (n + 1 + 1) 0 (store s.x (n + 1) 0))
      (n + 1) (by omega) s.e (s.e + u * (-u / s.e)) ha0
      (by rw [hud]; exact hJ)
      (by
        intro t
        rw [hud]
        exact forward_update_get s.a (-u / s.e) (n + 1) t)
      (by
        intro t ht
        rw [for_range_store_map
          (fun j v => v
            + (r (n + 1 + 1) - ∑ t in Finset.range (n + 1), s.x t * r (n + 1 - t))
                / (s.e + u * (-u / s.e))
              * (for_range (fun j a => store a j (a j + -u / s.e * s.a (n + 1 - j))) (n + 1) 1
                  (store s.a (n + 1) 0)) (n + 1 - j)) (n + 1 + 1) 0 (store s.x (n + 1) 0) t]
        have hc : 0 ≤ t ∧ t < 0 + (n + 1 + 1) := ⟨by omega, by omega⟩
        rw [if_pos hc]
        rfl)
    refine ⟨hcore.1, ?_, hcore.2⟩
    rw [rc_to_lpc_forward_succ]
    have hk : store s.k (n + 1 - 1) (-u / s.e) n = -u / s.e := by
      simp [store]
    have hf : rc_to_lpc_forward (store s.k (n + 1 - 1) (-u / s.e)) n = s.a := by
      rw [hrc]
      apply rc_to_lpc_forward_congr
      intro t ht
      have hne : ¬ (t = n + 1 - 1) := by omega
      simp only [store, hne, if_false]
    rw [hk, hf]

/-- The state before the exits, with the right-hand side `r[1..]`: unless `goto zero` was
taken, `a` is the forward vector `rc_to_lpc` builds in 11 iterations from the stored
reflection coefficients, and `x` is the negated tail of the forward vector that the
twelfth reflection coefficient produces. -/
theorem levinson_durbin_state_reflection (x k r : Nat → ℚ)
    (hz : (levinson_durbin_state x k r (fun i => r (i + 1))).zero = false) :
    (levinson_durbin_state x k r (fun i => r (i + 1))).a 0 = 1
    ∧ (levinson_durbin_state x k r (fun i => r (i + 1))).a
        = rc_to_lpc_forward (levinson_durbin_state x k r (fun i => r (i + 1))).k 11
    ∧ ∀ j, j < 12 →
        (levinson_durbin_state x k r (fun i => r (i + 1))).x j
          = -((if j + 1 < 12 then
                (levinson_durbin_state x k r (fun i => r (i + 1))).a (j + 1) else 0)
            + (-(∑ t in Finset.range 12,
                  (levinson_durbin_state x k r (fun i => r (i + 1))).a t * r (12 - t))
                / (levinson_durbin_state x k r (fun i => r (i + 1))).e)
              * (levinson_durbin_state x k r (fun i => r (i + 1))).a (12 - 1 - j)) := by
  unfold levinson_durbin_state at hz ⊢
  by_cases h0 : r 0 ≤ 1 / 32768 ∧ r 0 ≥ -(1 / 32768)
  · rw [if_pos h0] at hz
    simp at hz
  · rw [if_neg h0] at hz ⊢
    have hinv := for_range_induction (levinson_step r (fun i => r (i + 1)))
      (fun i s => 1 ≤ i ∧ (s.zero = false →
        s.a 0 = 1 ∧ s.a = rc_to_lpc_forward s.k (i - 1)
        ∧ ∀ j, j < i → s.x j = -((if j + 1 < i then s.a (j + 1) else 0)
            + (-(∑ t in Finset.range i, s.a t * r (i - t)) / s.e) * s.a (i - 1 - j))))
      (by
        intro i s h
        obtain ⟨hi, h⟩ := h
        refine ⟨by omega, ?_⟩
        intro hz2
        obtain ⟨n, rfl⟩ : ∃ n, i = n + 1 := ⟨i - 1, by omega⟩
        obtain ⟨hA, hR, hJ⟩ := h (levinson_step_zero r _ (n + 1) s hz2)
        exact levinson_step_reflection r n s hA hR hJ hz2)
      11 1
      { x := store x 0 (r (0 + 1) / r 0), k := k, a := store (fun _ => 0) 0 1, e := r 0,
        zero := false }
      (by
        refine ⟨le_refl _, fun _ => ⟨?_, ?_, ?_⟩⟩
        · simp [store]
        · rfl
        · intro j hj
          have : j = 0 := by omega
          subst this
          simp only [store, Finset.sum_range_one, if_true]
          norm_num
          ring)
    exact hinv.2 hz

/-- What `rc_to_lpc` makes of the arrays left by the recursion. -/
theorem rc_to_lpc_of_state (x0 : Nat → ℚ) (s : levinson_state)
    (r : Nat → ℚ) (ha0 : s.a 0 = 1) (hrc : s.a = rc_to_lpc_forward s.k 11)
    (hJ : ∀ j, j < 12 → s.x j = -((if j + 1 < 12 then s.a (j + 1) else 0)
      + (-(∑ t in Finset.range 12, s.a t * r (12 - t)) / s.e) * s.a (12 - 1 - j)))
    (j : Nat) (hj : j < 12) :
    rc_to_lpc x0 (store s.k 11 (-(s.x 11))) j = s.x j := by
  rw [rc_to_lpc_get x0 _ j hj, rc_to_lpc_forward_succ]
  have hk : store s.k 11 (-(s.x 11)) 11 = -(s.x 11) := by simp [store]
  have hf : rc_to_lpc_forward (store s.k 11 (-(s.x 11))) 11 = s.a := by
    rw [hrc]
    apply rc_to_lpc_forward_congr
    intro t ht
    have hne : ¬ (t = 11) := by omega
    simp only [store, hne, if_false]
  rw [hk, hf, forward_update_get s.a (-(s.x 11)) (11 + 1) (j + 1)]
  have hc : 1 ≤ j + 1 ∧ j + 1 ≤ 11 + 1 := ⟨by omega, by omega⟩
  rw [if_pos hc]
  have h11 := hJ 11 (by omega)
  rw [if_neg (by omega), show 12 - 1 - 11 = 0 by rfl, ha0] at h11
  have hkk : -(∑ t in Finset.range 12, s.a t * r (12 - t)) / s.e = -(s.x 11) := by
    rw [h11]
    ring
  rw [hJ j hj, hkk]
  have e1 : 11 + 1 - (j + 1) = 12 - 1 - j := by omega
  rw [e1]
  by_cases h : j + 1 < 12
  · have hne : ¬ (j + 1 = 11 + 1) := by omega
    rw [if_pos h, if_neg hne]
  · have he : j + 1 = 11 + 1 := by omega
    rw [if_neg h, if_pos he]

/-- C31: in exact arithmetic, when `levinson_durbin_symmetric` is called with the
right-hand side `y = r[1..12]` (as `find_rc` calls it) and does not jump to `zero`, the
arrays `(x, k)` it returns satisfy `rc_to_lpc(k) = x` on the entries 0..11: the
reflection coefficients `k[0..10]` of the recursion and `k[11] = -x[11]` convert back to
the prediction coefficients.  In particular this holds for the `r` that `find_rc`
computes, whose result is `k`. -/
theorem C31_rc_to_lpc_inverts_levinson (x0 x k r : Nat → ℚ)
    (hz : (levinson_durbin_state x k r (fun i => r (i + 1))).zero = false) :
    (∀ j : Nat, j < 12 →
      rc_to_lpc x0 (levinson_durbin_symmetric x k r (fun i => r (i + 1))).2 j
        = (levinson_durbin_symmetric x k r (fun i => r (i + 1))).1 j)
    ∧ (levinson_durbin_symmetric x k r (fun i => r (i + 1))).2 11
        = -((levinson_durbin_symmetric x k r (fun i => r (i + 1))).1 11)
    ∧ ∀ samples : Int → ℚ, r = find_autocorrelations (fun _ => 0) samples →
        x = (fun _ => 0) →
        find_rc k samples = (levinson_durbin_symmetric x k r (fun i => r (i + 1))).2 := by
  obtain ⟨hA, hR, hJ⟩ := levinson_durbin_state_reflection x k r hz
  refine ⟨?_, ?_, ?_⟩
  · intro j hj
    rw [levinson_durbin_symmetric_eq, hz]
    exact rc_to_lpc_of_state x0 _ r hA hR hJ j hj
  · rw [levinson_durbin_symmetric_eq, hz]
    simp [store]
  · intro samples hr hx
    subst hr hx
    rfl

/-- C31 witness: the autocorrelation `r[i] = 2^-i`; no exit to `zero` is taken, and
entry 0 of `rc_to_lpc(k)` is the `x[0]` of the solver. -/
theorem C31_rc_to_lpc_inverts_levinson_witness :
    rc_to_lpc (fun _ => 0)
        (levinson_durbin_symmetric (fun _ => 0) (fun _ => 0) (fun i => (1 / 2 : ℚ) ^ i)
          (fun i => (fun (i : Nat) => (1 / 2 : ℚ) ^ i) (i + 1))).2 0
      = (levinson_durbin_symmetric (fun _ => 0) (fun _ => 0) (fun i => (1 / 2 : ℚ) ^ i)
          (fun i => (fun (i : Nat) => (1 / 2 : ℚ) ^ i) (i + 1))).1 0 :=
  (C31_rc_to_lpc_inverts_levinson (fun _ => 0) (fun _ => 0) (fun _ => 0)
    (fun i => (1 / 2 : ℚ) ^ i) (by decide!)).1 0 (by decide)

/-! ## C32: the `(a, z)` search and the interpolation error -/

/-- A fold that stores at every visited index a value computed from the array itself,
when that value does not depend on the visited indices: the loop may run in place. -/
theorem foldl_storeI_in_place {α : Type} (g : (Int → α) → Int → α) :
    ∀ (l : List Int) (m : Int → α),
      (∀ i, i ∈ l → ∀ m2 : Int → α, (∀ k, k ∉ l → m2 k = m k) → g m2 i = g m i) →
      ∀ j, (l.foldl (fun m i => storeI m i (g m i)) m) j = if j ∈ l then g m j else m j := by
  intro l
  induction l with
  | nil => intro m _ j; simp
  | cons x l ih =>
    intro m h j
    rw [List.foldl_cons]
    have hm : ∀ k, k ∉ x :: l → storeI m x (g m x) k = m k := by
      intro k hk
      have hne : ¬ (k = x) := fun e => hk (by rw [e]; exact List.mem_cons_self _ _)
      simp only [storeI, hne, if_false]
    have hg : ∀ i, i ∈ l → g (storeI m x (g m x)) i = g m i := fun i hi =>
      h i (List.mem_cons_of_mem _ hi) _ hm
    rw [ih (storeI m x (g m x))
      (by
        intro i hi m2 h2
        rw [hg i hi]
        apply h i (List.mem_cons_of_mem _ hi)
        intro k hk
        rw [h2 k (fun hkl => hk (List.mem_cons_of_mem _ hkl)), hm k hk])]
    by_cases hjl : j ∈ l
    · rw [if_pos hjl, if_pos (List.mem_cons_of_mem _ hjl), hg j hjl]
    · rw [if_neg hjl]
      by_cases hjx : j = x
      · rw [if_pos (by rw [hjx]; exact List.mem_cons_self _ _)]
        simp only [storeI, hjx, if_true]
      · rw [if_neg (by
          intro hmem
          rcases List.mem_cons.mp hmem with e | e
          · exact hjx e
          · exact hjl e)]
        simp only [storeI, hjx, if_false]

/-- A sample loop that accumulates a sum. -/
theorem for_positions_sum (step : Int) (f : Int → ℚ) :
    ∀ (fuel : Nat) (i : Int) (acc : ℚ),
      for_positions step (fun i error => error + f i) fuel i acc
        = acc + ((positions step fuel i).map f).sum := by
  intro fuel
  induction fuel with
  | zero => intro i acc; simp [for_positions, positions]
  | succ n ih =>
    intro i acc
    rw [for_positions, positions]
    by_cases h : i < 108
    · rw [if_pos h, if_pos h, ih, List.map_cons, List.sum_cons]
      ring
    · rw [if_neg h, if_neg h]
      simp

/-- The indices `!a, !a + 2, ...` below 108 that `interpolate` and `interpolation_error`
visit. -/
theorem mem_interpolated_positions (a : Nat) (i : Int) :
    i ∈ positions 2 108 (c_not a) ↔ ((c_not a : Nat) : Int) ≤ i ∧ i < 108
      ∧ (i - ((c_not a : Nat) : Int)) % 2 = 0 :=
  mem_positions 2 (Or.inr rfl) 108 _ i (by omega)

/-- A sum over the visited indices as a sum over all 108 sample indices. -/
theorem sum_interpolated_positions (a : Nat) (f : Int → ℚ) :
    ((positions 2 108 (c_not a)).map f).sum
      = ∑ i in Finset.Ico (0 : Int) 108, if i ∈ positions 2 108 (c_not a) then f i else 0 := by
  rw [← List.sum_toFinset f (positions_nodup 2 (by decide) 108 _)]
  have hsub : (positions 2 108 (c_not a)).toFinset ⊆ Finset.Ico (0 : Int) 108 := by
    intro i hi
    have h := (mem_interpolated_positions a i).mp (List.mem_toFinset.mp hi)
    rw [Finset.mem_Ico]
    omega
  have h : ∑ i in (positions 2 108 (c_not a)).toFinset,
        (if i ∈ positions 2 108 (c_not a) then f i else 0)
      = ∑ i in Finset.Ico (0 : Int) 108,
          if i ∈ positions 2 108 (c_not a) then f i else 0 :=
    Finset.sum_subset hsub (by
      intro i _ hi
      rw [if_neg (fun h => hi (List.mem_toFinset.mpr h))])
  rw [← h]
  apply Finset.sum_congr rfl
  intro i hi
  rw [if_pos (List.mem_toFinset.mp hi)]

/-- The result of `interpolate`, entry by entry: the in-place loop reads only entries it
does not write. -/
theorem interpolate_get (x : Int → ℚ) (a z : Nat) (j : Int) :
    interpolate x a z j
      = if j ∈ positions 2 108 (c_not a) then
          (if z ≠ 0 then 0 else interpolation_taps x j)
        else x j := by
  unfold interpolate
  by_cases hz : z ≠ 0
  · rw [if_pos hz, for_positions_eq_foldl, foldl_storeI (fun _ => (0 : ℚ))]
    simp only [if_pos hz]
  · rw [if_neg hz, for_positions_eq_foldl,
      foldl_storeI_in_place (fun x i => interpolation_taps x i)]
    · simp only [if_neg hz]
    · intro i hi m2 h2
      have h := (mem_interpolated_positions a i).mp hi
      have hout : ∀ d : Int, d % 2 = 1 → i + d ∉ positions 2 108 (c_not a) := by
        intro d hd hmem
        have h3 := (mem_interpolated_positions a (i + d)).mp hmem
        omega
      have e1 := h2 (i - 1) (by have := hout (-1) (by decide); rwa [← sub_eq_add_neg] at this)
      have e2 := h2 (i + 1) (hout 1 (by decide))
      have e3 := h2 (i - 3) (by have := hout (-3) (by decide); rwa [← sub_eq_add_neg] at this)
      have e4 := h2 (i + 3) (hout 3 (by decide))
      have e5 := h2 (i - 5) (by have := hout (-5) (by decide); rwa [← sub_eq_add_neg] at this)
      have e6 := h2 (i + 5) (hout 5 (by decide))
      simp only [interpolation_taps, e1, e2, e3, e4, e5, e6]

/-- `interpolation_error` as a sum over the visited indices. -/
theorem interpolation_error_sum (a z : Nat) (x : Int → ℚ) :
    interpolation_error a z x
      = ∑ i in Finset.Ico (0 : Int) 108,
          if i ∈ positions 2 108 (c_not a) then
            (if z ≠ 0 then x i * x i
              else (interpolation_taps x i - x i) * (interpolation_taps x i - x i))
          else 0 := by
  unfold interpolation_error
  by_cases hz : z ≠ 0
  · rw [if_pos hz, for_positions_sum 2 (fun i => x i * x i), zero_add,
      sum_interpolated_positions]
    simp only [if_pos hz]
  · rw [if_neg hz]
    have h := for_positions_sum 2
      (fun i => (interpolation_taps x i - x i) * (interpolation_taps x i - x i)) 108
      (c_not a) 0
    rw [zero_add, sum_interpolated_positions] at h
    simp only [if_neg hz]
    exact h

/-- The result of `find_a_z_flags` in terms of the three comparisons it makes. -/
theorem find_a_z_flags_cases (x : Int → ℚ) :
    find_a_z_flags x
      = if interpolation_error 1 1 x < interpolation_error 0 1 x then
          (if interpolation_error 0 0 x < interpolation_error 1 1 x then
            (if interpolation_error 1 0 x < interpolation_error 0 0 x then (1, 0) else (0, 0))
           else
            (if interpolation_error 1 0 x < interpolation_error 1 1 x then (1, 0) else (1, 1)))
        else
          (if interpolation_error 0 0 x < interpolation_error 0 1 x then
            (if interpolation_error 1 0 x < interpolation_error 0 0 x then (1, 0) else (0, 0))
           else
            (if interpolation_error 1 0 x < interpolation_error 0 1 x then (1, 0) else (0, 1))) := by
  unfold find_a_z_flags
  by_cases h1 : interpolation_error 1 1 x < interpolation_error 0 1 x
  · simp only [h1, if_true]
    by_cases h2 : interpolation_error 0 0 x < interpolation_error 1 1 x
    · simp only [h2, if_true]
      by_cases h3 : interpolation_error 1 0 x < interpolation_error 0 0 x
      · simp only [h3, if_true]
      · simp only [h3, if_false]
    · simp only [h2, if_false]
      by_cases h3 : interpolation_error 1 0 x < interpolation_error 1 1 x
      · simp only [h3, if_true]
      · simp only [h3, if_false]
  · simp only [h1, if_false]
    by_cases h2 : interpolation_error 0 0 x < interpolation_error 0 1 x
    · simp only [h2, if_true]
      by_cases h3 : interpolation_error 1 0 x < interpolation_error 0 0 x
      · simp only [h3, if_true]
      · simp only [h3, if_false]
    · simp only [h2, if_false]
      by_cases h3 : interpolation_error 1 0 x < interpolation_error 0 1 x
      · simp only [h3, if_true]
      · simp only [h3, if_false]

/-- `bwc_write_bits` moves the position forward and writes no byte before the old nor
after the new position. -/
theorem bwc_write_bits_frame (bwc : bit_writer_context) (value count : Nat) :
    bwc.pos ≤ (bwc_write_bits bwc value count).pos
    ∧ ∀ j, (j < bwc.pos ∨ (bwc_write_bits bwc value count).pos < j) →
        (bwc_write_bits bwc value count).buffer j = bwc.buffer j := by
  obtain ⟨h1, _, h3⟩ := bwc_write_bits_layout bwc value count
  refine ⟨by rw [h1]; omega, ?_⟩
  intro j hj
  rw [h1] at hj
  rw [h3 j, if_neg (by omega), if_neg (by omega)]

/-- A sequence of writes moves the position forward and writes no byte before the old
nor after the new position. -/
theorem bwc_writes_frame (ws : List (Nat × Nat)) :
    ∀ bwc : bit_writer_context,
      bwc.pos ≤ (bwc_writes bwc ws).pos
      ∧ ∀ j, (j < bwc.pos ∨ (bwc_writes bwc ws).pos < j) →
          (bwc_writes bwc ws).buffer j = bwc.buffer j := by
  induction ws with
  | nil => intro bwc; exact ⟨le_refl _, fun _ _ => rfl⟩
  | cons w ws ih =>
    intro bwc
    obtain ⟨h1, h2⟩ := bwc_write_bits_frame bwc w.1 w.2
    obtain ⟨h3, h4⟩ := ih (bwc_write_bits bwc w.1 w.2)
    have e : bwc_writes bwc (w :: ws) = bwc_writes (bwc_write_bits bwc w.1 w.2) ws := rfl
    rw [e]
    refine ⟨le_trans h1 h3, ?_⟩
    intro j hj
    rw [h4 j (by omega), h2 j (by omega)]

/-- Valid writes have at most 16 bits each. -/
theorem total_bits_le (ws : List (Nat × Nat)) (h : ∀ w ∈ ws, valid_write w) :
    total_bits ws ≤ 16 * ws.length := by
  induction ws with
  | nil => simp [total_bits]
  | cons w ws ih =>
    have h1 := (h w (List.mem_cons_self _ _)).2.1
    have h2 := ih (fun v hv => h v (List.mem_cons_of_mem _ hv))
    simp only [total_bits, List.map_cons, List.sum_cons, List.length_cons] at h2 ⊢
    omega

/-- The commit of `encode_innovation` (lines 779-783) after a trial that made the writes
`ws` on a scratch writer: the stream writer has advanced by the bits of `ws`, keeps its
earlier bits and its invariant, and holds the bits of `ws` after them; the scratch buffer
is untouched above the trial's last byte. -/
theorem trial_commit_spec (bwc scratch : bit_writer_context) (ws : List (Nat × Nat))
    (hok : bwc_ok bwc) (hws : ∀ w ∈ ws, valid_write w)
    (e : bit_writer_context) (he : bwc_writes (trial_writer bwc scratch) ws = e)
    (bwc1 : bit_writer_context)
    (h1 : bwc1 = { written_bits_count := e.written_bits_count
                   pos := bwc.pos + e.pos
                   buffer := fun j =>
                     if bwc.pos ≤ j ∧ j ≤ bwc.pos + e.pos then e.buffer (j - bwc.pos)
                     else bwc.buffer j }) :
    bwc_ok bwc1
    ∧ bit_position bwc1 = bit_position bwc + total_bits ws
    ∧ bit_position e = bwc.written_bits_count + total_bits ws
    ∧ bit_position (trial_writer bwc scratch) = bwc.written_bits_count
    ∧ (∀ t, t < bit_position bwc → stream_bit bwc1.buffer t = stream_bit bwc.buffer t)
    ∧ (∀ t, t < total_bits ws →
        (written_bits ws)[t]? = some (stream_bit bwc1.buffer (bit_position bwc + t)))
    ∧ (∀ j, e.pos < j → e.buffer j = scratch.buffer j)
    ∧ (∀ j, (j < bwc.pos ∨ bwc.pos + e.pos < j) → bwc1.buffer j = bwc.buffer j) := by
  have hc : bwc.written_bits_count < 8 := hok.1
  obtain ⟨hTok, hTpos, _, hTbits⟩ := bwc_write_bits_spec (bwc_init scratch.buffer)
    (bwc.buffer bwc.pos) bwc.written_bits_count (bwc_ok_init _) (by omega) hok.2
  have h0 : bit_position (bwc_init scratch.buffer) = 0 := rfl
  rw [h0, Nat.zero_add] at hTpos
  have hT : bwc_write_bits (bwc_init scratch.buffer) (bwc.buffer bwc.pos)
      bwc.written_bits_count = trial_writer bwc scratch := rfl
  rw [hT] at hTok hTpos hTbits
  obtain ⟨hEok, hEpos, hEold, hEnew⟩ := bwc_writes_spec ws (trial_writer bwc scratch) hTok hws
  rw [he, hTpos] at hEpos
  rw [he] at hEok hEold hEnew
  rw [hTpos] at hEold hEnew
  have hEc : e.written_bits_count < 8 := hEok.1
  have hbp : bit_position e = 8 * e.pos + e.written_bits_count := rfl
  have hbp0 : bit_position bwc = 8 * bwc.pos + bwc.written_bits_count := rfl
  have hbuf : ∀ j, bwc1.buffer j
      = if bwc.pos ≤ j ∧ j ≤ bwc.pos + e.pos then e.buffer (j - bwc.pos) else bwc.buffer j := by
    intro j
    rw [h1]
  have key : ∀ t, t < 8 * (e.pos + 1) →
      stream_bit bwc1.buffer (8 * bwc.pos + t) = stream_bit e.buffer t := by
    intro t ht
    unfold stream_bit
    have e1 : (8 * bwc.pos + t) / 8 = bwc.pos + t / 8 := by omega
    have e2 : (8 * bwc.pos + t) % 8 = t % 8 := by omega
    have hcnd : bwc.pos ≤ bwc.pos + t / 8 ∧ bwc.pos + t / 8 ≤ bwc.pos + e.pos :=
      ⟨by omega, by omega⟩
    rw [e1, e2, hbuf, if_pos hcnd, Nat.add_sub_cancel_left]
  have hfr := (bwc_writes_frame ws (trial_writer bwc scratch)).2
  rw [he] at hfr
  have hTfr := bwc_write_bits_frame (bwc_init scratch.buffer) (bwc.buffer bwc.pos)
    bwc.written_bits_count
  rw [hT] at hTfr
  have hTle := (bwc_writes_frame ws (trial_writer bwc scratch)).1
  rw [he] at hTle
  refine ⟨?_, ?_, hEpos, hTpos, ?_, ?_, ?_, ?_⟩
  · unfold bwc_ok
    have hcnd : bwc.pos ≤ bwc.pos + e.pos ∧ bwc.pos + e.pos ≤ bwc.pos + e.pos :=
      ⟨by omega, le_refl _⟩
    have e3 : bwc1.pos = bwc.pos + e.pos := by rw [h1]
    have e4 : bwc1.written_bits_count = e.written_bits_count := by rw [h1]
    rw [e3, e4, hbuf, if_pos hcnd, Nat.add_sub_cancel_left]
    exact ⟨hEc, hEok.2⟩
  · have e3 : bit_position bwc1 = 8 * (bwc.pos + e.pos) + e.written_bits_count := by
      rw [h1]
      rfl
    rw [e3]
    omega
  · intro t ht
    by_cases hlt : t < 8 * bwc.pos
    · unfold stream_bit
      rw [hbuf, if_neg (by omega)]
    · obtain ⟨d, hd⟩ : ∃ d, t = 8 * bwc.pos + d := ⟨t - 8 * bwc.pos, by omega⟩
      have hdc : d < bwc.written_bits_count := by omega
      rw [hd, key d (by omega), hEold d hdc]
      have hb := hTbits d hdc
      rw [h0, Nat.zero_add] at hb
      rw [hb]
      unfold stream_bit
      have e1 : (8 * bwc.pos + d) / 8 = bwc.pos := by omega
      have e2 : (8 * bwc.pos + d) % 8 = d := by omega
      rw [e1, e2]
  · intro t ht
    rw [hEnew t ht]
    have e1 : bit_position bwc + t = 8 * bwc.pos + (bwc.written_bits_count + t) := by omega
    rw [e1, key _ (by omega)]
  · intro j hj
    rw [hfr j (Or.inr hj), hTfr.2 j (Or.inr (by omega))]
    have hne : ¬ (j = 0) := by omega
    simp only [bwc_init, store, hne, if_false]
  · intro j hj
    rw [hbuf, if_neg (by omega)]

/-- A sample loop visits at most as many positions as it has fuel. -/
theorem positions_length_le (step : Int) :
    ∀ (fuel : Nat) (i : Int), (positions step fuel i).length ≤ fuel := by
  intro fuel
  induction fuel with
  | zero => intro i; simp [positions]
  | succ n ih =>
    intro i
    rw [positions]
    by_cases h : i < 108
    · rw [if_pos h, List.length_cons]
      have := ih (i + step)
      omega
    · rw [if_neg h]
      simp

/-- The emission loop of `encode_huffman` writes at most one item per iteration. -/
theorem huffman_emit_loop_length (values zero_counts : Int → Int) (interval : Int) :
    ∀ (fuel : Nat) (i : Int) (model : Nat) (bwc : bit_writer_context),
      (huffman_emit_loop values zero_counts interval fuel i model bwc).2.length ≤ fuel := by
  intro fuel
  induction fuel with
  | zero => intro i model bwc; simp [huffman_emit_loop]
  | succ fuel ih =>
    intro i model bwc
    by_cases h1 : i < 108
    · by_cases h2 : zero_counts i ≥ 7
      · simp only [huffman_emit_loop, h1, h2, if_true, List.length_cons]
        have := ih (i + MIN (zero_counts i) 70 * interval) 0
          (if model = 0 then
            bwc_write_bits bwc (255 ||| ((MIN (zero_counts i) 70 - 7).toNat <<< 8)) 14
          else bwc_write_bits bwc (127 ||| ((MIN (zero_counts i) 70 - 7).toNat <<< 7)) 13)
        omega
      · simp only [huffman_emit_loop, h1, h2, if_true, if_false, List.length_cons]
        have := ih (i + interval) (if values i < -1 ∨ values i > 1 then 1 else 0)
          (bwc_write_bits bwc (huffman_models model (values i)).bits_value
            (huffman_models model (values i)).bits_count)
        omega
    · simp only [huffman_emit_loop, h1, if_false]
      simp

/-- A block whose items are valid writes and number at most 108 has at most
`8 + 108*16` bits. -/
theorem total_bits_block_le (halved_innovation pow a z : Nat) (items : List emitted_item)
    (hv : ∀ it ∈ items, valid_write it.write) (hl : items.length ≤ 108) :
    total_bits (block_writes halved_innovation pow a z items) ≤ 8 + 108 * 16 := by
  have h1 : total_bits (block_writes halved_innovation pow a z items)
      = (preamble halved_innovation pow a z).2 + total_bits (items.map emitted_item.write) := by
    simp [block_writes, total_bits]
  have h2 : (preamble halved_innovation pow a z).2 ≤ 8 := by
    unfold preamble
    split <;> simp
  have h3 := total_bits_le (items.map emitted_item.write)
    (by
      intro w hw
      obtain ⟨it, hit, rfl⟩ := List.mem_map.mp hw
      exact hv it hit)
  rw [List.length_map] at h3
  omega

/-- A Huffman trial: the writes on the scratch writer are those of the block, they are
valid, the block has at most `8 + 108*16` bits, and `bits_used` is its number of bits. -/
theorem encode_huffman_trial (inn_gains : Nat → ℚ) (locals : huffman_locals)
    (bwc scratch : bit_writer_context) (out x : Int → ℚ) (halved_innovation pow a z : Nat)
    (hok : bwc_ok bwc) (hp : pow < 64) (ha : a < 2) (hz : z < 2)
    (e : innovation_encoding)
    (he : encode_huffman inn_gains locals (trial_writer bwc scratch) out x halved_innovation
      pow a z = e) :
    e.pow = pow
    ∧ e.bwc = bwc_writes (trial_writer bwc scratch)
        (block_writes halved_innovation pow a z e.items)
    ∧ (∀ w ∈ block_writes halved_innovation pow a z e.items, valid_write w)
    ∧ total_bits (block_writes halved_innovation pow a z e.items) ≤ 8 + 108 * 16
    ∧ e.bits_used = (total_bits (block_writes halved_innovation pow a z e.items) : Int) := by
  subst he
  have hw := encode_huffman_writes inn_gains locals (trial_writer bwc scratch) out x
    halved_innovation pow a z
  have hv := encode_huffman_block_valid inn_gains locals (trial_writer bwc scratch) out x
    halved_innovation pow a z hp ha hz
  refine ⟨rfl, hw, hv, ?_, ?_⟩
  · apply total_bits_block_le
    · exact encode_huffman_items_valid _ _ _ _ _ _ _ _ _
    · exact huffman_emit_loop_length _ _ _ _ _ _ _
  · obtain ⟨_, _, h3, h4, _⟩ := trial_commit_spec bwc scratch _ hok hv _ hw.symm _ rfl
    have e1 : (encode_huffman inn_gains locals (trial_writer bwc scratch) out x
        halved_innovation pow a z).bits_used
        = (bit_position (encode_huffman inn_gains locals (trial_writer bwc scratch) out x
            halved_innovation pow a z).bwc : Int)
          - (bit_position (trial_writer bwc scratch) : Int) := by
      simp only [encode_huffman, bit_position]
      push_cast
      rfl
    rw [e1, h3, h4]
    push_cast
    ring

/-- A ternary trial: the writes on the scratch writer are those of the block, they are
valid, the block has at most `8 + 108*16` bits, and `bits_used` is its number of bits. -/
theorem encode_triangular_trial (inn_gains : Nat → ℚ)
    (bwc scratch : bit_writer_context) (out x : Int → ℚ) (halved_innovation pow a z : Nat)
    (hok : bwc_ok bwc) (hp : pow < 64) (ha : a < 2) (hz : z < 2)
    (e : innovation_encoding)
    (he : encode_triangular inn_gains (trial_writer bwc scratch) out x halved_innovation
      pow a z = e) :
    e.pow = pow
    ∧ e.bwc = bwc_writes (trial_writer bwc scratch)
        (block_writes halved_innovation pow a z e.items)
    ∧ (∀ w ∈ block_writes halved_innovation pow a z e.items, valid_write w)
    ∧ total_bits (block_writes halved_innovation pow a z e.items) ≤ 8 + 108 * 16
    ∧ e.bits_used = (total_bits (block_writes halved_innovation pow a z e.items) : Int) := by
  subst he
  obtain ⟨hitems, hw, _⟩ := encode_triangular_spec inn_gains (trial_writer bwc scratch) out x
    halved_innovation pow a z
  have hv := encode_triangular_block_valid inn_gains (trial_writer bwc scratch) out x
    halved_innovation pow a z hp ha hz
  refine ⟨rfl, hw, hv, ?_, ?_⟩
  · apply total_bits_block_le
    · intro it hit
      apply hv
      simp only [block_writes, List.mem_cons, List.mem_map]
      exact Or.inr ⟨it, hit, rfl⟩
    · rw [hitems, List.length_map]
      exact positions_length_le _ _ _
  · obtain ⟨_, _, h3, h4, _⟩ := trial_commit_spec bwc scratch _ hok hv _ hw.symm _ rfl
    rw [encode_triangular_bits_used, h3, h4]
    push_cast
    ring

/-- The trial loop of the ternary branch: the slot `!m` holds, at the end, one of the
trials. -/
theorem triangular_trial_loop_committed (inn_gains : Nat → ℚ) (bwc : bit_writer_context)
    (innovation : Int → ℚ) (halved_innovation a z : Nat) :
    ∀ (fuel pow : Nat) (s : trial_state),
      64 ≤ pow + fuel → s.m < 2 →
      (pow = 0
        ∨ ∃ q scratch out, q ≤ 63 ∧ s.encodings (c_not s.m)
            = encode_triangular inn_gains (trial_writer bwc scratch) out innovation
                halved_innovation q a z) →
      ∃ q scratch out, q ≤ 63
        ∧ (triangular_trial_loop inn_gains bwc innovation halved_innovation a z fuel pow
              s).encodings
            (c_not (triangular_trial_loop inn_gains bwc innovation halved_innovation a z fuel
              pow s).m)
          = encode_triangular inn_gains (trial_writer bwc scratch) out innovation
              halved_innovation q a z := by
  intro fuel
  induction fuel with
  | zero =>
    intro pow s h1 _ hinv
    rcases hinv with h | h
    · omega
    · exact h
  | succ fuel ih =>
    intro pow s h1 hm hinv
    by_cases hp : pow ≤ 63
    · rw [triangular_trial_loop, if_pos hp]
      dsimp only
      by_cases hc : pow = 0
          ∨ (encode_triangular inn_gains (trial_writer bwc (s.encodings s.m).bwc)
              (s.encodings s.m).innovation innovation halved_innovation pow a z).error
            < s.best_error
      · rw [if_pos hc]
        refine ih (pow + 1) _ (by omega) (c_not_lt_two _) ?_
        right
        refine ⟨pow, (s.encodings s.m).bwc, (s.encodings s.m).innovation, hp, ?_⟩
        dsimp only
        rw [c_not_c_not _ hm]
        simp [store]
      · rw [if_neg hc]
        refine ih (pow + 1) _ (by omega) hm ?_
        right
        rcases hinv with h | ⟨q, scratch, out, hq, h⟩
        · exact absurd (Or.inl h) hc
        · refine ⟨q, scratch, out, hq, ?_⟩
          dsimp only
          rw [← h]
          simp [store, c_not_ne]
    · rw [triangular_trial_loop, if_neg hp]
      rcases hinv with h | h
      · omega
      · exact h

/-- The flags `find_a_z_flags` returns are 0 or 1. -/
theorem find_a_z_flags_lt_two (x : Int → ℚ) :
    (find_a_z_flags x).1 < 2 ∧ (find_a_z_flags x).2 < 2 := by
  rw [find_a_z_flags_cases]
  split_ifs <;> exact ⟨by decide, by decide⟩

/-- `encode_innovation` in terms of the final state of its trial loop. -/
theorem encode_innovation_parts (inn_gains : Nat → ℚ)
    (encodings : Nat → innovation_encoding) (locals : Nat → huffman_locals)
    (bwc : bit_writer_context) (innovation : Int → ℚ) (halved_innovation use_huffman : Nat)
    (target_bit_count : Int) (az : Nat × Nat) (innovation1 : Int → ℚ) (s : trial_state)
    (haz : (if halved_innovation ≠ 0 then find_a_z_flags innovation else (0, 1)) = az)
    (hx : (if halved_innovation ≠ 0 then low_pass_innovation innovation az.1 az.2
      else innovation) = innovation1)
    (hs : (if use_huffman ≠ 0 then
        huffman_trial_loop inn_gains locals bwc innovation1 halved_innovation az.1 az.2
          target_bit_count
          (find_min_pow inn_gains az.2
            (max_value_loop innovation1 (innovation_interval halved_innovation) az.1) 63)
          64
          (find_min_pow inn_gains az.2
            (max_value_loop innovation1 (innovation_interval halved_innovation) az.1) 63)
          { encodings := encodings, m := 0, best_distance := 0, best_error := 0 }
      else
        triangular_trial_loop inn_gains bwc innovation1 halved_innovation az.1 az.2 64 0
          { encodings := encodings, m := 0, best_distance := 0, best_error := 0 }) = s) :
    encode_innovation inn_gains encodings locals bwc innovation halved_innovation use_huffman
        target_bit_count
      = { bwc :=
            { written_bits_count := (s.encodings (c_not s.m)).bwc.written_bits_count
              pos := bwc.pos + (s.encodings (c_not s.m)).bwc.pos
              buffer := fun j =>
                if bwc.pos ≤ j ∧ j ≤ bwc.pos + (s.encodings (c_not s.m)).bwc.pos then
                  (s.encodings (c_not s.m)).bwc.buffer (j - bwc.pos)
                else bwc.buffer j }
          innovation :=
            if halved_innovation ≠ 0 then
              interpolate
                (fun j => if 0 ≤ j ∧ j < 108 then (s.encodings (c_not s.m)).innovation j
                  else innovation1 j) az.1 az.2
            else
              fun j => if 0 ≤ j ∧ j < 108 then (s.encodings (c_not s.m)).innovation j
                else innovation1 j
          bits_used := (s.encodings (c_not s.m)).bits_used
          a := az.1
          z := az.2
          committed := s.encodings (c_not s.m) } := by
  subst haz hx hs
  rfl

/-- What `encode_innovation` commits is one of its trials: the flags are 0 or 1, the
committed writer is the scratch writer of a trial after the writes of the committed
block, which are valid and number at most `8 + 108*16` bits, and the stream writer is
the copy of lines 779-783. -/
theorem encode_innovation_committed (inn_gains : Nat → ℚ)
    (encodings : Nat → innovation_encoding) (locals : Nat → huffman_locals)
    (bwc : bit_writer_context) (innovation : Int → ℚ) (halved_innovation use_huffman : Nat)
    (target_bit_count : Int) (hok : bwc_ok bwc) (R : innovation_result)
    (hR : encode_innovation inn_gains encodings locals bwc innovation halved_innovation
      use_huffman target_bit_count = R) :
    R.a < 2 ∧ R.z < 2 ∧ R.bits_used = R.committed.bits_used
    ∧ R.bwc = { written_bits_count := R.committed.bwc.written_bits_count
                pos := bwc.pos + R.committed.bwc.pos
                buffer := fun j =>
                  if bwc.pos ≤ j ∧ j ≤ bwc.pos + R.committed.bwc.pos then
                    R.committed.bwc.buffer (j - bwc.pos)
                  else bwc.buffer j }
    ∧ R.committed.pow ≤ 63
    ∧ ∃ scratch : bit_writer_context,
        R.committed.bwc = bwc_writes (trial_writer bwc scratch)
          (block_writes halved_innovation R.committed.pow R.a R.z R.committed.items)
        ∧ (∀ w ∈ block_writes halved_innovation R.committed.pow R.a R.z R.committed.items,
            valid_write w)
        ∧ total_bits (block_writes halved_innovation R.committed.pow R.a R.z
            R.committed.items) ≤ 8 + 108 * 16
        ∧ R.committed.bits_used
            = (total_bits (block_writes halved_innovation R.committed.pow R.a R.z
                R.committed.items) : Int) := by
  obtain ⟨az, haz⟩ : ∃ az,
    (if halved_innovation ≠ 0 then find_a_z_flags innovation else (0, 1)) = az := ⟨_, rfl⟩
  obtain ⟨innovation1, hx⟩ : ∃ innovation1,
    (if halved_innovation ≠ 0 then low_pass_innovation innovation az.1 az.2
      else innovation) = innovation1 := ⟨_, rfl⟩
  obtain ⟨s, hs⟩ : ∃ s, (if use_huffman ≠ 0 then
        huffman_trial_loop inn_gains locals bwc innovation1 halved_innovation az.1 az.2
          target_bit_count
          (find_min_pow inn_gains az.2
            (max_value_loop innovation1 (innovation_interval halved_innovation) az.1) 63)
          64
          (find_min_pow inn_gains az.2
            (max_value_loop innovation1 (innovation_interval halved_innovation) az.1) 63)
          { encodings := encodings, m := 0, best_distance := 0, best_error := 0 }
      else
        triangular_trial_loop inn_gains bwc innovation1 halved_innovation az.1 az.2 64 0
          { encodings := encodings, m := 0, best_distance := 0, best_error := 0 }) = s :=
    ⟨_, rfl⟩
  rw [encode_innovation_parts inn_gains encodings locals bwc innovation halved_innovation
    use_huffman target_bit_count az innovation1 s haz hx hs] at hR
  subst hR
  dsimp only
  have haz2 : az.1 < 2 ∧ az.2 < 2 := by
    rw [← haz]
    by_cases hh : halved_innovation ≠ 0
    · rw [if_pos hh]
      exact find_a_z_flags_lt_two innovation
    · rw [if_neg hh]
      exact ⟨by decide, by decide⟩
  refine ⟨haz2.1, haz2.2, rfl, rfl, ?_⟩
  by_cases hu : use_huffman ≠ 0
  · rw [if_pos hu] at hs
    have hmin := (find_min_pow_spec inn_gains az.2
      (max_value_loop innovation1 (innovation_interval halved_innovation) az.1) 63).1
    obtain ⟨q, _, hq, ⟨scratch, out, hc⟩, _, _⟩ := huffman_trial_loop_spec inn_gains locals bwc
      innovation1 halved_innovation az.1 az.2 target_bit_count _ hmin 64 _
      { encodings := encodings, m := 0, best_distance := 0, best_error := 0 }
      (le_refl _) (by omega) (by omega) (show (0 : Nat) < 2 by decide) (Or.inl rfl)
    rw [hs] at hc
    obtain ⟨t1, t2, t3, t4, t5⟩ := encode_huffman_trial inn_gains (locals q) bwc scratch out
      innovation1 halved_innovation q az.1 az.2 hok (by omega) haz2.1 haz2.2 _ hc.symm
    rw [t1]
    exact ⟨hq, scratch, t2, t3, t4, t5⟩
  · rw [if_neg hu] at hs
    obtain ⟨q, scratch, out, hq, hc⟩ := triangular_trial_loop_committed inn_gains bwc
      innovation1 halved_innovation az.1 az.2 64 0
      { encodings := encodings, m := 0, best_distance := 0, best_error := 0 }
      (by omega) (show (0 : Nat) < 2 by decide) (Or.inl rfl)
    rw [hs] at hc
    obtain ⟨t1, t2, t3, t4, t5⟩ := encode_triangular_trial inn_gains bwc scratch out
      innovation1 halved_innovation q az.1 az.2 hok (by omega) haz2.1 haz2.2 _ hc.symm
    rw [t1]
    exact ⟨hq, scratch, t2, t3, t4, t5⟩

/-- A trial leaves its scratch writer at byte 217 at most and writes no scratch byte
above it. -/
theorem trial_scratch_capacity (bwc scratch : bit_writer_context) (ws : List (Nat × Nat))
    (hok : bwc_ok bwc) (hws : ∀ w ∈ ws, valid_write w) (hb : total_bits ws ≤ 8 + 108 * 16)
    (e : bit_writer_context) (he : e = bwc_writes (trial_writer bwc scratch) ws) :
    e.pos ≤ 217 ∧ ∀ j, 217 < j → e.buffer j = scratch.buffer j := by
  obtain ⟨_, _, h3, _, _, _, h7, _⟩ := trial_commit_spec bwc scratch ws hok hws e he.symm _ rfl
  have hc : bwc.written_bits_count < 8 := hok.1
  have hbp : bit_position e = 8 * e.pos + e.written_bits_count := rfl
  have hpos : e.pos ≤ 217 := by omega
  exact ⟨hpos, fun j hj => h7 j (by omega)⟩

/-! ## Re-quantising a table entry (C35) -/

/-- Consecutive entries of `utk_rc_table` from index 1 on are strictly increasing. -/
theorem utk_rc_table_step : ∀ i : Nat, i < 62 → utk_rc_table (i + 1) < utk_rc_table (i + 2) := by
  decide!

/-- The table `utk_rc_table` is strictly increasing on the indices 1..63. -/
theorem utk_rc_table_strict_mono (i j : Nat) (hi : 1 ≤ i) (hij : i < j) (hj : j ≤ 63) :
    utk_rc_table i < utk_rc_table j := by
  induction j with
  | zero => omega
  | succ n ih =>
    have hstep : utk_rc_table n < utk_rc_table (n + 1) := by
      have := utk_rc_table_step (n - 1) (by omega)
      rwa [show n - 1 + 1 = n by omega, show n - 1 + 2 = n + 1 by omega] at this
    by_cases h : i = n
    · rw [h]
      exact hstep
    · exact lt_trans (ih (by omega) (by omega)) hstep

/-- On an alphabet without repeated values, `quantize` maps each entry to its own
index. -/
theorem quantize_entry (alphabet : Nat → ℚ) (n i : Nat) (hi : i < n)
    (hinj : ∀ j, j < n → alphabet j = alphabet i → j = i) :
    quantize (alphabet i) alphabet n = i := by
  obtain ⟨h1, h2, _⟩ := quantize_spec (alphabet i) alphabet n (by omega)
  have h := h2 i hi
  rw [sub_self, abs_zero] at h
  have h0 : alphabet i - alphabet (quantize (alphabet i) alphabet n) = 0 :=
    abs_eq_zero.mp (le_antisymm h (abs_nonneg _))
  exact hinj _ h1 (by linarith)

/-- C35: re-quantising an entry of `utk_rc_table` returns its index, with the alphabets
of `main` (lines 1047 and 1054): `1 + quantize(utk_rc_table[idx], utk_rc_table+1, 63)`
is `idx` for `idx` in 1..63 and `quantize(utk_rc_table[16+k], utk_rc_table+16, 32)` is
`k` for `k` in 0..31.  The table is strictly increasing on the indices 1..63, and the
only two indices with the same value are 0 and 32. -/
theorem C35_requantize_fixed_point :
    (∀ idx : Nat, 1 ≤ idx → idx ≤ 63 →
      1 + quantize (utk_rc_table idx) (fun k => utk_rc_table (1 + k)) 63 = idx) ∧
    (∀ k : Nat, k ≤ 31 →
      quantize (utk_rc_table (16 + k)) (fun j => utk_rc_table (16 + j)) 32 = k) ∧
    (∀ i j : Nat, 1 ≤ i → i < j → j ≤ 63 → utk_rc_table i < utk_rc_table j) ∧
    utk_rc_table 0 = utk_rc_table 32 ∧
    (∀ i j : Nat, i < j → j ≤ 63 → utk_rc_table i = utk_rc_table j → i = 0 ∧ j = 32) := by
  have hne : ∀ i j : Nat, 1 ≤ i → i ≤ 63 → 1 ≤ j → j ≤ 63 →
      utk_rc_table i = utk_rc_table j → i = j := by
    intro i j hi1 hi2 hj1 hj2 h
    by_contra hn
    rcases Nat.lt_or_gt_of_ne hn with hlt | hgt
    · exact absurd h (ne_of_lt (utk_rc_table_strict_mono i j hi1 hlt hj2))
    · exact absurd h.symm (ne_of_lt (utk_rc_table_strict_mono j i hj1 hgt hi2))
  have h0 : utk_rc_table 0 = utk_rc_table 32 := by decide!
  refine ⟨?_, ?_, utk_rc_table_strict_mono, h0, ?_⟩
  · intro idx h1 h2
    have h := quantize_entry (fun k => utk_rc_table (1 + k)) 63 (idx - 1) (by omega)
      (by
        intro j hj he
        have := hne (1 + j) (1 + (idx - 1)) (by omega) (by omega) (by omega) (by omega) he
        omega)
    simp only [show 1 + (idx - 1) = idx by omega] at h
    rw [h]
    omega
  · intro k hk
    exact quantize_entry (fun j => utk_rc_table (16 + j)) 32 k (by omega)
      (by
        intro j hj he
        have := hne (16 + j) (16 + k) (by omega) (by omega) (by omega) (by omega) he
        omega)
  · intro i j hij hj h
    by_cases hi : i = 0
    · subst hi
      refine ⟨rfl, ?_⟩
      rw [h0] at h
      exact (hne 32 j (by omega) (by omega) (by omega) hj h).symm
    · exact absurd h (ne_of_lt (utk_rc_table_strict_mono i j (by omega) hij hj))

/-- C35 witness: index 5 with the 63-entry alphabet, and entry 16 + 3 with the 32-entry
alphabet. -/
theorem C35_requantize_fixed_point_witness :
    1 + quantize (utk_rc_table 5) (fun k => utk_rc_table (1 + k)) 63 = 5 ∧
    quantize (utk_rc_table (16 + 3)) (fun j => utk_rc_table (16 + j)) 32 = 3 :=
  ⟨C35_requantize_fixed_point.1 5 (by decide) (by decide),
   C35_requantize_fixed_point.2.1 3 (by decide)⟩

/-! ## C33: the guard slots of the innovation buffer -/

/-- Invariants of a fold whose step is only known on the members of the list. -/
theorem foldl_mem_induction {σ ι : Type} (f : σ → ι → σ) (P : σ → Prop) :
    ∀ (l : List ι) (s : σ), (∀ i, i ∈ l → ∀ s, P s → P (f s i)) → P s → P (l.foldl f s) := by
  intro l
  induction l with
  | nil => intro s _ h; exact h
  | cons x l ih =>
    intro s hstep h
    rw [List.foldl_cons]
    exact ih _ (fun i hi => hstep i (List.mem_cons_of_mem _ hi))
      (hstep x (List.mem_cons_self _ _) s h)

/-- Two folds over the same list whose steps keep a relation on the members of the
list. -/
theorem foldl_mem_rel {σ τ ι : Type} (f : σ → ι → σ) (g : τ → ι → τ) (R : σ → τ → Prop) :
    ∀ (l : List ι) (s : σ) (t : τ),
      (∀ i, i ∈ l → ∀ s t, R s t → R (f s i) (g t i)) → R s t →
      R (l.foldl f s) (l.foldl g t) := by
  intro l
  induction l with
  | nil => intro s t _ h; exact h
  | cons x l ih =>
    intro s t hstep h
    rw [List.foldl_cons, List.foldl_cons]
    exact ih _ _ (fun i hi => hstep i (List.mem_cons_of_mem _ hi))
      (hstep x (List.mem_cons_self _ _) s t h)

/-- The indices a loop `for (i = a; i < 108; i += 2)` visits lie in 0..107. -/
theorem mem_positions_two (a : Nat) (i : Int) (h : i ∈ positions 2 108 (a : Int)) :
    0 ≤ i ∧ i < 108 := by
  have h1 := (mem_positions 2 (Or.inr rfl) 108 (a : Int) i (by omega)).mp h
  omega

/-- `low_pass_innovation` writes the samples 0..107 only. -/
theorem low_pass_innovation_outside (x : Int → ℚ) (a z : Nat) (k : Int)
    (hk : k < 0 ∨ 108 ≤ k) : low_pass_innovation x a z k = x k := by
  unfold low_pass_innovation
  rw [for_positions_eq_foldl]
  refine foldl_mem_induction _ (fun (m : Int → ℚ) => m k = x k) _ _ ?_ rfl
  intro i hi m hm
  have h := mem_positions_two a i hi
  rw [storeI_other _ _ _ _ (by omega)]
  exact hm

/-- `low_pass_innovation` reads the slots -5..112 only: what it leaves in them depends on
nothing else. -/
theorem low_pass_innovation_congr (x x2 : Int → ℚ) (a z : Nat)
    (h : ∀ k : Int, -5 ≤ k → k ≤ 112 → x k = x2 k) :
    ∀ k : Int, -5 ≤ k → k ≤ 112 → low_pass_innovation x a z k = low_pass_innovation x2 a z k := by
  unfold low_pass_innovation
  rw [for_positions_eq_foldl, for_positions_eq_foldl]
  refine foldl_mem_rel _ _
    (fun (m m2 : Int → ℚ) => ∀ k : Int, -5 ≤ k → k ≤ 112 → m k = m2 k) _ _ _ ?_ h
  intro i hi m m2 hm k hk1 hk2
  have hpos := mem_positions_two a i hi
  by_cases hki : k = i
  · rw [hki, storeI_same, storeI_same, hm i (by omega) (by omega),
      hm (i - 1) (by omega) (by omega), hm (i + 1) (by omega) (by omega),
      hm (i - 3) (by omega) (by omega), hm (i + 3) (by omega) (by omega),
      hm (i - 5) (by omega) (by omega), hm (i + 5) (by omega) (by omega)]
  · rw [storeI_other _ _ _ _ hki, storeI_other _ _ _ _ hki]
    exact hm k hk1 hk2

/-- `interpolate` writes the samples 0..107 only. -/
theorem interpolate_outside (x : Int → ℚ) (a z : Nat) (k : Int) (hk : k < 0 ∨ 108 ≤ k) :
    interpolate x a z k = x k := by
  rw [interpolate_get, if_neg]
  intro hmem
  have h := mem_positions_two (c_not a) k hmem
  omega

/-- The interpolation of a visited sample reads the slots -5..112 only. -/
theorem interpolation_taps_congr (x x2 : Int → ℚ)
    (h : ∀ k : Int, -5 ≤ k → k ≤ 112 → x k = x2 k) (i : Int) (h0 : 0 ≤ i) (h1 : i < 108) :
    interpolation_taps x i = interpolation_taps x2 i := by
  unfold interpolation_taps
  rw [h (i - 1) (by omega) (by omega), h (i + 1) (by omega) (by omega),
    h (i - 3) (by omega) (by omega), h (i + 3) (by omega) (by omega),
    h (i - 5) (by omega) (by omega), h (i + 5) (by omega) (by omega)]

/-- `interpolate` reads the slots -5..112 only. -/
theorem interpolate_congr (x x2 : Int → ℚ) (a z : Nat)
    (h : ∀ k : Int, -5 ≤ k → k ≤ 112 → x k = x2 k) :
    ∀ k : Int, -5 ≤ k → k ≤ 112 → interpolate x a z k = interpolate x2 a z k := by
  intro k hk1 hk2
  rw [interpolate_get, interpolate_get]
  by_cases hmem : k ∈ positions 2 108 (c_not a)
  · have hp := mem_positions_two (c_not a) k hmem
    rw [if_pos hmem, if_pos hmem, interpolation_taps_congr x x2 h k hp.1 hp.2]
  · rw [if_neg hmem, if_neg hmem]
    exact h k hk1 hk2

/-- `interpolation_error` reads the slots -5..112 only. -/
theorem interpolation_error_congr (x x2 : Int → ℚ) (a z : Nat)
    (h : ∀ k : Int, -5 ≤ k → k ≤ 112 → x k = x2 k) :
    interpolation_error a z x = interpolation_error a z x2 := by
  rw [interpolation_error_sum, interpolation_error_sum]
  apply Finset.sum_congr rfl
  intro i hi
  rw [Finset.mem_Ico] at hi
  rw [interpolation_taps_congr x x2 h i hi.1 hi.2, h i (by omega) (by omega)]

/-- `find_a_z_flags` reads the slots -5..112 only. -/
theorem find_a_z_flags_congr (x x2 : Int → ℚ)
    (h : ∀ k : Int, -5 ≤ k → k ≤ 112 → x k = x2 k) :
    find_a_z_flags x = find_a_z_flags x2 := by
  rw [find_a_z_flags_cases, find_a_z_flags_cases, interpolation_error_congr x x2 0 1 h,
    interpolation_error_congr x x2 1 1 h, interpolation_error_congr x x2 0 0 h,
    interpolation_error_congr x x2 1 0 h]

/-- The residual loop of a subframe (lines 1095-1097) writes the samples 0..107 only. -/
theorem residual_loop_outside (f : Nat → ℚ) (x : Int → ℚ) (k : Int) (hk : k < 0 ∨ 108 ≤ k) :
    for_range (fun j innovation => storeI innovation (j : Int) (f j)) 108 0 x k = x k := by
  have h := for_range_induction (fun j innovation => storeI innovation (j : Int) (f j))
    (fun j m => j ≤ 108 → m k = x k)
    (by
      intro j m hm hj
      show storeI m (j : Int) (f j) k = x k
      rw [storeI_other _ _ _ _ (by omega)]
      exact hm (by omega))
    108 0 x (fun _ => rfl)
  exact h (by omega)

/-- `encode_innovation` writes the samples 0..107 of the innovation buffer only. -/
theorem encode_innovation_outside (inn_gains : Nat → ℚ)
    (encodings : Nat → innovation_encoding) (locals : Nat → huffman_locals)
    (bwc : bit_writer_context) (innovation : Int → ℚ) (halved_innovation use_huffman : Nat)
    (target_bit_count : Int) (R : innovation_result)
    (hR : encode_innovation inn_gains encodings locals bwc innovation halved_innovation
      use_huffman target_bit_count = R) (k : Int) (hk : k < 0 ∨ 108 ≤ k) :
    R.innovation k = innovation k := by
  rw [encode_innovation_parts inn_gains encodings locals bwc innovation halved_innovation
    use_huffman target_bit_count _ _ _ rfl rfl rfl] at hR
  subst hR
  dsimp only
  have hnot : ¬ (0 ≤ k ∧ k < 108) := by omega
  by_cases hh : halved_innovation ≠ 0
  · rw [if_pos hh, interpolate_outside _ _ _ k hk, if_neg hnot, if_pos hh,
      low_pass_innovation_outside _ _ _ k hk]
  · rw [if_neg hh, if_neg hnot, if_neg hh]

/-- The writer, the innovation buffer and the record of one subframe, in terms of the
results of its parts. -/
theorem encode_subframe_fields (opt : encoder_options) (sampling_rate : Int)
    (use_huffman : Nat) (stack : subframe_stack) (i : Nat) (s : encoder_state) (p : Int × ℚ)
    (innovation : Int → ℚ) (r : innovation_result) (excitation : Int → ℚ)
    (h1 : find_pitch (offset_view s.adaptive_codebook (324 + 108 * (i : Int))) = p)
    (h2 : for_range
        (fun j innovation =>
          storeI innovation j
            (offset_view s.adaptive_codebook (324 + 108 * (i : Int)) j
              - ((ROUND (p.2 * 15) : Int) : ℚ) / 15
                * offset_view s.adaptive_codebook (324 + 108 * (i : Int)) ((j : Int) - p.1)))
        108 0 s.innovation = innovation)
    (h3 : encode_innovation (inn_gains opt.inngain_sig opt.inngain_base) stack.encodings
        stack.locals
        (bwc_write_bits (bwc_write_bits s.bwc (to_unsigned (p.1 - 108)) 8)
          (to_unsigned (ROUND (p.2 * 15))) 4)
        innovation opt.halved_innovation use_huffman
        (target_bit_count opt.bitrate sampling_rate) = r)
    (h4 : for_range
        (fun j excitation =>
          storeI excitation j
            (r.innovation j
              + ((ROUND (p.2 * 15) : Int) : ℚ) / 15 * excitation ((j : Int) - p.1)))
        108 0 (offset_view s.adaptive_codebook (324 + 108 * (i : Int))) = excitation) :
    (encode_subframe opt sampling_rate use_huffman stack i s).1.innovation = r.innovation
    ∧ (encode_subframe opt sampling_rate use_huffman stack i s).1.bwc = r.bwc
    ∧ (encode_subframe opt sampling_rate use_huffman stack i s).2.innovation = r := by
  have hp := encode_subframe_parts opt sampling_rate use_huffman stack i s p innovation r
    excitation h1 h2 h3 h4
  exact ⟨congrArg (fun t => t.1.innovation) hp, congrArg (fun t => t.1.bwc) hp,
    congrArg (fun t => t.2.innovation) hp⟩

/-- One subframe (residual computation and `encode_innovation`) writes the samples
0..107 of the innovation buffer only. -/
theorem encode_subframe_outside (opt : encoder_options) (sampling_rate : Int)
    (use_huffman : Nat) (stack : subframe_stack) (i : Nat) (s : encoder_state) (k : Int)
    (hk : k < 0 ∨ 108 ≤ k) :
    (encode_subframe opt sampling_rate use_huffman stack i s).1.innovation k = s.innovation k
    ∧ (encode_subframe opt sampling_rate use_huffman stack i s).2.innovation.innovation k
        = s.innovation k := by
  obtain ⟨p, h1⟩ : ∃ p,
    find_pitch (offset_view s.adaptive_codebook (324 + 108 * (i : Int))) = p := ⟨_, rfl⟩
  obtain ⟨innovation, h2⟩ : ∃ innovation, for_range
        (fun j innovation =>
          storeI innovation j
            (offset_view s.adaptive_codebook (324 + 108 * (i : Int)) j
              - ((ROUND (p.2 * 15) : Int) : ℚ) / 15
                * offset_view s.adaptive_codebook (324 + 108 * (i : Int)) ((j : Int) - p.1)))
        108 0 s.innovation = innovation := ⟨_, rfl⟩
  obtain ⟨r, h3⟩ : ∃ r, encode_innovation (inn_gains opt.inngain_sig opt.inngain_base)
        stack.encodings stack.locals
        (bwc_write_bits (bwc_write_bits s.bwc (to_unsigned (p.1 - 108)) 8)
          (to_unsigned (ROUND (p.2 * 15))) 4)
        innovation opt.halved_innovation use_huffman
        (target_bit_count opt.bitrate sampling_rate) = r := ⟨_, rfl⟩
  obtain ⟨f1, _, f3⟩ := encode_subframe_fields opt sampling_rate use_huffman stack i s p
    innovation r _ h1 h2 h3 rfl
  have hr := encode_innovation_outside _ _ _ _ _ _ _ _ r h3 k hk
  have hi : innovation k = s.innovation k := by
    rw [← h2]
    exact residual_loop_outside
      (fun j => offset_view s.adaptive_codebook (324 + 108 * (i : Int)) j
        - ((ROUND (p.2 * 15) : Int) : ℚ) / 15
          * offset_view s.adaptive_codebook (324 + 108 * (i : Int)) ((j : Int) - p.1))
      s.innovation k hk
  rw [f1, f3, hr, hi]
  exact ⟨rfl, rfl⟩

/-- Invariants of the subframe loop: `P i` of the state before subframe `i`, `Q` of every
record. -/
theorem encode_subframes_invariant (opt : encoder_options) (sampling_rate : Int)
    (use_huffman : Nat) (stack : Nat → subframe_stack) (P : Nat → encoder_state → Prop)
    (Q : subframe_record → Prop)
    (hstep : ∀ i s, i < 4 → P i s →
      P (i + 1) (encode_subframe opt sampling_rate use_huffman (stack i) i s).1
      ∧ Q (encode_subframe opt sampling_rate use_huffman (stack i) i s).2)
    (s : encoder_state) (h : P 0 s) :
    P 4 (encode_subframes opt sampling_rate use_huffman stack s).1
    ∧ ∀ sf ∈ (encode_subframes opt sampling_rate use_huffman stack s).2, Q sf := by
  have hinv := for_range_induction
    (fun i (st : encoder_state × List subframe_record) =>
      ((encode_subframe opt sampling_rate use_huffman (stack i) i st.1).1,
        st.2 ++ [(encode_subframe opt sampling_rate use_huffman (stack i) i st.1).2]))
    (fun i st => i ≤ 4 → (P i st.1 ∧ ∀ sf ∈ st.2, Q sf))
    (by
      intro i st hP hi
      obtain ⟨h1, h2⟩ := hP (by omega)
      obtain ⟨h3, h4⟩ := hstep i st.1 (by omega) h1
      refine ⟨h3, ?_⟩
      intro sf hsf
      rcases List.mem_append.mp hsf with hm | hm
      · exact h2 sf hm
      · rw [List.mem_singleton.mp hm]
        exact h4)
    4 0 (s, []) (fun _ => ⟨h, by intro sf hsf; cases hsf⟩)
  exact hinv (by omega)

/-- The writer, the innovation buffer and the subframe records of a frame are those of
its subframe loop. -/
theorem encode_frame_fields (opt : encoder_options) (sampling_rate : Int)
    (stack : Nat → subframe_stack) (s : encoder_state) (wav_buffer : Nat → Nat)
    (samples_to_read : Nat) (input : Int → ℚ) (q : rc_quantization) (rc_delta : Nat → ℚ)
    (lp : (Nat → ℚ) × (Int → ℚ)) (sub : encoder_state × List subframe_record)
    (h1 : load_samples s.input_samples wav_buffer samples_to_read = input)
    (h2 : quantize_rc opt.huffman_threshold s.bwc (find_rc (fun _ => 0) (offset_view input 12))
      = q)
    (h3 : for_range (fun i rc_delta => store rc_delta i ((q.rc i - s.prev_rc i) / 4)) 12 0
      (fun _ => 0) = rc_delta)
    (h4 : find_frame_excitation rc_delta (fun j => if j < 12 then s.prev_rc j else q.rc j)
      s.adaptive_codebook input = lp)
    (h5 : encode_subframes opt sampling_rate q.use_huffman stack
      { bwc := q.bwc
        input_samples := fun j => if 0 ≤ j ∧ j < 12 then input (432 + j) else input j
        adaptive_codebook := lp.2
        prev_rc := fun j => if j < 12 then lp.1 j else s.prev_rc j
        innovation := s.innovation } = sub) :
    (encode_frame opt sampling_rate stack s wav_buffer samples_to_read).1.innovation
      = sub.1.innovation
    ∧ (encode_frame opt sampling_rate stack s wav_buffer samples_to_read).1.bwc = sub.1.bwc
    ∧ (encode_frame opt sampling_rate stack s wav_buffer samples_to_read).2.subframes
      = sub.2 := by
  have hp := encode_frame_parts opt sampling_rate stack s wav_buffer samples_to_read input q
    rc_delta lp sub h1 h2 h3 h4 h5
  exact ⟨congrArg (fun t => t.1.innovation) hp, congrArg (fun t => t.1.bwc) hp,
    congrArg (fun t => t.2.subframes) hp⟩

/-- Invariants of the frame loop: `P` of the encoder state before every frame, `Q` of
every frame record. -/
theorem encode_loop_invariant (opt : encoder_options) (sampling_rate : Int)
    (stack : Nat → Nat → subframe_stack) (wav_data : Nat → Nat) (data_length : Nat)
    (P : encoder_state → Prop) (Q : frame_record → Prop)
    (hframe : ∀ (f : Nat) (e : encoder_state) (wav_buffer : Nat → Nat) (n : Nat), P e →
      P { bwc := (bwc_flush (encode_frame opt sampling_rate (stack f) e wav_buffer n).1.bwc).2
          input_samples :=
            (encode_frame opt sampling_rate (stack f) e wav_buffer n).1.input_samples
          adaptive_codebook :=
            (encode_frame opt sampling_rate (stack f) e wav_buffer n).1.adaptive_codebook
          prev_rc := (encode_frame opt sampling_rate (stack f) e wav_buffer n).1.prev_rc
          innovation := (encode_frame opt sampling_rate (stack f) e wav_buffer n).1.innovation }
      ∧ Q (encode_frame opt sampling_rate (stack f) e wav_buffer n).2) :
    ∀ (fuel : Nat) (s r : main_state),
      encode_loop opt sampling_rate stack wav_data data_length fuel s = some r →
      P s.enc → (∀ f ∈ s.frames, Q f) → P r.enc ∧ ∀ f ∈ r.frames, Q f := by
  intro fuel
  induction fuel with
  | zero =>
    intro s r h hP hQ
    have e : s = r := Option.some.inj h
    rw [← e]
    exact ⟨hP, hQ⟩
  | succ fuel ih =>
    intro s r h hP hQ
    unfold encode_loop at h
    by_cases h0 : s.bytes_remaining ≠ 0
    · rw [if_pos h0] at h
      simp only [] at h
      by_cases hshort : data_length < s.file_pos
          + (if s.bytes_remaining < 432 * 2 then s.bytes_remaining else 432 * 2)
      · rw [if_pos hshort] at h
        cases h
      · rw [if_neg hshort] at h
        obtain ⟨h1, h2⟩ := hframe s.frames.length s.enc (fun k => wav_data (s.file_pos + k))
          ((if s.bytes_remaining < 432 * 2 then s.bytes_remaining else 432 * 2) >>> 1) hP
        refine ih _ r h h1 ?_
        intro f hf
        rcases List.mem_append.mp hf with hm | hm
        · exact hQ f hm
        · rw [List.mem_singleton.mp hm]
          exact h2
    · rw [if_neg h0] at h
      have e : s = r := Option.some.inj h
      rw [← e]
      exact ⟨hP, hQ⟩

/-- A frame writes the samples 0..107 of the innovation buffer only, and so does each of
its subframes. -/
theorem encode_frame_outside (opt : encoder_options) (sampling_rate : Int)
    (stack : Nat → subframe_stack) (s : encoder_state) (wav_buffer : Nat → Nat)
    (samples_to_read : Nat) :
    (∀ k : Int, (k < 0 ∨ 108 ≤ k) →
      (encode_frame opt sampling_rate stack s wav_buffer samples_to_read).1.innovation k
        = s.innovation k)
    ∧ ∀ sf ∈ (encode_frame opt sampling_rate stack s wav_buffer samples_to_read).2.subframes,
        ∀ k : Int, (k < 0 ∨ 108 ≤ k) → sf.innovation.innovation k = s.innovation k := by
  obtain ⟨q, h2⟩ : ∃ q, quantize_rc opt.huffman_threshold s.bwc
    (find_rc (fun _ => 0)
      (offset_view (load_samples s.input_samples wav_buffer samples_to_read) 12)) = q :=
    ⟨_, rfl⟩
  obtain ⟨lp, h4⟩ : ∃ lp, find_frame_excitation
      (for_range (fun i rc_delta => store rc_delta i ((q.rc i - s.prev_rc i) / 4)) 12 0
        (fun _ => 0))
      (fun j => if j < 12 then s.prev_rc j else q.rc j)
      s.adaptive_codebook (load_samples s.input_samples wav_buffer samples_to_read) = lp :=
    ⟨_, rfl⟩
  obtain ⟨sub, h5⟩ : ∃ sub, encode_subframes opt sampling_rate q.use_huffman stack
      { bwc := q.bwc
        input_samples := fun j =>
          if 0 ≤ j ∧ j < 12 then
            load_samples s.input_samples wav_buffer samples_to_read (432 + j)
          else load_samples s.input_samples wav_buffer samples_to_read j
        adaptive_codebook := lp.2
        prev_rc := fun j => if j < 12 then lp.1 j else s.prev_rc j
        innovation := s.innovation } = sub := ⟨_, rfl⟩
  obtain ⟨f1, _, f3⟩ := encode_frame_fields opt sampling_rate stack s wav_buffer
    samples_to_read _ q _ lp sub rfl h2 rfl h4 h5
  have hinv := encode_subframes_invariant opt sampling_rate q.use_huffman stack
    (fun _ e => ∀ k : Int, (k < 0 ∨ 108 ≤ k) → e.innovation k = s.innovation k)
    (fun sf => ∀ k : Int, (k < 0 ∨ 108 ≤ k) → sf.innovation.innovation k = s.innovation k)
    (by
      intro i e _ he
      obtain hsub := encode_subframe_outside opt sampling_rate q.use_huffman (stack i) i e
      exact ⟨fun k hk => by rw [(hsub k hk).1, he k hk],
        fun k hk => by rw [(hsub k hk).2, he k hk]⟩)
    { bwc := q.bwc
      input_samples := fun j =>
        if 0 ≤ j ∧ j < 12 then
          load_samples s.input_samples wav_buffer samples_to_read (432 + j)
        else load_samples s.input_samples wav_buffer samples_to_read j
      adaptive_codebook := lp.2
      prev_rc := fun j => if j < 12 then lp.1 j else s.prev_rc j
      innovation := s.innovation }
    (fun _ _ => rfl)
  rw [h5] at hinv
  rw [f1, f3]
  exact hinv

/-- C33: the slots of the innovation buffer outside the samples 0..107 (the guard slots
are the offsets -5..-1 and 108..112 from `&innovation[5]`) are written by none of
`low_pass_innovation`, `interpolate`, `encode_innovation` (with its copy-back), a
subframe (with its residual computation) and a frame; so, after the frame loop has
started from a state whose guard slots hold 0, as the initial state does, they hold 0 in
the final state and in the buffer left by every subframe of every frame.  What
`low_pass_innovation`, `interpolation_error`, `find_a_z_flags` and `interpolate` compute
depends on the slots -5..112 only: no read `x[i-5..i+5]` leaves the buffer. -/
theorem C33_guard_slots (opt : encoder_options) (sampling_rate : Int)
    (stack : Nat → Nat → subframe_stack) (wav_data : Nat → Nat) (data_length : Nat) :
    (∀ (x : Int → ℚ) (a z : Nat) (k : Int), (k < 0 ∨ 108 ≤ k) →
      low_pass_innovation x a z k = x k ∧ interpolate x a z k = x k)
    ∧ (∀ (inn_gains : Nat → ℚ) (encodings : Nat → innovation_encoding)
        (locals : Nat → huffman_locals) (bwc : bit_writer_context) (innovation : Int → ℚ)
        (halved_innovation use_huffman : Nat) (target_bit_count : Int) (k : Int),
        (k < 0 ∨ 108 ≤ k) →
        (encode_innovation inn_gains encodings locals bwc innovation halved_innovation
          use_huffman target_bit_count).innovation k = innovation k)
    ∧ (∀ (use_huffman : Nat) (st : subframe_stack) (i : Nat) (s : encoder_state) (k : Int),
        (k < 0 ∨ 108 ≤ k) →
        (encode_subframe opt sampling_rate use_huffman st i s).1.innovation k
          = s.innovation k)
    ∧ (∀ (st : Nat → subframe_stack) (s : encoder_state) (wav_buffer : Nat → Nat)
        (samples_to_read : Nat) (k : Int), (k < 0 ∨ 108 ≤ k) →
        (encode_frame opt sampling_rate st s wav_buffer samples_to_read).1.innovation k
          = s.innovation k)
    ∧ (∀ (bwc : bit_writer_context) (k : Int), (initial_encoder_state bwc).innovation k = 0)
    ∧ (∀ (fuel : Nat) (s r : main_state),
        encode_loop opt sampling_rate stack wav_data data_length fuel s = some r →
        (∀ k : Int, (k < 0 ∨ 108 ≤ k) → s.enc.innovation k = 0) →
        (∀ f ∈ s.frames, ∀ sf ∈ f.subframes, ∀ k : Int, (k < 0 ∨ 108 ≤ k) →
          sf.innovation.innovation k = 0) →
        (∀ k : Int, (k < 0 ∨ 108 ≤ k) → r.enc.innovation k = 0)
        ∧ ∀ f ∈ r.frames, ∀ sf ∈ f.subframes, ∀ k : Int, (k < 0 ∨ 108 ≤ k) →
            sf.innovation.innovation k = 0)
    ∧ (∀ (x x2 : Int → ℚ) (a z : Nat), (∀ k : Int, -5 ≤ k → k ≤ 112 → x k = x2 k) →
        interpolation_error a z x = interpolation_error a z x2
        ∧ find_a_z_flags x = find_a_z_flags x2
        ∧ (∀ k : Int, -5 ≤ k → k ≤ 112 →
            low_pass_innovation x a z k = low_pass_innovation x2 a z k)
        ∧ (∀ k : Int, -5 ≤ k → k ≤ 112 → interpolate x a z k = interpolate x2 a z k)) := by
  refine ⟨?_, ?_, ?_, ?_, ?_, ?_, ?_⟩
  · intro x a z k hk
    exact ⟨low_pass_innovation_outside x a z k hk, interpolate_outside x a z k hk⟩
  · intro inn_gains encodings locals bwc innovation halved_innovation use_huffman
      target_bit_count k hk
    exact encode_innovation_outside inn_gains encodings locals bwc innovation
      halved_innovation use_huffman target_bit_count _ rfl k hk
  · intro use_huffman st i s k hk
    exact (encode_subframe_outside opt sampling_rate use_huffman st i s k hk).1
  · intro st s wav_buffer samples_to_read k hk
    exact (encode_frame_outside opt sampling_rate st s wav_buffer samples_to_read).1 k hk
  · intro bwc k
    rfl
  · exact encode_loop_invariant opt sampling_rate stack wav_data data_length
      (fun e => ∀ k : Int, (k < 0 ∨ 108 ≤ k) → e.innovation k = 0)
      (fun f => ∀ sf ∈ f.subframes, ∀ k : Int, (k < 0 ∨ 108 ≤ k) →
        sf.innovation.innovation k = 0)
      (by
        intro f e wav_buffer n he
        obtain ⟨h1, h2⟩ := encode_frame_outside opt sampling_rate (stack f) e wav_buffer n
        exact ⟨fun k hk => by
            show (encode_frame opt sampling_rate (stack f) e wav_buffer n).1.innovation k = 0
            rw [h1 k hk, he k hk],
          fun sf hsf k hk => by rw [h2 sf hsf k hk, he k hk]⟩)
  · intro x x2 a z h
    exact ⟨interpolation_error_congr x x2 a z h, find_a_z_flags_congr x x2 h,
      low_pass_innovation_congr x x2 a z h, interpolate_congr x x2 a z h⟩

/-- C33 witness: the slot -1 of a buffer of ones after the low-pass filter and after the
interpolation. -/
theorem C33_guard_slots_witness :
    low_pass_innovation (fun _ => 1) 0 1 (-1) = (fun (_ : Int) => (1 : ℚ)) (-1)
    ∧ interpolate (fun _ => 1) 0 1 (-1) = (fun (_ : Int) => (1 : ℚ)) (-1) :=
  (C33_guard_slots default_options 22050 (fun _ _ => zero_stack) (fun _ => 0) 0).1
    (fun _ => 1) 0 1 (-1) (Or.inl (by decide))

/-! ## The stream writer over a frame -/

/-- The stream writer after `encode_innovation`: the invariant holds, the bit position
has advanced by at most `8 + 108*16`, and no byte before the old or after the new
position was written. -/
theorem encode_innovation_writer (inn_gains : Nat → ℚ)
    (encodings : Nat → innovation_encoding) (locals : Nat → huffman_locals)
    (bwc : bit_writer_context) (innovation : Int → ℚ) (halved_innovation use_huffman : Nat)
    (target_bit_count : Int) (hok : bwc_ok bwc) (R : innovation_result)
    (hR : encode_innovation inn_gains encodings locals bwc innovation halved_innovation
      use_huffman target_bit_count = R) :
    bwc_ok R.bwc
    ∧ bit_position R.bwc ≤ bit_position bwc + (8 + 108 * 16)
    ∧ bwc.pos ≤ R.bwc.pos
    ∧ ∀ j, (j < bwc.pos ∨ R.bwc.pos < j) → R.bwc.buffer j = bwc.buffer j := by
  obtain ⟨_, _, _, hbwc, _, scratch, c1, c2, c3, _⟩ := encode_innovation_committed inn_gains
    encodings locals bwc innovation halved_innovation use_huffman target_bit_count hok R hR
  obtain ⟨s1, s2, _, _, _, _, _, s8⟩ := trial_commit_spec bwc scratch _ hok c2
    R.committed.bwc c1.symm R.bwc hbwc
  have hpos : R.bwc.pos = bwc.pos + R.committed.bwc.pos := by rw [hbwc]
  refine ⟨s1, by omega, by omega, ?_⟩
  intro j hj
  exact s8 j (by omega)

/-- The two codes of a subframe are valid writes. -/
theorem find_pitch_codes_valid (excitation : Int → ℚ) :
    valid_write (to_unsigned ((find_pitch excitation).1 - 108), 8)
    ∧ valid_write (to_unsigned (ROUND ((find_pitch excitation).2 * 15)), 4) := by
  obtain ⟨h1, h2, h3, h4⟩ := find_pitch_range excitation
  have hr0 : 0 ≤ ROUND ((find_pitch excitation).2 * 15) := by
    rw [ROUND_of_nonneg _ (by positivity)]
    exact Int.floor_nonneg.mpr (by positivity)
  have hr1 := (ROUND_bounds ((find_pitch excitation).2 * 15) 15 (by push_cast; linarith)
    (by push_cast; linarith)).2
  refine ⟨⟨by norm_num, by norm_num, ?_⟩, ⟨by norm_num, by norm_num, ?_⟩⟩
  · show to_unsigned ((find_pitch excitation).1 - 108) < 2 ^ 8
    rw [to_unsigned_of_nonneg _ (by omega) (by omega)]
    omega
  · show to_unsigned (ROUND ((find_pitch excitation).2 * 15)) < 2 ^ 4
    rw [to_unsigned_of_nonneg _ hr0 (by omega)]
    omega

/-- The stream writer after one subframe: the invariant holds, the bit position has
advanced by at most `12 + 8 + 108*16`, and no byte before the old or after the new
position was written; the record holds the same writer. -/
theorem encode_subframe_writer (opt : encoder_options) (sampling_rate : Int)
    (use_huffman : Nat) (stack : subframe_stack) (i : Nat) (s : encoder_state)
    (hok : bwc_ok s.bwc) :
    bwc_ok (encode_subframe opt sampling_rate use_huffman stack i s).1.bwc
    ∧ bit_position (encode_subframe opt sampling_rate use_huffman stack i s).1.bwc
        ≤ bit_position s.bwc + 1748
    ∧ s.bwc.pos ≤ (encode_subframe opt sampling_rate use_huffman stack i s).1.bwc.pos
    ∧ (∀ j, (j < s.bwc.pos
          ∨ (encode_subframe opt sampling_rate use_huffman stack i s).1.bwc.pos < j) →
        (encode_subframe opt sampling_rate use_huffman stack i s).1.bwc.buffer j
          = s.bwc.buffer j)
    ∧ (encode_subframe opt sampling_rate use_huffman stack i s).2.innovation.bwc
        = (encode_subframe opt sampling_rate use_huffman stack i s).1.bwc := by
  obtain ⟨p, h1⟩ : ∃ p,
    find_pitch (offset_view s.adaptive_codebook (324 + 108 * (i : Int))) = p := ⟨_, rfl⟩
  obtain ⟨r, h3⟩ : ∃ r, encode_innovation (inn_gains opt.inngain_sig opt.inngain_base)
        stack.encodings stack.locals
        (bwc_write_bits (bwc_write_bits s.bwc (to_unsigned (p.1 - 108)) 8)
          (to_unsigned (ROUND (p.2 * 15))) 4)
        (for_range
          (fun j innovation =>
            storeI innovation j
              (offset_view s.adaptive_codebook (324 + 108 * (i : Int)) j
                - ((ROUND (p.2 * 15) : Int) : ℚ) / 15
                  * offset_view s.adaptive_codebook (324 + 108 * (i : Int))
                      ((j : Int) - p.1)))
          108 0 s.innovation)
        opt.halved_innovation use_huffman
        (target_bit_count opt.bitrate sampling_rate) = r := ⟨_, rfl⟩
  obtain ⟨_, f2, f3⟩ := encode_subframe_fields opt sampling_rate use_huffman stack i s p
    _ r _ h1 rfl h3 rfl
  have hv := find_pitch_codes_valid (offset_view s.adaptive_codebook (324 + 108 * (i : Int)))
  rw [h1] at hv
  have hws : ∀ w ∈ [(to_unsigned (p.1 - 108), 8), (to_unsigned (ROUND (p.2 * 15)), 4)],
      valid_write w := by
    intro w hw
    simp only [List.mem_cons, List.mem_singleton, List.not_mem_nil, or_false] at hw
    rcases hw with rfl | rfl
    · exact hv.1
    · exact hv.2
  have hfold : bwc_writes s.bwc
      [(to_unsigned (p.1 - 108), 8), (to_unsigned (ROUND (p.2 * 15)), 4)]
      = bwc_write_bits (bwc_write_bits s.bwc (to_unsigned (p.1 - 108)) 8)
          (to_unsigned (ROUND (p.2 * 15))) 4 := rfl
  obtain ⟨w1, w2, _, _⟩ := bwc_writes_spec _ s.bwc hok hws
  obtain ⟨w3, w4⟩ := bwc_writes_frame
    [(to_unsigned (p.1 - 108), 8), (to_unsigned (ROUND (p.2 * 15)), 4)] s.bwc
  have htot : total_bits [(to_unsigned (p.1 - 108), 8), (to_unsigned (ROUND (p.2 * 15)), 4)]
      = 12 := rfl
  rw [hfold] at w1 w2 w3 w4
  rw [htot] at w2
  obtain ⟨r1, r2, r3, r4⟩ := encode_innovation_writer _ _ _ _ _ _ _ _ w1 r h3
  rw [f2, f3]
  refine ⟨r1, by omega, by omega, ?_, rfl⟩
  intro j hj
  rw [r4 j (by omega), w4 j (by omega)]

/-- The stream writer after the reflection coefficients of a frame: the invariant
holds, the bit position has advanced by 64, and no byte before the old or after the new
position was written. -/
theorem quantize_rc_writer (huffman_threshold : Int) (bwc : bit_writer_context)
    (rc : Nat → ℚ) (hok : bwc_ok bwc) :
    bwc_ok (quantize_rc huffman_threshold bwc rc).bwc
    ∧ bit_position (quantize_rc huffman_threshold bwc rc).bwc = bit_position bwc + 64
    ∧ bwc.pos ≤ (quantize_rc huffman_threshold bwc rc).bwc.pos
    ∧ ∀ j, (j < bwc.pos ∨ (quantize_rc huffman_threshold bwc rc).bwc.pos < j) →
        (quantize_rc huffman_threshold bwc rc).bwc.buffer j = bwc.buffer j := by
  obtain ⟨hidx, hb, _, _⟩ := quantize_rc_unfold huffman_threshold bwc rc
  have hA : ∀ v : ℚ, 1 + quantize v (fun k => utk_rc_table (1 + k)) 63 < 2 ^ 6 := by
    intro v
    have := (quantize_spec v (fun k => utk_rc_table (1 + k)) 63 (by decide)).1
    omega
  have hB : ∀ v : ℚ, quantize v (fun k => utk_rc_table (16 + k)) 32 < 2 ^ 5 := by
    intro v
    have := (quantize_spec v (fun k => utk_rc_table (16 + k)) 32 (by decide)).1
    omega
  rw [hidx] at hb
  simp only [List.take, List.drop, List.map_cons, List.map_nil, List.cons_append,
    List.nil_append] at hb
  rw [hb]
  have hws : ∀ w ∈
      [(1 + quantize (rc 0) (fun k => utk_rc_table (1 + k)) 63, 6),
       (1 + quantize (rc 1) (fun k => utk_rc_table (1 + k)) 63, 6),
       (1 + quantize (rc 2) (fun k => utk_rc_table (1 + k)) 63, 6),
       (1 + quantize (rc 3) (fun k => utk_rc_table (1 + k)) 63, 6),
       (quantize (rc 4) (fun k => utk_rc_table (16 + k)) 32, 5),
       (quantize (rc 5) (fun k => utk_rc_table (16 + k)) 32, 5),
       (quantize (rc 6) (fun k => utk_rc_table (16 + k)) 32, 5),
       (quantize (rc 7) (fun k => utk_rc_table (16 + k)) 32, 5),
       (quantize (rc 8) (fun k => utk_rc_table (16 + k)) 32, 5),
       (quantize (rc 9) (fun k => utk_rc_table (16 + k)) 32, 5),
       (quantize (rc 10) (fun k => utk_rc_table (16 + k)) 32, 5),
       (quantize (rc 11) (fun k => utk_rc_table (16 + k)) 32, 5)], valid_write w := by
    intro w hw
    simp only [List.mem_cons, List.mem_singleton, List.not_mem_nil, or_false] at hw
    rcases hw with rfl | rfl | rfl | rfl | rfl | rfl | rfl | rfl | rfl | rfl | rfl | rfl
    all_goals first
      | exact ⟨by norm_num, by norm_num, hA _⟩
      | exact ⟨by norm_num, by norm_num, hB _⟩
  obtain ⟨w1, w2, _, _⟩ := bwc_writes_spec _ bwc hok hws
  obtain ⟨w3, w4⟩ := bwc_writes_frame
      [(1 + quantize (rc 0) (fun k => utk_rc_table (1 + k)) 63, 6),
       (1 + quantize (rc 1) (fun k => utk_rc_table (1 + k)) 63, 6),
       (1 + quantize (rc 2) (fun k => utk_rc_table (1 + k)) 63, 6),
       (1 + quantize (rc 3) (fun k => utk_rc_table (1 + k)) 63, 6),
       (quantize (rc 4) (fun k => utk_rc_table (16 + k)) 32, 5),
       (quantize (rc 5) (fun k => utk_rc_table (16 + k)) 32, 5),
       (quantize (rc 6) (fun k => utk_rc_table (16 + k)) 32, 5),
       (quantize (rc 7) (fun k => utk_rc_table (16 + k)) 32, 5),
       (quantize (rc 8) (fun k => utk_rc_table (16 + k)) 32, 5),
       (quantize (rc 9) (fun k => utk_rc_table (16 + k)) 32, 5),
       (quantize (rc 10) (fun k => utk_rc_table (16 + k)) 32, 5),
       (quantize (rc 11) (fun k => utk_rc_table (16 + k)) 32, 5)] bwc
  exact ⟨w1, w2, w3, w4⟩

/-- The stream writer over a frame that starts at byte 0: the invariant holds after the
frame, the writer is at byte 882 at most after every subframe and at the end, and no
byte above 882 was written. -/
theorem encode_frame_writer (opt : encoder_options) (sampling_rate : Int)
    (stack : Nat → subframe_stack) (s : encoder_state) (wav_buffer : Nat → Nat)
    (samples_to_read : Nat) (hok : bwc_ok s.bwc) (hpos : s.bwc.pos = 0) :
    bwc_ok (encode_frame opt sampling_rate stack s wav_buffer samples_to_read).1.bwc
    ∧ (encode_frame opt sampling_rate stack s wav_buffer samples_to_read).1.bwc.pos ≤ 882
    ∧ (∀ j, 882 < j →
        (encode_frame opt sampling_rate stack s wav_buffer samples_to_read).1.bwc.buffer j
          = s.bwc.buffer j)
    ∧ ∀ sf ∈ (encode_frame opt sampling_rate stack s wav_buffer samples_to_read).2.subframes,
        sf.innovation.bwc.pos ≤ 882 := by
  obtain ⟨q, h2⟩ : ∃ q, quantize_rc opt.huffman_threshold s.bwc
    (find_rc (fun _ => 0)
      (offset_view (load_samples s.input_samples wav_buffer samples_to_read) 12)) = q :=
    ⟨_, rfl⟩
  obtain ⟨lp, h4⟩ : ∃ lp, find_frame_excitation
      (for_range (fun i rc_delta => store rc_delta i ((q.rc i - s.prev_rc i) / 4)) 12 0
        (fun _ => 0))
      (fun j => if j < 12 then s.prev_rc j else q.rc j)
      s.adaptive_codebook (load_samples s.input_samples wav_buffer samples_to_read) = lp :=
    ⟨_, rfl⟩
  obtain ⟨sub, h5⟩ : ∃ sub, encode_subframes opt sampling_rate q.use_huffman stack
      { bwc := q.bwc
        input_samples := fun j =>
          if 0 ≤ j ∧ j < 12 then
            load_samples s.input_samples wav_buffer samples_to_read (432 + j)
          else load_samples s.input_samples wav_buffer samples_to_read j
        adaptive_codebook := lp.2
        prev_rc := fun j => if j < 12 then lp.1 j else s.prev_rc j
        innovation := s.innovation } = sub := ⟨_, rfl⟩
  obtain ⟨_, f2, f3⟩ := encode_frame_fields opt sampling_rate stack s wav_buffer
    samples_to_read _ q _ lp sub rfl h2 rfl h4 h5
  obtain ⟨q1, q2, q3, q4⟩ := quantize_rc_writer opt.huffman_threshold s.bwc
    (find_rc (fun _ => 0)
      (offset_view (load_samples s.input_samples wav_buffer samples_to_read) 12)) hok
  rw [h2] at q1 q2 q3 q4
  have hc : s.bwc.written_bits_count < 8 := hok.1
  have hb0 : bit_position s.bwc = 8 * s.bwc.pos + s.bwc.written_bits_count := rfl
  have hbq : bit_position q.bwc = 8 * q.bwc.pos + q.bwc.written_bits_count := rfl
  have hinv := encode_subframes_invariant opt sampling_rate q.use_huffman stack
    (fun i e => bwc_ok e.bwc ∧ bit_position e.bwc ≤ 71 + 1748 * i
      ∧ ∀ j, 882 < j → e.bwc.buffer j = s.bwc.buffer j)
    (fun sf => sf.innovation.bwc.pos ≤ 882)
    (by
      intro i e hi he
      obtain ⟨e1, e2, e3⟩ := he
      obtain ⟨w1, w2, w3, w4, w5⟩ := encode_subframe_writer opt sampling_rate q.use_huffman
        (stack i) i e e1
      have hbp : bit_position
          (encode_subframe opt sampling_rate q.use_huffman (stack i) i e).1.bwc
          = 8 * (encode_subframe opt sampling_rate q.use_huffman (stack i) i e).1.bwc.pos
            + (encode_subframe opt sampling_rate q.use_huffman (stack i) i
                e).1.bwc.written_bits_count := rfl
      refine ⟨⟨w1, by omega, ?_⟩, ?_⟩
      · intro j hj
        rw [w4 j (by omega), e3 j hj]
      · show (encode_subframe opt sampling_rate q.use_huffman (stack i) i
            e).2.innovation.bwc.pos ≤ 882
        rw [w5]
        omega)
    { bwc := q.bwc
      input_samples := fun j =>
        if 0 ≤ j ∧ j < 12 then
          load_samples s.input_samples wav_buffer samples_to_read (432 + j)
        else load_samples s.input_samples wav_buffer samples_to_read j
      adaptive_codebook := lp.2
      prev_rc := fun j => if j < 12 then lp.1 j else s.prev_rc j
      innovation := s.innovation }
    ⟨q1, by show bit_position q.bwc ≤ 71 + 1748 * 0; omega,
      fun j hj => q4 j (by omega)⟩
  rw [h5] at hinv
  obtain ⟨⟨p1, p2, p3⟩, p4⟩ := hinv
  have hbs : bit_position sub.1.bwc = 8 * sub.1.bwc.pos + sub.1.bwc.written_bits_count := rfl
  rw [f2, f3]
  exact ⟨p1, by omega, p3, p4⟩

/-- `bwc_flush` keeps the writer invariant and moves the writer to byte 0, changing
only byte 0 of the buffer. -/
theorem bwc_flush_ok (bwc : bit_writer_context) (hok : bwc_ok bwc) :
    bwc_ok (bwc_flush bwc).2 ∧ (bwc_flush bwc).2.pos = 0
    ∧ ∀ j, 0 < j → (bwc_flush bwc).2.buffer j = bwc.buffer j := by
  refine ⟨?_, rfl, ?_⟩
  · unfold bwc_ok bwc_flush
    simp only [store, if_true]
    exact hok
  · intro j hj
    have hne : ¬ (j = 0) := by omega
    simp only [bwc_flush, store, hne, if_false]

/-- The stream writer over the frame loop: every frame starts at byte 0 with the
invariant, every subframe of every frame leaves the writer at byte 882 at most, and no
byte of the stream buffer above 882 is written. -/
theorem encode_loop_writer (opt : encoder_options) (sampling_rate : Int)
    (stack : Nat → Nat → subframe_stack) (wav_data : Nat → Nat) (data_length : Nat)
    (buffer : Nat → Nat) :
    ∀ (fuel : Nat) (s r : main_state),
      encode_loop opt sampling_rate stack wav_data data_length fuel s = some r →
      (bwc_ok s.enc.bwc ∧ s.enc.bwc.pos = 0
        ∧ ∀ j, 882 < j → s.enc.bwc.buffer j = buffer j) →
      (∀ f ∈ s.frames, ∀ sf ∈ f.subframes, sf.innovation.bwc.pos ≤ 882) →
      (bwc_ok r.enc.bwc ∧ r.enc.bwc.pos = 0
        ∧ ∀ j, 882 < j → r.enc.bwc.buffer j = buffer j)
      ∧ ∀ f ∈ r.frames, ∀ sf ∈ f.subframes, sf.innovation.bwc.pos ≤ 882 :=
  encode_loop_invariant opt sampling_rate stack wav_data data_length
    (fun e => bwc_ok e.bwc ∧ e.bwc.pos = 0 ∧ ∀ j, 882 < j → e.bwc.buffer j = buffer j)
    (fun f => ∀ sf ∈ f.subframes, sf.innovation.bwc.pos ≤ 882)
    (by
      intro f e wav_buffer n he
      obtain ⟨e1, e2, e3⟩ := he
      obtain ⟨w1, _, w3, w4⟩ := encode_frame_writer opt sampling_rate (stack f) e wav_buffer
        n e1 e2
      obtain ⟨g1, g2, g3⟩ := bwc_flush_ok _ w1
      refine ⟨⟨g1, g2, ?_⟩, w4⟩
      intro j hj
      show (bwc_flush (encode_frame opt sampling_rate (stack f) e wav_buffer n).1.bwc).2.buffer j
        = buffer j
      rw [g3 j (by omega), w3 j hj, e3 j hj])

/-- The stream writer over a run of `main`: when the writer of the stream parameters
satisfies the invariant, the stream writer is at byte 882 at most after every subframe
of every frame. -/
theorem utkencode_main_writer (opt : encoder_options) (stack : Nat → Nat → subframe_stack)
    (compressed_buffer utk_header file : Nat → Nat) (file_length : Nat)
    (out : List Nat) (frames : List frame_record)
    (h : utkencode_main opt stack compressed_buffer utk_header file file_length
      = some (out, frames))
    (hw : bwc_ok (write_stream_parameters compressed_buffer opt.halved_innovation
      opt.huffman_threshold opt.inngain_sig opt.inngain_base)) :
    ∀ f ∈ frames, ∀ sf ∈ f.subframes, sf.innovation.bwc.pos ≤ 882 := by
  obtain ⟨g1, g2, _⟩ := bwc_flush_ok _ hw
  unfold utkencode_main at h
  split at h
  · cases h
  · split at h
    · cases h
    · rename_i hd _
      simp only [] at h
      split at h
      · cases h
      · rename_i s hs
        have hfr : frames = s.frames := by
          have := Option.some.inj h
          exact (congrArg Prod.snd this).symm
        rw [hfr]
        exact (encode_loop_writer opt hd.sampling_rate stack (fun k => file (44 + k))
          (file_length - 44)
          (bwc_flush (write_stream_parameters compressed_buffer opt.halved_innovation
            opt.huffman_threshold opt.inngain_sig opt.inngain_base)).2.buffer
          hd.bytes_remaining _ s hs ⟨g1, g2, fun _ _ => rfl⟩
          (by intro f hf; cases hf)).2

/-- C34: for every call of `encode_innovation` on a stream writer with fewer than 8
pending bits whose pending byte has no bit set above them: the stream writer keeps that
invariant; its bit position advances by exactly `*bits_used`; the earlier bits of the
stream are kept and the bits of the committed block (its preamble and items, valid
writes of at most `8 + 108*16` bits in total) follow them; position, pending count and
stream bits are those of writing the committed block directly with `bwc_write_bits` on
the stream writer.  Every trial, with either coder, leaves its scratch writer at byte
217 at most and writes no byte of the 256-byte scratch buffer above that, and the
commit writes the stream buffer at the bytes `pos .. pos + 217` only.  `main` calls
`encode_innovation` in the frame loop only, where every frame starts at byte 0: there,
and so in every run of `main` that starts the loop with such a writer, the stream writer
is at byte 882 at most of the 1024-byte stream buffer after every subframe, and no byte
above 882 is written. -/
theorem C34_trial_commit_is_direct_write (inn_gains : Nat → ℚ)
    (encodings : Nat → innovation_encoding) (locals : Nat → huffman_locals)
    (bwc : bit_writer_context) (innovation : Int → ℚ) (halved_innovation use_huffman : Nat)
    (target_bit_count : Int) (R : innovation_result) (hok : bwc_ok bwc)
    (hR : encode_innovation inn_gains encodings locals bwc innovation halved_innovation
      use_huffman target_bit_count = R) :
    bwc_ok R.bwc
    ∧ (bit_position R.bwc : Int) = (bit_position bwc : Int) + R.bits_used
    ∧ (∀ t, t < bit_position bwc → stream_bit R.bwc.buffer t = stream_bit bwc.buffer t)
    ∧ (∃ ws : List (Nat × Nat),
        ws = block_writes halved_innovation R.committed.pow R.a R.z R.committed.items
        ∧ (∀ w ∈ ws, valid_write w)
        ∧ R.bits_used = (total_bits ws : Int)
        ∧ total_bits ws ≤ 8 + 108 * 16
        ∧ (∀ t, t < total_bits ws →
            (written_bits ws)[t]? = some (stream_bit R.bwc.buffer (bit_position bwc + t)))
        ∧ R.bwc.pos = (bwc_writes bwc ws).pos
        ∧ R.bwc.written_bits_count = (bwc_writes bwc ws).written_bits_count
        ∧ (∀ t, t < bit_position (bwc_writes bwc ws) →
            stream_bit R.bwc.buffer t = stream_bit (bwc_writes bwc ws).buffer t))
    ∧ R.committed.bwc.pos ≤ 217
    ∧ R.bwc.pos ≤ bwc.pos + 217
    ∧ (∀ j, (j < bwc.pos ∨ bwc.pos + 217 < j) → R.bwc.buffer j = bwc.buffer j)
    ∧ (∀ (l : huffman_locals) (scratch : bit_writer_context) (out x : Int → ℚ)
        (pow a z : Nat), pow ≤ 63 → a < 2 → z < 2 →
        ((encode_huffman inn_gains l (trial_writer bwc scratch) out x halved_innovation
            pow a z).bwc.pos ≤ 217
          ∧ ∀ j, 217 < j →
              (encode_huffman inn_gains l (trial_writer bwc scratch) out x halved_innovation
                pow a z).bwc.buffer j = scratch.buffer j)
        ∧ ((encode_triangular inn_gains (trial_writer bwc scratch) out x halved_innovation
            pow a z).bwc.pos ≤ 217
          ∧ ∀ j, 217 < j →
              (encode_triangular inn_gains (trial_writer bwc scratch) out x halved_innovation
                pow a z).bwc.buffer j = scratch.buffer j))
    ∧ (∀ (opt : encoder_options) (sampling_rate : Int) (stack : Nat → Nat → subframe_stack)
        (wav_data : Nat → Nat) (data_length fuel : Nat) (s r : main_state),
        encode_loop opt sampling_rate stack wav_data data_length fuel s = some r →
        bwc_ok s.enc.bwc → s.enc.bwc.pos = 0 →
        (∀ f ∈ s.frames, ∀ sf ∈ f.subframes, sf.innovation.bwc.pos ≤ 882) →
        bwc_ok r.enc.bwc ∧ r.enc.bwc.pos = 0
        ∧ (∀ j, 882 < j → r.enc.bwc.buffer j = s.enc.bwc.buffer j)
        ∧ ∀ f ∈ r.frames, ∀ sf ∈ f.subframes, sf.innovation.bwc.pos ≤ 882)
    ∧ (∀ (opt : encoder_options) (stack : Nat → Nat → subframe_stack)
        (compressed_buffer utk_header file : Nat → Nat) (file_length : Nat)
        (out : List Nat) (frames : List frame_record),
        utkencode_main opt stack compressed_buffer utk_header file file_length
          = some (out, frames) →
        bwc_ok (write_stream_parameters compressed_buffer opt.halved_innovation
          opt.huffman_threshold opt.inngain_sig opt.inngain_base) →
        ∀ f ∈ frames, ∀ sf ∈ f.subframes, sf.innovation.bwc.pos ≤ 882) := by
  obtain ⟨_, _, hbu, hbwc, _, scratch, c1, c2, c3, c4⟩ := encode_innovation_committed inn_gains
    encodings locals bwc innovation halved_innovation use_huffman target_bit_count hok R hR
  obtain ⟨s1, s2, s3, s4, s5, s6, s7, s8⟩ := trial_commit_spec bwc scratch _ hok c2
    R.committed.bwc c1.symm R.bwc hbwc
  obtain ⟨d1, d2, d3, d4⟩ := bwc_writes_spec
    (block_writes halved_innovation R.committed.pow R.a R.z R.committed.items) bwc hok c2
  have hcap := trial_scratch_capacity bwc scratch _ hok c2 c3 R.committed.bwc c1
  have hpos : R.bwc.pos = bwc.pos + R.committed.bwc.pos := by rw [hbwc]
  have hbp1 : bit_position R.bwc = 8 * R.bwc.pos + R.bwc.written_bits_count := rfl
  have hbp2 : bit_position
      (bwc_writes bwc
        (block_writes halved_innovation R.committed.pow R.a R.z R.committed.items))
      = 8 * (bwc_writes bwc
          (block_writes halved_innovation R.committed.pow R.a R.z R.committed.items)).pos
        + (bwc_writes bwc
          (block_writes halved_innovation R.committed.pow R.a R.z
            R.committed.items)).written_bits_count := rfl
  have hc1 := s1.1
  have hc2 := d1.1
  refine ⟨s1, ?_, s5, ⟨_, rfl, c2, ?_, c3, s6, ?_, ?_, ?_⟩, hcap.1, ?_, ?_, ?_, ?_, ?_⟩
  · rw [s2, hbu, c4]
    push_cast
    ring
  · rw [hbu, c4]
  · omega
  · omega
  · intro t ht
    rw [d2] at ht
    by_cases hlt : t < bit_position bwc
    · rw [s5 t hlt, d3 t hlt]
    · obtain ⟨d, hd⟩ : ∃ d, t = bit_position bwc + d := ⟨t - bit_position bwc, by omega⟩
      have hdt : d < total_bits
          (block_writes halved_innovation R.committed.pow R.a R.z R.committed.items) := by
        omega
      have e1 := s6 d hdt
      have e2 := d4 d hdt
      rw [e1] at e2
      rw [hd]
      exact Option.some.inj e2
  · rw [hpos]
    have := hcap.1
    omega
  · intro j hj
    have := hcap.1
    exact s8 j (by omega)
  · intro l scratch2 out x pow a z hp ha hz
    constructor
    · obtain ⟨_, t2, t3, t4, _⟩ := encode_huffman_trial inn_gains l bwc scratch2 out x
        halved_innovation pow a z hok (by omega) ha hz _ rfl
      exact trial_scratch_capacity bwc scratch2 _ hok t3 t4 _ t2
    · obtain ⟨_, t2, t3, t4, _⟩ := encode_triangular_trial inn_gains bwc scratch2 out x
        halved_innovation pow a z hok (by omega) ha hz _ rfl
      exact trial_scratch_capacity bwc scratch2 _ hok t3 t4 _ t2
  · intro opt sampling_rate stack wav_data data_length fuel s r h h1 h2 h3
    obtain ⟨⟨g1, g2, g3⟩, g4⟩ := encode_loop_writer opt sampling_rate stack wav_data
      data_length s.enc.bwc.buffer fuel s r h ⟨h1, h2, fun _ _ => rfl⟩ h3
    exact ⟨g1, g2, g3, g4⟩
  · intro opt stack compressed_buffer utk_header file file_length out frames h hw
    exact utkencode_main_writer opt stack compressed_buffer utk_header file file_length out
      frames h hw

/-- C34 witness: a silent block in full mode with the ternary coder, from a freshly
initialised stream writer. -/
theorem C34_trial_commit_is_direct_write_witness :
    bwc_ok (bwc_init (fun _ => 0))
    ∧ bwc_ok (encode_innovation (inn_gains 64 1.068) zero_stack.encodings zero_stack.locals
        (bwc_init (fun _ => 0)) (fun _ => 0) 0 0 0).bwc :=
  ⟨bwc_ok_init _,
    (C34_trial_commit_is_direct_write (inn_gains 64 1.068) zero_stack.encodings
      zero_stack.locals (bwc_init (fun _ => 0)) (fun _ => 0) 0 0 0 _ (bwc_ok_init _) rfl).1⟩
end Utk
